import Mathlib


/-!
# A segregated-free-list allocator (`mm.c`)

Shallow embedding of the allocator of `src/mm.c` and proofs about it.

* Memory is a total map from byte addresses to byte values; 64-bit words are
  read and written little-endian, eight bytes at a time.
* `size_t`, `word_t` and pointer arithmetic is arithmetic modulo `2^64`.
* Loops that follow pointers stored in the heap (`find_fit`, `mm_checkheap`)
  take their fuel from the arena size; they return `none` when the fuel runs
  out, which stands for a walk that does not terminate inside the arena.
* The arena primitive (`mem_sbrk`, `mem_heap_lo`, `mem_heap_hi`) and the byte
  primitives (`memcpy`, `memset`) are not part of `mm.c`.
-/

namespace MM

/-! ## Machine arithmetic -/

/-- Number of values of a 64-bit word, `2^64`. -/
def W64 : Nat := 18446744073709551616

/-- Unsigned 64-bit addition. -/
def add64 (a b : Nat) : Nat := (a + b) % W64

/-- Unsigned 64-bit subtraction. -/
def sub64 (a b : Nat) : Nat := (a % W64 + (W64 - b % W64)) % W64

/-- Unsigned 64-bit multiplication. -/
def mul64 (a b : Nat) : Nat := (a * b) % W64

/-! ## Constants of `mm.c` -/

def wsize : Nat := 8
def dsize : Nat := 2 * wsize
def min_block_size : Nat := 2 * dsize
def chunksize : Nat := 4096
def alloc_mask : Nat := 1
def size_mask : Nat := 18446744073709551600
def list_length : Nat := 15

/-! ## Memory -/

/-- Byte-addressed memory. A cell holds a byte; only its value modulo 256 is
ever observed by a word read. -/
abbrev Mem := Nat → Nat

/-- Little-endian read of the 64-bit word stored at `a`. -/
def readWord (m : Mem) (a : Nat) : Nat :=
  m a % 256 + 256 * (m (a + 1) % 256 + 256 * (m (a + 2) % 256 + 256 * (m (a + 3) % 256
    + 256 * (m (a + 4) % 256 + 256 * (m (a + 5) % 256 + 256 * (m (a + 6) % 256
    + 256 * (m (a + 7) % 256)))))))

/-- Little-endian write of the 64-bit word `v` at `a`. -/
def writeWord (m : Mem) (a v : Nat) : Mem :=
  fun x => if a ≤ x ∧ x < a + 8 then (v / 256 ^ (x - a)) % 256 else m x

/-- A single byte store, as done by client code. -/
def writeByte (m : Mem) (a v : Nat) : Mem :=
  fun x => if x = a then v % 256 else m x

/-- Modelled from the spec: the byte primitive `copy(dst, src, n)`
("memmove-equivalent"), which `mm.c` calls as `memcpy`; it is not defined in
`mm.c`. The `n` bytes at `dst` become the `n` bytes that were at `src`. -/
def memcpy (m : Mem) (dst src n : Nat) : Mem :=
  fun x => if dst ≤ x ∧ x < dst + n then m (src + (x - dst)) else m x

/-- Modelled from the spec: the byte primitive `fill(dst, byte, n)`
("memset-equivalent"), which `mm.c` calls as `memset`; it is not defined in
`mm.c`. -/
def memset (m : Mem) (dst v n : Nat) : Mem :=
  fun x => if dst ≤ x ∧ x < dst + n then v % 256 else m x

/-! ## Allocator state -/

/-- The globals of `mm.c` together with the arena it manages.

`mem_lo` is `mem_heap_lo()`, `mem_brk` the first address past the arena, so
that `mem_heap_hi()` is `mem_brk - 1`. `grants` decides, call by call, whether
the next arena growth may succeed; `sbrk_calls` counts the calls made. -/
structure State where
  mem : Mem
  mem_lo : Nat
  mem_brk : Nat
  heap_start : Nat
  segregated_list : Nat → Nat
  grants : List Bool
  sbrk_calls : Nat

/-- Replace the memory of a state. -/
def State.setMem (st : State) (m : Mem) : State := { st with mem := m }

/-- Assign `segregated_list[i] = v`. -/
def State.setHead (st : State) (i v : Nat) : State :=
  { st with segregated_list := fun j => if j = i then v else st.segregated_list j }

/-- Result of `mem_heap_lo()`. -/
def mem_heap_lo (st : State) : Nat := st.mem_lo

/-- Result of `mem_heap_hi()`: the address of the last byte of the arena. -/
def mem_heap_hi (st : State) : Nat := sub64 st.mem_brk 1

/-- Modelled from the spec: the arena primitive `arena_extend(delta_bytes)`,
which `mm.c` calls as `mem_sbrk((intptr_t)size)`; it is not defined in `mm.c`.
The argument is the 64-bit pattern of the `intptr_t`. Growth is monotonic, so
a negative increment fails; the arena never reaches the top of the address
space; otherwise the environment (`grants`) decides. On success the arena
grows by `incr` bytes and the old break is returned; on failure (`none`,
standing for the sentinel `(void *)-1`) the arena is unchanged. -/
def mem_sbrk (st : State) (incr : Nat) : State × Option Nat :=
  match st.grants with
  | [] => ({ st with sbrk_calls := st.sbrk_calls + 1 }, none)
  | g :: gs =>
    if g = true ∧ incr < 9223372036854775808 ∧ st.mem_brk + incr < W64 then
      ({ st with mem_brk := st.mem_brk + incr, grants := gs,
                 sbrk_calls := st.sbrk_calls + 1 }, some st.mem_brk)
    else
      ({ st with grants := gs, sbrk_calls := st.sbrk_calls + 1 }, none)

/-! ## Short helper functions -/

def max (x y : Nat) : Nat := if x > y then x else y

def round_up (size n : Nat) : Nat := mul64 n (add64 size (sub64 n 1) / n)

def pack (size : Nat) (alloc : Bool) : Nat :=
  if alloc then size ||| alloc_mask else size

def extract_size (word : Nat) : Nat := word &&& size_mask

def get_size (m : Mem) (block : Nat) : Nat := extract_size (readWord m block)

def payload_to_header (bp : Nat) : Nat := sub64 bp wsize

def header_to_payload (block : Nat) : Nat := add64 block wsize

def header_to_footer (m : Mem) (block : Nat) : Nat :=
  sub64 (add64 (add64 block wsize) (get_size m block)) dsize

def footer_to_header (m : Mem) (footer : Nat) : Nat :=
  sub64 (add64 footer wsize) (extract_size (readWord m footer))

def get_payload_size (m : Mem) (block : Nat) : Nat := sub64 (get_size m block) dsize

def extract_alloc (word : Nat) : Bool := (word &&& alloc_mask) != 0

def get_alloc (m : Mem) (block : Nat) : Bool := extract_alloc (readWord m block)

def write_epilogue (m : Mem) (block : Nat) : Mem := writeWord m block (pack 0 true)

def write_block (m : Mem) (block size : Nat) (alloc : Bool) : Mem :=
  let m1 := writeWord m block (pack size alloc)
  writeWord m1 (header_to_footer m1 block) (pack size alloc)

def find_next (m : Mem) (block : Nat) : Nat := add64 block (get_size m block)

def find_prev_footer (block : Nat) : Nat := sub64 block wsize

/-- The previous block on the heap; `0` (NULL) when the word before `block`
has size zero. -/
def find_prev (m : Mem) (block : Nat) : Nat :=
  let footerp := find_prev_footer block
  if extract_size (readWord m footerp) = 0 then 0 else footer_to_header m footerp

/-- Address of the field `block->pred`. -/
def predp (block : Nat) : Nat := add64 block 8

/-- Address of the field `block->succ`. -/
def succp (block : Nat) : Nat := add64 block 16

def get_pred (m : Mem) (block : Nat) : Nat := readWord m (predp block)

def get_succ (m : Mem) (block : Nat) : Nat := readWord m (succp block)

/-! ## Free-list index -/

/-- The `for` loop of `find_index`, from index `i` with `n` iterations left. -/
def find_index_loop (size : Nat) : Nat → Nat → Nat
  | _, 0 => list_length - 1
  | i, n + 1 =>
    if 2 ^ (i + 3) < size ∧ size ≤ 2 ^ (i + 4) then i else find_index_loop size (i + 1) n

def find_index (size : Nat) : Nat :=
  if size ≤ 16 then 0 else find_index_loop size 1 (list_length - 1)

def insert_to_free_list (st : State) (block : Nat) : State :=
  let i := find_index (get_size st.mem block)
  if st.segregated_list i = 0 then
    let m1 := writeWord st.mem (predp block) 0
    let m2 := writeWord m1 (succp block) 0
    (st.setMem m2).setHead i block
  else
    let m1 := writeWord st.mem (predp block) 0
    let m2 := writeWord m1 (succp block) (st.segregated_list i)
    let m3 := writeWord m2 (predp (st.segregated_list i)) block
    (st.setMem m3).setHead i block

def remove_from_free_list (st : State) (block : Nat) : State :=
  let prev_block := get_pred st.mem block
  let next_block := get_succ st.mem block
  let i := find_index (get_size st.mem block)
  if prev_block = 0 ∧ next_block = 0 then
    st.setHead i 0
  else if prev_block = 0 then
    (st.setMem (writeWord st.mem (predp next_block) 0)).setHead i next_block
  else if next_block = 0 then
    st.setMem (writeWord st.mem (succp prev_block) 0)
  else
    let m1 := writeWord st.mem (predp next_block) prev_block
    st.setMem (writeWord m1 (succp prev_block) next_block)

/-! ## Placement policy -/

def coalesce_block (st : State) (block : Nat) : State × Nat :=
  let prev_alloc :=
    if find_prev st.mem block = 0 then true else get_alloc st.mem (find_prev st.mem block)
  let next_alloc :=
    if find_next st.mem block = 0 then true else get_alloc st.mem (find_next st.mem block)
  let size := get_size st.mem block
  if prev_alloc ∧ next_alloc then
    (st, block)
  else if prev_alloc ∧ ¬ next_alloc then
    let size := add64 size (get_size st.mem (find_next st.mem block))
    let st1 := remove_from_free_list st (find_next st.mem block)
    let st2 := st1.setMem (write_block st1.mem block size false)
    (st2, block)
  else if ¬ prev_alloc ∧ next_alloc then
    let size := add64 size (get_size st.mem (find_prev st.mem block))
    let st1 := remove_from_free_list st (find_prev st.mem block)
    let st2 := st1.setMem (write_block st1.mem (find_prev st1.mem block) size false)
    (st2, find_prev st2.mem block)
  else
    let size := add64 size (add64 (get_size st.mem (find_prev st.mem block))
      (get_size st.mem (find_next st.mem block)))
    let st1 := remove_from_free_list st (find_prev st.mem block)
    let st2 := remove_from_free_list st1 (find_next st1.mem block)
    let st3 := st2.setMem (write_block st2.mem (find_prev st2.mem block) size false)
    (st3, find_prev st3.mem block)

/-- Grow the heap by a new free block; `0` (NULL) when the arena refuses. -/
def extend_heap (st : State) (size : Nat) : State × Nat :=
  let size := round_up size dsize
  let r := mem_sbrk st size
  match r.2 with
  | none => (r.1, 0)
  | some bp =>
    let block := payload_to_header bp
    let m1 := write_block r.1.mem block size false
    let block_next := find_next m1 block
    let m2 := write_epilogue m1 block_next
    let c := coalesce_block (r.1.setMem m2) block
    (insert_to_free_list c.1 c.2, c.2)

def split_block (st : State) (block asize : Nat) : State :=
  let block_size := get_size st.mem block
  if sub64 block_size asize ≥ min_block_size then
    let m1 := write_block st.mem block asize true
    let block_next := find_next m1 block
    let m2 := write_block m1 block_next (sub64 block_size asize) false
    insert_to_free_list (st.setMem m2) block_next
  else
    st

/-- The inner `for` loop of `find_fit` over one list, starting at `block`:
`some 0` when the list is exhausted, `some b` for the first fit, `none` when
the fuel is used up. -/
def find_fit_scan (m : Mem) (asize : Nat) : Nat → Nat → Option Nat
  | 0, _ => none
  | fuel + 1, block =>
    if block = 0 then some 0
    else if asize ≤ get_size m block ∧ ¬ get_alloc m block then some block
    else find_fit_scan m asize fuel (get_succ m block)

/-- The outer `while` loop of `find_fit`, from list `i` with `n` lists left. -/
def find_fit_loop (st : State) (asize fuel : Nat) : Nat → Nat → Option Nat
  | 0, _ => some 0
  | n + 1, i =>
    match find_fit_scan st.mem asize fuel (st.segregated_list i) with
    | none => none
    | some 0 => find_fit_loop st asize fuel n (i + 1)
    | some b => some b

/-- Fuel for a walk along pointers stored in the heap: a walk over distinct
addresses of the arena takes at most this many steps. -/
def walkFuel (st : State) : Nat := st.mem_brk - st.mem_lo + 1

def find_fit (st : State) (asize : Nat) : Option Nat :=
  find_fit_loop st asize (walkFuel st) (list_length - find_index asize) (find_index asize)

/-! ## Heap checker -/

def check_prologue_epilogue (st : State) (block : Nat) : Bool :=
  if ¬ get_alloc st.mem block then false
  else if get_size st.mem block ≠ 0 then false
  else if block < mem_heap_lo st ∨ block > mem_heap_hi st then false
  else true

def check_block (m : Mem) (block : Nat) : Bool :=
  let header := readWord m block
  let footer := readWord m (header_to_footer m block)
  let size := get_size m block
  let alloc := get_alloc m block
  let prev_block := find_prev m block
  let next_block := find_next m block
  if get_size m block % dsize ≠ 0 then false
  else if header ≠ footer then false
  else if extract_size header ≠ size ∨ extract_size footer ≠ size then false
  else if extract_alloc header ≠ alloc ∨ extract_alloc footer ≠ alloc then false
  else if ¬ alloc ∧ prev_block ≠ 0 ∧ ¬ get_alloc m prev_block then false
  else if ¬ alloc ∧ next_block ≠ 0 ∧ ¬ get_alloc m next_block then false
  else true

def check_free_block (st : State) (block i : Nat) : Bool :=
  let alloc := get_alloc st.mem block
  let block_size := get_size st.mem block
  let prev_block := get_pred st.mem block
  let next_block := get_succ st.mem block
  if alloc then false
  else if block < mem_heap_lo st ∨ block > mem_heap_hi st then false
  else if prev_block ≠ 0 ∧ get_succ st.mem prev_block ≠ block then false
  else if next_block ≠ 0 ∧ get_pred st.mem next_block ≠ block then false
  else if find_index block_size ≠ i then false
  else true

/-- The block walk of `mm_checkheap` from `start`. -/
def check_blocks (m : Mem) : Nat → Nat → Option Bool
  | 0, _ => none
  | fuel + 1, start =>
    if start ≠ 0 ∧ get_size m start ≠ 0 then
      if ¬ check_block m start then some false
      else check_blocks m fuel (find_next m start)
    else some true

/-- The walk of `mm_checkheap` along list `i` from `free_block`. -/
def check_list (st : State) (i : Nat) : Nat → Nat → Option Bool
  | 0, _ => none
  | fuel + 1, free_block =>
    if free_block = 0 then some true
    else if ¬ check_free_block st free_block i then some false
    else check_list st i fuel (get_succ st.mem free_block)

/-- The loop of `mm_checkheap` over the lists, from list `i` with `n` left. -/
def check_lists (st : State) (fuel : Nat) : Nat → Nat → Option Bool
  | 0, _ => some true
  | n + 1, i =>
    match check_list st i fuel (st.segregated_list i) with
    | none => none
    | some false => some false
    | some true => check_lists st fuel n (i + 1)

def mm_checkheap (st : State) : Option Bool :=
  let prologue := sub64 st.heap_start wsize
  let epilogue := sub64 (mem_heap_hi st) 7
  if ¬ check_prologue_epilogue st prologue then some false
  else if ¬ check_prologue_epilogue st epilogue then some false
  else
    match check_blocks st.mem (walkFuel st) st.heap_start with
    | none => none
    | some false => some false
    | some true => check_lists st (walkFuel st) list_length 0

/-! ## Public operations -/

/-- The state of `mm_init` after its first arena growth returned `start`:
prologue and epilogue written, `heap_start` set, the 15 list heads cleared. -/
def mm_init_sentinels (st1 : State) (start : Nat) : State :=
  let m1 := writeWord st1.mem start (pack 0 true)
  let m2 := writeWord m1 (add64 start wsize) (pack 0 true)
  { st1 with mem := m2, heap_start := add64 start wsize,
             segregated_list := fun i => if i < list_length then 0 else
               st1.segregated_list i }

def mm_init (st : State) : State × Bool :=
  let r := mem_sbrk st (2 * wsize)
  match r.2 with
  | none => (r.1, false)
  | some start =>
    let e := extend_heap (mm_init_sentinels r.1 start) chunksize
    if e.2 = 0 then (e.1, false) else (e.1, true)

/-- The part of `malloc` after the heap is known to be initialised. -/
def malloc_body (st : State) (size : Nat) : Option (State × Nat) :=
  if size = 0 then some (st, 0)
  else
    let asize := round_up (add64 size dsize) dsize
    match find_fit st asize with
    | none => none
    | some found =>
      let r := if found = 0 then extend_heap st (max asize chunksize) else (st, found)
      if r.2 = 0 then some (r.1, 0)
      else
        let block := r.2
        let block_size := get_size r.1.mem block
        let st2 := r.1.setMem (write_block r.1.mem block block_size true)
        let st3 := remove_from_free_list st2 block
        let st4 := split_block st3 block asize
        some (st4, header_to_payload block)

def malloc (st : State) (size : Nat) : Option (State × Nat) :=
  if st.heap_start = 0 then
    let r := mm_init st
    if r.2 = false then some (r.1, 0) else malloc_body r.1 size
  else malloc_body st size

def free (st : State) (bp : Nat) : State :=
  if bp = 0 then st
  else
    let block := payload_to_header bp
    let size := get_size st.mem block
    let st1 := st.setMem (write_block st.mem block size false)
    let c := coalesce_block st1 block
    insert_to_free_list c.1 c.2

def realloc (st : State) (ptr size : Nat) : Option (State × Nat) :=
  let block := payload_to_header ptr
  if size = 0 then some (free st ptr, 0)
  else if ptr = 0 then malloc st size
  else
    match malloc st size with
    | none => none
    | some r =>
      if r.2 = 0 then some (r.1, 0)
      else
        let copysize := get_payload_size r.1.mem block
        let copysize := if size < copysize then size else copysize
        let st2 := r.1.setMem (memcpy r.1.mem r.2 ptr copysize)
        some (free st2 ptr, r.2)

def calloc (st : State) (elements size : Nat) : Option (State × Nat) :=
  let asize := mul64 elements size
  if elements = 0 then some (st, 0)
  else if asize / elements ≠ size then some (st, 0)
  else
    match malloc st asize with
    | none => none
    | some r =>
      if r.2 = 0 then some (r.1, 0)
      else some (r.1.setMem (memset r.1.mem r.2 0 asize), r.2)

/-! ## Abstract view of the heap

The invariant relates the bytes of the arena to a list of blocks (address,
size, allocation flag) and, for each size class, the list of the addresses
chained from the corresponding list head. -/

/-- A block of the heap as the invariant sees it. -/
structure Blk where
  addr : Nat
  size : Nat
  alloc : Bool

/-- The blocks `bs` tile the addresses from `a` up to `e`: each starts where
the previous one ends, and each size is a multiple of 16 and at least 32. -/
def Geo : Nat → List Blk → Nat → Prop
  | a, [], e => a = e
  | a, b :: bs, e => b.addr = a ∧ 32 ≤ b.size ∧ b.size % 16 = 0 ∧ Geo (a + b.size) bs e

/-- No two neighbouring blocks are both free. -/
def NoAdj (bs : List Blk) : Prop :=
  List.Chain' (fun x y => x.alloc = true ∨ y.alloc = true) bs

/-- The words of the heap chain the nodes `l` into a doubly linked list that
starts at pointer `c`, whose first node has predecessor field `p` and whose
last node has successor field NULL. -/
def FList (m : Mem) : Nat → Nat → List Nat → Prop
  | _, c, [] => c = 0
  | p, c, x :: xs => c = x ∧ x ≠ 0 ∧ get_pred m x = p ∧ FList m x (get_succ m x) xs

/-- Structural invariant: the arena is a prologue word, the blocks `bs` with
matching header and footer, and an epilogue word; list head `i` chains exactly
the nodes `fl i`, each of them a block of class `i`, none twice. -/
structure Heap (st : State) (bs : List Blk) (fl : Nat → List Nat) : Prop where
  hs : st.heap_start = st.mem_lo + 8
  brk_lt : st.mem_brk < W64
  brk_ge : st.mem_lo + 16 ≤ st.mem_brk
  geo : Geo (st.mem_lo + 8) bs (st.mem_brk - 8)
  pro : readWord st.mem st.mem_lo = pack 0 true
  epi : readWord st.mem (st.mem_brk - 8) = pack 0 true
  tags : ∀ b ∈ bs, readWord st.mem b.addr = pack b.size b.alloc ∧
    readWord st.mem (b.addr + b.size - 8) = pack b.size b.alloc
  lists : ∀ i, i < 15 → FList st.mem 0 (st.segregated_list i) (fl i)
  cls : ∀ i, i < 15 → ∀ x ∈ fl i, ∃ b ∈ bs, b.addr = x ∧ find_index b.size = i
  nodup : ∀ i, i < 15 → (fl i).Nodup

/-- Free blocks and listed blocks agree, up to the addresses in `U`: every
free block whose address is not in `U` is in the list of its class, and every
listed block is free and not in `U`. -/
def ListedU (bs : List Blk) (fl : Nat → List Nat) (U : List Nat) : Prop :=
  (∀ b ∈ bs, b.alloc = false → b.addr ∉ U → b.addr ∈ fl (find_index b.size)) ∧
  (∀ i, i < 15 → ∀ x ∈ fl i, x ∉ U ∧ ∀ b ∈ bs, b.addr = x → b.alloc = false)

/-- Every free block is in the list of its class and every listed block is
free. -/
def Listed (bs : List Blk) (fl : Nat → List Nat) : Prop := ListedU bs fl []

/-- Memory after `remove_from_free_list` has unlinked a node whose link fields
were `prev` and `next`: the two conditional stores of the four cases. -/
def unlink_mem (m : Mem) (prev next : Nat) : Mem :=
  let m1 := if next = 0 then m else writeWord m (predp next) prev
  if prev = 0 then m1 else writeWord m1 (succp prev) next

/-- Memory after `insert_to_free_list` has pushed `block` in front of the list
that started at `head`. -/
def push_mem (m : Mem) (block head : Nat) : Mem :=
  let m2 := writeWord (writeWord m (predp block) 0) (succp block) head
  if head = 0 then m2 else writeWord m2 (predp head) block

/-- The free lists `fl` without the block `n`. -/
def unlist (fl : Nat → List Nat) (n : Blk) : Nat → List Nat :=
  fun j => if j = find_index n.size then (fl (find_index n.size)).erase n.addr else fl j

/-- The free lists `fl` with the block `b` pushed on the list of its class. -/
def enlist (fl : Nat → List Nat) (b : Blk) : Nat → List Nat :=
  fun j => if j = find_index b.size then b.addr :: fl (find_index b.size) else fl j

/-- How `coalesce_block` changes the abstract heap around the block `b`: the
blocks before and after it (`pre`, `post`) lose their free neighbour of `b`,
the block `nb` replaces `b` and those neighbours, and the absorbed
neighbours leave their lists. -/
def CoalesceShape (pre : List Blk) (b : Blk) (post : List Blk) (fl : Nat → List Nat)
    (pre' : List Blk) (nb : Blk) (post' : List Blk) (fl' : Nat → List Nat) : Prop :=
  (pre' = pre ∧ post' = post ∧ nb = b ∧ fl' = fl ∧
    (∀ q ∈ pre.getLast?, q.alloc = true) ∧ (∀ q ∈ post.head?, q.alloc = true)) ∨
  (∃ n, post = n :: post' ∧ pre' = pre ∧ n.alloc = false ∧
    nb = ⟨b.addr, b.size + n.size, false⟩ ∧ fl' = unlist fl n ∧
    (∀ q ∈ pre.getLast?, q.alloc = true)) ∨
  (∃ p, pre = pre' ++ [p] ∧ post' = post ∧ p.alloc = false ∧
    nb = ⟨p.addr, p.size + b.size, false⟩ ∧ fl' = unlist fl p ∧
    (∀ q ∈ post.head?, q.alloc = true)) ∨
  (∃ p n, pre = pre' ++ [p] ∧ post = n :: post' ∧ p.alloc = false ∧ n.alloc = false ∧
    nb = ⟨p.addr, p.size + b.size + n.size, false⟩ ∧ fl' = unlist (unlist fl p) n)

/-- The local `prev_alloc` of `coalesce_block`. -/
def coalesce_prev_alloc (m : Mem) (block : Nat) : Bool :=
  if find_prev m block = 0 then true else get_alloc m (find_prev m block)

/-- The local `next_alloc` of `coalesce_block`. -/
def coalesce_next_alloc (m : Mem) (block : Nat) : Bool :=
  if find_next m block = 0 then true else get_alloc m (find_next m block)

/-- The last steps of `malloc` on the chosen block: mark it allocated at its
current size, unlink it, split it. -/
def place_block (st : State) (block asize : Nat) : State :=
  split_block
    (remove_from_free_list (st.setMem (write_block st.mem block (get_size st.mem block) true))
      block) block asize

/-- The heap is well formed, with block list `bs` and free lists `fl`. -/
def WFL (st : State) (bs : List Blk) (fl : Nat → List Nat) : Prop :=
  Heap st bs fl ∧ Listed bs fl ∧ NoAdj bs

/-- The heap is well formed: an initialised arena satisfying all the
invariants of the data model. -/
def WF (st : State) : Prop := ∃ bs fl, WFL st bs fl

/-! ## Observing a state

The blocks of the heap and the nodes of a list, read off the memory the way
`mm_checkheap` walks them. -/

/-- The block addresses met from `a` up to the first header of size zero. -/
def walk_blocks (m : Mem) : Nat → Nat → Option (List Nat)
  | 0, _ => none
  | fuel + 1, a =>
    if a ≠ 0 ∧ get_size m a ≠ 0 then (walk_blocks m fuel (find_next m a)).map (fun l => a :: l)
    else some []

/-- The blocks of the heap, from `heap_start` to the epilogue. -/
def heap_blocks (st : State) : Option (List Nat) :=
  walk_blocks st.mem (walkFuel st) st.heap_start

/-- The nodes met from `b` along the `succ` fields up to NULL. -/
def walk_list (m : Mem) : Nat → Nat → Option (List Nat)
  | 0, _ => none
  | fuel + 1, b =>
    if b = 0 then some [] else (walk_list m fuel (get_succ m b)).map (fun l => b :: l)

/-- The nodes of segregated list `i`, from its head. -/
def list_nodes (st : State) (i : Nat) : Option (List Nat) :=
  walk_list st.mem (walkFuel st) (st.segregated_list i)

/-- The arena contents and bounds, `heap_start` and the list heads of `st'`
are those of `st`. -/
def SameHeap (st st' : State) : Prop :=
  st'.mem = st.mem ∧ st'.mem_lo = st.mem_lo ∧ st'.mem_brk = st.mem_brk ∧
    st'.heap_start = st.heap_start ∧ st'.segregated_list = st.segregated_list

/-! ## Traces of client calls -/

/-- The live pointers `L` are distinct payload addresses of allocated blocks. -/
def Live (bs : List Blk) (L : List Nat) : Prop :=
  L.Nodup ∧ ∀ p ∈ L, ∃ c ∈ bs, c.alloc = true ∧ c.addr + 8 = p

/-- The live pointers after an allocation returned `p`. -/
def live_after_alloc (L : List Nat) (p : Nat) : List Nat := if p = 0 then L else p :: L

/-- The live pointers after `realloc(ptr, size)` returned `q`. -/
def live_after_realloc (L : List Nat) (ptr size q : Nat) : List Nat :=
  if size = 0 then L.erase ptr else if q = 0 then L else q :: L.erase ptr

/-- `Reach st L`: the state `st` with live pointers `L` is reached from a
successful `mm_init` on an empty arena by a trace of calls that respects the
preconditions of the interface: `free` and `realloc` get NULL or a live
pointer, the client writes only into payloads of live pointers, adjusted
request sizes do not wrap around, and the environment is free to grant or
refuse every arena growth. -/
inductive Reach : State → List Nat → Prop
  | init (st : State) : st.mem_brk = st.mem_lo → (mm_init st).2 = true →
      Reach (mm_init st).1 []
  | env (st : State) (L : List Nat) (g : List Bool) : Reach st L →
      Reach { st with grants := g } L
  | write (st : State) (L : List Nat) (p a v : Nat) : Reach st L → p ∈ L → p ≤ a →
      a < p + get_payload_size st.mem (payload_to_header p) →
      Reach (st.setMem (writeByte st.mem a v)) L
  | malloc (st : State) (L : List Nat) (size : Nat) (st' : State) (p : Nat) : Reach st L →
      size + 31 < W64 → MM.malloc st size = some (st', p) → Reach st' (live_after_alloc L p)
  | free (st : State) (L : List Nat) (p : Nat) : Reach st L → p ∈ L ∨ p = 0 →
      Reach (MM.free st p) (L.erase p)
  | realloc (st : State) (L : List Nat) (ptr size : Nat) (st' : State) (q : Nat) :
      Reach st L → ptr ∈ L ∨ ptr = 0 → size + 31 < W64 →
      MM.realloc st ptr size = some (st', q) → Reach st' (live_after_realloc L ptr size q)
  | calloc (st : State) (L : List Nat) (n size : Nat) (st' : State) (p : Nat) : Reach st L →
      n < W64 → size < W64 → (n = 0 ∨ mul64 n size / n ≠ size ∨ mul64 n size + 31 < W64) →
      MM.calloc st n size = some (st', p) → Reach st' (live_after_alloc L p)

/-! ## Example states -/

/-- An empty arena at address 4096 whose environment grants the first two
growths. -/
def ex_empty : State :=
  ⟨fun _ => 0, 4096, 4096, 0, fun _ => 0, [true, true], 0⟩

/-- The heap right after `mm_init` on `ex_empty`. -/
def ex_fresh : State := (mm_init ex_empty).1

end MM

namespace MM

/-! ## Deciding the abstract view on concrete heaps -/

/-- Tiling of a concrete block list is decidable. -/
def decGeo : (a : Nat) → (bs : List Blk) → (e : Nat) → Decidable (Geo a bs e)
  | a, [], e => inferInstanceAs (Decidable (a = e))
  | a, b :: bs, e =>
    have := decGeo (a + b.size) bs e
    inferInstanceAs (Decidable (b.addr = a ∧ 32 ≤ b.size ∧ b.size % 16 = 0 ∧
      Geo (a + b.size) bs e))

instance instDecidableGeo (a : Nat) (bs : List Blk) (e : Nat) : Decidable (Geo a bs e) :=
  decGeo a bs e

/-- Chaining of a concrete node list is decidable. -/
def decFList (m : Mem) : (p c : Nat) → (l : List Nat) → Decidable (FList m p c l)
  | _, c, [] => inferInstanceAs (Decidable (c = 0))
  | p, c, x :: xs =>
    have := decFList m x (get_succ m x) xs
    inferInstanceAs (Decidable (c = x ∧ x ≠ 0 ∧ get_pred m x = p ∧
      FList m x (get_succ m x) xs))

instance instDecidableFList (m : Mem) (p c : Nat) (l : List Nat) : Decidable (FList m p c l) :=
  decFList m p c l

/-- The size of a heap neighbour of a block when that neighbour is a free
block; 0 when there is no neighbour block or it is allocated. -/
def free_size : Option Blk → Nat
  | some q => if q.alloc = false then q.size else 0
  | none => 0

/-! ## Example runs -/

/-- The state `malloc` leaves behind; the state itself stands in when the
model of `malloc` runs out of fuel. -/
def malloc_state (st : State) (size : Nat) : State := ((malloc st size).getD (st, 0)).1

/-- The pointer `malloc` returns, NULL when the model runs out of fuel. -/
def malloc_ptr (st : State) (size : Nat) : Nat := ((malloc st size).getD (st, 0)).2

/-- The state `realloc` leaves behind. -/
def realloc_state (st : State) (ptr size : Nat) : State :=
  ((realloc st ptr size).getD (st, 0)).1

/-- The fresh heap after `a = malloc(24)`, with `a = 4112`. -/
def ex_one : State := malloc_state ex_fresh 24

/-- The client has written the byte 7 at `a`. -/
def ex_written : State := ex_one.setMem (writeByte ex_one.mem 4112 7)

/-- The block of `a` has been freed again. -/
def ex_freed : State := free ex_written 4112

/-- The block of `a` marked free in both tags, as `free(a)` has it when it
calls `coalesce_block`. -/
def ex_marked : State := ex_one.setMem (write_block ex_one.mem 4104 48 false)

/-- After `a = malloc(24); b = malloc(24); c = malloc(24)` on the fresh heap:
`a = 4112`, `b = 4160`, `c = 4208`. -/
def ex_three : State := malloc_state (malloc_state ex_one 24) 24

/-- After `free(a); free(c); free(b)` on `ex_three`. -/
def ex_three_freed : State := free (free (free ex_three 4112) 4208) 4160

/-- After `a = malloc(32); p = malloc(16); free(a)` on the fresh heap:
`a = 4112`, `p = 4160`, and the 16 bytes at `p` are zero. -/
def ex_hole : State := free (malloc_state (malloc_state ex_fresh 32) 16) 4112

/-- The client writes the bytes `0, 1, .., n - 1` at the addresses `p, p + 1,
.., p + n - 1`. -/
def write_seq (m : Mem) (p : Nat) : Nat → Mem
  | 0 => m
  | n + 1 => writeByte (write_seq m p n) (p + n) n

/-- After `p = malloc(16)` on the fresh heap, with `p = 4112`, and the bytes
`0 .. 15` written at `p`. -/
def ex_bytes : State :=
  (malloc_state ex_fresh 16).setMem (write_seq (malloc_state ex_fresh 16).mem 4112 16)

/-- An empty arena at address 4096 whose environment grants the first growth
and refuses the second. -/
def ex_refused : State :=
  ⟨fun _ => 0, 4096, 4096, 0, fun _ => 0, [true, false], 0⟩

end MM

namespace MM

/-! ## The size class as the specification states it -/

/-- The size class of the specification, `class(s) = i`, in its own words:
`0` if `s ≤ 16`; `i` if `2^(i+3) < s ≤ 2^(i+4)` with `1 ≤ i ≤ 13`; `14` if
`s > 2^17`. -/
def class_spec (s i : Nat) : Prop :=
  (s ≤ 16 ∧ i = 0) ∨ (1 ≤ i ∧ i ≤ 13 ∧ 2 ^ (i + 3) < s ∧ s ≤ 2 ^ (i + 4)) ∨
    (2 ^ 17 < s ∧ i = 14)

/-! ## Where an operation writes -/

/-- The byte `y` lies in the header or the footer of the block at `a` of
size `sz`. -/
def in_tags (a sz y : Nat) : Prop :=
  (a ≤ y ∧ y < a + 8) ∨ (a + sz - 8 ≤ y ∧ y < a + sz)

/-- The byte `y` lies in the `pred` or `succ` field of the block at `a`: the
first 16 bytes of its payload. -/
def in_links (a y : Nat) : Prop := a + 8 ≤ y ∧ y < a + 24

/-- The byte `y` lies in a link field of a node of the lists `fl`. -/
def in_lists (fl : Nat → List Nat) (y : Nat) : Prop :=
  ∃ i, i < 15 ∧ ∃ z ∈ fl i, in_links z y

/-- The memories `m` and `m'` differ at most where `S` holds. -/
def Only (S : Nat → Prop) (m m' : Mem) : Prop := ∀ y, m' y ≠ m y → S y

/-- What a call that takes the heap with blocks `bs` and break `brk` to the
heap with blocks `bs'` and break `brk'` may write: the epilogue word of
either heap; the header and footer of a block that exists only before or only
after the call (a block the call allocates, frees, splits or merges); the
first 16 payload bytes of a block that was free before the call or exists
only after it. -/
def Touch (bs bs' : List Blk) (brk brk' : Nat) (y : Nat) : Prop :=
  (brk - 8 ≤ y ∧ y < brk) ∨ (brk' - 8 ≤ y ∧ y < brk') ∨
  (∃ z, ((z ∈ bs ∧ z ∉ bs') ∨ (z ∈ bs' ∧ z ∉ bs)) ∧ in_tags z.addr z.size y) ∨
  (∃ z, ((z ∈ bs ∧ z.alloc = false) ∨ (z ∈ bs' ∧ z ∉ bs)) ∧ in_links z.addr y)

end MM

namespace MM

/-! ## Further example states -/

/-- The fresh heap with its free block of 4096 bytes at 4104 marked allocated
in both tags while it is still the only node of list 8: the state `malloc` is
in between marking the block it found and taking it off its list. -/
def ex_claimed : State := ex_fresh.setMem (write_block ex_fresh.mem 4104 4096 true)

/-- After `a = malloc(24); b = malloc(24); c = malloc(24); free(a)` on the
fresh heap, with the block of `c` at 4200 marked free in both tags and not yet
in a list: the state in which `free(c)` would insert it if it had no free
neighbour. The block of `a` at 4104 is the only node of list 2. -/
def ex_pending : State :=
  (free ex_three 4112).setMem (write_block (free ex_three 4112).mem 4200 48 false)

/-- The block at 4200 pushed on list 2 of `ex_pending`, in front of the block
at 4104. -/
def ex_pushed : State := insert_to_free_list ex_pending 4200

/-- The state `malloc(40)` is in on the fresh heap when it calls
`split_block`: the block of 4096 bytes at 4104 marked allocated and taken off
list 8. -/
def ex_taken : State := remove_from_free_list ex_claimed 4104

/-- The heap right after `mm_init` on an empty arena at address 4096 whose
environment grants a third growth. -/
def ex_roomy : State :=
  (mm_init ⟨fun _ => 0, 4096, 4096, 0, fun _ => 0, [true, true, true], 0⟩).1

/-- After `malloc(4080)` on `ex_roomy`: the only block, of 4096 bytes at 4104,
is allocated, and the environment grants one more growth. -/
def ex_full : State := malloc_state ex_roomy 4080

/-! ## The audit of `mm_checkheap` as the specification lists it -/

/-- Property (a) for the word at `w`: it has size 0, is marked allocated and
lies inside `[lo, hi]`. -/
def audit_sentinel (st : State) (w : Nat) : Prop :=
  get_size st.mem w = 0 ∧ get_alloc st.mem w = true ∧ mem_heap_lo st ≤ w ∧ w ≤ mem_heap_hi st

/-- Property (b) along the blocks `bl` of the chain, `prev` being the block of
the chain right before the first of them, if there is one: every block has a
size that is a multiple of 16 and a footer equal to its header, and when it is
free, the block before it is not free and the header right after it, that of
the next block or the one of size zero that ends the chain, is not marked
free. NULL is no block. -/
def audit_chain (m : Mem) : Option Nat → List Nat → Prop
  | _, [] => True
  | prev, b :: bl =>
    get_size m b % 16 = 0 ∧ readWord m (header_to_footer m b) = readWord m b ∧
    (get_alloc m b = false →
      (∀ p ∈ prev, get_alloc m p = true) ∧
      (find_next m b ≠ 0 → get_alloc m (find_next m b) = true)) ∧
    audit_chain m (some b) bl

/-- Property (c) for the block `x` reached from list head `i`: it is free,
lies inside `[lo, hi]`, has reciprocal `pred` and `succ` links, and its size
is of class `i`. -/
def audit_node (st : State) (i x : Nat) : Prop :=
  get_alloc st.mem x = false ∧ mem_heap_lo st ≤ x ∧ x ≤ mem_heap_hi st ∧
  (get_pred st.mem x ≠ 0 → get_succ st.mem (get_pred st.mem x) = x) ∧
  (get_succ st.mem x ≠ 0 → get_pred st.mem (get_succ st.mem x) = x) ∧
  find_index (get_size st.mem x) = i

/-- The properties (a), (b) and (c) the specification lists for
`mm_checkheap`, for the chain of blocks `bl` from `heap_start` and the nodes
`ln i` of the 15 lists. -/
def audit_spec (st : State) (bl : List Nat) (ln : Nat → List Nat) : Prop :=
  (audit_sentinel st (sub64 st.heap_start wsize) ∧
    audit_sentinel st (sub64 (mem_heap_hi st) 7)) ∧
  audit_chain st.mem none bl ∧
  ∀ i, i < list_length → ∀ x ∈ ln i, audit_node st i x

end MM

namespace MM

/-! ## Machine arithmetic lemmas -/

theorem add64_eq {a b : Nat} (h : a + b < W64) : add64 a b = a + b := by
  unfold add64; exact Nat.mod_eq_of_lt h

theorem sub64_eq {a b : Nat} (hb : b ≤ a) (ha : a < W64) : sub64 a b = a - b := by
  unfold sub64 W64 at *; omega

theorem readWord_lt (m : Mem) (a : Nat) : readWord m a < W64 := by
  unfold readWord W64; omega

theorem readWord_congr {m m' : Mem} {a : Nat} (h : ∀ i, i < 8 → m' (a + i) = m (a + i)) :
    readWord m' a = readWord m a := by
  unfold readWord
  have h0 := h 0 (by omega)
  simp only [Nat.add_zero] at h0
  rw [h0, h 1 (by omega), h 2 (by omega), h 3 (by omega), h 4 (by omega), h 5 (by omega),
    h 6 (by omega), h 7 (by omega)]

theorem writeWord_outside (m : Mem) (a v x : Nat) (h : x < a ∨ a + 8 ≤ x) :
    writeWord m a v x = m x := by
  unfold writeWord
  rw [if_neg]; omega

theorem readWord_writeWord_same (m : Mem) (a v : Nat) (hv : v < W64) :
    readWord (writeWord m a v) a = v := by
  unfold readWord writeWord W64 at *
  simp only [Nat.le_add_right, Nat.lt_add_one, Nat.add_lt_add_iff_left, Nat.le_refl,
    Nat.add_sub_cancel_left, Nat.sub_self, true_and, Nat.lt_add_right_iff_pos]
  norm_num
  omega

theorem readWord_writeWord_disj (m : Mem) (a v b : Nat) (h : b + 8 ≤ a ∨ a + 8 ≤ b) :
    readWord (writeWord m a v) b = readWord m b := by
  apply readWord_congr
  intro i hi
  apply writeWord_outside
  omega

/-! ## Header words -/

theorem extract_size_eq (w : Nat) (hw : w < W64) : extract_size w = w - w % 16 := by
  unfold extract_size size_mask
  have h1 : (18446744073709551600 : Nat) = (2 ^ 60 - 1) <<< 4 := by decide
  apply Nat.eq_of_testBit_eq
  intro i
  rw [Nat.testBit_and, h1, Nat.testBit_shiftLeft, Nat.testBit_two_pow_sub_one]
  have h2 : w - w % 16 = (w >>> 4) <<< 4 := by
    rw [Nat.shiftRight_eq_div_pow, Nat.shiftLeft_eq]; norm_num; omega
  rw [h2, Nat.testBit_shiftLeft, Nat.testBit_shiftRight]
  by_cases h4 : 4 ≤ i
  · simp only [h4, decide_True, Bool.true_and, ge_iff_le]
    have : 4 + (i - 4) = i := by omega
    rw [this]
    by_cases h64 : i - 4 < 60
    · simp [h64]
    · simp only [h64, decide_False, Bool.and_false]
      have : w < 2 ^ i := by
        have : 2 ^ 64 ≤ 2 ^ i := Nat.pow_le_pow_right (by decide) (by omega)
        unfold W64 at hw; omega
      simp [Nat.testBit_lt_two_pow this]
  · simp [h4]

theorem extract_alloc_eq (w : Nat) : extract_alloc w = decide (w % 2 = 1) := by
  unfold extract_alloc alloc_mask
  rw [Nat.and_one_is_mod]
  rcases Nat.mod_two_eq_zero_or_one w with h | h <;> simp [h]

theorem pack_true (sz : Nat) (h : sz % 2 = 0) : pack sz true = sz + 1 := by
  unfold pack alloc_mask
  simp only [if_true]
  have := Nat.mul_add_lt_is_or (i := 1) (b := 1) (by decide) (sz / 2)
  have h2 : 2 ^ 1 * (sz / 2) = sz := by omega
  rw [h2] at this
  exact this.symm

theorem pack_false (sz : Nat) : pack sz false = sz := by
  unfold pack; simp


theorem pack_zero_true : pack 0 true = 1 := by decide

theorem pack_lt {sz : Nat} (al : Bool) (h : sz % 16 = 0) (hlt : sz < W64) : pack sz al < W64 := by
  cases al
  · rw [pack_false]; exact hlt
  · rw [pack_true sz (by omega)]; unfold W64 at *; omega

theorem pack_val {sz : Nat} (al : Bool) (h : sz % 16 = 0) :
    pack sz al = sz + (if al then 1 else 0) := by
  cases al
  · simp [pack_false]
  · simp [pack_true sz (by omega)]

theorem extract_size_pack {sz : Nat} (al : Bool) (h : sz % 16 = 0) (hlt : sz < W64) :
    extract_size (pack sz al) = sz := by
  rw [extract_size_eq _ (pack_lt al h hlt), pack_val al h]
  cases al <;> simp <;> omega

theorem extract_alloc_pack {sz : Nat} (al : Bool) (h : sz % 16 = 0) :
    extract_alloc (pack sz al) = al := by
  rw [extract_alloc_eq, pack_val al h]
  cases al
  · simp; omega
  · simp; omega

theorem extract_size_mod (w : Nat) (hw : w < W64) : extract_size w % 16 = 0 := by
  rw [extract_size_eq w hw]; omega

theorem extract_size_le (w : Nat) (hw : w < W64) : extract_size w ≤ w := by
  rw [extract_size_eq w hw]; omega

theorem get_size_lt (m : Mem) (a : Nat) : get_size m a < W64 := by
  unfold get_size
  exact Nat.lt_of_le_of_lt (extract_size_le _ (readWord_lt m a)) (readWord_lt m a)

/-! ## Size classes -/

theorem find_index_loop_spec (s : Nat) : ∀ (n i : Nat), i + n = 15 → 2 ^ (i + 3) < s →
    find_index_loop s i n < 15 ∧ i ≤ find_index_loop s i n + (i - 14) ∧
      ((2 ^ (find_index_loop s i n + 3) < s ∧ s ≤ 2 ^ (find_index_loop s i n + 4)) ∨
        (find_index_loop s i n = 14 ∧ 2 ^ 18 < s))
  | 0, i, hi, hs => by
    have : i = 15 := by omega
    subst this
    have hs2 : 2 ^ 18 < s := hs
    have e : find_index_loop s 15 0 = 14 := rfl
    rw [e]
    exact ⟨by omega, by omega, Or.inr ⟨rfl, hs2⟩⟩
  | n + 1, i, hi, hs => by
    simp only [find_index_loop]
    split_ifs with h
    · exact ⟨by omega, by omega, Or.inl h⟩
    · have h2 : 2 ^ (i + 1 + 3) < s := by
        have : 2 ^ (i + 1 + 3) = 2 ^ (i + 4) := by ring_nf
        rw [this]
        by_contra hc
        exact h ⟨hs, by omega⟩
      obtain ⟨a1, a2, a3⟩ := find_index_loop_spec s n (i + 1) (by omega) h2
      exact ⟨a1, by omega, a3⟩

theorem find_index_spec (s : Nat) :
    find_index s < 15 ∧ ((s ≤ 16 ∧ find_index s = 0) ∨
      (1 ≤ find_index s ∧ 2 ^ (find_index s + 3) < s ∧ s ≤ 2 ^ (find_index s + 4)) ∨
      (find_index s = 14 ∧ 2 ^ 18 < s)) := by
  unfold find_index
  split_ifs with h
  · exact ⟨by omega, Or.inl ⟨h, rfl⟩⟩
  · obtain ⟨a1, a2, a3⟩ := find_index_loop_spec s 14 1 (by omega) (by omega)
    have e : list_length - 1 = 14 := rfl
    rw [e]
    refine ⟨a1, Or.inr ?_⟩
    rcases a3 with a3 | a3
    · exact Or.inl ⟨by omega, a3⟩
    · exact Or.inr a3

theorem find_index_lt (s : Nat) : find_index s < 15 := (find_index_spec s).1

theorem find_index_mono {a b : Nat} (h : a ≤ b) : find_index a ≤ find_index b := by
  by_contra hc
  have hlt : find_index b + 1 ≤ find_index a := by omega
  have hpa : 2 ^ (find_index a + 3) < a := by
    rcases (find_index_spec a).2 with h1 | h1 | h1
    · omega
    · exact h1.2.1
    · rw [h1.1]; omega
  have hmono : 2 ^ (find_index b + 4) ≤ 2 ^ (find_index a + 3) :=
    Nat.pow_le_pow_right (by decide) (by omega)
  rcases (find_index_spec b).2 with h1 | h1 | h1
  · rcases (find_index_spec a).2 with h2 | h2 | h2
    · omega
    · have : 2 ^ (1 + 3) ≤ 2 ^ (find_index a + 3) := Nat.pow_le_pow_right (by decide) (by omega)
      omega
    · omega
  · omega
  · have := find_index_lt a
    omega

/-! ## Tilings -/

theorem Geo_append {a e : Nat} {xs ys : List Blk} :
    Geo a (xs ++ ys) e ↔ ∃ mid, Geo a xs mid ∧ Geo mid ys e := by
  induction xs generalizing a with
  | nil => simp [Geo]
  | cons x xs ih =>
    rw [List.cons_append]
    simp only [Geo]
    rw [ih]
    constructor
    · rintro ⟨h1, h2, h3, mid, h4, h5⟩
      exact ⟨mid, ⟨h1, h2, h3, h4⟩, h5⟩
    · rintro ⟨mid, ⟨h1, h2, h3, h4⟩, h5⟩
      exact ⟨h1, h2, h3, mid, h4, h5⟩

theorem Geo_le {a e : Nat} {bs : List Blk} (h : Geo a bs e) : a + 32 * bs.length ≤ e := by
  induction bs generalizing a with
  | nil => simp [Geo] at h; simp [h]
  | cons x xs ih =>
    obtain ⟨h1, h2, h3, h4⟩ := h
    have := ih h4
    simp only [List.length_cons]
    omega

theorem Geo_mem {a e : Nat} {bs : List Blk} (h : Geo a bs e) {b : Blk} (hb : b ∈ bs) :
    a ≤ b.addr ∧ b.addr + b.size ≤ e ∧ 32 ≤ b.size ∧ b.size % 16 = 0 := by
  induction bs generalizing a with
  | nil => simp at hb
  | cons x xs ih =>
    obtain ⟨h1, h2, h3, h4⟩ := h
    rcases List.mem_cons.1 hb with rfl | hb
    · have := Geo_le h4
      omega
    · have := ih h4 hb
      omega

theorem Geo_sep {a e : Nat} {bs : List Blk} (h : Geo a bs e) {b1 b2 : Blk}
    (h1 : b1 ∈ bs) (h2 : b2 ∈ bs) :
    b1 = b2 ∨ b1.addr + b1.size ≤ b2.addr ∨ b2.addr + b2.size ≤ b1.addr := by
  induction bs generalizing a with
  | nil => simp at h1
  | cons x xs ih =>
    obtain ⟨g1, g2, g3, g4⟩ := h
    rcases List.mem_cons.1 h1 with e1 | m1 <;> rcases List.mem_cons.1 h2 with e2 | m2
    · exact Or.inl (e1.trans e2.symm)
    · have := Geo_mem g4 m2
      subst e1
      right; left; omega
    · have := Geo_mem g4 m1
      subst e2
      right; right; omega
    · exact ih g4 m1 m2

theorem Geo_addr_inj {a e : Nat} {bs : List Blk} (h : Geo a bs e) {b1 b2 : Blk}
    (h1 : b1 ∈ bs) (h2 : b2 ∈ bs) (heq : b1.addr = b2.addr) : b1 = b2 := by
  rcases Geo_sep h h1 h2 with h3 | h3 | h3
  · exact h3
  · have := Geo_mem h h1; omega
  · have := Geo_mem h h2; omega

theorem Geo_split {a e : Nat} {pre post : List Blk} {b : Blk} (h : Geo a (pre ++ b :: post) e) :
    Geo a pre b.addr ∧ Geo (b.addr + b.size) post e ∧ 32 ≤ b.size ∧ b.size % 16 = 0 := by
  obtain ⟨mid, h1, h2, h3, h4, h5⟩ := Geo_append.1 h
  subst h2
  exact ⟨h1, h5, h3, h4⟩

theorem Geo_join {a e : Nat} {pre post : List Blk} {b : Blk} (h1 : Geo a pre b.addr)
    (h2 : Geo (b.addr + b.size) post e) (h3 : 32 ≤ b.size) (h4 : b.size % 16 = 0) :
    Geo a (pre ++ b :: post) e :=
  Geo_append.2 ⟨b.addr, h1, rfl, h3, h4, h2⟩

theorem Geo_last {a e : Nat} {pre : List Blk} {p : Blk} (h : Geo a (pre ++ [p]) e) :
    p.addr + p.size = e := by
  obtain ⟨_, h2, _, _⟩ := Geo_split h
  exact h2

end MM

namespace MM

/-! ## State projections -/

@[simp] theorem setMem_mem (st : State) (m : Mem) : (st.setMem m).mem = m := rfl
@[simp] theorem setMem_lo (st : State) (m : Mem) : (st.setMem m).mem_lo = st.mem_lo := rfl
@[simp] theorem setMem_brk (st : State) (m : Mem) : (st.setMem m).mem_brk = st.mem_brk := rfl
@[simp] theorem setMem_hs (st : State) (m : Mem) : (st.setMem m).heap_start = st.heap_start := rfl
@[simp] theorem setMem_seg (st : State) (m : Mem) :
    (st.setMem m).segregated_list = st.segregated_list := rfl
@[simp] theorem setMem_grants (st : State) (m : Mem) : (st.setMem m).grants = st.grants := rfl
@[simp] theorem setMem_calls (st : State) (m : Mem) :
    (st.setMem m).sbrk_calls = st.sbrk_calls := rfl
@[simp] theorem setHead_mem (st : State) (i v : Nat) : (st.setHead i v).mem = st.mem := rfl
@[simp] theorem setHead_lo (st : State) (i v : Nat) : (st.setHead i v).mem_lo = st.mem_lo := rfl
@[simp] theorem setHead_brk (st : State) (i v : Nat) : (st.setHead i v).mem_brk = st.mem_brk := rfl
@[simp] theorem setHead_hs (st : State) (i v : Nat) :
    (st.setHead i v).heap_start = st.heap_start := rfl
@[simp] theorem setHead_grants (st : State) (i v : Nat) :
    (st.setHead i v).grants = st.grants := rfl
@[simp] theorem setHead_calls (st : State) (i v : Nat) :
    (st.setHead i v).sbrk_calls = st.sbrk_calls := rfl
theorem setHead_seg (st : State) (i v j : Nat) :
    (st.setHead i v).segregated_list j = if j = i then v else st.segregated_list j := rfl

/-! ## Doubly linked lists -/

theorem getLastD_mem_cons : ∀ (l : List Nat) (b a : Nat), (b :: l).getLastD a ∈ b :: l
  | [], b, a => by simp
  | c :: l, b, a => by
    rw [List.getLastD_cons]
    exact List.mem_cons_of_mem _ (getLastD_mem_cons l c b)

theorem FList_frame {m m' : Mem} : ∀ {l : List Nat} {p c : Nat},
    (∀ y ∈ l, get_pred m' y = get_pred m y ∧ get_succ m' y = get_succ m y) →
    FList m p c l → FList m' p c l
  | [], _, _, _, h => h
  | x :: xs, p, c, hf, h => by
    obtain ⟨h1, h2, h3, h4⟩ := h
    have hx := hf x (List.mem_cons_self _ _)
    refine ⟨h1, h2, by rw [hx.1]; exact h3, ?_⟩
    rw [hx.2]
    exact FList_frame (fun y hy => hf y (List.mem_cons_of_mem _ hy)) h4

theorem FList_ne_zero {m : Mem} : ∀ {l : List Nat} {p c : Nat}, FList m p c l → ∀ y ∈ l, y ≠ 0
  | [], _, _, _, y, hy => by simp at hy
  | x :: xs, p, c, h, y, hy => by
    obtain ⟨_, h2, _, h4⟩ := h
    rcases List.mem_cons.1 hy with rfl | hy
    · exact h2
    · exact FList_ne_zero h4 y hy

theorem FList_head {m : Mem} {l : List Nat} {p c : Nat} (h : FList m p c l) : c = l.headD 0 := by
  cases l with
  | nil => exact h
  | cons x xs => exact h.1

/-- The link fields of a node in the middle of a list. -/
theorem FList_mid {m : Mem} {x : Nat} {l2 : List Nat} : ∀ {l1 : List Nat} {p c : Nat},
    FList m p c (l1 ++ x :: l2) →
    get_pred m x = l1.getLastD p ∧ get_succ m x = l2.headD 0
  | [], p, c, h => by
    obtain ⟨_, _, h3, h4⟩ := h
    exact ⟨h3, FList_head h4⟩
  | a :: l1, p, c, h => by
    obtain ⟨_, _, _, h4⟩ := h
    have := @FList_mid _ _ _ l1 _ _ h4
    rw [List.getLastD_cons]
    exact this

/-- Unlinking node `x`: if afterwards the predecessor field of the node after
`x` and the successor field of the node before `x` bypass `x` and the other
link fields are as before, the list without `x` is well linked. -/
theorem FList_remove {m m' : Mem} {x : Nat} {l2 : List Nat} : ∀ {l1 : List Nat} {p c : Nat},
    FList m p c (l1 ++ x :: l2) → (l1 ++ x :: l2).Nodup → p ∉ l1 ++ x :: l2 →
    (∀ y ∈ l1 ++ l2,
      get_pred m' y = (if y = l2.headD 0 then l1.getLastD p else get_pred m y) ∧
      get_succ m' y = (if y = l1.getLastD p then l2.headD 0 else get_succ m y)) →
    FList m' p (if l1 = [] then l2.headD 0 else c) (l1 ++ l2)
  | [], p, c, h, hnd, hp, hm => by
    obtain ⟨_, _, _, h4⟩ := h
    simp only [List.nil_append, if_true]
    cases l2 with
    | nil => rfl
    | cons y l2 =>
      obtain ⟨g1, g2, g3, g4⟩ := h4
      simp only [List.nil_append, List.headD_cons, List.getLastD_nil] at hm
      simp only [List.nil_append, List.nodup_cons, List.mem_cons, not_or] at hnd hp
      have hy := hm y (List.mem_cons_self _ _)
      refine ⟨rfl, g2, by rw [hy.1]; simp, ?_⟩
      rw [hy.2, if_neg (fun h => hp.2.1 h.symm)]
      apply FList_frame _ g4
      intro z hz
      have hzz := hm z (List.mem_cons_of_mem _ hz)
      rw [hzz.1, hzz.2, if_neg, if_neg]
      · exact ⟨rfl, rfl⟩
      · rintro rfl; exact hp.2.2 hz
      · rintro rfl; exact hnd.2.1 hz
  | a :: l1, p, c, h, hnd, hp, hm => by
    obtain ⟨h1, h2, h3, h4⟩ := h
    have hnd2 : (l1 ++ x :: l2).Nodup := (List.nodup_cons.1 hnd).2
    have ha : a ∉ l1 ++ x :: l2 := (List.nodup_cons.1 hnd).1
    have hl : (a :: l1).getLastD p = l1.getLastD a := List.getLastD_cons _ _ _
    rw [hl] at hm
    have ih := @FList_remove _ m' _ _ l1 _ _ h4 hnd2 ha
      (fun y hy => hm y (by simp only [List.cons_append, List.mem_cons]; exact Or.inr hy))
    have hma := hm a (by simp)
    simp only [List.cons_append, if_false, reduceCtorEq]
    have hne : ∀ z ∈ l2, a ≠ z := by
      rintro z hz rfl
      exact ha (by simp [hz])
    have hnext : a ≠ l2.headD 0 := by
      cases l2 with
      | nil => exact h2
      | cons z l2 => exact hne z (List.mem_cons_self _ _)
    refine ⟨h1, h2, by rw [hma.1, if_neg hnext]; exact h3, ?_⟩
    rw [hma.2]
    cases l1 with
    | nil =>
      simp only [List.getLastD_nil, if_true, List.nil_append] at ih ⊢
      exact ih
    | cons b l1 =>
      have hb : a ≠ (b :: l1).getLastD a := by
        intro hc
        have hmem : (b :: l1).getLastD a ∈ b :: l1 := getLastD_mem_cons l1 b a
        rw [← hc] at hmem
        exact ha (List.mem_append_left _ hmem)
      rw [if_neg hb]
      simp only [reduceCtorEq, if_false] at ih
      exact ih

/-- Pushing node `b` in front of a list. -/
theorem FList_insert {m m' : Mem} {b h : Nat} {l : List Nat} (hl : FList m 0 h l) (hb : b ≠ 0)
    (hnb : b ∉ l) (hnd : l.Nodup) (h1 : get_pred m' b = 0) (h2 : get_succ m' b = h)
    (h3 : ∀ y ∈ l, get_pred m' y = (if y = h then b else get_pred m y) ∧
      get_succ m' y = get_succ m y) :
    FList m' 0 b (b :: l) := by
  refine ⟨rfl, hb, h1, ?_⟩
  rw [h2]
  cases l with
  | nil => exact hl
  | cons y l =>
    obtain ⟨g1, g2, g3, g4⟩ := hl
    subst g1
    have hy := h3 h (List.mem_cons_self _ _)
    refine ⟨rfl, g2, by rw [hy.1]; simp, ?_⟩
    rw [hy.2]
    apply FList_frame _ g4
    intro z hz
    have hzz := h3 z (List.mem_cons_of_mem _ hz)
    rw [hzz.1, hzz.2, if_neg]
    · exact ⟨rfl, rfl⟩
    · rintro rfl; exact (List.nodup_cons.1 hnd).1 hz

end MM

namespace MM

/-! ## Reading a heap that satisfies the structural invariant -/

theorem Heap_blk {st : State} {bs : List Blk} {fl : Nat → List Nat} (h : Heap st bs fl)
    {b : Blk} (hb : b ∈ bs) :
    st.mem_lo + 8 ≤ b.addr ∧ b.addr + b.size + 8 ≤ st.mem_brk ∧ 32 ≤ b.size ∧
      b.size % 16 = 0 ∧ b.addr + b.size + 8 < W64 := by
  have h1 := Geo_mem h.geo hb
  have h2 := h.brk_lt
  have h3 := h.brk_ge
  omega

theorem Heap_sep {st : State} {bs : List Blk} {fl : Nat → List Nat} (h : Heap st bs fl)
    {b1 b2 : Blk} (h1 : b1 ∈ bs) (h2 : b2 ∈ bs) :
    b1 = b2 ∨ b1.addr + b1.size ≤ b2.addr ∨ b2.addr + b2.size ≤ b1.addr :=
  Geo_sep h.geo h1 h2

theorem Heap_get_size {st : State} {bs : List Blk} {fl : Nat → List Nat} (h : Heap st bs fl)
    {b : Blk} (hb : b ∈ bs) : get_size st.mem b.addr = b.size := by
  have h1 := Heap_blk h hb
  unfold get_size
  rw [(h.tags b hb).1]
  exact extract_size_pack _ h1.2.2.2.1 (by omega)

theorem Heap_get_alloc {st : State} {bs : List Blk} {fl : Nat → List Nat} (h : Heap st bs fl)
    {b : Blk} (hb : b ∈ bs) : get_alloc st.mem b.addr = b.alloc := by
  have h1 := Heap_blk h hb
  unfold get_alloc
  rw [(h.tags b hb).1]
  exact extract_alloc_pack _ h1.2.2.2.1

theorem Heap_find_next {st : State} {bs : List Blk} {fl : Nat → List Nat} (h : Heap st bs fl)
    {b : Blk} (hb : b ∈ bs) : find_next st.mem b.addr = b.addr + b.size := by
  have h1 := Heap_blk h hb
  unfold find_next
  rw [Heap_get_size h hb]
  exact add64_eq (by omega)

theorem predp_eq {x : Nat} (h : x + 8 < W64) : predp x = x + 8 := add64_eq h

theorem succp_eq {x : Nat} (h : x + 16 < W64) : succp x = x + 16 := add64_eq h

theorem extract_size_one : extract_size 1 = 0 := by decide

theorem extract_alloc_one : extract_alloc 1 = true := by decide

theorem Heap_find_prev_first {st : State} {post : List Blk} {fl : Nat → List Nat} {b : Blk}
    (h : Heap st (b :: post) fl) : find_prev st.mem b.addr = 0 := by
  have h1 := h.geo.1
  have h2 := h.brk_lt
  have h3 := h.brk_ge
  unfold find_prev find_prev_footer wsize
  rw [h1, sub64_eq (by omega) (by omega)]
  have : st.mem_lo + 8 - 8 = st.mem_lo := by omega
  simp only [this, h.pro, pack_zero_true, extract_size_one, if_true]

theorem Heap_find_prev_next {st : State} {pre post : List Blk} {fl : Nat → List Nat} {p b : Blk}
    (h : Heap st (pre ++ p :: b :: post) fl) : find_prev st.mem b.addr = p.addr := by
  have hp : p ∈ pre ++ p :: b :: post := by simp
  have hb : b ∈ pre ++ p :: b :: post := by simp
  have g1 := Heap_blk h hp
  have g2 := Heap_blk h hb
  have g3 := (Geo_split h.geo).2.1.1
  have g4 := (h.tags p hp).2
  unfold find_prev find_prev_footer footer_to_header wsize
  rw [sub64_eq (by omega) (by omega)]
  have e : b.addr - 8 = p.addr + p.size - 8 := by omega
  simp only [e, g4, extract_size_pack _ g1.2.2.2.1 (show p.size < W64 by omega)]
  rw [if_neg (by omega), add64_eq (by omega), sub64_eq (by omega) (by omega)]
  omega

/-! ## Writing block tags -/

theorem write_block_eq (m : Mem) (a sz : Nat) (al : Bool) (h16 : sz % 16 = 0) (hsz : 16 ≤ sz)
    (hlt : a + sz + 8 < W64) :
    write_block m a sz al = writeWord (writeWord m a (pack sz al)) (a + sz - 8) (pack sz al) := by
  unfold write_block header_to_footer get_size
  simp only
  rw [readWord_writeWord_same _ _ _ (pack_lt al h16 (by omega)),
    extract_size_pack al h16 (by omega)]
  unfold dsize wsize
  rw [add64_eq (a := a) (b := 8) (by omega), add64_eq (by omega),
    sub64_eq (by omega) (by omega)]
  have : a + 8 + sz - 2 * 8 = a + sz - 8 := by omega
  rw [this]

/-- Bytes outside the header and footer words are not touched by `write_block`. -/
theorem write_block_outside (m : Mem) (a sz : Nat) (al : Bool) (h16 : sz % 16 = 0)
    (hsz : 16 ≤ sz) (hlt : a + sz + 8 < W64) (x : Nat)
    (hx : x < a ∨ (a + 8 ≤ x ∧ x + 8 < a + sz) ∨ a + sz ≤ x) :
    write_block m a sz al x = m x := by
  rw [write_block_eq m a sz al h16 hsz hlt, writeWord_outside _ _ _ _ (by omega),
    writeWord_outside _ _ _ _ (by omega)]

theorem readWord_write_block_other (m : Mem) (a sz : Nat) (al : Bool) (h16 : sz % 16 = 0)
    (hsz : 16 ≤ sz) (hlt : a + sz + 8 < W64) (y : Nat)
    (hy : y + 8 ≤ a ∨ (a + 8 ≤ y ∧ y + 16 ≤ a + sz) ∨ a + sz ≤ y) :
    readWord (write_block m a sz al) y = readWord m y := by
  apply readWord_congr
  intro i hi
  apply write_block_outside m a sz al h16 hsz hlt
  omega

theorem readWord_write_block_header (m : Mem) (a sz : Nat) (al : Bool) (h16 : sz % 16 = 0)
    (hsz : 16 ≤ sz) (hlt : a + sz + 8 < W64) :
    readWord (write_block m a sz al) a = pack sz al := by
  rw [write_block_eq m a sz al h16 hsz hlt, readWord_writeWord_disj _ _ _ _ (by omega),
    readWord_writeWord_same _ _ _ (pack_lt al h16 (by omega))]

theorem readWord_write_block_footer (m : Mem) (a sz : Nat) (al : Bool) (h16 : sz % 16 = 0)
    (hsz : 16 ≤ sz) (hlt : a + sz + 8 < W64) :
    readWord (write_block m a sz al) (a + sz - 8) = pack sz al := by
  rw [write_block_eq m a sz al h16 hsz hlt,
    readWord_writeWord_same _ _ _ (pack_lt al h16 (by omega))]

theorem get_pred_congr {m m' : Mem} {x : Nat} (hx : x + 24 < W64)
    (h : ∀ y, x + 8 ≤ y → y < x + 16 → m' y = m y) : get_pred m' x = get_pred m x := by
  unfold get_pred
  rw [predp_eq (by omega)]
  apply readWord_congr
  intro i hi
  exact h _ (by omega) (by omega)

theorem get_succ_congr {m m' : Mem} {x : Nat} (hx : x + 24 < W64)
    (h : ∀ y, x + 16 ≤ y → y < x + 24 → m' y = m y) : get_succ m' x = get_succ m x := by
  unfold get_succ
  rw [succp_eq (by omega)]
  apply readWord_congr
  intro i hi
  exact h _ (by omega) (by omega)

end MM

namespace MM

/-! ## Rewriting a run of blocks -/

/-- The blocks `mid`, which tile `[a, e)`, are replaced by the blocks `mid'`
tiling the same range: memory outside `[a, e)` is unchanged, the tags of the
new blocks are in place, and every listed block of `mid` keeps its address,
its class and its link fields. -/
theorem Heap_replace {st : State} {pre mid mid' post : List Blk} {fl : Nat → List Nat}
    {a e : Nat} {m' : Mem} (h : Heap st (pre ++ (mid ++ post)) fl)
    (g1 : Geo (st.mem_lo + 8) pre a) (g2 : Geo a mid e) (g2' : Geo a mid' e)
    (g3 : Geo e post (st.mem_brk - 8))
    (hout : ∀ y, y < a ∨ e ≤ y → m' y = st.mem y)
    (htags : ∀ b ∈ mid', readWord m' b.addr = pack b.size b.alloc ∧
      readWord m' (b.addr + b.size - 8) = pack b.size b.alloc)
    (hlisted : ∀ i, i < 15 → ∀ x ∈ fl i, ∀ c ∈ mid, c.addr = x →
      (∃ c' ∈ mid', c'.addr = x ∧ find_index c'.size = find_index c.size) ∧
      (∀ y, x + 8 ≤ y → y < x + 24 → m' y = st.mem y)) :
    Heap (st.setMem m') (pre ++ (mid' ++ post)) fl := by
  have hae := Geo_le g2
  have hla := Geo_le g1
  have heb := Geo_le g3
  have hbl := h.brk_lt
  have hbg := h.brk_ge
  refine ⟨h.hs, h.brk_lt, h.brk_ge, ?_, ?_, ?_, ?_, ?_, ?_, h.nodup⟩
  · exact Geo_append.2 ⟨a, g1, Geo_append.2 ⟨e, g2', g3⟩⟩
  · show readWord m' st.mem_lo = pack 0 true
    rw [← h.pro]
    exact readWord_congr (fun i hi => hout _ (by omega))
  · show readWord m' (st.mem_brk - 8) = pack 0 true
    rw [← h.epi]
    exact readWord_congr (fun i hi => hout _ (by omega))
  · intro b hb
    show readWord m' b.addr = _ ∧ readWord m' (b.addr + b.size - 8) = _
    rcases List.mem_append.1 hb with hb | hb
    · have hm := Geo_mem g1 hb
      have ht := h.tags b (List.mem_append_left _ hb)
      exact ⟨(readWord_congr (fun i hi => hout _ (by omega))).trans ht.1,
        (readWord_congr (fun i hi => hout _ (by omega))).trans ht.2⟩
    · rcases List.mem_append.1 hb with hb | hb
      · exact htags b hb
      · have hm := Geo_mem g3 hb
        have ht := h.tags b (List.mem_append_right _ (List.mem_append_right _ hb))
        exact ⟨(readWord_congr (fun i hi => hout _ (by omega))).trans ht.1,
          (readWord_congr (fun i hi => hout _ (by omega))).trans ht.2⟩
  · intro i hi
    show FList m' 0 (st.segregated_list i) (fl i)
    apply FList_frame _ (h.lists i hi)
    intro x hx
    obtain ⟨c, hc, hcx, _⟩ := h.cls i hi x hx
    have hcb := Heap_blk h hc
    have key : ∀ y, x + 8 ≤ y → y < x + 24 → m' y = st.mem y := by
      rcases List.mem_append.1 hc with hc1 | hc1
      · have hm := Geo_mem g1 hc1
        intro y h1 h2
        exact hout y (by omega)
      · rcases List.mem_append.1 hc1 with hc2 | hc2
        · exact (hlisted i hi x hx c hc2 hcx).2
        · have hm := Geo_mem g3 hc2
          intro y h1 h2
          exact hout y (by omega)
    exact ⟨get_pred_congr (by omega) (fun y h1 h2 => key y h1 (by omega)),
      get_succ_congr (by omega) (fun y h1 h2 => key y (by omega) h2)⟩
  · intro i hi x hx
    obtain ⟨c, hc, hcx, hci⟩ := h.cls i hi x hx
    rcases List.mem_append.1 hc with hc1 | hc1
    · exact ⟨c, List.mem_append_left _ hc1, hcx, hci⟩
    · rcases List.mem_append.1 hc1 with hc2 | hc2
      · obtain ⟨c', hc', h1, h2⟩ := (hlisted i hi x hx c hc2 hcx).1
        exact ⟨c', List.mem_append_right _ (List.mem_append_left _ hc'), h1, by rw [h2, hci]⟩
      · exact ⟨c, List.mem_append_right _ (List.mem_append_right _ hc2), hcx, hci⟩

/-- Splitting the tiling of a heap around one of its blocks. -/
theorem Heap_geo_split {st : State} {pre post : List Blk} {fl : Nat → List Nat} {b : Blk}
    (h : Heap st (pre ++ b :: post) fl) :
    Geo (st.mem_lo + 8) pre b.addr ∧ Geo (b.addr + b.size) post (st.mem_brk - 8) ∧
      32 ≤ b.size ∧ b.size % 16 = 0 ∧ b.addr + b.size + 8 < W64 := by
  obtain ⟨g1, g2, g3, g4⟩ := Geo_split h.geo
  have := Geo_le g2
  have := h.brk_lt
  have := h.brk_ge
  exact ⟨g1, g2, g3, g4, by omega⟩

theorem Geo_single {a sz : Nat} {al : Bool} (h1 : 32 ≤ sz) (h2 : sz % 16 = 0) :
    Geo a [⟨a, sz, al⟩] (a + sz) := ⟨rfl, h1, h2, rfl⟩

/-- Rewriting the tags of a block with its own size changes only its flag. -/
theorem Heap_setFlag {st : State} {pre post : List Blk} {fl : Nat → List Nat} {b : Blk}
    (h : Heap st (pre ++ b :: post) fl) (al : Bool) :
    Heap (st.setMem (write_block st.mem b.addr b.size al))
      (pre ++ ⟨b.addr, b.size, al⟩ :: post) fl := by
  obtain ⟨g1, g2, g3, g4, g5⟩ := Heap_geo_split h
  have hr := @Heap_replace _ _ [b] [⟨b.addr, b.size, al⟩] _ _ b.addr
    (b.addr + b.size) (write_block st.mem b.addr b.size al) h g1
    ⟨rfl, g3, g4, rfl⟩ (Geo_single g3 g4) g2
    (fun y hy => write_block_outside _ _ _ _ g4 (by omega) g5 y (by omega))
    (by
      intro c hc
      simp only [List.mem_singleton] at hc
      subst hc
      exact ⟨readWord_write_block_header _ _ _ _ g4 (by omega) g5,
        readWord_write_block_footer _ _ _ _ g4 (by omega) g5⟩)
    (by
      intro i hi x hx c hc hcx
      simp only [List.mem_singleton] at hc
      subst hc
      refine ⟨⟨_, List.mem_singleton_self _, hcx, rfl⟩, ?_⟩
      intro y h1 h2
      exact write_block_outside _ _ _ _ g4 (by omega) g5 y (by omega))
  exact hr

/-- One `write_block` over a run of unlisted blocks merges them. -/
theorem Heap_merge {st : State} {pre mid post : List Blk} {fl : Nat → List Nat} {a e : Nat}
    (h : Heap st (pre ++ (mid ++ post)) fl) (g1 : Geo (st.mem_lo + 8) pre a) (g2 : Geo a mid e)
    (g3 : Geo e post (st.mem_brk - 8)) (hne : mid ≠ [])
    (hun : ∀ i, i < 15 → ∀ x ∈ fl i, ∀ c ∈ mid, c.addr ≠ x) (al : Bool) :
    Heap (st.setMem (write_block st.mem a (e - a) al)) (pre ++ ⟨a, e - a, al⟩ :: post) fl := by
  have hlen := Geo_le g2
  have hpos : 0 < mid.length := List.length_pos.2 hne
  have h32 : 32 ≤ e - a := by omega
  have heb := Geo_le g3
  have hbl := h.brk_lt
  have hbg := h.brk_ge
  have h16 : (e - a) % 16 = 0 := by
    clear hlen hpos h32 hne hun h g1 g3 heb
    induction mid generalizing a with
    | nil => simp [Geo] at g2; subst g2; simp
    | cons x xs ih =>
      obtain ⟨q1, q2, q3, q4⟩ := g2
      have := ih q4
      have := Geo_le q4
      omega
  have hlt : a + (e - a) + 8 < W64 := by omega
  have hgeo : Geo a [⟨a, e - a, al⟩] e := by
    have := @Geo_single a _ al h32 h16
    have e2 : a + (e - a) = e := by omega
    rw [e2] at this
    exact this
  exact @Heap_replace _ _ _ [⟨a, e - a, al⟩] _ _ _ _ (write_block st.mem a (e - a) al) h g1 g2
    hgeo g3
    (fun y hy => write_block_outside _ _ _ _ h16 (by omega) hlt y (by omega))
    (by
      intro c hc
      simp only [List.mem_singleton] at hc
      subst hc
      exact ⟨readWord_write_block_header _ _ _ _ h16 (by omega) hlt,
        readWord_write_block_footer _ _ _ _ h16 (by omega) hlt⟩)
    (fun i hi x hx c hc hcx => absurd hcx (hun i hi x hx c hc))

end MM

namespace MM

/-- Splitting an unlisted block into an allocated front part and a free rest. -/
theorem Heap_split {st : State} {pre post : List Blk} {fl : Nat → List Nat} {b : Blk}
    (h : Heap st (pre ++ b :: post) fl) (hun : ∀ i, i < 15 → b.addr ∉ fl i) {asz : Nat}
    (h32 : 32 ≤ asz) (h16 : asz % 16 = 0) (hrem : asz + 32 ≤ b.size) :
    Heap (st.setMem (write_block (write_block st.mem b.addr asz true) (b.addr + asz)
        (b.size - asz) false))
      (pre ++ ⟨b.addr, asz, true⟩ :: ⟨b.addr + asz, b.size - asz, false⟩ :: post) fl := by
  obtain ⟨g1, g2, g3, g4, g5⟩ := Heap_geo_split h
  have hr16 : (b.size - asz) % 16 = 0 := by omega
  have e1 : b.addr + asz + (b.size - asz) = b.addr + b.size := by omega
  have hlt1 : b.addr + asz + 8 < W64 := by omega
  have hlt2 : b.addr + asz + (b.size - asz) + 8 < W64 := by omega
  refine @Heap_replace _ _ [b]
    [⟨b.addr, asz, true⟩, ⟨b.addr + asz, b.size - asz, false⟩] _ _ b.addr
    (b.addr + b.size) _ h g1 ⟨rfl, g3, g4, rfl⟩ ⟨rfl, h32, h16, rfl, (show 32 ≤ b.size - asz by omega), hr16, e1⟩ g2
    ?_ ?_ ?_
  · intro y hy
    rw [write_block_outside _ _ _ _ hr16 (by omega) hlt2 y (by omega),
      write_block_outside _ _ _ _ h16 (by omega) hlt1 y (by omega)]
  · intro c hc
    simp only [List.mem_cons, List.mem_singleton, List.not_mem_nil, or_false] at hc
    rcases hc with rfl | rfl
    · refine ⟨?_, ?_⟩
      · show readWord _ b.addr = pack asz true
        rw [readWord_write_block_other _ _ _ _ hr16 (by omega) hlt2 _ (by omega),
          readWord_write_block_header _ _ _ _ h16 (by omega) hlt1]
      · show readWord _ (b.addr + asz - 8) = pack asz true
        rw [readWord_write_block_other _ _ _ _ hr16 (by omega) hlt2 _ (by omega),
          readWord_write_block_footer _ _ _ _ h16 (by omega) hlt1]
    · exact ⟨readWord_write_block_header _ _ _ _ hr16 (by omega) hlt2,
        readWord_write_block_footer _ _ _ _ hr16 (by omega) hlt2⟩
  · intro i hi x hx c hc hcx
    simp only [List.mem_singleton] at hc
    subst hc
    exact absurd (hcx ▸ hx) (hun i hi)

/-- Writes confined to the payload of an unlisted block keep the structure. -/
theorem Heap_payload {st : State} {pre post : List Blk} {fl : Nat → List Nat} {b : Blk}
    (h : Heap st (pre ++ b :: post) fl) (hun : ∀ i, i < 15 → b.addr ∉ fl i) {m' : Mem}
    (hout : ∀ y, y < b.addr + 8 ∨ b.addr + b.size ≤ y + 8 → m' y = st.mem y) :
    Heap (st.setMem m') (pre ++ b :: post) fl := by
  obtain ⟨g1, g2, g3, g4, g5⟩ := Heap_geo_split h
  have ht := h.tags b (by simp)
  refine @Heap_replace _ _ [b] [b] _ _ b.addr (b.addr + b.size) _ h g1
    ⟨rfl, g3, g4, rfl⟩ ⟨rfl, g3, g4, rfl⟩ g2 (fun y hy => hout y (by omega)) ?_ ?_
  · intro c hc
    simp only [List.mem_singleton] at hc
    subst hc
    exact ⟨(readWord_congr (fun i hi => hout _ (by omega))).trans ht.1,
      (readWord_congr (fun i hi => hout _ (by omega))).trans ht.2⟩
  · intro i hi x hx c hc hcx
    simp only [List.mem_singleton] at hc
    subst hc
    exact absurd (hcx ▸ hx) (hun i hi)

/-- Fields of the state that only the environment of the heap depends on may
change freely. -/
theorem Heap_congr {st st' : State} {bs : List Blk} {fl : Nat → List Nat} (h : Heap st bs fl)
    (h1 : st'.mem = st.mem) (h2 : st'.mem_lo = st.mem_lo) (h3 : st'.mem_brk = st.mem_brk)
    (h4 : st'.heap_start = st.heap_start) (h5 : st'.segregated_list = st.segregated_list) :
    Heap st' bs fl := by
  refine ⟨?_, ?_, ?_, ?_, ?_, ?_, ?_, ?_, h.cls, h.nodup⟩
  · rw [h4, h2]; exact h.hs
  · rw [h3]; exact h.brk_lt
  · rw [h2, h3]; exact h.brk_ge
  · rw [h2, h3]; exact h.geo
  · rw [h1, h2]; exact h.pro
  · rw [h1, h3]; exact h.epi
  · rw [h1]; exact h.tags
  · rw [h1, h5]; exact h.lists

/-- Growing the arena by `r` bytes: the new free block starts on the old
epilogue word and a new epilogue closes the arena. -/
theorem Heap_extend {st st' : State} {bs : List Blk} {fl : Nat → List Nat} (h : Heap st bs fl)
    {r : Nat} (h32 : 32 ≤ r) (h16 : r % 16 = 0) (hlt : st.mem_brk + r < W64)
    (h1 : st'.mem = write_epilogue (write_block st.mem (st.mem_brk - 8) r false)
      (st.mem_brk - 8 + r))
    (h2 : st'.mem_lo = st.mem_lo) (h3 : st'.mem_brk = st.mem_brk + r)
    (h4 : st'.heap_start = st.heap_start) (h5 : st'.segregated_list = st.segregated_list) :
    Heap st' (bs ++ [⟨st.mem_brk - 8, r, false⟩]) fl := by
  have hbg := h.brk_ge
  have hW : W64 = 18446744073709551616 := rfl
  have hlt2 : st.mem_brk - 8 + r + 8 < W64 := by omega
  have hrd : ∀ y, y + 8 ≤ st.mem_brk - 8 → readWord st'.mem y = readWord st.mem y := by
    intro y hy
    rw [h1]
    unfold write_epilogue
    rw [readWord_writeWord_disj _ _ _ _ (by omega),
      readWord_write_block_other _ _ _ _ h16 (by omega) hlt2 _ (by omega)]
  refine ⟨?_, ?_, ?_, ?_, ?_, ?_, ?_, ?_, ?_, h.nodup⟩
  · rw [h4, h2]; exact h.hs
  · rw [h3]; exact hlt
  · rw [h2, h3]; omega
  · rw [h2, h3]
    refine Geo_append.2 ⟨st.mem_brk - 8, h.geo, rfl, h32, h16, ?_⟩
    show st.mem_brk - 8 + r = st.mem_brk + r - 8
    omega
  · rw [h2, hrd _ (by omega)]; exact h.pro
  · rw [h3, h1]
    unfold write_epilogue
    have e : st.mem_brk + r - 8 = st.mem_brk - 8 + r := by omega
    rw [e, readWord_writeWord_same _ _ _ (by rw [pack_zero_true, hW]; omega)]
  · intro b hb
    rcases List.mem_append.1 hb with hb | hb
    · have hm := Heap_blk h hb
      rw [hrd _ (by omega), hrd _ (by omega)]
      exact h.tags b hb
    · simp only [List.mem_singleton] at hb
      subst hb
      rw [h1]
      unfold write_epilogue
      refine ⟨?_, ?_⟩
      · show readWord _ (st.mem_brk - 8) = pack r false
        rw [readWord_writeWord_disj _ _ _ _ (by omega),
          readWord_write_block_header _ _ _ _ h16 (by omega) hlt2]
      · show readWord _ (st.mem_brk - 8 + r - 8) = pack r false
        rw [readWord_writeWord_disj _ _ _ _ (by omega),
          readWord_write_block_footer _ _ _ _ h16 (by omega) hlt2]
  · intro i hi
    rw [h5]
    apply FList_frame _ (h.lists i hi)
    intro x hx
    obtain ⟨c, hc, hcx, _⟩ := h.cls i hi x hx
    have hm := Heap_blk h hc
    have hW8 : x + 8 < W64 := by omega
    have hW16 : x + 16 < W64 := by omega
    unfold get_pred get_succ
    rw [predp_eq hW8, succp_eq hW16]
    exact ⟨hrd _ (by omega), hrd _ (by omega)⟩
  · intro i hi x hx
    obtain ⟨c, hc, hcx, hci⟩ := h.cls i hi x hx
    exact ⟨c, List.mem_append_left _ hc, hcx, hci⟩

end MM

namespace MM

/-! ## Effect of the list operations on the state -/

theorem remove_mem_eq (st : State) (x : Nat) :
    (remove_from_free_list st x).mem =
      unlink_mem st.mem (get_pred st.mem x) (get_succ st.mem x) := by
  unfold remove_from_free_list unlink_mem
  by_cases hp : get_pred st.mem x = 0 <;> by_cases hn : get_succ st.mem x = 0 <;>
    simp [hp, hn]

theorem remove_seg_eq (st : State) (x j : Nat) :
    (remove_from_free_list st x).segregated_list j =
      if j = find_index (get_size st.mem x) ∧ get_pred st.mem x = 0 then get_succ st.mem x
      else st.segregated_list j := by
  unfold remove_from_free_list
  by_cases hp : get_pred st.mem x = 0 <;> by_cases hn : get_succ st.mem x = 0 <;>
    simp [hp, hn, setHead_seg]

theorem remove_frame (st : State) (x : Nat) :
    (remove_from_free_list st x).mem_lo = st.mem_lo ∧
    (remove_from_free_list st x).mem_brk = st.mem_brk ∧
    (remove_from_free_list st x).heap_start = st.heap_start ∧
    (remove_from_free_list st x).grants = st.grants ∧
    (remove_from_free_list st x).sbrk_calls = st.sbrk_calls := by
  unfold remove_from_free_list
  by_cases hp : get_pred st.mem x = 0 <;> by_cases hn : get_succ st.mem x = 0 <;>
    simp [hp, hn]

theorem insert_mem_eq (st : State) (b : Nat) :
    (insert_to_free_list st b).mem =
      push_mem st.mem b (st.segregated_list (find_index (get_size st.mem b))) := by
  unfold insert_to_free_list push_mem
  by_cases hz : st.segregated_list (find_index (get_size st.mem b)) = 0 <;> simp [hz]

theorem insert_seg_eq (st : State) (b j : Nat) :
    (insert_to_free_list st b).segregated_list j =
      if j = find_index (get_size st.mem b) then b else st.segregated_list j := by
  unfold insert_to_free_list
  by_cases hz : st.segregated_list (find_index (get_size st.mem b)) = 0 <;>
    simp [hz, setHead_seg]

theorem insert_frame (st : State) (b : Nat) :
    (insert_to_free_list st b).mem_lo = st.mem_lo ∧
    (insert_to_free_list st b).mem_brk = st.mem_brk ∧
    (insert_to_free_list st b).heap_start = st.heap_start ∧
    (insert_to_free_list st b).grants = st.grants ∧
    (insert_to_free_list st b).sbrk_calls = st.sbrk_calls := by
  unfold insert_to_free_list
  by_cases hz : st.segregated_list (find_index (get_size st.mem b)) = 0 <;> simp [hz]

/-! ## The stores of unlinking and pushing -/

theorem unlink_mem_outside (m : Mem) (prev next y : Nat) (hp : prev + 24 < W64)
    (hn : next + 24 < W64) (h1 : next = 0 ∨ y < next + 8 ∨ next + 16 ≤ y)
    (h2 : prev = 0 ∨ y < prev + 16 ∨ prev + 24 ≤ y) : unlink_mem m prev next y = m y := by
  unfold unlink_mem
  by_cases hp0 : prev = 0 <;> by_cases hn0 : next = 0 <;> simp only [hp0, hn0, if_true, if_false]
  · rw [writeWord_outside _ _ _ _ (by rw [predp_eq (by omega)]; omega)]
  · rw [writeWord_outside _ _ _ _ (by rw [succp_eq (by omega)]; omega)]
  · rw [writeWord_outside _ _ _ _ (by rw [succp_eq (by omega)]; omega),
      writeWord_outside _ _ _ _ (by rw [predp_eq (by omega)]; omega)]

theorem unlink_mem_pred (m : Mem) (prev next : Nat) (hp : prev + 24 < W64)
    (hn : next + 24 < W64) (hn0 : next ≠ 0)
    (hsep : prev = 0 ∨ prev + 32 ≤ next ∨ next + 32 ≤ prev) :
    get_pred (unlink_mem m prev next) next = prev := by
  unfold unlink_mem get_pred
  have hW : W64 = 18446744073709551616 := rfl
  by_cases hp0 : prev = 0 <;> simp only [hp0, hn0, if_true, if_false]
  · rw [readWord_writeWord_same _ _ _ (by omega)]
  · rw [readWord_writeWord_disj _ _ _ _
      (by rw [predp_eq (by omega), succp_eq (by omega)]; omega),
      readWord_writeWord_same _ _ _ (by omega)]

theorem unlink_mem_succ (m : Mem) (prev next : Nat) (hn : next + 24 < W64) (hp0 : prev ≠ 0) :
    get_succ (unlink_mem m prev next) prev = next := by
  unfold unlink_mem get_succ
  simp only [hp0, if_false]
  rw [readWord_writeWord_same _ _ _ (by omega)]

theorem push_mem_outside (m : Mem) (b head y : Nat) (hb : b + 24 < W64)
    (hh : head + 24 < W64) (h1 : y < b + 8 ∨ b + 24 ≤ y)
    (h2 : head = 0 ∨ y < head + 8 ∨ head + 16 ≤ y) : push_mem m b head y = m y := by
  unfold push_mem
  have e1 : writeWord (writeWord m (predp b) 0) (succp b) head y = m y := by
    rw [writeWord_outside _ _ _ _ (by rw [succp_eq (by omega)]; omega),
      writeWord_outside _ _ _ _ (by rw [predp_eq (by omega)]; omega)]
  by_cases h0 : head = 0
  · rw [if_pos h0]; exact e1
  · rw [if_neg h0, writeWord_outside _ _ _ _ (by rw [predp_eq (by omega)]; omega)]
    exact e1

theorem push_mem_pred_self (m : Mem) (b head : Nat) (hb : b + 24 < W64) (hh : head + 24 < W64)
    (hsep : head = 0 ∨ b + 32 ≤ head ∨ head + 32 ≤ b) : get_pred (push_mem m b head) b = 0 := by
  unfold push_mem get_pred
  have hW : W64 = 18446744073709551616 := rfl
  have h0W : (0 : Nat) < W64 := by omega
  have hd : predp b + 8 ≤ succp b ∨ succp b + 8 ≤ predp b := by
    rw [predp_eq (by omega), succp_eq (by omega)]; omega
  have e1 : readWord (writeWord (writeWord m (predp b) 0) (succp b) head) (predp b) = 0 := by
    rw [readWord_writeWord_disj _ _ _ _ hd, readWord_writeWord_same _ _ _ h0W]
  by_cases h0 : head = 0
  · rw [if_pos h0]; exact e1
  · have hd2 : predp b + 8 ≤ predp head ∨ predp head + 8 ≤ predp b := by
      rw [predp_eq (x := b) (by omega), predp_eq (x := head) (by omega)]; omega
    rw [if_neg h0, readWord_writeWord_disj _ _ _ _ hd2]
    exact e1

theorem push_mem_succ_self (m : Mem) (b head : Nat) (hb : b + 24 < W64) (hh : head + 24 < W64)
    (hsep : head = 0 ∨ b + 32 ≤ head ∨ head + 32 ≤ b) :
    get_succ (push_mem m b head) b = head := by
  unfold push_mem get_succ
  have hhW : head < W64 := by omega
  have e1 : readWord (writeWord (writeWord m (predp b) 0) (succp b) head) (succp b) = head := by
    rw [readWord_writeWord_same _ _ _ hhW]
  by_cases h0 : head = 0
  · rw [if_pos h0]; exact e1
  · have hd2 : succp b + 8 ≤ predp head ∨ predp head + 8 ≤ succp b := by
      rw [succp_eq (x := b) (by omega), predp_eq (x := head) (by omega)]; omega
    rw [if_neg h0, readWord_writeWord_disj _ _ _ _ hd2]
    exact e1

theorem push_mem_pred_head (m : Mem) (b head : Nat) (hb : b + 24 < W64) (h0 : head ≠ 0) :
    get_pred (push_mem m b head) head = b := by
  unfold push_mem get_pred
  simp only [h0, if_false]
  rw [readWord_writeWord_same _ _ _ (by omega)]

end MM

namespace MM

/-! ## Nodes of the free lists -/

theorem Heap_node {st : State} {bs : List Blk} {fl : Nat → List Nat} (h : Heap st bs fl)
    {i x : Nat} (hi : i < 15) (hx : x ∈ fl i) :
    st.mem_lo + 8 ≤ x ∧ x + 40 ≤ st.mem_brk ∧ x + 40 < W64 ∧ x ≠ 0 := by
  obtain ⟨c, hc, hcx, _⟩ := h.cls i hi x hx
  have := Heap_blk h hc
  omega

theorem Heap_node_sep {st : State} {bs : List Blk} {fl : Nat → List Nat} (h : Heap st bs fl)
    {i x j y : Nat} (hi : i < 15) (hx : x ∈ fl i) (hj : j < 15) (hy : y ∈ fl j) :
    x = y ∨ x + 32 ≤ y ∨ y + 32 ≤ x := by
  obtain ⟨c, hc, hcx, _⟩ := h.cls i hi x hx
  obtain ⟨d, hd, hdy, _⟩ := h.cls j hj y hy
  have h1 := Heap_blk h hc
  have h2 := Heap_blk h hd
  rcases Heap_sep h hc hd with h3 | h3 | h3
  · left; rw [← hcx, ← hdy, h3]
  · omega
  · omega

theorem Heap_node_class {st : State} {bs : List Blk} {fl : Nat → List Nat} (h : Heap st bs fl)
    {i x j : Nat} (hi : i < 15) (hx : x ∈ fl i) (hj : j < 15) (hy : x ∈ fl j) : i = j := by
  obtain ⟨c, hc, hcx, hci⟩ := h.cls i hi x hx
  obtain ⟨d, hd, hdy, hdj⟩ := h.cls j hj x hy
  have := Geo_addr_inj h.geo hc hd (hcx.trans hdy.symm)
  subst this
  exact hci.symm.trans hdj

/-- A tag byte of a block never lies in the link fields of a block. -/
theorem Heap_tag_link {st : State} {bs : List Blk} {fl : Nat → List Nat} (h : Heap st bs fl)
    {b c : Blk} (hb : b ∈ bs) (hc : c ∈ bs) (y : Nat)
    (hy : (b.addr ≤ y ∧ y < b.addr + 8) ∨ (b.addr + b.size ≤ y + 8 ∧ y < b.addr + b.size)) :
    y < c.addr + 8 ∨ c.addr + 24 ≤ y := by
  have h1 := Heap_blk h hb
  have h2 := Heap_blk h hc
  rcases Heap_sep h hb hc with h3 | h3 | h3
  · subst h3; omega
  · omega
  · omega

theorem getLastD_mem {l : List Nat} (hl : l ≠ []) (a : Nat) : l.getLastD a ∈ l := by
  cases l with
  | nil => exact absurd rfl hl
  | cons b l => exact getLastD_mem_cons l b a

theorem headD_mem {l : List Nat} (hl : l ≠ []) (a : Nat) : l.headD a ∈ l := by
  cases l with
  | nil => exact absurd rfl hl
  | cons b l => simp

/-! ## Unlinking a node -/

theorem Heap_remove {st : State} {bs : List Blk} {fl : Nat → List Nat} (h : Heap st bs fl)
    {i x : Nat} (hi : i < 15) (hx : x ∈ fl i) :
    Heap (remove_from_free_list st x) bs (fun j => if j = i then (fl i).erase x else fl j) := by
  obtain ⟨c, hc, hcx, hci⟩ := h.cls i hi x hx
  have hsz : get_size st.mem x = c.size := by rw [← hcx]; exact Heap_get_size h hc
  have hidx : find_index (get_size st.mem x) = i := by rw [hsz]; exact hci
  obtain ⟨l1, l2, hl⟩ := List.append_of_mem hx
  have hnd := h.nodup i hi
  have hfl := h.lists i hi
  rw [hl] at hnd hfl
  obtain ⟨hprev, hnext⟩ := FList_mid hfl
  have hn0 := FList_ne_zero hfl
  have hmem : ∀ y, y ∈ l1 ++ x :: l2 → y ∈ fl i := fun y hy => hl ▸ hy
  have hx1 : x ∉ l1 := fun hc => by
    have := List.nodup_append.1 hnd
    exact this.2.2 hc (List.mem_cons_self _ _)
  have hx2 : x ∉ l2 := fun hc => by
    have := (List.nodup_append.1 hnd).2.1
    exact (List.nodup_cons.1 this).1 hc
  have herase : (fl i).erase x = l1 ++ l2 := by
    rw [hl, List.erase_append_right _ hx1, List.erase_cons_head]
  -- the neighbours in the list
  have hpv : (l1 = [] ∧ get_pred st.mem x = 0) ∨
      (l1 ≠ [] ∧ get_pred st.mem x ∈ l1) := by
    by_cases h1 : l1 = []
    · left; exact ⟨h1, by rw [hprev, h1]; rfl⟩
    · right; exact ⟨h1, by rw [hprev]; exact getLastD_mem h1 0⟩
  have hnx : get_succ st.mem x = 0 ∨ get_succ st.mem x ∈ l2 := by
    by_cases h1 : l2 = []
    · left; rw [hnext, h1]; rfl
    · right; rw [hnext]; exact headD_mem h1 0
  have hW : W64 = 18446744073709551616 := rfl
  have hpvW : get_pred st.mem x + 24 < W64 := by
    rcases hpv with h1 | h1
    · rw [h1.2, hW]; omega
    · have := Heap_node h hi (hmem _ (List.mem_append_left _ h1.2)); omega
  have hnxW : get_succ st.mem x + 24 < W64 := by
    rcases hnx with h1 | h1
    · rw [h1, hW]; omega
    · have := Heap_node h hi (hmem _ (List.mem_append_right _ (List.mem_cons_of_mem _ h1)))
      omega
  have hpn : get_pred st.mem x = 0 ∨ get_pred st.mem x + 32 ≤ get_succ st.mem x ∨
      get_succ st.mem x + 32 ≤ get_pred st.mem x ∨ get_succ st.mem x = 0 := by
    rcases hpv with h1 | h1
    · exact Or.inl h1.2
    · rcases hnx with h2 | h2
      · exact Or.inr (Or.inr (Or.inr h2))
      · have hne : get_pred st.mem x ≠ get_succ st.mem x := by
          intro he
          exact (List.nodup_append.1 hnd).2.2 h1.2 (List.mem_cons_of_mem _ (he ▸ h2))
        rcases Heap_node_sep h hi (hmem _ (List.mem_append_left _ h1.2)) hi
          (hmem _ (List.mem_append_right _ (List.mem_cons_of_mem _ h2))) with h3 | h3 | h3
        · exact absurd h3 hne
        · exact Or.inr (Or.inl h3)
        · exact Or.inr (Or.inr (Or.inl h3))
  -- bytes outside the link fields of the list neighbours are unchanged
  have hout : ∀ j y z, j < 15 → z ∈ fl j →
      ((y < z + 8 ∨ z + 24 ≤ y) ∨ (z ≠ get_succ st.mem x ∧ z ≠ get_pred st.mem x) ∨
        (z ≠ get_succ st.mem x ∧ y < z + 16) ∨ (z ≠ get_pred st.mem x ∧ z + 16 ≤ y)) →
      (∀ w k, k < 15 → w ∈ fl k → w ≠ z → y < w + 8 ∨ w + 24 ≤ y) →
      (remove_from_free_list st x).mem y = st.mem y := by
    intro j y z hj hz hy hoth
    rw [remove_mem_eq]
    apply unlink_mem_outside _ _ _ _ hpvW hnxW
    · rcases hnx with h2 | h2
      · exact Or.inl h2
      · right
        have hn := hmem _ (List.mem_append_right _ (List.mem_cons_of_mem _ h2))
        by_cases he : get_succ st.mem x = z
        · rw [he]; rw [he] at hy; omega
        · have := hoth _ i hi hn he; omega
    · rcases hpv with h1 | h1
      · exact Or.inl h1.2
      · right
        have hp := hmem _ (List.mem_append_left _ h1.2)
        by_cases he : get_pred st.mem x = z
        · rw [he]; rw [he] at hy; omega
        · have := hoth _ i hi hp he; omega
  have hrd : ∀ t, (∀ w k, k < 15 → w ∈ fl k → t + 8 ≤ w + 8 ∨ w + 24 ≤ t) →
      readWord (remove_from_free_list st x).mem t = readWord st.mem t := by
    intro t ht
    apply readWord_congr
    intro k hk
    rw [remove_mem_eq]
    apply unlink_mem_outside _ _ _ _ hpvW hnxW
    · rcases hnx with h2 | h2
      · exact Or.inl h2
      · have := ht _ i hi (hmem _ (List.mem_append_right _ (List.mem_cons_of_mem _ h2)))
        omega
    · rcases hpv with h1 | h1
      · exact Or.inl h1.2
      · have := ht _ i hi (hmem _ (List.mem_append_left _ h1.2))
        omega
  obtain ⟨f1, f2, f3, _, _⟩ := remove_frame st x
  have hbg := h.brk_ge
  refine ⟨?_, ?_, ?_, ?_, ?_, ?_, ?_, ?_, ?_, ?_⟩
  · rw [f3, f1]; exact h.hs
  · rw [f2]; exact h.brk_lt
  · rw [f1, f2]; exact h.brk_ge
  · rw [f1, f2]; exact h.geo
  · rw [f1, hrd, h.pro]
    intro w k hk hw
    have := Heap_node h hk hw; omega
  · rw [f2, hrd, h.epi]
    intro w k hk hw
    have := Heap_node h hk hw; omega
  · intro b hb
    have hbb := Heap_blk h hb
    rw [hrd, hrd]
    · exact h.tags b hb
    · intro w k hk hw
      obtain ⟨d, hd, hdw, _⟩ := h.cls k hk w hw
      have hdd := Heap_blk h hd
      rcases Heap_sep h hb hd with h3 | h3 | h3
      · subst h3; omega
      · omega
      · omega
    · intro w k hk hw
      obtain ⟨d, hd, hdw, _⟩ := h.cls k hk w hw
      have hdd := Heap_blk h hd
      rcases Heap_sep h hb hd with h3 | h3 | h3
      · subst h3; omega
      · omega
      · omega
  · intro j hj
    rw [remove_seg_eq, hidx]
    by_cases hji : j = i
    · subst hji
      simp only [true_and, if_true]
      rw [herase]
      have key := @FList_remove _ (remove_from_free_list st x).mem _ _ _ _ _ hfl hnd
        (fun hc => hn0 0 hc rfl) (by
          intro y hy
          have hyl : y ∈ l1 ++ x :: l2 := by
            rcases List.mem_append.1 hy with h1 | h1
            · exact List.mem_append_left _ h1
            · exact List.mem_append_right _ (List.mem_cons_of_mem _ h1)
          have hyn := Heap_node h hj (hmem y hyl)
          have hsepy : ∀ w k, k < 15 → w ∈ fl k → w ≠ y → ∀ t, y + 8 ≤ t → t < y + 24 →
              t < w + 8 ∨ w + 24 ≤ t := by
            intro w k hk hw hne t h1 h2
            rcases Heap_node_sep h hk hw hj (hmem y hyl) with h3 | h3 | h3
            · exact absurd h3 hne
            · omega
            · omega
          rw [← hprev, ← hnext]
          constructor
          · by_cases he : y = get_succ st.mem x
            · rw [if_pos he, he, remove_mem_eq]
              apply unlink_mem_pred _ _ _ hpvW hnxW (by rw [← he]; exact hyn.2.2.2)
              rcases hpn with h1 | h1 | h1 | h1
              · exact Or.inl h1
              · exact Or.inr (Or.inl h1)
              · exact Or.inr (Or.inr h1)
              · exact absurd (he.trans h1) hyn.2.2.2
            · rw [if_neg he]
              apply get_pred_congr (by omega)
              intro t h1 h2
              exact hout j t y hj (hmem y hyl) (Or.inr (Or.inr (Or.inl ⟨he, by omega⟩)))
                (fun w k hk hw hne => hsepy w k hk hw hne t h1 (by omega))
          · by_cases he : y = get_pred st.mem x
            · rw [if_pos he, he, remove_mem_eq]
              exact unlink_mem_succ _ _ _ hnxW (by rw [← he]; exact hyn.2.2.2)
            · rw [if_neg he]
              apply get_succ_congr (by omega)
              intro t h1 h2
              exact hout j t y hj (hmem y hyl) (Or.inr (Or.inr (Or.inr ⟨he, by omega⟩)))
                (fun w k hk hw hne => hsepy w k hk hw hne t (by omega) h2))
      rcases hpv with h1 | h1
      · rw [if_pos h1.2]
        rw [if_pos h1.1] at key
        rw [hnext]
        exact key
      · have hp0 : get_pred st.mem x ≠ 0 := hn0 _ (List.mem_append_left _ h1.2)
        rw [if_neg hp0]
        rw [if_neg h1.1] at key
        exact key
    · simp only [hji, false_and, if_false]
      apply FList_frame _ (h.lists j hj)
      intro z hz
      have hzn := Heap_node h hj hz
      have hz1 : z ≠ get_succ st.mem x := by
        intro he
        rcases hnx with h2 | h2
        · exact hzn.2.2.2 (he.trans h2)
        · exact hji (Heap_node_class h hj hz hi
            (hmem _ (List.mem_append_right _ (List.mem_cons_of_mem _ (he ▸ h2)))))
      have hz2 : z ≠ get_pred st.mem x := by
        intro he
        rcases hpv with h1 | h1
        · exact hzn.2.2.2 (he.trans h1.2)
        · exact hji (Heap_node_class h hj hz hi (hmem _ (List.mem_append_left _ (he ▸ h1.2))))
      have hsepz : ∀ w k, k < 15 → w ∈ fl k → w ≠ z → ∀ t, z + 8 ≤ t → t < z + 24 →
          t < w + 8 ∨ w + 24 ≤ t := by
        intro w k hk hw hne t h1 h2
        rcases Heap_node_sep h hk hw hj hz with h3 | h3 | h3
        · exact absurd h3 hne
        · omega
        · omega
      constructor
      · apply get_pred_congr (by omega)
        intro t h1 h2
        exact hout j t z hj hz (Or.inr (Or.inl ⟨hz1, hz2⟩))
          (fun w k hk hw hne => hsepz w k hk hw hne t h1 (by omega))
      · apply get_succ_congr (by omega)
        intro t h1 h2
        exact hout j t z hj hz (Or.inr (Or.inl ⟨hz1, hz2⟩))
          (fun w k hk hw hne => hsepz w k hk hw hne t (by omega) h2)
  · intro j hj y hy
    by_cases hji : j = i
    · subst hji
      simp only [if_true] at hy
      exact h.cls j hj y (List.mem_of_mem_erase hy)
    · simp only [hji, if_false] at hy
      exact h.cls j hj y hy
  · intro j hj
    by_cases hji : j = i
    · subst hji
      simp only [if_true]
      exact (h.nodup j hj).erase x
    · simp only [hji, if_false]
      exact h.nodup j hj

end MM

namespace MM

/-! ## Pushing a node -/

theorem Heap_insert {st : State} {bs : List Blk} {fl : Nat → List Nat} (h : Heap st bs fl)
    {b : Blk} (hb : b ∈ bs) (hun : ∀ j, j < 15 → b.addr ∉ fl j) :
    Heap (insert_to_free_list st b.addr) bs
      (fun j => if j = find_index b.size then b.addr :: fl (find_index b.size) else fl j) := by
  have hi := find_index_lt b.size
  have hidx : find_index (get_size st.mem b.addr) = find_index b.size := by
    rw [Heap_get_size h hb]
  have hbb := Heap_blk h hb
  have hfl := h.lists _ hi
  have hhead := FList_head hfl
  have hW : W64 = 18446744073709551616 := rfl
  have hhd : st.segregated_list (find_index b.size) = 0 ∨
      st.segregated_list (find_index b.size) ∈ fl (find_index b.size) := by
    by_cases h1 : fl (find_index b.size) = []
    · left; rw [hhead, h1]; rfl
    · right; rw [hhead]; exact headD_mem h1 0
  have hbW : b.addr + 24 < W64 := by omega
  have hhW : st.segregated_list (find_index b.size) + 24 < W64 := by
    rcases hhd with h1 | h1
    · rw [h1, hW]; omega
    · have := Heap_node h hi h1; omega
  have hbsep : ∀ w k, k < 15 → w ∈ fl k → b.addr + 32 ≤ w ∨ w + 32 ≤ b.addr := by
    intro w k hk hw
    obtain ⟨d, hd, hdw, _⟩ := h.cls k hk w hw
    have hdd := Heap_blk h hd
    rcases Heap_sep h hb hd with h3 | h3 | h3
    · subst h3
      exact absurd (by rw [hdw]; exact hw) (hun k hk)
    · omega
    · omega
  have hsep : st.segregated_list (find_index b.size) = 0 ∨
      b.addr + 32 ≤ st.segregated_list (find_index b.size) ∨
      st.segregated_list (find_index b.size) + 32 ≤ b.addr := by
    rcases hhd with h1 | h1
    · exact Or.inl h1
    · exact Or.inr (hbsep _ _ hi h1)
  have hout : ∀ y, (y < b.addr + 8 ∨ b.addr + 24 ≤ y) →
      (∀ w k, k < 15 → w ∈ fl k → y < w + 8 ∨ w + 16 ≤ y) →
      (insert_to_free_list st b.addr).mem y = st.mem y := by
    intro y h1 h2
    rw [insert_mem_eq, hidx]
    apply push_mem_outside _ _ _ _ hbW hhW h1
    rcases hhd with h3 | h3
    · exact Or.inl h3
    · exact Or.inr (h2 _ _ hi h3)
  have hrd : ∀ t, (t + 8 ≤ b.addr + 8 ∨ b.addr + 24 ≤ t) →
      (∀ w k, k < 15 → w ∈ fl k → t + 8 ≤ w + 8 ∨ w + 16 ≤ t) →
      readWord (insert_to_free_list st b.addr).mem t = readWord st.mem t := by
    intro t h1 h2
    apply readWord_congr
    intro k hk
    apply hout
    · omega
    · intro w j hj hw
      have := h2 w j hj hw
      omega
  obtain ⟨f1, f2, f3, _, _⟩ := insert_frame st b.addr
  have hbg := h.brk_ge
  refine ⟨?_, ?_, ?_, ?_, ?_, ?_, ?_, ?_, ?_, ?_⟩
  · rw [f3, f1]; exact h.hs
  · rw [f2]; exact h.brk_lt
  · rw [f1, f2]; exact h.brk_ge
  · rw [f1, f2]; exact h.geo
  · rw [f1, hrd, h.pro]
    · omega
    · intro w k hk hw
      have := Heap_node h hk hw; omega
  · rw [f2, hrd, h.epi]
    · omega
    · intro w k hk hw
      have := Heap_node h hk hw; omega
  · intro c hc
    have hcc := Heap_blk h hc
    have key : ∀ d, d ∈ bs → ∀ t, (t = c.addr ∨ t = c.addr + c.size - 8) →
        t + 8 ≤ d.addr + 8 ∨ d.addr + 24 ≤ t := by
      intro d hd t ht
      have hdd := Heap_blk h hd
      rcases Heap_sep h hc hd with h3 | h3 | h3
      · subst h3; omega
      · omega
      · omega
    have key2 : ∀ t, (t = c.addr ∨ t = c.addr + c.size - 8) →
        readWord (insert_to_free_list st b.addr).mem t = readWord st.mem t := by
      intro t ht
      apply hrd t (key b hb t ht)
      intro w k hk hw
      obtain ⟨d, hd, hdw, _⟩ := h.cls k hk w hw
      have := key d hd t ht
      omega
    rw [key2 _ (Or.inl rfl), key2 _ (Or.inr rfl)]
    exact h.tags c hc
  · intro j hj
    rw [insert_seg_eq, hidx]
    by_cases hji : j = find_index b.size
    · subst hji
      simp only [if_true]
      apply FList_insert hfl (by omega) (hun _ hj) (h.nodup _ hj)
      · rw [insert_mem_eq, hidx]
        exact push_mem_pred_self _ _ _ hbW hhW hsep
      · rw [insert_mem_eq, hidx]
        exact push_mem_succ_self _ _ _ hbW hhW hsep
      · intro y hy
        have hyn := Heap_node h hj hy
        have hyb := hbsep y _ hj hy
        have hsepy : ∀ w k, k < 15 → w ∈ fl k → w ≠ y → ∀ t, y + 8 ≤ t → t < y + 24 →
            t < w + 8 ∨ w + 16 ≤ t := by
          intro w k hk hw hne t h1 h2
          rcases Heap_node_sep h hk hw hj hy with h3 | h3 | h3
          · exact absurd h3 hne
          · omega
          · omega
        have hgen : ∀ t, y + 8 ≤ t → t < y + 24 →
            (y ≠ st.segregated_list (find_index b.size) ∨ y + 16 ≤ t) →
            (insert_to_free_list st b.addr).mem t = st.mem t := by
          intro t h1 h2 h3
          rw [insert_mem_eq, hidx]
          apply push_mem_outside _ _ _ _ hbW hhW (by omega)
          rcases hhd with h4 | h4
          · exact Or.inl h4
          · right
            by_cases he : st.segregated_list (find_index b.size) = y
            · rw [he]; rcases h3 with h3 | h3
              · exact absurd he.symm h3
              · omega
            · exact hsepy _ _ hj h4 he t h1 h2
        constructor
        · by_cases he : y = st.segregated_list (find_index b.size)
          · rw [if_pos he, he, insert_mem_eq, hidx]
            exact push_mem_pred_head _ _ _ hbW (by rw [← he]; exact hyn.2.2.2)
          · rw [if_neg he]
            apply get_pred_congr (by omega)
            intro t h1 h2
            exact hgen t h1 (by omega) (Or.inl he)
        · apply get_succ_congr (by omega)
          intro t h1 h2
          exact hgen t (by omega) h2 (Or.inr h1)
    · simp only [hji, if_false]
      apply FList_frame _ (h.lists j hj)
      intro z hz
      have hzn := Heap_node h hj hz
      have hzb := hbsep z _ hj hz
      have hgen : ∀ t, z + 8 ≤ t → t < z + 24 →
          (insert_to_free_list st b.addr).mem t = st.mem t := by
        intro t h1 h2
        rw [insert_mem_eq, hidx]
        apply push_mem_outside _ _ _ _ hbW hhW (by omega)
        rcases hhd with h4 | h4
        · exact Or.inl h4
        · right
          rcases Heap_node_sep h hi h4 hj hz with h3 | h3 | h3
          · exact absurd (Heap_node_class h hj hz hi (h3 ▸ h4)) hji
          · omega
          · omega
      exact ⟨get_pred_congr (by omega) (fun t h1 h2 => hgen t h1 (by omega)),
        get_succ_congr (by omega) (fun t h1 h2 => hgen t (by omega) h2)⟩
  · intro j hj y hy
    by_cases hji : j = find_index b.size
    · subst hji
      simp only [if_true] at hy
      rcases List.mem_cons.1 hy with h1 | h1
      · exact ⟨b, hb, h1.symm, rfl⟩
      · exact h.cls _ hj y h1
    · simp only [hji, if_false] at hy
      exact h.cls j hj y hy
  · intro j hj
    by_cases hji : j = find_index b.size
    · subst hji
      simp only [if_true]
      exact List.nodup_cons.2 ⟨hun _ hj, h.nodup _ hj⟩
    · simp only [hji, if_false]
      exact h.nodup j hj

end MM

namespace MM

/-! ## Neighbouring free blocks -/

theorem NoAdj_mid {pre post : List Blk} {b : Blk} :
    NoAdj (pre ++ b :: post) ↔ NoAdj pre ∧ NoAdj post ∧
      (∀ p ∈ pre.getLast?, p.alloc = true ∨ b.alloc = true) ∧
      (∀ n ∈ post.head?, b.alloc = true ∨ n.alloc = true) := by
  unfold NoAdj
  rw [List.chain'_append, List.chain'_cons']
  simp only [List.head?_cons, Option.mem_def, Option.some.injEq, forall_eq']
  tauto

theorem NoAdj_nil : NoAdj [] := List.chain'_nil

theorem NoAdj_concat {pre : List Blk} {p : Blk} :
    NoAdj (pre ++ [p]) ↔ NoAdj pre ∧ (∀ q ∈ pre.getLast?, q.alloc = true ∨ p.alloc = true) := by
  rw [NoAdj_mid]
  simp [NoAdj_nil]

theorem NoAdj_cons {post : List Blk} {n : Blk} :
    NoAdj (n :: post) ↔ NoAdj post ∧ (∀ q ∈ post.head?, n.alloc = true ∨ q.alloc = true) := by
  have := @NoAdj_mid [] post n
  simp only [List.nil_append] at this
  rw [this]
  simp [NoAdj_nil]

/-! ## Free blocks against listed blocks -/

theorem Listed_remove {st : State} {bs : List Blk} {fl : Nat → List Nat} {U : List Nat}
    (h : Heap st bs fl) (hl : ListedU bs fl U) {n : Blk} (hn : n ∈ bs) :
    ListedU bs (fun j => if j = find_index n.size then (fl (find_index n.size)).erase n.addr
      else fl j) (n.addr :: U) := by
  constructor
  · intro c hc hfree hcU
    simp only [List.mem_cons, not_or] at hcU
    have := hl.1 c hc hfree hcU.2
    by_cases he : find_index c.size = find_index n.size
    · simp only [he, if_true]
      rw [he] at this
      exact (List.mem_erase_of_ne hcU.1).2 this
    · simp only [he, if_false]
      exact this
  · intro j hj y hy
    have hy' : y ∈ fl j := by
      by_cases he : j = find_index n.size
      · simp only [he, if_true] at hy
        rw [he]; exact List.mem_of_mem_erase hy
      · simp only [he, if_false] at hy
        exact hy
    have hne : y ≠ n.addr := by
      by_cases he : j = find_index n.size
      · simp only [he, if_true] at hy
        exact ((h.nodup _ (find_index_lt _)).mem_erase_iff.1 hy).1
      · intro hyn
        obtain ⟨c, hc, hcy, hcj⟩ := h.cls j hj y hy'
        have := Geo_addr_inj h.geo hc hn (hcy.trans hyn)
        subst this
        exact he hcj.symm
    have := hl.2 j hj y hy'
    refine ⟨?_, this.2⟩
    simp only [List.mem_cons, not_or]
    exact ⟨hne, this.1⟩

theorem Listed_insert {st : State} {bs : List Blk} {fl : Nat → List Nat}
    (h : Heap st bs fl) {b : Blk} (hl : ListedU bs fl [b.addr]) (hb : b ∈ bs)
    (hfree : b.alloc = false) :
    ListedU bs (fun j => if j = find_index b.size then b.addr :: fl (find_index b.size)
      else fl j) [] := by
  constructor
  · intro c hc hcf _
    by_cases hcb : c.addr = b.addr
    · have := Geo_addr_inj h.geo hc hb hcb
      subst this
      simp
    · have := hl.1 c hc hcf (by simpa using hcb)
      by_cases he : find_index c.size = find_index b.size
      · simp only [he, if_true]
        rw [he] at this
        exact List.mem_cons_of_mem _ this
      · simp only [he, if_false]
        exact this
  · intro j hj y hy
    refine ⟨by simp, ?_⟩
    intro c hc hcy
    by_cases hyb : y = b.addr
    · have := Geo_addr_inj h.geo hc hb (hcy.trans hyb)
      subst this
      exact hfree
    · have hy' : y ∈ fl j := by
        by_cases he : j = find_index b.size
        · simp only [he, if_true] at hy
          rcases List.mem_cons.1 hy with h1 | h1
          · exact absurd h1 hyb
          · rw [he]; exact h1
        · simp only [he, if_false] at hy
          exact hy
      exact (hl.2 j hj y hy').2 c hc hcy

theorem Listed_unlisted {bs : List Blk} {fl : Nat → List Nat} {U : List Nat}
    (hl : ListedU bs fl U) {x : Nat} (hx : x ∈ U) : ∀ j, j < 15 → x ∉ fl j :=
  fun j hj hc => (hl.2 j hj x hc).1 hx

/-- Replacing the unlisted run `mid` by one free block leaves that block as
the only free block outside the lists. -/
theorem Listed_merge {pre mid post : List Blk} {fl : Nat → List Nat} {U : List Nat} {a e : Nat}
    {lo hi : Nat} (g1 : Geo lo pre a) (g2 : Geo a mid e) (g3 : Geo e post hi) (hne : mid ≠ [])
    (hl : ListedU (pre ++ (mid ++ post)) fl U) (hU : ∀ u, u ∈ U ↔ ∃ c ∈ mid, c.addr = u)
    :
    ListedU (pre ++ ⟨a, e - a, false⟩ :: post) fl [a] := by
  have hlen := Geo_le g2
  have haU : a ∈ U := by
    cases mid with
    | nil => exact absurd rfl hne
    | cons x xs => exact (hU a).2 ⟨x, List.mem_cons_self _ _, g2.1⟩
  constructor
  · intro c hc hcf hca
    simp only [List.mem_singleton] at hca
    have hc' : c ∈ pre ∨ c ∈ post := by
      rcases List.mem_append.1 hc with h1 | h1
      · exact Or.inl h1
      · rcases List.mem_cons.1 h1 with h2 | h2
        · subst h2; exact absurd rfl hca
        · exact Or.inr h2
    apply hl.1 c _ hcf
    · intro hcU
      obtain ⟨d, hd, hdc⟩ := (hU _).1 hcU
      have hdm := Geo_mem g2 hd
      rcases hc' with h1 | h1
      · have := Geo_mem g1 h1; omega
      · have := Geo_mem g3 h1; omega
    · rcases hc' with h1 | h1
      · exact List.mem_append_left _ h1
      · exact List.mem_append_right _ (List.mem_append_right _ h1)
  · intro j hj y hy
    have := hl.2 j hj y hy
    refine ⟨?_, ?_⟩
    · simp only [List.mem_singleton]
      rintro rfl
      exact this.1 haU
    · intro c hc hcy
      rcases List.mem_append.1 hc with h1 | h1
      · exact this.2 c (List.mem_append_left _ h1) hcy
      · rcases List.mem_cons.1 h1 with h2 | h2
        · subst h2; rfl
        · exact this.2 c (List.mem_append_right _ (List.mem_append_right _ h2)) hcy

end MM

namespace MM

/-! ## The four cases of `coalesce_block` -/

theorem coalesce_case1 (st : State) (x : Nat) (hp : coalesce_prev_alloc st.mem x = true)
    (hn : coalesce_next_alloc st.mem x = true) : coalesce_block st x = (st, x) := by
  unfold coalesce_prev_alloc at hp
  unfold coalesce_next_alloc at hn
  unfold coalesce_block
  simp only [hp, hn, and_self, if_true]

theorem coalesce_case2 (st : State) (x : Nat) (hp : coalesce_prev_alloc st.mem x = true)
    (hn : coalesce_next_alloc st.mem x = false) :
    coalesce_block st x =
      ((remove_from_free_list st (find_next st.mem x)).setMem
        (write_block (remove_from_free_list st (find_next st.mem x)).mem x
          (add64 (get_size st.mem x) (get_size st.mem (find_next st.mem x))) false), x) := by
  unfold coalesce_prev_alloc at hp
  unfold coalesce_next_alloc at hn
  unfold coalesce_block
  simp [hp, hn]

theorem coalesce_case3 (st : State) (x : Nat) (hp : coalesce_prev_alloc st.mem x = false)
    (hn : coalesce_next_alloc st.mem x = true) :
    coalesce_block st x =
      ((remove_from_free_list st (find_prev st.mem x)).setMem
        (write_block (remove_from_free_list st (find_prev st.mem x)).mem
          (find_prev (remove_from_free_list st (find_prev st.mem x)).mem x)
          (add64 (get_size st.mem x) (get_size st.mem (find_prev st.mem x))) false),
       find_prev (write_block (remove_from_free_list st (find_prev st.mem x)).mem
          (find_prev (remove_from_free_list st (find_prev st.mem x)).mem x)
          (add64 (get_size st.mem x) (get_size st.mem (find_prev st.mem x))) false) x) := by
  unfold coalesce_prev_alloc at hp
  unfold coalesce_next_alloc at hn
  unfold coalesce_block
  simp [hp, hn]

theorem coalesce_case4 (st : State) (x : Nat) (hp : coalesce_prev_alloc st.mem x = false)
    (hn : coalesce_next_alloc st.mem x = false) :
    coalesce_block st x =
      ((remove_from_free_list (remove_from_free_list st (find_prev st.mem x))
          (find_next (remove_from_free_list st (find_prev st.mem x)).mem x)).setMem
        (write_block (remove_from_free_list (remove_from_free_list st (find_prev st.mem x))
            (find_next (remove_from_free_list st (find_prev st.mem x)).mem x)).mem
          (find_prev (remove_from_free_list (remove_from_free_list st (find_prev st.mem x))
            (find_next (remove_from_free_list st (find_prev st.mem x)).mem x)).mem x)
          (add64 (get_size st.mem x) (add64 (get_size st.mem (find_prev st.mem x))
            (get_size st.mem (find_next st.mem x)))) false),
       find_prev (write_block (remove_from_free_list (remove_from_free_list st
              (find_prev st.mem x))
            (find_next (remove_from_free_list st (find_prev st.mem x)).mem x)).mem
          (find_prev (remove_from_free_list (remove_from_free_list st (find_prev st.mem x))
            (find_next (remove_from_free_list st (find_prev st.mem x)).mem x)).mem x)
          (add64 (get_size st.mem x) (add64 (get_size st.mem (find_prev st.mem x))
            (get_size st.mem (find_next st.mem x)))) false) x) := by
  unfold coalesce_prev_alloc at hp
  unfold coalesce_next_alloc at hn
  unfold coalesce_block
  simp [hp, hn]

/-! ## Neighbours of a block -/

theorem find_prev_of_footer (m : Mem) (x psz : Nat) (al : Bool)
    (hf : readWord m (x - 8) = pack psz al) (h32 : 32 ≤ psz) (h16 : psz % 16 = 0)
    (hx : psz + 8 ≤ x) (hW : x + 8 < W64) : find_prev m x = x - psz := by
  unfold find_prev find_prev_footer footer_to_header wsize
  rw [sub64_eq (by omega) (by omega)]
  simp only [hf, extract_size_pack al h16 (show psz < W64 by omega)]
  rw [if_neg (by omega), add64_eq (by omega), sub64_eq (by omega) (by omega)]
  omega

theorem Heap_prev_alloc_first {st : State} {post : List Blk} {fl : Nat → List Nat} {b : Blk}
    (h : Heap st (b :: post) fl) : coalesce_prev_alloc st.mem b.addr = true := by
  unfold coalesce_prev_alloc
  rw [Heap_find_prev_first h]
  simp

theorem Heap_prev_alloc_next {st : State} {pre post : List Blk} {fl : Nat → List Nat}
    {p b : Blk} (h : Heap st (pre ++ p :: b :: post) fl) :
    coalesce_prev_alloc st.mem b.addr = p.alloc := by
  unfold coalesce_prev_alloc
  have hp : p ∈ pre ++ p :: b :: post := by simp
  have := Heap_blk h hp
  rw [Heap_find_prev_next h, if_neg (by omega), Heap_get_alloc h hp]

theorem Heap_next_alloc_last {st : State} {pre : List Blk} {fl : Nat → List Nat} {b : Blk}
    (h : Heap st (pre ++ [b]) fl) : coalesce_next_alloc st.mem b.addr = true := by
  unfold coalesce_next_alloc
  have hb : b ∈ pre ++ [b] := by simp
  have hbb := Heap_blk h hb
  have hl := Geo_last h.geo
  rw [Heap_find_next h hb, if_neg (by omega)]
  unfold get_alloc
  rw [hl, h.epi, pack_zero_true, extract_alloc_one]

theorem Heap_next_alloc_next {st : State} {pre post : List Blk} {fl : Nat → List Nat}
    {b n : Blk} (h : Heap st (pre ++ b :: n :: post) fl) :
    coalesce_next_alloc st.mem b.addr = n.alloc ∧ find_next st.mem b.addr = n.addr := by
  unfold coalesce_next_alloc
  have hb : b ∈ pre ++ b :: n :: post := by simp
  have hn : n ∈ pre ++ b :: n :: post := by simp
  have hbb := Heap_blk h hb
  have hg := (Geo_split h.geo).2.1.1
  rw [Heap_find_next h hb, if_neg (by omega), ← hg, Heap_get_alloc h hn]
  exact ⟨rfl, rfl⟩

end MM

namespace MM

/-! ## Footprints of the primitive stores -/

theorem Only_refl (S : Nat → Prop) (m : Mem) : Only S m m := fun _ h => absurd rfl h

theorem Only_of_eq {S : Nat → Prop} {m m' : Mem} (h : m' = m) : Only S m m' := by
  subst h; exact Only_refl S m'

theorem Only_trans {S S' : Nat → Prop} {m m' m'' : Mem} (h1 : Only S m m')
    (h2 : Only S' m' m'') : Only (fun y => S y ∨ S' y) m m'' := by
  intro y hy
  by_cases h : m' y = m y
  · exact Or.inr (h2 y (by rw [h]; exact hy))
  · exact Or.inl (h1 y h)

theorem Only_mono {S S' : Nat → Prop} {m m' : Mem} (h : Only S m m')
    (hs : ∀ y, S y → S' y) : Only S' m m' := fun y hy => hs y (h y hy)

theorem write_block_only (m : Mem) (a sz : Nat) (al : Bool) (h16 : sz % 16 = 0)
    (hsz : 16 ≤ sz) (hlt : a + sz + 8 < W64) : Only (in_tags a sz) m (write_block m a sz al) := by
  intro y hy
  by_contra hc
  unfold in_tags at hc
  exact hy (write_block_outside m a sz al h16 hsz hlt y (by omega))

theorem writeWord_only (m : Mem) (a v : Nat) :
    Only (fun y => a ≤ y ∧ y < a + 8) m (writeWord m a v) := by
  intro y hy
  by_contra hc
  exact hy (writeWord_outside m a v y (by omega))

/-- Unlinking a node writes only into link fields of nodes of the lists. -/
theorem remove_only {st : State} {bs : List Blk} {fl : Nat → List Nat} (h : Heap st bs fl)
    {i x : Nat} (hi : i < 15) (hx : x ∈ fl i) :
    Only (in_lists fl) st.mem (remove_from_free_list st x).mem := by
  obtain ⟨l1, l2, hl⟩ := List.append_of_mem hx
  have hfl := h.lists i hi
  rw [hl] at hfl
  obtain ⟨hprev, hnext⟩ := FList_mid hfl
  have hmem : ∀ y, y ∈ l1 ++ x :: l2 → y ∈ fl i := fun y hy => hl ▸ hy
  have hpv : get_pred st.mem x = 0 ∨ get_pred st.mem x ∈ fl i := by
    by_cases h1 : l1 = []
    · left; rw [hprev, h1]; rfl
    · right; rw [hprev]; exact hmem _ (List.mem_append_left _ (getLastD_mem h1 0))
  have hnx : get_succ st.mem x = 0 ∨ get_succ st.mem x ∈ fl i := by
    by_cases h1 : l2 = []
    · left; rw [hnext, h1]; rfl
    · right; rw [hnext]
      exact hmem _ (List.mem_append_right _ (List.mem_cons_of_mem _ (headD_mem h1 0)))
  have hW : W64 = 18446744073709551616 := rfl
  have hpvW : get_pred st.mem x + 24 < W64 := by
    rcases hpv with h1 | h1
    · rw [h1, hW]; omega
    · have := Heap_node h hi h1; omega
  have hnxW : get_succ st.mem x + 24 < W64 := by
    rcases hnx with h1 | h1
    · rw [h1, hW]; omega
    · have := Heap_node h hi h1; omega
  intro y hy
  by_contra hc
  apply hy
  rw [remove_mem_eq]
  apply unlink_mem_outside _ _ _ _ hpvW hnxW
  · rcases hnx with h1 | h1
    · exact Or.inl h1
    · right
      by_contra hin
      exact hc ⟨i, hi, _, h1, by unfold in_links; omega⟩
  · rcases hpv with h1 | h1
    · exact Or.inl h1
    · right
      by_contra hin
      exact hc ⟨i, hi, _, h1, by unfold in_links; omega⟩

/-- Pushing a block writes only into its own link fields and into a link
field of the old head of its list. -/
theorem insert_only {st : State} {bs : List Blk} {fl : Nat → List Nat} (h : Heap st bs fl)
    {b : Blk} (hb : b ∈ bs) :
    Only (fun y => in_links b.addr y ∨ in_lists fl y) st.mem
      (insert_to_free_list st b.addr).mem := by
  have hi := find_index_lt b.size
  have hbb := Heap_blk h hb
  have hfl := h.lists _ hi
  have hhead := FList_head hfl
  have hW : W64 = 18446744073709551616 := rfl
  have hhd : st.segregated_list (find_index b.size) = 0 ∨
      st.segregated_list (find_index b.size) ∈ fl (find_index b.size) := by
    by_cases h1 : fl (find_index b.size) = []
    · left; rw [hhead, h1]; rfl
    · right; rw [hhead]; exact headD_mem h1 0
  have hhW : st.segregated_list (find_index b.size) + 24 < W64 := by
    rcases hhd with h1 | h1
    · rw [h1, hW]; omega
    · have := Heap_node h hi h1; omega
  intro y hy
  by_contra hc
  apply hy
  rw [insert_mem_eq, Heap_get_size h hb]
  apply push_mem_outside _ _ _ _ (by omega) hhW
  · by_contra hin
    exact hc (Or.inl (by unfold in_links; omega))
  · rcases hhd with h1 | h1
    · exact Or.inl h1
    · right
      by_contra hin
      exact hc (Or.inr ⟨_, hi, _, h1, by unfold in_links; omega⟩)

theorem in_lists_unlist {fl : Nat → List Nat} {n : Blk} {y : Nat}
    (h : in_lists (unlist fl n) y) : in_lists fl y := by
  obtain ⟨i, hi, z, hz, hy⟩ := h
  unfold unlist at hz
  by_cases hc : i = find_index n.size
  · rw [if_pos hc] at hz
    exact ⟨i, hi, z, by rw [hc]; exact List.mem_of_mem_erase hz, hy⟩
  · rw [if_neg hc] at hz
    exact ⟨i, hi, z, hz, hy⟩

theorem in_lists_enlist {fl : Nat → List Nat} {b : Blk} {y : Nat}
    (h : in_lists (enlist fl b) y) : in_links b.addr y ∨ in_lists fl y := by
  obtain ⟨i, hi, z, hz, hy⟩ := h
  unfold enlist at hz
  by_cases hc : i = find_index b.size
  · rw [if_pos hc] at hz
    rcases List.mem_cons.1 hz with rfl | hz
    · exact Or.inl hy
    · exact Or.inr ⟨i, hi, z, by rw [hc]; exact hz, hy⟩
  · rw [if_neg hc] at hz
    exact Or.inr ⟨i, hi, z, hz, hy⟩

end MM

namespace MM

theorem Heap_remove_blk {st : State} {bs : List Blk} {fl : Nat → List Nat} {U : List Nat}
    (h : Heap st bs fl) (hl : ListedU bs fl U) {n : Blk} (hn : n ∈ bs) (hnf : n.alloc = false)
    (hnU : n.addr ∉ U) :
    Heap (remove_from_free_list st n.addr) bs (unlist fl n) ∧
      ListedU bs (unlist fl n) (n.addr :: U) :=
  ⟨Heap_remove h (find_index_lt _) (hl.1 n hn hnf hnU), Listed_remove h hl hn⟩

theorem Heap_insert_blk {st : State} {bs : List Blk} {fl : Nat → List Nat}
    (h : Heap st bs fl) {b : Blk} (hl : ListedU bs fl [b.addr]) (hb : b ∈ bs)
    (hfree : b.alloc = false) :
    Heap (insert_to_free_list st b.addr) bs (enlist fl b) ∧ Listed bs (enlist fl b) :=
  ⟨Heap_insert h hb (Listed_unlisted hl (List.mem_singleton_self _)),
    Listed_insert h hl hb hfree⟩

/-- Case 2 of `coalesce_block`: only the next block is free. The last part
says where the memory may have changed. -/
theorem coalesce_next_full {st : State} {pre post : List Blk} {fl : Nat → List Nat} {b n : Blk}
    (h : Heap st (pre ++ b :: n :: post) fl) (hnf : n.alloc = false)
    (hl : ListedU (pre ++ b :: n :: post) fl [b.addr])
    (hPA : coalesce_prev_alloc st.mem b.addr = true) (hna1 : NoAdj pre)
    (hPAl : ∀ q ∈ pre.getLast?, q.alloc = true) (hna2 : NoAdj (n :: post)) :
    ∃ st', coalesce_block st b.addr = (st', b.addr) ∧
    Heap st' (pre ++ ⟨b.addr, b.size + n.size, false⟩ :: post) (unlist fl n) ∧
    ListedU (pre ++ ⟨b.addr, b.size + n.size, false⟩ :: post) (unlist fl n) [b.addr] ∧
    NoAdj (pre ++ ⟨b.addr, b.size + n.size, false⟩ :: post) ∧
    st'.grants = st.grants ∧ st'.sbrk_calls = st.sbrk_calls ∧
    st'.mem_lo = st.mem_lo ∧ st'.mem_brk = st.mem_brk ∧
    Only (fun y => in_lists fl y ∨ in_tags b.addr (b.size + n.size) y) st.mem st'.mem := by
  obtain ⟨hNA, hfn⟩ := Heap_next_alloc_next h
  have hb : b ∈ pre ++ b :: n :: post := by simp
  have hn : n ∈ pre ++ b :: n :: post := by simp
  have hbb := Heap_blk h hb
  have hnn := Heap_blk h hn
  obtain ⟨g1, g2, _, _, _⟩ := Heap_geo_split h
  have hnaddr : n.addr = b.addr + b.size := g2.1
  rw [coalesce_case2 st b.addr hPA (hNA.trans hnf), hfn, Heap_get_size h hb,
    Heap_get_size h hn, add64_eq (by omega)]
  obtain ⟨h1, hl1⟩ := Heap_remove_blk h hl hn hnf (by simp; omega)
  obtain ⟨f1, f2, f3, f4, f5⟩ := remove_frame st n.addr
  have g1' : Geo ((remove_from_free_list st n.addr).mem_lo + 8) pre b.addr := by rw [f1]; exact g1
  have g2' : Geo b.addr [b, n] (b.addr + b.size + n.size) :=
    ⟨rfl, hbb.2.2.1, hbb.2.2.2.1, g2.1, hnn.2.2.1, hnn.2.2.2.1, rfl⟩
  have g3' : Geo (b.addr + b.size + n.size) post
      ((remove_from_free_list st n.addr).mem_brk - 8) := by
    rw [f2]; exact g2.2.2.2
  have hsz : b.addr + b.size + n.size - b.addr = b.size + n.size := by omega
  have hm := @Heap_merge _ _ [b, n] _ _ _ _ h1 g1' g2' g3' (by simp)
    (by
      intro i hi x hx c hc hcx
      have := (hl1.2 i hi x hx).1
      simp only [List.mem_cons, List.mem_singleton, List.not_mem_nil, or_false] at hc this
      rcases hc with rfl | rfl
      · exact this (Or.inr hcx.symm)
      · exact this (Or.inl hcx.symm)) false
  have hlm := @Listed_merge _ [b, n] _ _ _ _ _ _ _ g1' g2' g3' (by simp) hl1
    (by
      intro u
      simp only [List.mem_cons, List.mem_singleton, List.not_mem_nil, or_false]
      constructor
      · rintro (rfl | rfl)
        · exact ⟨n, Or.inr rfl, rfl⟩
        · exact ⟨b, Or.inl rfl, rfl⟩
      · rintro ⟨c, rfl | rfl, rfl⟩
        · exact Or.inr rfl
        · exact Or.inl rfl)
  rw [hsz] at hm hlm
  refine ⟨_, rfl, hm, hlm, ?_, (setMem_grants _ _).trans f4, (setMem_calls _ _).trans f5,
    (setMem_lo _ _).trans f1, (setMem_brk _ _).trans f2, ?_⟩
  · rw [NoAdj_mid]
    rw [NoAdj_cons] at hna2
    refine ⟨hna1, hna2.1, fun q hq => Or.inl (hPAl q hq), fun q hq => ?_⟩
    rcases hna2.2 q hq with h3 | h3
    · rw [hnf] at h3; exact absurd h3 (by simp)
    · exact Or.inr h3
  · rw [setMem_mem]
    exact Only_trans (remove_only h (find_index_lt _) (hl.1 n hn hnf (by simp; omega)))
      (write_block_only _ _ _ _ (by omega) (by omega) (by omega))

theorem coalesce_next {st : State} {pre post : List Blk} {fl : Nat → List Nat} {b n : Blk}
    (h : Heap st (pre ++ b :: n :: post) fl) (hnf : n.alloc = false)
    (hl : ListedU (pre ++ b :: n :: post) fl [b.addr])
    (hPA : coalesce_prev_alloc st.mem b.addr = true) (hna1 : NoAdj pre)
    (hPAl : ∀ q ∈ pre.getLast?, q.alloc = true) (hna2 : NoAdj (n :: post)) :
    ∃ st', coalesce_block st b.addr = (st', b.addr) ∧
    Heap st' (pre ++ ⟨b.addr, b.size + n.size, false⟩ :: post) (unlist fl n) ∧
    ListedU (pre ++ ⟨b.addr, b.size + n.size, false⟩ :: post) (unlist fl n) [b.addr] ∧
    NoAdj (pre ++ ⟨b.addr, b.size + n.size, false⟩ :: post) ∧
    st'.grants = st.grants ∧ st'.sbrk_calls = st.sbrk_calls ∧
    st'.mem_lo = st.mem_lo ∧ st'.mem_brk = st.mem_brk := by
  obtain ⟨st', h1, h2, h3, h4, h5, h6, h7, h8, _⟩ :=
    coalesce_next_full h hnf hl hPA hna1 hPAl hna2
  exact ⟨st', h1, h2, h3, h4, h5, h6, h7, h8⟩

end MM

namespace MM

/-- Case 3 of `coalesce_block`: only the previous block is free. The last
part says where the memory may have changed. -/
theorem coalesce_prev_full {st : State} {pre post : List Blk} {fl : Nat → List Nat} {p b : Blk}
    (h : Heap st (pre ++ p :: b :: post) fl) (hpf : p.alloc = false)
    (hl : ListedU (pre ++ p :: b :: post) fl [b.addr])
    (hNA : coalesce_next_alloc st.mem b.addr = true) (hna1 : NoAdj (pre ++ [p]))
    (hna2 : NoAdj post) (hNAl : ∀ q ∈ post.head?, q.alloc = true) :
    ∃ st', coalesce_block st b.addr = (st', p.addr) ∧
    Heap st' (pre ++ ⟨p.addr, p.size + b.size, false⟩ :: post) (unlist fl p) ∧
    ListedU (pre ++ ⟨p.addr, p.size + b.size, false⟩ :: post) (unlist fl p) [p.addr] ∧
    NoAdj (pre ++ ⟨p.addr, p.size + b.size, false⟩ :: post) ∧
    st'.grants = st.grants ∧ st'.sbrk_calls = st.sbrk_calls ∧
    st'.mem_lo = st.mem_lo ∧ st'.mem_brk = st.mem_brk ∧
    Only (fun y => in_lists fl y ∨ in_tags p.addr (p.size + b.size) y) st.mem st'.mem := by
  have hPA := (Heap_prev_alloc_next h).trans hpf
  have hfp := Heap_find_prev_next h
  have hp : p ∈ pre ++ p :: b :: post := by simp
  have hb : b ∈ pre ++ p :: b :: post := by simp
  have hpp := Heap_blk h hp
  have hbb := Heap_blk h hb
  obtain ⟨g1, g2, _, _, _⟩ := Heap_geo_split h
  have hbaddr : b.addr = p.addr + p.size := g2.1
  obtain ⟨h1, hl1⟩ := Heap_remove_blk h hl hp hpf (by simp; omega)
  have hfp1 := Heap_find_prev_next h1
  obtain ⟨f1, f2, f3, f4, f5⟩ := remove_frame st p.addr
  have g1' : Geo ((remove_from_free_list st p.addr).mem_lo + 8) pre p.addr := by rw [f1]; exact g1
  have g2' : Geo p.addr [p, b] (p.addr + p.size + b.size) :=
    ⟨rfl, hpp.2.2.1, hpp.2.2.2.1, g2.1, hbb.2.2.1, hbb.2.2.2.1, rfl⟩
  have g3' : Geo (p.addr + p.size + b.size) post
      ((remove_from_free_list st p.addr).mem_brk - 8) := by
    rw [f2]; exact g2.2.2.2
  have hsz : p.addr + p.size + b.size - p.addr = p.size + b.size := by omega
  have hm := @Heap_merge _ _ [p, b] _ _ _ _ h1 g1' g2' g3' (by simp)
    (by
      intro i hi x hx c hc hcx
      have := (hl1.2 i hi x hx).1
      simp only [List.mem_cons, List.mem_singleton, List.not_mem_nil, or_false] at hc this
      rcases hc with rfl | rfl
      · exact this (Or.inl hcx.symm)
      · exact this (Or.inr hcx.symm)) false
  have hlm := @Listed_merge _ [p, b] _ _ _ _ _ _ _ g1' g2' g3' (by simp) hl1
    (by
      intro u
      simp only [List.mem_cons, List.mem_singleton, List.not_mem_nil, or_false]
      constructor
      · rintro (rfl | rfl)
        · exact ⟨p, Or.inl rfl, rfl⟩
        · exact ⟨b, Or.inr rfl, rfl⟩
      · rintro ⟨c, rfl | rfl, rfl⟩
        · exact Or.inl rfl
        · exact Or.inr rfl)
  rw [hsz] at hm hlm
  have hY : find_prev (write_block (remove_from_free_list st p.addr).mem p.addr
      (p.size + b.size) false) b.addr = p.addr := by
    rw [find_prev_of_footer _ b.addr p.size p.alloc _ hpp.2.2.1 hpp.2.2.2.1 (by omega) (by omega)]
    · omega
    · rw [readWord_write_block_other _ _ _ _ (by omega) (by omega) (by omega) _ (by omega)]
      have := (h1.tags p hp).2
      rw [hbaddr]
      exact this
  rw [coalesce_case3 st b.addr hPA hNA]
  simp only [hfp, hfp1]
  rw [Heap_get_size h hb, Heap_get_size h hp, add64_eq (by omega), Nat.add_comm b.size p.size,
    hY]
  refine ⟨_, rfl, hm, hlm, ?_, (setMem_grants _ _).trans f4, (setMem_calls _ _).trans f5,
    (setMem_lo _ _).trans f1, (setMem_brk _ _).trans f2, ?_⟩
  · rw [NoAdj_mid]
    rw [NoAdj_concat] at hna1
    refine ⟨hna1.1, hna2, fun q hq => ?_, fun q hq => Or.inr (hNAl q hq)⟩
    rcases hna1.2 q hq with h3 | h3
    · exact Or.inl h3
    · rw [hpf] at h3; exact absurd h3 (by simp)
  · rw [setMem_mem]
    exact Only_trans (remove_only h (find_index_lt _) (hl.1 p hp hpf (by simp; omega)))
      (write_block_only _ _ _ _ (by omega) (by omega) (by omega))

theorem coalesce_prev {st : State} {pre post : List Blk} {fl : Nat → List Nat} {p b : Blk}
    (h : Heap st (pre ++ p :: b :: post) fl) (hpf : p.alloc = false)
    (hl : ListedU (pre ++ p :: b :: post) fl [b.addr])
    (hNA : coalesce_next_alloc st.mem b.addr = true) (hna1 : NoAdj (pre ++ [p]))
    (hna2 : NoAdj post) (hNAl : ∀ q ∈ post.head?, q.alloc = true) :
    ∃ st', coalesce_block st b.addr = (st', p.addr) ∧
    Heap st' (pre ++ ⟨p.addr, p.size + b.size, false⟩ :: post) (unlist fl p) ∧
    ListedU (pre ++ ⟨p.addr, p.size + b.size, false⟩ :: post) (unlist fl p) [p.addr] ∧
    NoAdj (pre ++ ⟨p.addr, p.size + b.size, false⟩ :: post) ∧
    st'.grants = st.grants ∧ st'.sbrk_calls = st.sbrk_calls ∧
    st'.mem_lo = st.mem_lo ∧ st'.mem_brk = st.mem_brk := by
  obtain ⟨st', h1, h2, h3, h4, h5, h6, h7, h8, _⟩ :=
    coalesce_prev_full h hpf hl hNA hna1 hna2 hNAl
  exact ⟨st', h1, h2, h3, h4, h5, h6, h7, h8⟩

/-- Case 4 of `coalesce_block`: both neighbours are free. The last part says
where the memory may have changed. -/
theorem coalesce_both_full {st : State} {pre post : List Blk} {fl : Nat → List Nat} {p b n : Blk}
    (h : Heap st (pre ++ p :: b :: n :: post) fl) (hpf : p.alloc = false)
    (hnf : n.alloc = false) (hl : ListedU (pre ++ p :: b :: n :: post) fl [b.addr])
    (hna1 : NoAdj (pre ++ [p])) (hna2 : NoAdj (n :: post)) :
    ∃ st', coalesce_block st b.addr = (st', p.addr) ∧
    Heap st' (pre ++ ⟨p.addr, p.size + b.size + n.size, false⟩ :: post)
      (unlist (unlist fl p) n) ∧
    ListedU (pre ++ ⟨p.addr, p.size + b.size + n.size, false⟩ :: post)
      (unlist (unlist fl p) n) [p.addr] ∧
    NoAdj (pre ++ ⟨p.addr, p.size + b.size + n.size, false⟩ :: post) ∧
    st'.grants = st.grants ∧ st'.sbrk_calls = st.sbrk_calls ∧
    st'.mem_lo = st.mem_lo ∧ st'.mem_brk = st.mem_brk ∧
    Only (fun y => in_lists fl y ∨ in_tags p.addr (p.size + b.size + n.size) y)
      st.mem st'.mem := by
  have hPA := (Heap_prev_alloc_next h).trans hpf
  have hfp := Heap_find_prev_next h
  have h' : Heap st ((pre ++ [p]) ++ b :: n :: post) fl := by simpa using h
  obtain ⟨hNA0, hfn⟩ := Heap_next_alloc_next h'
  have hNA := hNA0.trans hnf
  have hp : p ∈ pre ++ p :: b :: n :: post := by simp
  have hb : b ∈ pre ++ p :: b :: n :: post := by simp
  have hn : n ∈ pre ++ p :: b :: n :: post := by simp
  have hpp := Heap_blk h hp
  have hbb := Heap_blk h hb
  have hnn := Heap_blk h hn
  obtain ⟨g1, g2, _, _, _⟩ := Heap_geo_split h
  have hbaddr : b.addr = p.addr + p.size := g2.1
  have hnaddr : n.addr = p.addr + p.size + b.size := g2.2.2.2.1
  obtain ⟨h1, hl1⟩ := Heap_remove_blk h hl hp hpf (by simp; omega)
  have h1' : Heap (remove_from_free_list st p.addr) ((pre ++ [p]) ++ b :: n :: post)
      (unlist fl p) := by simpa using h1
  have hfn1 := (Heap_next_alloc_next h1').2
  obtain ⟨h2, hl2⟩ := Heap_remove_blk h1 hl1 hn hnf (by simp; omega)
  have hfp2 := Heap_find_prev_next h2
  obtain ⟨f1, f2, f3, f4, f5⟩ := remove_frame st p.addr
  obtain ⟨e1, e2, e3, e4, e5⟩ := remove_frame (remove_from_free_list st p.addr) n.addr
  have g1' : Geo ((remove_from_free_list (remove_from_free_list st p.addr) n.addr).mem_lo + 8)
      pre p.addr := by rw [e1, f1]; exact g1
  have g2' : Geo p.addr [p, b, n] (p.addr + p.size + b.size + n.size) :=
    ⟨rfl, hpp.2.2.1, hpp.2.2.2.1, g2.1, hbb.2.2.1, hbb.2.2.2.1, g2.2.2.2.1, hnn.2.2.1,
      hnn.2.2.2.1, rfl⟩
  have g3' : Geo (p.addr + p.size + b.size + n.size) post
      ((remove_from_free_list (remove_from_free_list st p.addr) n.addr).mem_brk - 8) := by
    rw [e2, f2]; exact g2.2.2.2.2.2.2
  have hsz : p.addr + p.size + b.size + n.size - p.addr = p.size + b.size + n.size := by omega
  have hm := @Heap_merge _ _ [p, b, n] _ _ _ _ h2 g1' g2' g3' (by simp)
    (by
      intro i hi x hx c hc hcx
      have := (hl2.2 i hi x hx).1
      simp only [List.mem_cons, List.mem_singleton, List.not_mem_nil, or_false] at hc this
      rcases hc with rfl | rfl | rfl
      · exact this (Or.inr (Or.inl hcx.symm))
      · exact this (Or.inr (Or.inr hcx.symm))
      · exact this (Or.inl hcx.symm)) false
  have hlm := @Listed_merge _ [p, b, n] _ _ _ _ _ _ _ g1' g2' g3' (by simp) hl2
    (by
      intro u
      simp only [List.mem_cons, List.mem_singleton, List.not_mem_nil, or_false]
      constructor
      · rintro (rfl | rfl | rfl)
        · exact ⟨n, Or.inr (Or.inr rfl), rfl⟩
        · exact ⟨p, Or.inl rfl, rfl⟩
        · exact ⟨b, Or.inr (Or.inl rfl), rfl⟩
      · rintro ⟨c, rfl | rfl | rfl, rfl⟩
        · exact Or.inr (Or.inl rfl)
        · exact Or.inr (Or.inr rfl)
        · exact Or.inl rfl)
  rw [hsz] at hm hlm
  have hY : find_prev (write_block (remove_from_free_list (remove_from_free_list st p.addr)
      n.addr).mem p.addr (p.size + b.size + n.size) false) b.addr = p.addr := by
    rw [find_prev_of_footer _ b.addr p.size p.alloc _ hpp.2.2.1 hpp.2.2.2.1 (by omega) (by omega)]
    · omega
    · rw [readWord_write_block_other _ _ _ _ (by omega) (by omega) (by omega) _ (by omega)]
      have := (h2.tags p hp).2
      rw [hbaddr]
      exact this
  have hsum : b.size + (p.size + n.size) = p.size + b.size + n.size := by omega
  rw [coalesce_case4 st b.addr hPA hNA]
  simp only [hfp, hfn, hfn1, hfp2]
  rw [Heap_get_size h hb, Heap_get_size h hp, Heap_get_size h hn,
    add64_eq (a := p.size) (by omega), add64_eq (by omega), hsum, hY]
  refine ⟨_, rfl, hm, hlm, ?_, (setMem_grants _ _).trans (e4.trans f4),
    (setMem_calls _ _).trans (e5.trans f5), (setMem_lo _ _).trans (e1.trans f1),
    (setMem_brk _ _).trans (e2.trans f2), ?_⟩
  · rw [NoAdj_mid]
    rw [NoAdj_concat] at hna1
    rw [NoAdj_cons] at hna2
    refine ⟨hna1.1, hna2.1, fun q hq => ?_, fun q hq => ?_⟩
    · rcases hna1.2 q hq with h3 | h3
      · exact Or.inl h3
      · rw [hpf] at h3; exact absurd h3 (by simp)
    · rcases hna2.2 q hq with h3 | h3
      · rw [hnf] at h3; exact absurd h3 (by simp)
      · exact Or.inr h3
  · rw [setMem_mem]
    have o1 := remove_only h (find_index_lt _) (hl.1 p hp hpf (by simp; omega))
    have o2 := remove_only h1 (find_index_lt _) (hl1.1 n hn hnf (by simp; omega))
    have o3 := write_block_only
      (remove_from_free_list (remove_from_free_list st p.addr) n.addr).mem p.addr
      (p.size + b.size + n.size) false (by omega) (by omega) (by omega)
    refine Only_mono (Only_trans (Only_trans o1 o2) o3) ?_
    rintro y ((hy | hy) | hy)
    · exact Or.inl hy
    · exact Or.inl (in_lists_unlist hy)
    · exact Or.inr hy

theorem coalesce_both {st : State} {pre post : List Blk} {fl : Nat → List Nat} {p b n : Blk}
    (h : Heap st (pre ++ p :: b :: n :: post) fl) (hpf : p.alloc = false)
    (hnf : n.alloc = false) (hl : ListedU (pre ++ p :: b :: n :: post) fl [b.addr])
    (hna1 : NoAdj (pre ++ [p])) (hna2 : NoAdj (n :: post)) :
    ∃ st', coalesce_block st b.addr = (st', p.addr) ∧
    Heap st' (pre ++ ⟨p.addr, p.size + b.size + n.size, false⟩ :: post)
      (unlist (unlist fl p) n) ∧
    ListedU (pre ++ ⟨p.addr, p.size + b.size + n.size, false⟩ :: post)
      (unlist (unlist fl p) n) [p.addr] ∧
    NoAdj (pre ++ ⟨p.addr, p.size + b.size + n.size, false⟩ :: post) ∧
    st'.grants = st.grants ∧ st'.sbrk_calls = st.sbrk_calls ∧
    st'.mem_lo = st.mem_lo ∧ st'.mem_brk = st.mem_brk := by
  obtain ⟨st', h1, h2, h3, h4, h5, h6, h7, h8, _⟩ := coalesce_both_full h hpf hnf hl hna1 hna2
  exact ⟨st', h1, h2, h3, h4, h5, h6, h7, h8⟩

end MM

namespace MM

theorem eq_nil_or_snoc (l : List Blk) : l = [] ∨ ∃ l' a, l = l' ++ [a] := by
  rcases List.eq_nil_or_concat l with h | ⟨l', a, h⟩
  · exact Or.inl h
  · exact Or.inr ⟨l', a, by rw [h, List.concat_eq_append]⟩

theorem getLast?_snoc (l : List Blk) (a : Blk) : (l ++ [a]).getLast? = some a := by
  simp

theorem Heap_prev_alloc_cases {st : State} {pre post : List Blk} {fl : Nat → List Nat} {b : Blk}
    (h : Heap st (pre ++ b :: post) fl) :
    (coalesce_prev_alloc st.mem b.addr = true ∧ ∀ q ∈ pre.getLast?, q.alloc = true) ∨
      (∃ pre' p, pre = pre' ++ [p] ∧ p.alloc = false) := by
  rcases eq_nil_or_snoc pre with rfl | ⟨pre', p, rfl⟩
  · left
    exact ⟨Heap_prev_alloc_first (by simpa using h), by simp⟩
  · have h' : Heap st (pre' ++ p :: b :: post) fl := by simpa using h
    have := Heap_prev_alloc_next h'
    cases hp : p.alloc
    · right; exact ⟨pre', p, rfl, hp⟩
    · left
      rw [hp] at this
      refine ⟨this, ?_⟩
      intro q hq
      rw [getLast?_snoc] at hq
      simp only [Option.mem_def, Option.some.injEq] at hq
      rw [← hq]; exact hp

theorem Heap_next_alloc_cases {st : State} {pre post : List Blk} {fl : Nat → List Nat} {b : Blk}
    (h : Heap st (pre ++ b :: post) fl) :
    (coalesce_next_alloc st.mem b.addr = true ∧ ∀ q ∈ post.head?, q.alloc = true) ∨
      (∃ n post', post = n :: post' ∧ n.alloc = false) := by
  cases post with
  | nil =>
    left
    exact ⟨Heap_next_alloc_last h, by simp⟩
  | cons n post' =>
    have := (Heap_next_alloc_next h).1
    cases hn : n.alloc
    · right; exact ⟨n, post', rfl, hn⟩
    · left
      rw [hn] at this
      refine ⟨this, ?_⟩
      intro q hq
      simp only [List.head?_cons, Option.mem_def, Option.some.injEq] at hq
      rw [← hq]; exact hn

/-- `coalesce_block` on a block that was just marked free and is in no list:
the result is again a heap whose only unlisted free block is the returned one,
and no two neighbouring blocks are free; the memory has changed at most in
link fields of listed nodes and in the tags of the returned block. -/
theorem coalesce_spec_full {st : State} {pre post : List Blk} {fl : Nat → List Nat} {b : Blk}
    (h : Heap st (pre ++ b :: post) fl) (hfree : b.alloc = false)
    (hl : ListedU (pre ++ b :: post) fl [b.addr]) (hna1 : NoAdj pre) (hna2 : NoAdj post) :
    ∃ st' pre' nb post' fl', coalesce_block st b.addr = (st', nb.addr) ∧
      Heap st' (pre' ++ nb :: post') fl' ∧ ListedU (pre' ++ nb :: post') fl' [nb.addr] ∧
      NoAdj (pre' ++ nb :: post') ∧ nb.alloc = false ∧
      st'.grants = st.grants ∧ st'.sbrk_calls = st.sbrk_calls ∧
      st'.mem_lo = st.mem_lo ∧ st'.mem_brk = st.mem_brk ∧
      CoalesceShape pre b post fl pre' nb post' fl' ∧
      Only (fun y => in_lists fl y ∨ (nb ≠ b ∧ in_tags nb.addr nb.size y)) st.mem st'.mem := by
  rcases Heap_prev_alloc_cases h with ⟨hPA, hPAl⟩ | ⟨pre', p, rfl, hpf⟩ <;>
    rcases Heap_next_alloc_cases h with ⟨hNA, hNAl⟩ | ⟨n, post', rfl, hnf⟩
  · refine ⟨st, pre, b, post, fl, coalesce_case1 st b.addr hPA hNA, h, hl, ?_, hfree, rfl, rfl, rfl,
      rfl, Or.inl ⟨rfl, rfl, rfl, rfl, hPAl, hNAl⟩, Only_refl _ _⟩
    rw [NoAdj_mid]
    exact ⟨hna1, hna2, fun q hq => Or.inl (hPAl q hq), fun q hq => Or.inr (hNAl q hq)⟩
  · have hn32 := (Heap_blk h (show n ∈ pre ++ b :: n :: post' by simp)).2.2.1
    obtain ⟨st', h1, h2, h3, h4, h5, h6, h7, h8, h9⟩ :=
      coalesce_next_full h hnf hl hPA hna1 hPAl hna2
    refine ⟨st', pre, ⟨b.addr, b.size + n.size, false⟩, post', unlist fl n, h1, h2, h3, h4, rfl,
      h5, h6, h7, h8, Or.inr (Or.inl ⟨n, rfl, rfl, hnf, rfl, rfl, hPAl⟩), Only_mono h9 ?_⟩
    rintro y (hy | hy)
    · exact Or.inl hy
    · refine Or.inr ⟨?_, hy⟩
      intro he
      have : b.size + n.size = b.size := congrArg Blk.size he
      omega
  · have h' : Heap st (pre' ++ p :: b :: post) fl := by simpa using h
    have hl' : ListedU (pre' ++ p :: b :: post) fl [b.addr] := by simpa using hl
    have hNA' : coalesce_next_alloc st.mem b.addr = true := hNA
    have hp32 := (Heap_blk h' (show p ∈ pre' ++ p :: b :: post by simp)).2.2.1
    obtain ⟨st', h1, h2, h3, h4, h5, h6, h7, h8, h9⟩ :=
      coalesce_prev_full h' hpf hl' hNA' hna1 hna2 hNAl
    refine ⟨st', pre', ⟨p.addr, p.size + b.size, false⟩, post, unlist fl p, h1, h2, h3, h4, rfl,
      h5, h6, h7, h8, Or.inr (Or.inr (Or.inl ⟨p, rfl, rfl, hpf, rfl, rfl, hNAl⟩)),
      Only_mono h9 ?_⟩
    rintro y (hy | hy)
    · exact Or.inl hy
    · refine Or.inr ⟨?_, hy⟩
      intro he
      have : p.size + b.size = b.size := congrArg Blk.size he
      omega
  · have h' : Heap st (pre' ++ p :: b :: n :: post') fl := by simpa using h
    have hl' : ListedU (pre' ++ p :: b :: n :: post') fl [b.addr] := by simpa using hl
    have hp32 := (Heap_blk h' (show p ∈ pre' ++ p :: b :: n :: post' by simp)).2.2.1
    obtain ⟨st', h1, h2, h3, h4, h5, h6, h7, h8, h9⟩ :=
      coalesce_both_full h' hpf hnf hl' hna1 hna2
    refine ⟨st', pre', ⟨p.addr, p.size + b.size + n.size, false⟩, post', unlist (unlist fl p) n,
      h1, h2, h3, h4, rfl, h5, h6, h7, h8,
      Or.inr (Or.inr (Or.inr ⟨p, n, rfl, rfl, hpf, hnf, rfl, rfl⟩)), Only_mono h9 ?_⟩
    rintro y (hy | hy)
    · exact Or.inl hy
    · refine Or.inr ⟨?_, hy⟩
      intro he
      have : p.size + b.size + n.size = b.size := congrArg Blk.size he
      omega

theorem coalesce_spec {st : State} {pre post : List Blk} {fl : Nat → List Nat} {b : Blk}
    (h : Heap st (pre ++ b :: post) fl) (hfree : b.alloc = false)
    (hl : ListedU (pre ++ b :: post) fl [b.addr]) (hna1 : NoAdj pre) (hna2 : NoAdj post) :
    ∃ st' pre' nb post' fl', coalesce_block st b.addr = (st', nb.addr) ∧
      Heap st' (pre' ++ nb :: post') fl' ∧ ListedU (pre' ++ nb :: post') fl' [nb.addr] ∧
      NoAdj (pre' ++ nb :: post') ∧ nb.alloc = false ∧
      st'.grants = st.grants ∧ st'.sbrk_calls = st.sbrk_calls ∧
      st'.mem_lo = st.mem_lo ∧ st'.mem_brk = st.mem_brk ∧
      CoalesceShape pre b post fl pre' nb post' fl' := by
  obtain ⟨st', pre', nb, post', fl', c1, c2, c3, c4, c5, c6, c7, c8, c9, c10, _⟩ :=
    coalesce_spec_full h hfree hl hna1 hna2
  exact ⟨st', pre', nb, post', fl', c1, c2, c3, c4, c5, c6, c7, c8, c9, c10⟩

end MM

namespace MM

/-! ## Marking blocks free or allocated -/

theorem mem_mid_iff {α : Type} {pre post : List α} {b c : α} :
    c ∈ pre ++ b :: post ↔ c = b ∨ c ∈ pre ∨ c ∈ post := by
  simp only [List.mem_append, List.mem_cons]
  tauto

/-- A block of `pre` or `post` has another address than the block between. -/
theorem Geo_mid_addr {lo hi : Nat} {pre post : List Blk} {b c : Blk}
    (g : Geo lo (pre ++ b :: post) hi) (hc : c ∈ pre ∨ c ∈ post) : c.addr ≠ b.addr := by
  obtain ⟨g1, g2, g3, _⟩ := Geo_split g
  rcases hc with h1 | h1
  · have := Geo_mem g1 h1; omega
  · have := Geo_mem g2 h1; omega

theorem Listed_setFree {pre post : List Blk} {fl : Nat → List Nat} {b : Blk}
    (hl : Listed (pre ++ b :: post) fl)
    (hal : b.alloc = true) :
    ListedU (pre ++ ⟨b.addr, b.size, false⟩ :: post) fl [b.addr] := by
  constructor
  · intro c hc hcf hcU
    simp only [List.mem_singleton] at hcU
    rcases mem_mid_iff.1 hc with h1 | h1
    · subst h1; exact absurd rfl hcU
    · exact hl.1 c (mem_mid_iff.2 (Or.inr h1)) hcf (by simp)
  · intro j hj x hx
    have hxb : x ≠ b.addr := by
      rintro rfl
      have := (hl.2 j hj _ hx).2 b (by simp) rfl
      rw [hal] at this
      exact absurd this (by simp)
    refine ⟨by simpa using hxb, ?_⟩
    intro c hc hcx
    rcases mem_mid_iff.1 hc with h1 | h1
    · subst h1; rfl
    · exact (hl.2 j hj x hx).2 c (mem_mid_iff.2 (Or.inr h1)) hcx

theorem Listed_alloc_remove {st : State} {pre post : List Blk} {fl : Nat → List Nat} {c : Blk}
    (h : Heap st (pre ++ c :: post) fl) (hl : Listed (pre ++ c :: post) fl) :
    Listed (pre ++ ⟨c.addr, c.size, true⟩ :: post) (unlist fl c) := by
  have hr := Listed_remove h hl (n := c) (by simp)
  constructor
  · intro d hd hdf _
    rcases mem_mid_iff.1 hd with h1 | h1
    · subst h1; exact absurd hdf (by simp)
    · exact hr.1 d (mem_mid_iff.2 (Or.inr h1)) hdf
        (by simpa using Geo_mid_addr h.geo h1)
  · intro j hj x hx
    have := hr.2 j hj x hx
    refine ⟨by simp, ?_⟩
    intro d hd hdx
    rcases mem_mid_iff.1 hd with h1 | h1
    · subst h1
      exact absurd (show x ∈ [c.addr] from by simpa using hdx.symm) this.1
    · exact this.2 d (mem_mid_iff.2 (Or.inr h1)) hdx

theorem NoAdj_setAlloc {pre post : List Blk} {b : Blk} (h : NoAdj (pre ++ b :: post))
    (b' : Blk) (hb' : b'.alloc = true) : NoAdj (pre ++ b' :: post) := by
  rw [NoAdj_mid] at h ⊢
  exact ⟨h.1, h.2.1, fun q _ => Or.inr hb', fun q _ => Or.inl hb'⟩

end MM

namespace MM

/-! ## `free` -/

theorem free_eq (st : State) (bp : Nat) (hbp : bp ≠ 0) :
    free st bp = insert_to_free_list
      (coalesce_block (st.setMem (write_block st.mem (payload_to_header bp)
        (get_size st.mem (payload_to_header bp)) false)) (payload_to_header bp)).1
      (coalesce_block (st.setMem (write_block st.mem (payload_to_header bp)
        (get_size st.mem (payload_to_header bp)) false)) (payload_to_header bp)).2 := by
  unfold free
  rw [if_neg hbp]

theorem payload_to_header_eq {a : Nat} (h : a + 8 < W64) : payload_to_header (a + 8) = a := by
  unfold payload_to_header wsize
  rw [sub64_eq (by omega) h]
  omega

theorem header_to_payload_eq {a : Nat} (h : a + 8 < W64) : header_to_payload a = a + 8 := by
  unfold header_to_payload wsize
  exact add64_eq h

theorem CoalesceShape_lists {pre post pre' post' : List Blk} {b nb : Blk}
    {fl fl' : Nat → List Nat} (hs : CoalesceShape pre b post fl pre' nb post' fl') {y : Nat}
    (hy : in_lists fl' y) : in_lists fl y := by
  rcases hs with ⟨_, _, _, h, _⟩ | ⟨n, _, _, _, _, h, _⟩ | ⟨p, _, _, _, _, h, _⟩ |
    ⟨p, n, _, _, _, _, _, h⟩
  · rw [h] at hy; exact hy
  · rw [h] at hy; exact in_lists_unlist hy
  · rw [h] at hy; exact in_lists_unlist hy
  · rw [h] at hy; exact in_lists_unlist (in_lists_unlist hy)

/-- Freeing the payload of an allocated block of a well-formed heap. The
last part says where the memory may have changed: the tags of the freed
block, link fields of listed nodes, and the tags and link fields of the
resulting free block. -/
theorem free_spec_full {st : State} {pre post : List Blk} {fl : Nat → List Nat} {b : Blk}
    (hw : WFL st (pre ++ b :: post) fl) (hal : b.alloc = true) :
    ∃ pre' nb post' fl', WFL (free st (b.addr + 8)) (pre' ++ nb :: post') (enlist fl' nb) ∧
      nb.alloc = false ∧
      CoalesceShape pre ⟨b.addr, b.size, false⟩ post fl pre' nb post' fl' ∧
      (free st (b.addr + 8)).grants = st.grants ∧
      (free st (b.addr + 8)).sbrk_calls = st.sbrk_calls ∧
      (free st (b.addr + 8)).mem_lo = st.mem_lo ∧
      (free st (b.addr + 8)).mem_brk = st.mem_brk ∧
      Only (fun y => in_tags b.addr b.size y ∨ in_lists fl y ∨ in_tags nb.addr nb.size y ∨
        in_links nb.addr y) st.mem (free st (b.addr + 8)).mem := by
  obtain ⟨h, hl, hna⟩ := hw
  have hb : b ∈ pre ++ b :: post := by simp
  have hbb := Heap_blk h hb
  have h1 := Heap_setFlag h false
  have hl1 := Listed_setFree hl hal
  obtain ⟨hna1, hna2, _, _⟩ := NoAdj_mid.1 hna
  obtain ⟨st', pre', nb, post', fl', c1, c2, c3, c4, c5, c6, c7, c8, c9, c10, c11⟩ :=
    coalesce_spec_full (b := ⟨b.addr, b.size, false⟩) h1 rfl hl1 hna1 hna2
  have c1' : coalesce_block (st.setMem (write_block st.mem b.addr b.size false)) b.addr =
      (st', nb.addr) := c1
  have hnb : nb ∈ pre' ++ nb :: post' := List.mem_append_right _ (List.mem_cons_self _ _)
  obtain ⟨i1, i2⟩ := Heap_insert_blk c2 c3 hnb c5
  obtain ⟨f1, f2, f3, f4, f5⟩ := insert_frame st' nb.addr
  have o1 := write_block_only st.mem b.addr b.size false (by omega) (by omega) (by omega)
  have o2 := c11
  rw [setMem_mem] at o2
  have o3 := insert_only c2 hnb
  rw [free_eq st (b.addr + 8) (by omega), payload_to_header_eq (by omega), Heap_get_size h hb,
    c1']
  dsimp only
  refine ⟨pre', nb, post', fl', ⟨i1, i2, c4⟩, c5, c10, ?_, ?_, ?_, ?_, ?_⟩
  · exact f4.trans (c6.trans (setMem_grants _ _))
  · exact f5.trans (c7.trans (setMem_calls _ _))
  · exact f1.trans (c8.trans (setMem_lo _ _))
  · exact f2.trans (c9.trans (setMem_brk _ _))
  · refine Only_mono (Only_trans (Only_trans o1 o2) o3) ?_
    rintro y ((hy | hy | hy) | hy | hy)
    · exact Or.inl hy
    · exact Or.inr (Or.inl hy)
    · exact Or.inr (Or.inr (Or.inl hy.2))
    · exact Or.inr (Or.inr (Or.inr hy))
    · exact Or.inr (Or.inl (CoalesceShape_lists c10 hy))

theorem free_spec {st : State} {pre post : List Blk} {fl : Nat → List Nat} {b : Blk}
    (hw : WFL st (pre ++ b :: post) fl) (hal : b.alloc = true) :
    ∃ pre' nb post' fl', WFL (free st (b.addr + 8)) (pre' ++ nb :: post') (enlist fl' nb) ∧
      nb.alloc = false ∧
      CoalesceShape pre ⟨b.addr, b.size, false⟩ post fl pre' nb post' fl' ∧
      (free st (b.addr + 8)).grants = st.grants ∧
      (free st (b.addr + 8)).sbrk_calls = st.sbrk_calls ∧
      (free st (b.addr + 8)).mem_lo = st.mem_lo ∧
      (free st (b.addr + 8)).mem_brk = st.mem_brk := by
  obtain ⟨pre', nb, post', fl', h1, h2, h3, h4, h5, h6, h7, _⟩ := free_spec_full hw hal
  exact ⟨pre', nb, post', fl', h1, h2, h3, h4, h5, h6, h7⟩

end MM

namespace MM

/-! ## `find_fit` -/

theorem nodup_length_le {l : List Nat} {n : Nat} (hnd : l.Nodup) (hlt : ∀ x ∈ l, x < n) :
    l.length ≤ n := by
  have h1 : l.toFinset ⊆ Finset.range n := by
    intro x hx
    rw [List.mem_toFinset] at hx
    exact Finset.mem_range.2 (hlt x hx)
  have h2 := Finset.card_le_card h1
  rw [List.toFinset_card_of_nodup hnd, Finset.card_range] at h2
  exact h2

theorem Heap_list_fuel {st : State} {bs : List Blk} {fl : Nat → List Nat} (h : Heap st bs fl)
    {i : Nat} (hi : i < 15) : (fl i).length < walkFuel st := by
  have h1 : ((fl i).map (fun x => x - st.mem_lo)).length ≤ st.mem_brk - st.mem_lo := by
    apply nodup_length_le
    · apply List.Nodup.map_on _ (h.nodup i hi)
      intro x hx y hy hxy
      have := Heap_node h hi hx
      have := Heap_node h hi hy
      omega
    · intro x hx
      obtain ⟨y, hy, rfl⟩ := List.mem_map.1 hx
      have := Heap_node h hi hy
      omega
  rw [List.length_map] at h1
  unfold walkFuel
  omega

/-- The scan of one list returns its first node that is large enough. -/
theorem find_fit_scan_spec (m : Mem) (asize : Nat) : ∀ (l : List Nat) (p c fuel : Nat),
    FList m p c l → (∀ x ∈ l, get_alloc m x = false) → l.length < fuel →
    find_fit_scan m asize fuel c =
      some ((l.find? (fun x => decide (asize ≤ get_size m x))).getD 0)
  | [], p, c, fuel, hf, _, hlen => by
    have hc : c = 0 := hf
    subst hc
    cases fuel with
    | zero => simp at hlen
    | succ f => simp [find_fit_scan]
  | x :: xs, p, c, fuel, hf, hfree, hlen => by
    obtain ⟨h1, h2, h3, h4⟩ := hf
    subst h1
    cases fuel with
    | zero => simp at hlen
    | succ f =>
      have hx := hfree c (List.mem_cons_self _ _)
      simp only [find_fit_scan, if_neg h2, hx, List.find?_cons]
      by_cases hsz : asize ≤ get_size m c
      · simp [hsz]
      · simp only [hsz, false_and, if_false, decide_False]
        exact find_fit_scan_spec m asize xs c (get_succ m c) f h4
          (fun y hy => hfree y (List.mem_cons_of_mem _ hy))
          (by simp only [List.length_cons] at hlen; omega)

theorem find?_getD_zero {l : List Nat} {q : Nat → Bool} (hn0 : ∀ x ∈ l, x ≠ 0) :
    ((l.find? q).getD 0 = 0 ∧ ∀ x ∈ l, q x = false) ∨
      ((l.find? q).getD 0 ≠ 0 ∧ (l.find? q).getD 0 ∈ l ∧ q ((l.find? q).getD 0) = true) := by
  cases hf : l.find? q with
  | none =>
    left
    refine ⟨rfl, ?_⟩
    intro x hx
    have := List.find?_eq_none.1 hf x hx
    simpa using this
  | some r =>
    right
    have hr := List.mem_of_find?_eq_some hf
    exact ⟨hn0 r hr, hr, List.find?_some hf⟩

/-- The walk over the lists `i`, `i + 1`, ... returns the first fit of the
first list that has one, and NULL when none has. -/
theorem find_fit_loop_spec {st : State} {bs : List Blk} {fl : Nat → List Nat}
    (h : Heap st bs fl) (hl : Listed bs fl) (asize : Nat) : ∀ (n i : Nat), i + n ≤ 15 →
    ∃ r, find_fit_loop st asize (walkFuel st) n i = some r ∧
      ((r = 0 ∧ ∀ j, i ≤ j → j < i + n → ∀ x ∈ fl j, get_size st.mem x < asize) ∨
       (r ≠ 0 ∧ ∃ j, i ≤ j ∧ j < i + n ∧ r ∈ fl j ∧ asize ≤ get_size st.mem r ∧
          (∀ k, i ≤ k → k < j → ∀ x ∈ fl k, get_size st.mem x < asize) ∧
          (fl j).find? (fun x => decide (asize ≤ get_size st.mem x)) = some r))
  | 0, i, _ => ⟨0, rfl, Or.inl ⟨rfl, fun j h1 h2 => by omega⟩⟩
  | n + 1, i, hin => by
    have hi : i < 15 := by omega
    have hfree : ∀ x ∈ fl i, get_alloc st.mem x = false := by
      intro x hx
      obtain ⟨c, hc, hcx, _⟩ := h.cls i hi x hx
      rw [← hcx, Heap_get_alloc h hc]
      exact (hl.2 i hi x hx).2 c hc hcx
    have hscan := find_fit_scan_spec st.mem asize (fl i) 0 (st.segregated_list i) (walkFuel st)
      (h.lists i hi) hfree (Heap_list_fuel h hi)
    have hn0 := FList_ne_zero (h.lists i hi)
    simp only [find_fit_loop, hscan]
    rcases find?_getD_zero (q := fun x => decide (asize ≤ get_size st.mem x)) hn0 with
      ⟨h0, hnone⟩ | ⟨h1, hmem, hq⟩
    · rw [h0]
      obtain ⟨r, hr, hspec⟩ := find_fit_loop_spec h hl asize n (i + 1) (by omega)
      refine ⟨r, hr, ?_⟩
      have hthis : ∀ x ∈ fl i, get_size st.mem x < asize := by
        intro x hx
        have := hnone x hx
        simpa using this
      rcases hspec with ⟨hr0, hall⟩ | ⟨hr1, j, hj1, hj2, hj3, hj4, hj5, hj6⟩
      · left
        refine ⟨hr0, ?_⟩
        intro j hj1 hj2 x hx
        by_cases hji : j = i
        · subst hji; exact hthis x hx
        · exact hall j (by omega) (by omega) x hx
      · right
        refine ⟨hr1, j, by omega, by omega, hj3, hj4, ?_, hj6⟩
        intro k hk1 hk2 x hx
        by_cases hki : k = i
        · subst hki; exact hthis x hx
        · exact hj5 k (by omega) hk2 x hx
    · obtain ⟨r, hr⟩ : ∃ r, ((fl i).find? (fun x => decide (asize ≤ get_size st.mem x))).getD 0
          = r := ⟨_, rfl⟩
      rw [hr] at h1 hmem hq ⊢
      cases r with
      | zero => exact absurd rfl h1
      | succ r =>
        refine ⟨r + 1, rfl, Or.inr ⟨h1, i, le_refl _, by omega, hmem, by simpa using hq,
          fun k hk1 hk2 => by omega, ?_⟩⟩
        cases hf : (fl i).find? (fun x => decide (asize ≤ get_size st.mem x)) with
        | none => rw [hf] at hr; simp at hr
        | some r' => rw [hf] at hr; simp at hr; rw [hr]

end MM

namespace MM

/-! ## Request sizes -/

theorem asize_spec (size : Nat) (h0 : size ≠ 0) (hlt : size + 31 < W64) :
    32 ≤ round_up (add64 size dsize) dsize ∧ round_up (add64 size dsize) dsize % 16 = 0 ∧
      size + 16 ≤ round_up (add64 size dsize) dsize ∧
      round_up (add64 size dsize) dsize + 16 ≤ W64 := by
  unfold round_up mul64 add64 sub64 dsize wsize W64 at *
  omega

theorem round_up_aligned (s : Nat) (h16 : s % 16 = 0) (hlt : s + 16 ≤ W64) :
    round_up s dsize = s := by
  unfold round_up mul64 add64 sub64 dsize wsize W64 at *
  omega

theorem max_spec (a : Nat) : max a chunksize = (if a > 4096 then a else 4096) := rfl

/-! ## The arena -/

theorem mem_sbrk_cases (st : State) (incr : Nat) :
    ((mem_sbrk st incr).2 = none ∧ (mem_sbrk st incr).1.mem = st.mem ∧
      (mem_sbrk st incr).1.mem_lo = st.mem_lo ∧ (mem_sbrk st incr).1.mem_brk = st.mem_brk ∧
      (mem_sbrk st incr).1.heap_start = st.heap_start ∧
      (mem_sbrk st incr).1.segregated_list = st.segregated_list) ∨
    ((mem_sbrk st incr).2 = some st.mem_brk ∧ (mem_sbrk st incr).1.mem = st.mem ∧
      (mem_sbrk st incr).1.mem_lo = st.mem_lo ∧
      (mem_sbrk st incr).1.mem_brk = st.mem_brk + incr ∧
      (mem_sbrk st incr).1.heap_start = st.heap_start ∧
      (mem_sbrk st incr).1.segregated_list = st.segregated_list ∧
      st.mem_brk + incr < W64) := by
  unfold mem_sbrk
  split
  · left; exact ⟨rfl, rfl, rfl, rfl, rfl, rfl⟩
  · split
    · next hc => right; exact ⟨rfl, rfl, rfl, rfl, rfl, rfl, hc.2.2⟩
    · left; exact ⟨rfl, rfl, rfl, rfl, rfl, rfl⟩

theorem mem_sbrk_calls (st : State) (incr : Nat) :
    (mem_sbrk st incr).1.sbrk_calls = st.sbrk_calls + 1 := by
  unfold mem_sbrk
  split
  · rfl
  · split <;> rfl

/-! ## Free blocks against listed blocks, continued -/

theorem Listed_extend {st : State} {bs : List Blk} {fl : Nat → List Nat} (h : Heap st bs fl)
    (hl : Listed bs fl) (nb : Blk) (hnb : nb.addr = st.mem_brk - 8) (hfree : nb.alloc = false) :
    ListedU (bs ++ [nb]) fl [nb.addr] := by
  constructor
  · intro c hc hcf hcU
    simp only [List.mem_singleton] at hcU
    rcases List.mem_append.1 hc with h1 | h1
    · exact hl.1 c h1 hcf (by simp)
    · simp only [List.mem_singleton] at h1
      subst h1; exact absurd rfl hcU
  · intro j hj x hx
    have hn := Heap_node h hj hx
    refine ⟨by simp only [List.mem_singleton]; omega, ?_⟩
    intro c hc hcx
    rcases List.mem_append.1 hc with h1 | h1
    · exact (hl.2 j hj x hx).2 c h1 hcx
    · simp only [List.mem_singleton] at h1
      subst h1; exact hfree

theorem Listed_split {st : State} {pre post : List Blk} {fl : Nat → List Nat} {c : Blk}
    (h : Heap st (pre ++ c :: post) fl) (hl : Listed (pre ++ c :: post) fl)
    (hal : c.alloc = true) {asz : Nat} (h32 : 32 ≤ asz) (hrem : asz + 32 ≤ c.size) :
    ListedU (pre ++ ⟨c.addr, asz, true⟩ :: ⟨c.addr + asz, c.size - asz, false⟩ :: post) fl
      [c.addr + asz] := by
  obtain ⟨g1, g2, g3, g4, g5⟩ := Heap_geo_split h
  have hmem : ∀ d, d ∈ pre ++ ⟨c.addr, asz, true⟩ :: ⟨c.addr + asz, c.size - asz, false⟩ :: post →
      d = ⟨c.addr, asz, true⟩ ∨ d = ⟨c.addr + asz, c.size - asz, false⟩ ∨ d ∈ pre ∨ d ∈ post := by
    intro d hd
    simp only [List.mem_append, List.mem_cons] at hd
    tauto
  constructor
  · intro d hd hdf hdU
    simp only [List.mem_singleton] at hdU
    rcases hmem d hd with h1 | h1 | h1
    · subst h1; exact absurd hdf (by simp)
    · subst h1; exact absurd rfl hdU
    · exact hl.1 d (mem_mid_iff.2 (Or.inr h1)) hdf (by simp)
  · intro j hj x hx
    obtain ⟨e, he, hex, _⟩ := h.cls j hj x hx
    have hxne : x ≠ c.addr + asz := by
      rcases mem_mid_iff.1 he with h1 | h1 | h1
      · subst h1; omega
      · have := Geo_mem g1 h1; omega
      · have := Geo_mem g2 h1; omega
    refine ⟨by simpa using hxne, ?_⟩
    intro d hd hdx
    rcases hmem d hd with h1 | h1 | h1
    · subst h1
      have := (hl.2 j hj x hx).2 c (by simp) hdx
      rw [hal] at this
      exact absurd this (by simp)
    · subst h1; rfl
    · exact (hl.2 j hj x hx).2 d (mem_mid_iff.2 (Or.inr h1)) hdx

end MM

namespace MM

/-! ## `split_block` -/

theorem Listed_unlisted_alloc {st : State} {bs : List Blk} {fl : Nat → List Nat}
    (_h : Heap st bs fl) (hl : Listed bs fl) {c : Blk} (hc : c ∈ bs) (hal : c.alloc = true) :
    ∀ i, i < 15 → c.addr ∉ fl i := by
  intro i hi hx
  have := (hl.2 i hi _ hx).2 c hc rfl
  rw [hal] at this
  exact absurd this (by simp)

theorem split_block_eq (st : State) (block asize : Nat) :
    split_block st block asize =
      if 32 ≤ sub64 (get_size st.mem block) asize then
        insert_to_free_list (st.setMem (write_block (write_block st.mem block asize true)
          (find_next (write_block st.mem block asize true) block)
          (sub64 (get_size st.mem block) asize) false))
          (find_next (write_block st.mem block asize true) block)
      else st := rfl

/-- Splitting an allocated block; the last part of the second case says where
the memory may have changed. -/
theorem split_block_spec_full {st : State} {pre post : List Blk} {fl : Nat → List Nat}
    {c : Blk} (hw : WFL st (pre ++ c :: post) fl) (hal : c.alloc = true)
    (hnext : ∀ q ∈ post.head?, q.alloc = true) {asz : Nat} (h32 : 32 ≤ asz)
    (h16 : asz % 16 = 0) (hle : asz ≤ c.size) :
    (c.size - asz < 32 ∧ split_block st c.addr asz = st) ∨
    (32 ≤ c.size - asz ∧
      WFL (split_block st c.addr asz)
        (pre ++ ⟨c.addr, asz, true⟩ :: ⟨c.addr + asz, c.size - asz, false⟩ :: post)
        (enlist fl ⟨c.addr + asz, c.size - asz, false⟩) ∧
      (split_block st c.addr asz).grants = st.grants ∧
      (split_block st c.addr asz).sbrk_calls = st.sbrk_calls ∧
      (split_block st c.addr asz).mem_lo = st.mem_lo ∧
      (split_block st c.addr asz).mem_brk = st.mem_brk ∧
      Only (fun y => in_tags c.addr asz y ∨ in_tags (c.addr + asz) (c.size - asz) y ∨
        in_links (c.addr + asz) y ∨ in_lists fl y) st.mem (split_block st c.addr asz).mem) := by
  obtain ⟨h, hl, hna⟩ := hw
  have hc : c ∈ pre ++ c :: post := by simp
  have hcc := Heap_blk h hc
  rw [split_block_eq, Heap_get_size h hc, sub64_eq hle (by omega)]
  by_cases hrem : 32 ≤ c.size - asz
  · right
    rw [if_pos hrem]
    have hrem' : asz + 32 ≤ c.size := by omega
    have hfn : find_next (write_block st.mem c.addr asz true) c.addr = c.addr + asz := by
      unfold find_next get_size
      rw [readWord_write_block_header _ _ _ _ h16 (by omega) (by omega),
        extract_size_pack _ h16 (by omega), add64_eq (by omega)]
    simp only [hfn]
    have h1 := Heap_split h (Listed_unlisted_alloc h hl hc hal) h32 h16 hrem'
    have hl1 := Listed_split h hl hal h32 hrem'
    have hmem : (⟨c.addr + asz, c.size - asz, false⟩ : Blk) ∈
        pre ++ ⟨c.addr, asz, true⟩ :: ⟨c.addr + asz, c.size - asz, false⟩ :: post := by simp
    obtain ⟨i1, i2⟩ := Heap_insert_blk (b := ⟨c.addr + asz, c.size - asz, false⟩) h1 hl1 hmem rfl
    obtain ⟨f1, f2, f3, f4, f5⟩ := insert_frame (st.setMem (write_block
      (write_block st.mem c.addr asz true) (c.addr + asz) (c.size - asz) false)) (c.addr + asz)
    refine ⟨by omega, ⟨i1, i2, ?_⟩, f4.trans (setMem_grants _ _), f5.trans (setMem_calls _ _),
      f1.trans (setMem_lo _ _), f2.trans (setMem_brk _ _), ?_⟩
    · obtain ⟨n1, n2, n3, _⟩ := NoAdj_mid.1 hna
      have e : pre ++ (⟨c.addr, asz, true⟩ : Blk) :: ⟨c.addr + asz, c.size - asz, false⟩ ::
          post = (pre ++ [⟨c.addr, asz, true⟩]) ++ ⟨c.addr + asz, c.size - asz, false⟩ ::
          post := by simp
      rw [e, NoAdj_mid, NoAdj_concat]
      refine ⟨⟨n1, fun q _ => Or.inr rfl⟩, n2, fun q hq => ?_, fun q hq => Or.inr (hnext q hq)⟩
      rw [getLast?_snoc] at hq
      simp only [Option.mem_def, Option.some.injEq] at hq
      left; rw [← hq]
    · have o1 := write_block_only st.mem c.addr asz true h16 (by omega) (by omega)
      have o2 := write_block_only (write_block st.mem c.addr asz true) (c.addr + asz)
        (c.size - asz) false (by omega) (by omega) (by omega)
      have o3 := insert_only h1 hmem
      rw [setMem_mem] at o3
      refine Only_mono (Only_trans (Only_trans o1 o2) o3) ?_
      rintro y ((hy | hy) | hy | hy)
      · exact Or.inl hy
      · exact Or.inr (Or.inl hy)
      · exact Or.inr (Or.inr (Or.inl hy))
      · exact Or.inr (Or.inr (Or.inr hy))
  · left
    rw [if_neg hrem]
    exact ⟨by omega, rfl⟩

theorem split_block_spec {st : State} {pre post : List Blk} {fl : Nat → List Nat} {c : Blk}
    (hw : WFL st (pre ++ c :: post) fl) (hal : c.alloc = true)
    (hnext : ∀ q ∈ post.head?, q.alloc = true) {asz : Nat} (h32 : 32 ≤ asz)
    (h16 : asz % 16 = 0) (hle : asz ≤ c.size) :
    (c.size - asz < 32 ∧ split_block st c.addr asz = st) ∨
    (32 ≤ c.size - asz ∧
      WFL (split_block st c.addr asz)
        (pre ++ ⟨c.addr, asz, true⟩ :: ⟨c.addr + asz, c.size - asz, false⟩ :: post)
        (enlist fl ⟨c.addr + asz, c.size - asz, false⟩) ∧
      (split_block st c.addr asz).grants = st.grants ∧
      (split_block st c.addr asz).sbrk_calls = st.sbrk_calls ∧
      (split_block st c.addr asz).mem_lo = st.mem_lo ∧
      (split_block st c.addr asz).mem_brk = st.mem_brk) := by
  rcases split_block_spec_full hw hal hnext h32 h16 hle with h | ⟨h1, h2, h3, h4, h5, h6, _⟩
  · exact Or.inl h
  · exact Or.inr ⟨h1, h2, h3, h4, h5, h6⟩

end MM

namespace MM

/-! ## `extend_heap` -/

theorem extend_heap_fail (st : State) (size : Nat)
    (h : (mem_sbrk st (round_up size dsize)).2 = none) :
    extend_heap st size = ((mem_sbrk st (round_up size dsize)).1, 0) := by
  unfold extend_heap
  simp only [h]

theorem extend_heap_ok (st : State) (size bp : Nat)
    (h : (mem_sbrk st (round_up size dsize)).2 = some bp) :
    extend_heap st size =
      (insert_to_free_list
        (coalesce_block ((mem_sbrk st (round_up size dsize)).1.setMem
          (write_epilogue (write_block (mem_sbrk st (round_up size dsize)).1.mem
            (payload_to_header bp) (round_up size dsize) false)
            (find_next (write_block (mem_sbrk st (round_up size dsize)).1.mem
              (payload_to_header bp) (round_up size dsize) false) (payload_to_header bp))))
          (payload_to_header bp)).1
        (coalesce_block ((mem_sbrk st (round_up size dsize)).1.setMem
          (write_epilogue (write_block (mem_sbrk st (round_up size dsize)).1.mem
            (payload_to_header bp) (round_up size dsize) false)
            (find_next (write_block (mem_sbrk st (round_up size dsize)).1.mem
              (payload_to_header bp) (round_up size dsize) false) (payload_to_header bp))))
          (payload_to_header bp)).2,
       (coalesce_block ((mem_sbrk st (round_up size dsize)).1.setMem
          (write_epilogue (write_block (mem_sbrk st (round_up size dsize)).1.mem
            (payload_to_header bp) (round_up size dsize) false)
            (find_next (write_block (mem_sbrk st (round_up size dsize)).1.mem
              (payload_to_header bp) (round_up size dsize) false) (payload_to_header bp))))
          (payload_to_header bp)).2) := by
  unfold extend_heap
  simp only [h]

/-- Growing a well-formed heap: either the arena refuses and nothing but the
environment changes, or the heap ends in a new listed free block of at least
the requested size; the last part says where the memory may have changed. -/
theorem extend_heap_spec_full {st : State} {bs : List Blk} {fl : Nat → List Nat}
    (hw : WFL st bs fl) {sz : Nat} (h32 : 32 ≤ sz) (h16 : sz % 16 = 0) (hlt : sz + 16 ≤ W64) :
    ((extend_heap st sz).2 = 0 ∧ WFL (extend_heap st sz).1 bs fl ∧
      (extend_heap st sz).1.mem = st.mem ∧ (extend_heap st sz).1.mem_lo = st.mem_lo ∧
      (extend_heap st sz).1.mem_brk = st.mem_brk ∧
      (extend_heap st sz).1.heap_start = st.heap_start ∧
      (extend_heap st sz).1.segregated_list = st.segregated_list) ∨
    (∃ pre' nb fl', (extend_heap st sz).2 = nb.addr ∧
      WFL (extend_heap st sz).1 (pre' ++ [nb]) (enlist fl' nb) ∧ nb.alloc = false ∧
      CoalesceShape bs ⟨st.mem_brk - 8, sz, false⟩ [] fl pre' nb [] fl' ∧
      (extend_heap st sz).1.mem_lo = st.mem_lo ∧
      (extend_heap st sz).1.mem_brk = st.mem_brk + sz ∧
      Only (fun y => (st.mem_brk - 8 ≤ y ∧ y < st.mem_brk) ∨
        (st.mem_brk + sz - 8 ≤ y ∧ y < st.mem_brk + sz) ∨ in_lists fl y ∨
        in_tags nb.addr nb.size y ∨ in_links nb.addr y) st.mem (extend_heap st sz).1.mem) := by
  obtain ⟨h, hl, hna⟩ := hw
  have hru := round_up_aligned sz h16 hlt
  have hbg := h.brk_ge
  have hbl := h.brk_lt
  rcases mem_sbrk_cases st sz with ⟨s1, s2, s3, s4, s5, s6⟩ | ⟨s1, s2, s3, s4, s5, s6, s7⟩
  · left
    rw [extend_heap_fail st sz (by rw [hru]; exact s1), hru]
    exact ⟨rfl, ⟨Heap_congr h s2 s3 s4 s5 s6, hl, hna⟩, s2, s3, s4, s5, s6⟩
  · right
    rw [extend_heap_ok st sz st.mem_brk (by rw [hru]; exact s1), hru]
    have hph : payload_to_header st.mem_brk = st.mem_brk - 8 := by
      unfold payload_to_header wsize
      exact sub64_eq (by omega) hbl
    have hfn : find_next (write_block (mem_sbrk st sz).1.mem (st.mem_brk - 8) sz false)
        (st.mem_brk - 8) = st.mem_brk - 8 + sz := by
      unfold find_next get_size
      rw [readWord_write_block_header _ _ _ _ h16 (by omega) (by omega),
        extract_size_pack _ h16 (by omega), add64_eq (by omega)]
    rw [hph, hfn, s2]
    have h1 : Heap ((mem_sbrk st sz).1.setMem (write_epilogue
        (write_block st.mem (st.mem_brk - 8) sz false) (st.mem_brk - 8 + sz)))
        (bs ++ [⟨st.mem_brk - 8, sz, false⟩]) fl :=
      Heap_extend h h32 h16 s7 (setMem_mem _ _) ((setMem_lo _ _).trans s3)
        ((setMem_brk _ _).trans s4) ((setMem_hs _ _).trans s5) ((setMem_seg _ _).trans s6)
    have hl1 := Listed_extend h hl ⟨st.mem_brk - 8, sz, false⟩ rfl rfl
    obtain ⟨st', pre', nb, post', fl', c1, c2, c3, c4, c5, c6, c7, c8, c9, c10, c11⟩ :=
      coalesce_spec_full (b := ⟨st.mem_brk - 8, sz, false⟩) h1 rfl hl1 hna NoAdj_nil
    have c1' : coalesce_block ((mem_sbrk st sz).1.setMem (write_epilogue
        (write_block st.mem (st.mem_brk - 8) sz false) (st.mem_brk - 8 + sz)))
        (st.mem_brk - 8) = (st', nb.addr) := c1
    have hpost : post' = [] := by
      rcases c10 with ⟨_, hp, _⟩ | ⟨n, hp, _⟩ | ⟨p, _, hp, _⟩ | ⟨p, n, _, hp, _⟩
      · exact hp
      · exact absurd hp (by simp)
      · exact hp
      · exact absurd hp (by simp)
    subst hpost
    have hnb : nb ∈ pre' ++ [nb] := List.mem_append_right _ (List.mem_cons_self _ _)
    obtain ⟨i1, i2⟩ := Heap_insert_blk c2 c3 hnb c5
    obtain ⟨f1, f2, f3, f4, f5⟩ := insert_frame st' nb.addr
    have o1 := write_block_only st.mem (st.mem_brk - 8) sz false h16 (by omega) (by omega)
    have o2 := writeWord_only (write_block st.mem (st.mem_brk - 8) sz false)
      (st.mem_brk - 8 + sz) (pack 0 true)
    have o3 := c11
    rw [setMem_mem] at o3
    have o4 := insert_only c2 hnb
    have hnbsz : nb = ⟨st.mem_brk - 8, sz, false⟩ ∨
        (nb.addr < st.mem_brk - 8 ∧ nb.addr + nb.size = st.mem_brk - 8 + sz) := by
      have hg := (Heap_geo_split (show Heap _ (bs ++ (⟨st.mem_brk - 8, sz, false⟩ : Blk) :: [])
        fl from h1)).1
      rcases c10 with ⟨_, _, hp, _⟩ | ⟨n, hp, _⟩ | ⟨p, hp, _, _, hq, _⟩ | ⟨p, n, _, hp, _⟩
      · exact Or.inl hp
      · exact absurd hp (by simp)
      · right
        rw [hp] at hg
        have e1 := Geo_last hg
        have e2 := (Geo_split hg).2.2.1
        rw [hq]
        show p.addr < st.mem_brk - 8 ∧ p.addr + (p.size + sz) = st.mem_brk - 8 + sz
        have e1' : p.addr + p.size = st.mem_brk - 8 := e1
        omega
      · exact absurd hp (by simp)
    rw [c1']
    dsimp only
    refine ⟨pre', nb, fl', rfl, ⟨i1, i2, c4⟩, c5, c10,
      f1.trans (c8.trans ((setMem_lo _ _).trans s3)),
      f2.trans (c9.trans ((setMem_brk _ _).trans s4)), ?_⟩
    unfold write_epilogue at o3
    refine Only_mono (Only_trans (Only_trans (Only_trans o1 o2) o3) o4) ?_
    rintro y (((hy | hy) | hy | hy) | hy | hy)
    · unfold in_tags at hy
      rcases hy with hy | hy
      · left; omega
      · right; right; right; left
        unfold in_tags
        rcases hnbsz with e | e
        · rw [e]; right; exact hy
        · right; omega
    · right; left; omega
    · exact Or.inr (Or.inr (Or.inl hy))
    · exact Or.inr (Or.inr (Or.inr (Or.inl hy.2)))
    · exact Or.inr (Or.inr (Or.inr (Or.inr hy)))
    · exact Or.inr (Or.inr (Or.inl (CoalesceShape_lists c10 hy)))

theorem extend_heap_spec {st : State} {bs : List Blk} {fl : Nat → List Nat}
    (hw : WFL st bs fl) {sz : Nat} (h32 : 32 ≤ sz) (h16 : sz % 16 = 0) (hlt : sz + 16 ≤ W64) :
    ((extend_heap st sz).2 = 0 ∧ WFL (extend_heap st sz).1 bs fl ∧
      (extend_heap st sz).1.mem = st.mem ∧ (extend_heap st sz).1.mem_lo = st.mem_lo ∧
      (extend_heap st sz).1.mem_brk = st.mem_brk ∧
      (extend_heap st sz).1.heap_start = st.heap_start ∧
      (extend_heap st sz).1.segregated_list = st.segregated_list) ∨
    (∃ pre' nb fl', (extend_heap st sz).2 = nb.addr ∧
      WFL (extend_heap st sz).1 (pre' ++ [nb]) (enlist fl' nb) ∧ nb.alloc = false ∧
      CoalesceShape bs ⟨st.mem_brk - 8, sz, false⟩ [] fl pre' nb [] fl' ∧
      (extend_heap st sz).1.mem_lo = st.mem_lo ∧
      (extend_heap st sz).1.mem_brk = st.mem_brk + sz) := by
  rcases extend_heap_spec_full hw h32 h16 hlt with h | ⟨pre', nb, fl', h1, h2, h3, h4, h5, h6, _⟩
  · exact Or.inl h
  · exact Or.inr ⟨pre', nb, fl', h1, h2, h3, h4, h5, h6⟩

end MM

namespace MM

/-! ## `malloc` -/

theorem malloc_body_zero (st : State) : malloc_body st 0 = some (st, 0) := by
  unfold malloc_body
  simp

theorem malloc_body_found (st : State) (size r : Nat) (h0 : size ≠ 0)
    (hf : find_fit st (round_up (add64 size dsize) dsize) = some r) (hr : r ≠ 0) :
    malloc_body st size =
      some (place_block st r (round_up (add64 size dsize) dsize), header_to_payload r) := by
  unfold malloc_body place_block
  simp only [if_neg h0, hf, if_neg hr]

theorem malloc_body_grow_fail (st : State) (size : Nat) (h0 : size ≠ 0)
    (hf : find_fit st (round_up (add64 size dsize) dsize) = some 0)
    (he : (extend_heap st (max (round_up (add64 size dsize) dsize) chunksize)).2 = 0) :
    malloc_body st size =
      some ((extend_heap st (max (round_up (add64 size dsize) dsize) chunksize)).1, 0) := by
  unfold malloc_body
  simp only [if_neg h0, hf, if_true, he]

theorem malloc_body_grow_ok (st : State) (size : Nat) (h0 : size ≠ 0)
    (hf : find_fit st (round_up (add64 size dsize) dsize) = some 0)
    (he : (extend_heap st (max (round_up (add64 size dsize) dsize) chunksize)).2 ≠ 0) :
    malloc_body st size =
      some (place_block (extend_heap st (max (round_up (add64 size dsize) dsize) chunksize)).1
          (extend_heap st (max (round_up (add64 size dsize) dsize) chunksize)).2
          (round_up (add64 size dsize) dsize),
        header_to_payload
          (extend_heap st (max (round_up (add64 size dsize) dsize) chunksize)).2) := by
  unfold malloc_body place_block
  simp only [if_neg h0, hf, if_true, if_neg he]

/-- Placing a request in a listed free block that is large enough: the block
becomes allocated, whole when the remainder would be under 32 bytes and
split otherwise; each case says where the memory may have changed. -/
theorem place_block_full {st : State} {pre post : List Blk} {fl : Nat → List Nat} {c : Blk}
    (hw : WFL st (pre ++ c :: post) fl) (hfree : c.alloc = false) {asz : Nat}
    (h32 : 32 ≤ asz) (h16 : asz % 16 = 0) (hle : asz ≤ c.size) :
    ((c.size - asz < 32 ∧
        WFL (place_block st c.addr asz) (pre ++ ⟨c.addr, c.size, true⟩ :: post) (unlist fl c) ∧
        Only (fun y => in_tags c.addr c.size y ∨ in_lists fl y) st.mem
          (place_block st c.addr asz).mem) ∨
      (32 ≤ c.size - asz ∧
        WFL (place_block st c.addr asz)
          (pre ++ ⟨c.addr, asz, true⟩ :: ⟨c.addr + asz, c.size - asz, false⟩ :: post)
          (enlist (unlist fl c) ⟨c.addr + asz, c.size - asz, false⟩) ∧
        Only (fun y => in_tags c.addr c.size y ∨ in_lists fl y ∨ in_tags c.addr asz y ∨
          in_tags (c.addr + asz) (c.size - asz) y ∨ in_links (c.addr + asz) y) st.mem
          (place_block st c.addr asz).mem)) ∧
      (place_block st c.addr asz).grants = st.grants ∧
      (place_block st c.addr asz).sbrk_calls = st.sbrk_calls ∧
      (place_block st c.addr asz).mem_lo = st.mem_lo ∧
      (place_block st c.addr asz).mem_brk = st.mem_brk := by
  obtain ⟨h, hl, hna⟩ := hw
  have hc : c ∈ pre ++ c :: post := by simp
  have hcc := Heap_blk h hc
  have h2 := Heap_setFlag h true
  have hx : c.addr ∈ fl (find_index c.size) := hl.1 c hc hfree (by simp)
  have h3 : Heap (remove_from_free_list (st.setMem (write_block st.mem c.addr c.size true))
      c.addr) (pre ++ ⟨c.addr, c.size, true⟩ :: post) (unlist fl c) :=
    Heap_remove h2 (find_index_lt _) hx
  have hl3 := Listed_alloc_remove h hl
  have hna3 := NoAdj_setAlloc hna ⟨c.addr, c.size, true⟩ rfl
  have hnext : ∀ q ∈ post.head?, q.alloc = true := by
    intro q hq
    rcases (NoAdj_mid.1 hna).2.2.2 q hq with h5 | h5
    · rw [hfree] at h5; exact absurd h5 (by simp)
    · exact h5
  obtain ⟨f1, f2, f3, f4, f5⟩ := remove_frame (st.setMem (write_block st.mem c.addr c.size true))
    c.addr
  have o1 := write_block_only st.mem c.addr c.size true (by omega) (by omega) (by omega)
  have o2 := remove_only h2 (find_index_lt _) hx
  rw [setMem_mem] at o2
  have o12 := Only_trans o1 o2
  unfold place_block
  rw [Heap_get_size h hc]
  rcases split_block_spec_full (c := ⟨c.addr, c.size, true⟩) ⟨h3, hl3, hna3⟩ rfl hnext h32 h16
    hle with ⟨hlt, hs⟩ | ⟨hge, hs, g1, g2, g3, g4, g5⟩
  · have hs' : split_block (remove_from_free_list
        (st.setMem (write_block st.mem c.addr c.size true)) c.addr) c.addr asz = _ := hs
    rw [hs']
    exact ⟨Or.inl ⟨hlt, ⟨h3, hl3, hna3⟩, o12⟩, f4.trans (setMem_grants _ _),
      f5.trans (setMem_calls _ _), f1.trans (setMem_lo _ _), f2.trans (setMem_brk _ _)⟩
  · refine ⟨Or.inr ⟨hge, hs, ?_⟩, g1.trans (f4.trans (setMem_grants _ _)),
      g2.trans (f5.trans (setMem_calls _ _)), g3.trans (f1.trans (setMem_lo _ _)),
      g4.trans (f2.trans (setMem_brk _ _))⟩
    refine Only_mono (Only_trans o12 g5) ?_
    rintro y ((hy | hy) | hy | hy | hy | hy)
    · exact Or.inl hy
    · exact Or.inr (Or.inl hy)
    · exact Or.inr (Or.inr (Or.inl hy))
    · exact Or.inr (Or.inr (Or.inr (Or.inl hy)))
    · exact Or.inr (Or.inr (Or.inr (Or.inr hy)))
    · exact Or.inr (Or.inl (in_lists_unlist hy))

/-- Placing a request in a listed free block that is large enough. -/
theorem place_block_spec {st : State} {pre post : List Blk} {fl : Nat → List Nat} {c : Blk}
    (hw : WFL st (pre ++ c :: post) fl) (hfree : c.alloc = false) {asz : Nat}
    (h32 : 32 ≤ asz) (h16 : asz % 16 = 0) (hle : asz ≤ c.size) :
    ∃ c' rest fl', WFL (place_block st c.addr asz) (pre ++ c' :: (rest ++ post)) fl' ∧
      c'.addr = c.addr ∧ c'.alloc = true ∧ asz ≤ c'.size ∧ (∀ d ∈ rest, d.alloc = false) ∧
      (place_block st c.addr asz).grants = st.grants ∧
      (place_block st c.addr asz).sbrk_calls = st.sbrk_calls ∧
      (place_block st c.addr asz).mem_lo = st.mem_lo ∧
      (place_block st c.addr asz).mem_brk = st.mem_brk := by
  obtain ⟨hcase, e1, e2, e3, e4⟩ := place_block_full hw hfree h32 h16 hle
  rcases hcase with ⟨_, hs, _⟩ | ⟨_, hs, _⟩
  · exact ⟨⟨c.addr, c.size, true⟩, [], unlist fl c, hs, rfl, rfl, hle, by simp, e1, e2, e3, e4⟩
  · exact ⟨⟨c.addr, asz, true⟩, [⟨c.addr + asz, c.size - asz, false⟩], _, hs, rfl, rfl,
      le_refl _, by simp, e1, e2, e3, e4⟩

end MM

namespace MM

/-! ## Consequences of the shape of a coalescing step -/

theorem CoalesceShape_size {pre post pre' post' : List Blk} {b nb : Blk}
    {fl fl' : Nat → List Nat} (hs : CoalesceShape pre b post fl pre' nb post' fl') :
    b.size ≤ nb.size := by
  rcases hs with ⟨_, _, h, _⟩ | ⟨n, _, _, _, h, _⟩ | ⟨p, _, _, _, h, _⟩ | ⟨p, n, _, _, _, _, h, _⟩
  · rw [h]
  · rw [h]; exact Nat.le_add_right _ _
  · rw [h]; exact Nat.le_add_left _ _
  · rw [h]; show b.size ≤ p.size + b.size + n.size; omega

/-- Coalescing neither creates nor destroys an allocated block. -/
theorem CoalesceShape_alloc {pre post pre' post' : List Blk} {b nb : Blk}
    {fl fl' : Nat → List Nat} (hs : CoalesceShape pre b post fl pre' nb post' fl')
    (hb : b.alloc = false) (d : Blk) (hd : d.alloc = true) :
    d ∈ pre' ++ nb :: post' ↔ d ∈ pre ++ post := by
  have hne : ∀ x : Blk, x.alloc = false → d ≠ x := by
    rintro x hx rfl
    rw [hd] at hx; exact absurd hx (by simp)
  rcases hs with ⟨h1, h2, h3, _⟩ | ⟨n, h1, h2, h3, h4, _⟩ | ⟨p, h1, h2, h3, h4, _⟩ |
    ⟨p, n, h1, h2, h3, h4, h5, _⟩
  · subst h1 h2 h3
    simp only [List.mem_append, List.mem_cons]
    have := hne nb hb
    tauto
  · subst h1 h2 h4
    simp only [List.mem_append, List.mem_cons]
    have := hne n h3
    have := hne ⟨b.addr, b.size + n.size, false⟩ rfl
    tauto
  · subst h1 h2 h4
    simp only [List.mem_append, List.mem_cons, List.mem_singleton]
    have := hne p h3
    have := hne ⟨p.addr, p.size + b.size, false⟩ rfl
    tauto
  · subst h1 h2 h5
    simp only [List.mem_append, List.mem_cons, List.mem_singleton]
    have := hne p h3
    have := hne n h4
    have := hne ⟨p.addr, p.size + b.size + n.size, false⟩ rfl
    tauto

/-- The block returned by a coalescing step starts at `b` or at the free block
right before `b`. -/
theorem CoalesceShape_addr {pre post pre' post' : List Blk} {b nb : Blk}
    {fl fl' : Nat → List Nat} (hs : CoalesceShape pre b post fl pre' nb post' fl') :
    nb.addr = b.addr ∨ ∃ p ∈ pre, p.alloc = false ∧ nb.addr = p.addr := by
  rcases hs with ⟨_, _, h, _⟩ | ⟨n, _, _, _, h, _⟩ | ⟨p, h1, _, h3, h, _⟩ |
    ⟨p, n, h1, _, h3, _, h, _⟩
  · left; rw [h]
  · left; rw [h]
  · right; exact ⟨p, by rw [h1]; simp, h3, by rw [h]⟩
  · right; exact ⟨p, by rw [h1]; simp, h3, by rw [h]⟩

theorem find_fit_spec {st : State} {bs : List Blk} {fl : Nat → List Nat}
    (h : Heap st bs fl) (hl : Listed bs fl) (asize : Nat) :
    ∃ r, find_fit st asize = some r ∧
      ((r = 0 ∧ ∀ j, find_index asize ≤ j → j < 15 → ∀ x ∈ fl j, get_size st.mem x < asize) ∨
       (r ≠ 0 ∧ ∃ j, find_index asize ≤ j ∧ j < 15 ∧ r ∈ fl j ∧ asize ≤ get_size st.mem r ∧
          (∀ k, find_index asize ≤ k → k < j → ∀ x ∈ fl k, get_size st.mem x < asize) ∧
          (fl j).find? (fun x => decide (asize ≤ get_size st.mem x)) = some r)) := by
  have hi := find_index_lt asize
  have e : find_index asize + (list_length - find_index asize) = 15 := by
    unfold list_length; omega
  obtain ⟨r, hr, hspec⟩ := find_fit_loop_spec h hl asize (list_length - find_index asize)
    (find_index asize) (by omega)
  refine ⟨r, hr, ?_⟩
  rw [e] at hspec
  exact hspec

end MM

namespace MM

/-- `malloc` on an initialised well-formed heap, for a request whose adjusted
size does not wrap around: it returns; either NULL with the heap as it was,
or the payload of an allocated block large enough, in a heap that is again
well formed and has the same allocated blocks besides. -/
theorem malloc_body_spec {st : State} {bs : List Blk} {fl : Nat → List Nat}
    (hw : WFL st bs fl) {size : Nat} (h0 : size ≠ 0) (hlt : size + 31 < W64) :
    ∃ st' p, malloc_body st size = some (st', p) ∧ st'.mem_lo = st.mem_lo ∧
      ((p = 0 ∧ find_fit st (round_up (add64 size dsize) dsize) = some 0 ∧ WFL st' bs fl ∧
          st'.mem = st.mem ∧ st'.mem_brk = st.mem_brk ∧ st'.heap_start = st.heap_start ∧
          st'.segregated_list = st.segregated_list) ∨
       (∃ pre c rest post fl', WFL st' (pre ++ c :: (rest ++ post)) fl' ∧ p = c.addr + 8 ∧
          c.alloc = true ∧ round_up (add64 size dsize) dsize ≤ c.size ∧
          (∀ d ∈ rest, d.alloc = false) ∧
          (∀ d : Blk, d.alloc = true → (d ∈ pre ++ post ↔ d ∈ bs)) ∧
          (∀ d ∈ bs, d.alloc = true → d.addr ≠ c.addr) ∧ st.mem_brk ≤ st'.mem_brk ∧
          (∀ r, find_fit st (round_up (add64 size dsize) dsize) = some r → r ≠ 0 →
            st'.sbrk_calls = st.sbrk_calls ∧ st'.mem_brk = st.mem_brk))) := by
  obtain ⟨a32, a16, asz_ge, altW⟩ := asize_spec size h0 hlt
  have hW : W64 = 18446744073709551616 := rfl
  obtain ⟨h, hl, hna⟩ := hw
  obtain ⟨r, hr, hspec⟩ := find_fit_spec h hl (round_up (add64 size dsize) dsize)
  rcases hspec with ⟨hr0, _⟩ | ⟨hr1, j, _, hj, hrj, hsz, _, _⟩
  · -- no fit: grow the arena
    subst hr0
    have hmax := max_spec (round_up (add64 size dsize) dsize)
    have m32 : 32 ≤ max (round_up (add64 size dsize) dsize) chunksize := by
      rw [hmax]; split_ifs <;> omega
    have m16 : max (round_up (add64 size dsize) dsize) chunksize % 16 = 0 := by
      rw [hmax]; split_ifs <;> omega
    have mlt : max (round_up (add64 size dsize) dsize) chunksize + 16 ≤ W64 := by
      rw [hmax]; split_ifs <;> omega
    have mge : round_up (add64 size dsize) dsize ≤
        max (round_up (add64 size dsize) dsize) chunksize := by
      rw [hmax]; split_ifs <;> omega
    rcases extend_heap_spec ⟨h, hl, hna⟩ m32 m16 mlt with
      ⟨e1, e2, e3, e4, e5, e6, e7⟩ | ⟨pre', nb, fl', e1, e2, e3, e4, e5, e6⟩
    · exact ⟨_, _, malloc_body_grow_fail st size h0 hr e1, e4,
        Or.inl ⟨rfl, hr, e2, e3, e5, e6, e7⟩⟩
    · have hnb := Heap_blk e2.1 (b := nb) (by simp)
      have hne : (extend_heap st (max (round_up (add64 size dsize) dsize) chunksize)).2 ≠ 0 := by
        rw [e1, e5] at *; omega
      have hsz := CoalesceShape_size e4
      have hle : round_up (add64 size dsize) dsize ≤ nb.size :=
        le_trans mge hsz
      obtain ⟨c', rest, fl'', p1, p2, p3, p4, p5, p6, p7, p8, p9⟩ :=
        @place_block_spec _ _ [] _ _ e2 e3 _ a32 a16 hle
      refine ⟨_, _, malloc_body_grow_ok st size h0 hr hne, ?_, Or.inr ?_⟩
      · rw [e1, p8, e5]
      · rw [e1]
        refine ⟨pre', c', rest, [], fl'', p1, ?_, p3, p4, p5, ?_, ?_, ?_, ?_⟩
        · rw [header_to_payload_eq (by omega), p2]
        · intro d hd
          have := CoalesceShape_alloc e4 rfl d hd
          simp only [List.append_nil] at this ⊢
          constructor
          · intro h1
            exact this.1 (List.mem_append_left _ h1)
          · intro h1
            rcases List.mem_append.1 (this.2 h1) with h2 | h2
            · exact h2
            · simp only [List.mem_singleton] at h2
              rw [h2, e3] at hd
              exact absurd hd (by simp)
        · intro d hd hda
          rw [p2]
          rcases CoalesceShape_addr e4 with h1 | ⟨p, hp, hpf, h1⟩
          · rw [h1]
            have := Heap_blk h hd
            show d.addr ≠ st.mem_brk - 8
            omega
          · rw [h1]
            intro heq
            have := Geo_addr_inj h.geo hd hp heq
            rw [this, hpf] at hda
            exact absurd hda (by simp)
        · rw [p9, e6]; omega
        · intro r' hr' hr0'
          rw [hr] at hr'
          exact absurd (Option.some.inj hr').symm hr0'
  · -- a fit was found
    obtain ⟨c, hc, hcr, _⟩ := h.cls j hj r hrj
    have hcf := (hl.2 j hj r hrj).2 c hc hcr
    have hcsz : round_up (add64 size dsize) dsize ≤ c.size := by
      rw [← Heap_get_size h hc, hcr]; exact hsz
    obtain ⟨pre, post, hbs⟩ := List.append_of_mem hc
    subst hbs
    have hcc := Heap_blk h hc
    obtain ⟨c', rest, fl'', p1, p2, p3, p4, p5, p6, p7, p8, p9⟩ :=
      place_block_spec ⟨h, hl, hna⟩ hcf a32 a16 hcsz
    rw [hcr] at p1 p6 p7 p8 p9
    refine ⟨_, _, malloc_body_found st size r h0 hr hr1, p8, Or.inr ?_⟩
    refine ⟨pre, c', rest, post, fl'', p1, ?_, p3, p4, p5, ?_, ?_, ?_, ?_⟩
    · rw [← hcr, header_to_payload_eq (by omega), p2]
    · intro d hd
      rw [mem_mid_iff]
      simp only [List.mem_append]
      constructor
      · intro h1; exact Or.inr h1
      · rintro (h1 | h1)
        · rw [h1, hcf] at hd; exact absurd hd (by simp)
        · exact h1
    · intro d hd hda
      rw [p2]
      rcases mem_mid_iff.1 hd with h1 | h1
      · rw [h1, hcf] at hda; exact absurd hda (by simp)
      · exact Geo_mid_addr h.geo h1
    · rw [p9]
    · intro r' _ _
      exact ⟨p7, p9⟩

theorem malloc_of_init {st : State} {bs : List Blk} {fl : Nat → List Nat} (h : Heap st bs fl)
    (size : Nat) : malloc st size = malloc_body st size := by
  unfold malloc
  rw [if_neg]
  rw [h.hs]; omega

end MM

namespace MM

/-! ## `mm_init` -/

theorem mm_init_fail (st : State) (h : (mem_sbrk st (2 * wsize)).2 = none) :
    mm_init st = ((mem_sbrk st (2 * wsize)).1, false) := by
  unfold mm_init
  simp only [h]

theorem mm_init_grown (st : State) (start : Nat)
    (h : (mem_sbrk st (2 * wsize)).2 = some start) :
    mm_init st =
      if (extend_heap (mm_init_sentinels (mem_sbrk st (2 * wsize)).1 start) chunksize).2 = 0
      then ((extend_heap (mm_init_sentinels (mem_sbrk st (2 * wsize)).1 start) chunksize).1,
        false)
      else ((extend_heap (mm_init_sentinels (mem_sbrk st (2 * wsize)).1 start) chunksize).1,
        true) := by
  unfold mm_init
  simp only [h]

/-- After the first growth of an empty arena the heap is well formed and has
no block. -/
theorem mm_init_sentinels_WFL {st st1 : State} (hempty : st.mem_brk = st.mem_lo)
    (h2 : st1.mem_lo = st.mem_lo) (h3 : st1.mem_brk = st.mem_brk + 16)
    (hlt : st.mem_brk + 16 < W64) :
    WFL (mm_init_sentinels st1 st.mem_brk) [] (fun _ => []) := by
  have hW : W64 = 18446744073709551616 := rfl
  have e8 : add64 st.mem_brk wsize = st.mem_brk + 8 := by
    unfold wsize; exact add64_eq (by omega)
  have hp : pack 0 true < W64 := by rw [pack_zero_true, hW]; omega
  refine ⟨⟨?_, ?_, ?_, ?_, ?_, ?_, ?_, ?_, ?_, ?_⟩, ⟨?_, ?_⟩, NoAdj_nil⟩
  · show add64 st.mem_brk wsize = st1.mem_lo + 8
    rw [e8, h2, hempty]
  · show st1.mem_brk < W64
    rw [h3]; exact hlt
  · show st1.mem_lo + 16 ≤ st1.mem_brk
    rw [h2, h3, hempty]
  · show st1.mem_lo + 8 = st1.mem_brk - 8
    rw [h2, h3, hempty]; omega
  · show readWord (writeWord (writeWord st1.mem st.mem_brk (pack 0 true))
      (add64 st.mem_brk wsize) (pack 0 true)) st1.mem_lo = pack 0 true
    rw [e8, h2, ← hempty, readWord_writeWord_disj _ _ _ _ (by omega),
      readWord_writeWord_same _ _ _ hp]
  · show readWord (writeWord (writeWord st1.mem st.mem_brk (pack 0 true))
      (add64 st.mem_brk wsize) (pack 0 true)) (st1.mem_brk - 8) = pack 0 true
    have : st1.mem_brk - 8 = st.mem_brk + 8 := by omega
    rw [e8, this, readWord_writeWord_same _ _ _ hp]
  · intro b hb; simp at hb
  · intro i hi
    show (if i < list_length then 0 else st1.segregated_list i) = 0
    rw [if_pos (show i < list_length from hi)]
  · intro i hi x hx; simp at hx
  · intro i hi; exact List.nodup_nil
  · intro b hb; simp at hb
  · intro i hi x hx; simp at hx

theorem mm_init_sentinels_frame (st1 : State) (start : Nat) :
    (mm_init_sentinels st1 start).mem_lo = st1.mem_lo ∧
    (mm_init_sentinels st1 start).mem_brk = st1.mem_brk ∧
    (mm_init_sentinels st1 start).heap_start = add64 start wsize := ⟨rfl, rfl, rfl⟩

/-- A successful `mm_init` on an empty arena leaves a well-formed heap with
one free block of `chunksize` bytes. -/
theorem mm_init_spec {st : State} (hempty : st.mem_brk = st.mem_lo)
    (hok : (mm_init st).2 = true) :
    WFL (mm_init st).1 [⟨st.mem_lo + 8, 4096, false⟩]
        (enlist (fun _ => []) ⟨st.mem_lo + 8, 4096, false⟩) ∧
      (mm_init st).1.mem_lo = st.mem_lo ∧ (mm_init st).1.mem_brk = st.mem_lo + 16 + 4096 := by
  rcases mem_sbrk_cases st (2 * wsize) with ⟨s1, s2, s3, s4, s5, s6⟩ |
    ⟨s1, s2, s3, s4, s5, s6, s7⟩
  · rw [mm_init_fail st s1] at hok
    exact absurd hok (by simp)
  · rw [mm_init_grown st _ s1] at hok ⊢
    have hw := @mm_init_sentinels_WFL _ (mem_sbrk st (2 * wsize)).1 hempty s3 s4 s7
    have hW : W64 = 18446744073709551616 := rfl
    have s7' : st.mem_brk + 16 < W64 := s7
    rcases @extend_heap_spec _ _ _ hw chunksize (by unfold chunksize; omega)
        (by unfold chunksize; omega) (by unfold chunksize; omega) with
      ⟨e1, _⟩ | ⟨pre', nb, fl', e1, e2, e3, e4, e5, e6⟩
    · rw [if_pos e1] at hok
      exact absurd hok (by simp)
    · have hnb := Heap_blk e2.1 (b := nb) (by simp)
      have hne : (extend_heap (mm_init_sentinels (mem_sbrk st (2 * wsize)).1 st.mem_brk)
          chunksize).2 ≠ 0 := by
        rw [e1]; omega
      rw [if_neg hne]
      dsimp only
      have hb : (mm_init_sentinels (mem_sbrk st (2 * wsize)).1 st.mem_brk).mem_brk - 8 =
          st.mem_lo + 8 := by
        show (mem_sbrk st (2 * wsize)).1.mem_brk - 8 = st.mem_lo + 8
        rw [s4, hempty]; unfold wsize; omega
      rcases e4 with ⟨h1, _, h3, h4, _⟩ | ⟨n, hp, _⟩ | ⟨p, hp, _⟩ | ⟨p, n, hp, _⟩
      · subst h1 h3 h4
        rw [hb] at e2
        refine ⟨e2, ?_, ?_⟩
        · rw [e5]; exact s3
        · rw [e6]
          show (mem_sbrk st (2 * wsize)).1.mem_brk + chunksize = _
          rw [s4, hempty]; unfold wsize chunksize; omega
      · exact absurd hp (by simp)
      · exact absurd hp (by simp)
      · exact absurd hp (by simp)

end MM

namespace MM

/-! ## The heap checker on a well-formed heap -/

theorem check_block_true {st : State} {pre post : List Blk} {fl : Nat → List Nat} {b : Blk}
    (h : Heap st (pre ++ b :: post) fl) (hna : NoAdj (pre ++ b :: post)) :
    check_block st.mem b.addr = true := by
  have hb : b ∈ pre ++ b :: post := by simp
  have hbb := Heap_blk h hb
  have ht := h.tags b hb
  have hsz := Heap_get_size h hb
  have hal := Heap_get_alloc h hb
  have hftr : header_to_footer st.mem b.addr = b.addr + b.size - 8 := by
    unfold header_to_footer dsize wsize
    rw [hsz, add64_eq (a := b.addr) (by omega), add64_eq (by omega),
      sub64_eq (by omega) (by omega)]
    omega
  have hprev : ¬ (b.alloc = false ∧ find_prev st.mem b.addr ≠ 0 ∧
      get_alloc st.mem (find_prev st.mem b.addr) = false) := by
    rintro ⟨h1, h2, h3⟩
    rcases Heap_prev_alloc_cases h with ⟨hp, _⟩ | ⟨pre', p, rfl, hpf⟩
    · unfold coalesce_prev_alloc at hp
      rw [if_neg h2, h3] at hp
      exact absurd hp (by simp)
    · have := (NoAdj_mid.1 hna).2.2.1 p (getLast?_snoc pre' p)
      rw [hpf, h1] at this
      simp at this
  have hnext : ¬ (b.alloc = false ∧ find_next st.mem b.addr ≠ 0 ∧
      get_alloc st.mem (find_next st.mem b.addr) = false) := by
    rintro ⟨h1, h2, h3⟩
    rcases Heap_next_alloc_cases h with ⟨hp, _⟩ | ⟨n, post', rfl, hnf⟩
    · unfold coalesce_next_alloc at hp
      rw [if_neg h2, h3] at hp
      exact absurd hp (by simp)
    · have := (NoAdj_mid.1 hna).2.2.2 n (by simp)
      rw [hnf, h1] at this
      simp at this
  unfold check_block
  simp only [hftr, ht.1, ht.2, hsz, hal]
  have e1 : extract_size (pack b.size b.alloc) = b.size :=
    extract_size_pack _ hbb.2.2.2.1 (by omega)
  have e2 : extract_alloc (pack b.size b.alloc) = b.alloc := extract_alloc_pack _ hbb.2.2.2.1
  have e3 : b.size % dsize = 0 := hbb.2.2.2.1
  simp only [e1, e2, e3, ne_eq, not_true_eq_false, if_false, or_self]
  rw [if_neg, if_neg]
  · intro hc
    exact hnext ⟨by simpa using hc.1, hc.2.1, by simpa using hc.2.2⟩
  · intro hc
    exact hprev ⟨by simpa using hc.1, hc.2.1, by simpa using hc.2.2⟩

/-- The block walk of the checker over a suffix of the heap. -/
theorem check_blocks_true {st : State} {fl : Nat → List Nat} :
    ∀ (suf pre : List Blk) (a fuel : Nat), Heap st (pre ++ suf) fl → NoAdj (pre ++ suf) →
      Geo a suf (st.mem_brk - 8) → suf.length < fuel →
      check_blocks st.mem fuel a = some true
  | [], pre, a, fuel, h, _, hg, hlen => by
    have ha : a = st.mem_brk - 8 := hg
    cases fuel with
    | zero => simp at hlen
    | succ f =>
      have hz : get_size st.mem a = 0 := by
        unfold get_size
        rw [ha, h.epi, pack_zero_true, extract_size_one]
      simp [check_blocks, hz]
  | b :: suf, pre, a, fuel, h, hna, hg, hlen => by
    obtain ⟨g1, g2, g3, g4⟩ := hg
    have hb : b ∈ pre ++ b :: suf := by simp
    have hbb := Heap_blk h hb
    cases fuel with
    | zero => simp at hlen
    | succ f =>
      have hsz := Heap_get_size h hb
      have hcb := check_block_true h hna
      have hfn := Heap_find_next h hb
      rw [g1] at hsz hcb hfn
      have hcond : a ≠ 0 ∧ get_size st.mem a ≠ 0 := by
        rw [hsz]; constructor <;> omega
      simp only [check_blocks, if_pos hcond, hcb, not_true_eq_false, if_false, hfn]
      have h' : Heap st ((pre ++ [b]) ++ suf) fl := by simpa using h
      have hna' : NoAdj ((pre ++ [b]) ++ suf) := by simpa using hna
      exact check_blocks_true suf (pre ++ [b]) (a + b.size) f h' hna' g4
        (by simp only [List.length_cons] at hlen; omega)

theorem check_free_block_true {st : State} {bs : List Blk} {fl : Nat → List Nat}
    (h : Heap st bs fl) (hl : Listed bs fl) {i x : Nat} (hi : i < 15) (hx : x ∈ fl i)
    (hp : get_pred st.mem x ≠ 0 → get_succ st.mem (get_pred st.mem x) = x)
    (hn : get_succ st.mem x ≠ 0 → get_pred st.mem (get_succ st.mem x) = x) :
    check_free_block st x i = true := by
  obtain ⟨c, hc, hcx, hci⟩ := h.cls i hi x hx
  have hcf := (hl.2 i hi x hx).2 c hc hcx
  have hcc := Heap_blk h hc
  have hbl := h.brk_lt
  have hal : get_alloc st.mem x = false := by rw [← hcx, Heap_get_alloc h hc, hcf]
  have hsz : get_size st.mem x = c.size := by rw [← hcx, Heap_get_size h hc]
  have hhi : mem_heap_hi st = st.mem_brk - 1 := by
    unfold mem_heap_hi; exact sub64_eq (by omega) hbl
  unfold check_free_block
  simp only [hal, hsz, hci, mem_heap_lo, hhi]
  rw [if_neg (by simp), if_neg (by omega), if_neg, if_neg]
  · simp
  · rintro ⟨h1, h2⟩; exact h2 (hn h1)
  · rintro ⟨h1, h2⟩; exact h2 (hp h1)

theorem check_list_true {st : State} {bs : List Blk} {fl : Nat → List Nat}
    (h : Heap st bs fl) (hl : Listed bs fl) {i : Nat} (hi : i < 15) :
    ∀ (l : List Nat) (p c fuel : Nat), FList st.mem p c l → (∀ x ∈ l, x ∈ fl i) →
      (p ≠ 0 → get_succ st.mem p = c) → l.length < fuel →
      check_list st i fuel c = some true
  | [], p, c, fuel, hf, _, _, hlen => by
    have hc : c = 0 := hf
    cases fuel with
    | zero => simp at hlen
    | succ f => simp [check_list, hc]
  | x :: xs, p, c, fuel, hf, hsub, hp, hlen => by
    obtain ⟨h1, h2, h3, h4⟩ := hf
    subst h1
    cases fuel with
    | zero => simp at hlen
    | succ f =>
      have hn : get_succ st.mem c ≠ 0 → get_pred st.mem (get_succ st.mem c) = c := by
        intro hne
        cases xs with
        | nil => exact absurd h4 hne
        | cons y ys => rw [h4.1]; exact h4.2.2.1
      have hcf := check_free_block_true h hl hi (hsub c (List.mem_cons_self _ _))
        (by rw [h3]; exact hp) hn
      simp only [check_list, if_neg h2, hcf, not_true_eq_false, if_false]
      exact check_list_true h hl hi xs c (get_succ st.mem c) f h4
        (fun y hy => hsub y (List.mem_cons_of_mem _ hy)) (fun _ => rfl)
        (by simp only [List.length_cons] at hlen; omega)

theorem check_lists_true {st : State} {bs : List Blk} {fl : Nat → List Nat}
    (h : Heap st bs fl) (hl : Listed bs fl) :
    ∀ (n i : Nat), i + n ≤ 15 → check_lists st (walkFuel st) n i = some true
  | 0, _, _ => rfl
  | n + 1, i, hin => by
    have hi : i < 15 := by omega
    have h1 := check_list_true h hl hi (fl i) 0 (st.segregated_list i) (walkFuel st)
      (h.lists i hi) (fun x hx => hx) (fun hc => absurd rfl hc) (Heap_list_fuel h hi)
    simp only [check_lists, h1]
    exact check_lists_true h hl n (i + 1) (by omega)

/-- The heap checker accepts every well-formed heap. -/
theorem mm_checkheap_of_WFL {st : State} {bs : List Blk} {fl : Nat → List Nat}
    (hw : WFL st bs fl) : mm_checkheap st = some true := by
  obtain ⟨h, hl, hna⟩ := hw
  have hbl := h.brk_lt
  have hbg := h.brk_ge
  have hhi : mem_heap_hi st = st.mem_brk - 1 := by
    unfold mem_heap_hi; exact sub64_eq (by omega) hbl
  have hpro : sub64 st.heap_start wsize = st.mem_lo := by
    unfold wsize; rw [h.hs, sub64_eq (by omega) (by omega)]; omega
  have hepi : sub64 (mem_heap_hi st) 7 = st.mem_brk - 8 := by
    rw [hhi, sub64_eq (by omega) (by omega)]; omega
  have c1 : check_prologue_epilogue st st.mem_lo = true := by
    unfold check_prologue_epilogue get_alloc get_size mem_heap_lo
    rw [h.pro, pack_zero_true, extract_alloc_one, extract_size_one, hhi]
    rw [if_neg (by simp), if_neg (by simp), if_neg (by omega)]
  have c2 : check_prologue_epilogue st (st.mem_brk - 8) = true := by
    unfold check_prologue_epilogue get_alloc get_size mem_heap_lo
    rw [h.epi, pack_zero_true, extract_alloc_one, extract_size_one, hhi]
    rw [if_neg (by simp), if_neg (by simp), if_neg (by omega)]
  have hlen := Geo_le h.geo
  have c3 : check_blocks st.mem (walkFuel st) st.heap_start = some true := by
    rw [h.hs]
    exact check_blocks_true bs [] (st.mem_lo + 8) (walkFuel st) (by simpa using h)
      (by simpa using hna) h.geo (by unfold walkFuel; omega)
  have c4 := check_lists_true h hl list_length 0 (by unfold list_length; omega)
  unfold mm_checkheap
  simp only [hpro, hepi, c1, c2, c3, c4, not_true_eq_false, if_false]

end MM

namespace MM

/-! ## The invariant of a trace -/

theorem WFL_payload {st : State} {pre post : List Blk} {fl : Nat → List Nat} {b : Blk}
    (hw : WFL st (pre ++ b :: post) fl) (hal : b.alloc = true) {m' : Mem}
    (hout : ∀ y, y < b.addr + 8 ∨ b.addr + b.size ≤ y + 8 → m' y = st.mem y) :
    WFL (st.setMem m') (pre ++ b :: post) fl :=
  ⟨Heap_payload hw.1 (Listed_unlisted_alloc hw.1 hw.2.1 (by simp) hal) hout, hw.2.1, hw.2.2⟩

theorem WFL_congr {st st' : State} {bs : List Blk} {fl : Nat → List Nat} (hw : WFL st bs fl)
    (h1 : st'.mem = st.mem) (h2 : st'.mem_lo = st.mem_lo) (h3 : st'.mem_brk = st.mem_brk)
    (h4 : st'.heap_start = st.heap_start) (h5 : st'.segregated_list = st.segregated_list) :
    WFL st' bs fl :=
  ⟨Heap_congr hw.1 h1 h2 h3 h4 h5, hw.2.1, hw.2.2⟩

theorem Live_not_zero {bs : List Blk} {L : List Nat} (hL : Live bs L) : (0 : Nat) ∉ L := by
  intro h0
  obtain ⟨c, hc, _, hc0⟩ := hL.2 0 h0
  omega

/-- `malloc` keeps the invariant of a trace, and never fails to return. -/
theorem inv_malloc {st : State} {bs : List Blk} {fl : Nat → List Nat} {L : List Nat}
    (hw : WFL st bs fl) (hL : Live bs L) {size : Nat} (hlt : size + 31 < W64) :
    ∃ st' p, malloc st size = some (st', p) ∧ ∃ bs' fl', WFL st' bs' fl' ∧
      Live bs' (live_after_alloc L p) ∧
      (p ≠ 0 → ∃ c ∈ bs', c.alloc = true ∧ c.addr + 8 = p ∧ size + 16 ≤ c.size) := by
  rw [malloc_of_init hw.1]
  by_cases h0 : size = 0
  · subst h0
    refine ⟨st, 0, malloc_body_zero st, bs, fl, hw, ?_, fun h => absurd rfl h⟩
    unfold live_after_alloc
    rw [if_pos rfl]; exact hL
  · obtain ⟨a32, a16, asz_ge, altW⟩ := asize_spec size h0 hlt
    obtain ⟨st', p, hm, _, hout⟩ := malloc_body_spec hw h0 hlt
    refine ⟨st', p, hm, ?_⟩
    rcases hout with ⟨hp, _, hw', _⟩ | ⟨pre, c, rest, post, fl', hw', hp, hca, hcs, hrest, hall,
      hnew, _⟩
    · refine ⟨bs, fl, hw', ?_, fun h => absurd hp h⟩
      unfold live_after_alloc
      rw [if_pos hp]; exact hL
    · have hcc := Heap_blk hw'.1 (b := c) (by simp)
      have hp0 : p ≠ 0 := by omega
      refine ⟨_, fl', hw', ?_, fun _ => ⟨c, by simp, hca, hp.symm, by omega⟩⟩
      unfold live_after_alloc
      rw [if_neg hp0]
      constructor
      · refine List.nodup_cons.2 ⟨?_, hL.1⟩
        intro hpL
        obtain ⟨d, hd, hda, hdp⟩ := hL.2 p hpL
        exact hnew d hd hda (by omega)
      · intro q hq
        rcases List.mem_cons.1 hq with h1 | h1
        · exact ⟨c, by simp, hca, by rw [h1, hp]⟩
        · obtain ⟨d, hd, hda, hdp⟩ := hL.2 q h1
          have := (hall d hda).2 hd
          refine ⟨d, ?_, hda, hdp⟩
          simp only [List.mem_append, List.mem_cons] at this ⊢
          tauto

/-- `free` of a live pointer keeps the invariant of a trace. -/
theorem inv_free {st : State} {bs : List Blk} {fl : Nat → List Nat} {L : List Nat}
    (hw : WFL st bs fl) (hL : Live bs L) {p : Nat} (hp : p ∈ L) :
    ∃ bs' fl', WFL (free st p) bs' fl' ∧ Live bs' (L.erase p) := by
  obtain ⟨b, hb, hba, hbp⟩ := hL.2 p hp
  obtain ⟨pre, post, hbs⟩ := List.append_of_mem hb
  subst hbs
  obtain ⟨pre', nb, post', fl', hw', hnb, hshape, _⟩ := free_spec hw hba
  rw [hbp] at hw'
  refine ⟨_, _, hw', hL.1.erase p, ?_⟩
  intro q hq
  have hq' := (hL.1.mem_erase_iff).1 hq
  obtain ⟨d, hd, hda, hdq⟩ := hL.2 q hq'.2
  have hdb : d ≠ b := by
    rintro rfl
    exact hq'.1 (hdq.symm.trans hbp)
  have hd' : d ∈ pre ++ post := by
    simp only [List.mem_append, List.mem_cons] at hd ⊢
    tauto
  exact ⟨d, (CoalesceShape_alloc hshape rfl d hda).2 hd', hda, hdq⟩

theorem free_zero (st : State) : free st 0 = st := by
  unfold free
  rw [if_pos rfl]

end MM

namespace MM

/-! ## `realloc` and `calloc` -/

theorem realloc_zero_size (st : State) (ptr : Nat) : realloc st ptr 0 = some (free st ptr, 0) := by
  unfold realloc
  rw [if_pos rfl]

theorem realloc_null (st : State) (size : Nat) (h0 : size ≠ 0) :
    realloc st 0 size = malloc st size := by
  unfold realloc
  rw [if_neg h0, if_pos rfl]

theorem realloc_fail (st : State) (ptr size : Nat) (st1 : State) (h0 : size ≠ 0)
    (hp : ptr ≠ 0) (hm : malloc st size = some (st1, 0)) :
    realloc st ptr size = some (st1, 0) := by
  unfold realloc
  simp only [if_neg h0, if_neg hp, hm, if_true]

theorem realloc_move (st : State) (ptr size : Nat) (st1 : State) (q : Nat) (h0 : size ≠ 0)
    (hp : ptr ≠ 0) (hm : malloc st size = some (st1, q)) (hq : q ≠ 0) :
    realloc st ptr size =
      some (free (st1.setMem (memcpy st1.mem q ptr
        (if size < get_payload_size st1.mem (payload_to_header ptr) then size
          else get_payload_size st1.mem (payload_to_header ptr)))) ptr, q) := by
  unfold realloc
  simp only [if_neg h0, if_neg hp, hm, if_neg hq]

theorem calloc_none (st : State) (n size : Nat) (h : n = 0 ∨ mul64 n size / n ≠ size) :
    calloc st n size = some (st, 0) := by
  unfold calloc
  by_cases hn : n = 0
  · simp only [if_pos hn]
  · rcases h with h | h
    · exact absurd h hn
    · simp only [if_neg hn, if_pos h]

theorem calloc_fail (st : State) (n size : Nat) (st1 : State) (hn : n ≠ 0)
    (ho : mul64 n size / n = size) (hm : malloc st (mul64 n size) = some (st1, 0)) :
    calloc st n size = some (st1, 0) := by
  unfold calloc
  simp only [if_neg hn, ho, ne_eq, not_true_eq_false, if_false, hm, if_true]

theorem calloc_ok (st : State) (n size : Nat) (st1 : State) (q : Nat) (hn : n ≠ 0)
    (ho : mul64 n size / n = size) (hm : malloc st (mul64 n size) = some (st1, q))
    (hq : q ≠ 0) :
    calloc st n size = some (st1.setMem (memset st1.mem q 0 (mul64 n size)), q) := by
  unfold calloc
  simp only [if_neg hn, ho, ne_eq, not_true_eq_false, if_false, hm, if_neg hq]

theorem memcpy_outside (m : Mem) (dst src n y : Nat) (h : y < dst ∨ dst + n ≤ y) :
    memcpy m dst src n y = m y := by
  unfold memcpy
  rw [if_neg]; omega

theorem memset_outside (m : Mem) (dst v n y : Nat) (h : y < dst ∨ dst + n ≤ y) :
    memset m dst v n y = m y := by
  unfold memset
  rw [if_neg]; omega

theorem writeByte_outside (m : Mem) (a v y : Nat) (h : y ≠ a) : writeByte m a v y = m y := by
  unfold writeByte
  rw [if_neg h]

/-- `realloc` of NULL or a live pointer keeps the invariant of a trace, and
never fails to return. -/
theorem inv_realloc {st : State} {bs : List Blk} {fl : Nat → List Nat} {L : List Nat}
    (hw : WFL st bs fl) (hL : Live bs L) {ptr size : Nat} (hptr : ptr ∈ L ∨ ptr = 0)
    (hlt : size + 31 < W64) :
    ∃ st' q, realloc st ptr size = some (st', q) ∧ ∃ bs' fl', WFL st' bs' fl' ∧
      Live bs' (live_after_realloc L ptr size q) := by
  have hL0 := Live_not_zero hL
  unfold live_after_realloc
  by_cases h0 : size = 0
  · subst h0
    refine ⟨_, _, realloc_zero_size st ptr, ?_⟩
    rw [if_pos rfl]
    rcases hptr with h1 | h1
    · exact inv_free hw hL h1
    · subst h1
      rw [free_zero, List.erase_of_not_mem hL0]
      exact ⟨bs, fl, hw, hL⟩
  · obtain ⟨st1, q, hm, bs1, fl1, hw1, hL1, hq⟩ := inv_malloc hw hL hlt
    unfold live_after_alloc at hL1
    simp only [if_neg h0]
    by_cases hp : ptr = 0
    · subst hp
      refine ⟨st1, q, by rw [realloc_null st size h0]; exact hm, bs1, fl1, hw1, ?_⟩
      rw [List.erase_of_not_mem hL0]
      exact hL1
    · have hpL : ptr ∈ L := by
        rcases hptr with h1 | h1
        · exact h1
        · exact absurd h1 hp
      by_cases hq0 : q = 0
      · subst hq0
        refine ⟨st1, 0, realloc_fail st ptr size st1 h0 hp hm, bs1, fl1, hw1, ?_⟩
        rw [if_pos rfl] at hL1 ⊢
        exact hL1
      · rw [if_neg hq0] at hL1
        obtain ⟨c, hc, hca, hcq, hcs⟩ := hq hq0
        obtain ⟨pre, post, hbs⟩ := List.append_of_mem hc
        subst hbs
        have hcc := Heap_blk hw1.1 hc
        have hw2 := @WFL_payload _ _ _ _ _ hw1 hca (memcpy st1.mem q ptr
          (if size < get_payload_size st1.mem (payload_to_header ptr) then size
            else get_payload_size st1.mem (payload_to_header ptr)))
          (by
            intro y hy
            apply memcpy_outside
            split_ifs <;> omega)
        have hpq : ptr ≠ q := by
          rintro rfl
          exact (List.nodup_cons.1 hL1.1).1 hpL
        obtain ⟨bs3, fl3, hw3, hL3⟩ := inv_free hw2 hL1 (List.mem_cons_of_mem _ hpL)
        rw [List.erase_cons_tail (by simpa using (Ne.symm hpq))] at hL3
        refine ⟨_, q, realloc_move st ptr size st1 q h0 hp hm hq0, bs3, fl3, hw3, ?_⟩
        rw [if_neg hq0]
        exact hL3

/-- `calloc` keeps the invariant of a trace, and never fails to return. -/
theorem inv_calloc {st : State} {bs : List Blk} {fl : Nat → List Nat} {L : List Nat}
    (hw : WFL st bs fl) (hL : Live bs L) {n size : Nat}
    (hreq : n = 0 ∨ mul64 n size / n ≠ size ∨ mul64 n size + 31 < W64) :
    ∃ st' p, calloc st n size = some (st', p) ∧ ∃ bs' fl', WFL st' bs' fl' ∧
      Live bs' (live_after_alloc L p) := by
  by_cases hn : n = 0 ∨ mul64 n size / n ≠ size
  · refine ⟨st, 0, calloc_none st n size hn, bs, fl, hw, ?_⟩
    unfold live_after_alloc
    rw [if_pos rfl]; exact hL
  · simp only [not_or, not_not] at hn
    have hlt : mul64 n size + 31 < W64 := by
      rcases hreq with h | h | h
      · exact absurd h hn.1
      · exact absurd hn.2 h
      · exact h
    obtain ⟨st1, q, hm, bs1, fl1, hw1, hL1, hq⟩ := inv_malloc hw hL hlt
    by_cases hq0 : q = 0
    · subst hq0
      exact ⟨st1, 0, calloc_fail st n size st1 hn.1 hn.2 hm, bs1, fl1, hw1, hL1⟩
    · obtain ⟨c, hc, hca, hcq, hcs⟩ := hq hq0
      obtain ⟨pre, post, hbs⟩ := List.append_of_mem hc
      subst hbs
      have hw2 := @WFL_payload _ _ _ _ _ hw1 hca (memset st1.mem q 0 (mul64 n size))
        (by
          intro y hy
          apply memset_outside
          omega)
      exact ⟨_, q, calloc_ok st n size st1 q hn.1 hn.2 hm hq0, _, fl1, hw2, hL1⟩

/-- Every state of a valid trace is a well-formed heap whose allocated blocks
include the live pointers. -/
theorem Reach_inv {st : State} {L : List Nat} (h : Reach st L) :
    ∃ bs fl, WFL st bs fl ∧ Live bs L := by
  induction h with
  | init st0 hempty hok =>
    exact ⟨_, _, (mm_init_spec hempty hok).1, List.nodup_nil, fun p hp => by simp at hp⟩
  | env st L g _ ih =>
    obtain ⟨bs, fl, hw, hL⟩ := ih
    exact ⟨bs, fl, WFL_congr hw rfl rfl rfl rfl rfl, hL⟩
  | write st L p a v _ hp h1 h2 ih =>
    obtain ⟨bs, fl, hw, hL⟩ := ih
    obtain ⟨b, hb, hba, hbp⟩ := hL.2 p hp
    obtain ⟨pre, post, hbs⟩ := List.append_of_mem hb
    subst hbs
    have hbb := Heap_blk hw.1 hb
    have hps : get_payload_size st.mem (payload_to_header p) = b.size - 16 := by
      unfold get_payload_size dsize wsize
      rw [← hbp, payload_to_header_eq (by omega), Heap_get_size hw.1 hb,
        sub64_eq (by omega) (by omega)]
    rw [hps] at h2
    refine ⟨_, fl, WFL_payload hw hba ?_, hL⟩
    intro y hy
    apply writeByte_outside
    omega
  | malloc st L size st' p _ hlt hm ih =>
    obtain ⟨bs, fl, hw, hL⟩ := ih
    obtain ⟨st'', p', hm', bs', fl', hw', hL', _⟩ := inv_malloc hw hL hlt
    rw [hm] at hm'
    obtain ⟨rfl, rfl⟩ := Prod.mk.inj (Option.some.inj hm')
    exact ⟨bs', fl', hw', hL'⟩
  | free st L p _ hp ih =>
    obtain ⟨bs, fl, hw, hL⟩ := ih
    rcases hp with h1 | h1
    · exact inv_free hw hL h1
    · subst h1
      rw [free_zero, List.erase_of_not_mem (Live_not_zero hL)]
      exact ⟨bs, fl, hw, hL⟩
  | realloc st L ptr size st' q _ hptr hlt hm ih =>
    obtain ⟨bs, fl, hw, hL⟩ := ih
    obtain ⟨st'', q', hm', bs', fl', hw', hL'⟩ := inv_realloc hw hL hptr hlt
    rw [hm] at hm'
    obtain ⟨rfl, rfl⟩ := Prod.mk.inj (Option.some.inj hm')
    exact ⟨bs', fl', hw', hL'⟩
  | calloc st L n size st' p _ _ _ hreq hm ih =>
    obtain ⟨bs, fl, hw, hL⟩ := ih
    obtain ⟨st'', p', hm', bs', fl', hw', hL'⟩ := inv_calloc hw hL hreq
    rw [hm] at hm'
    obtain ⟨rfl, rfl⟩ := Prod.mk.inj (Option.some.inj hm')
    exact ⟨bs', fl', hw', hL'⟩

end MM

namespace MM

/-! ## Reading the abstract view off the memory -/

/-- The block walk from `heap_start` meets the header addresses of a suffix
of the heap. -/
theorem walk_blocks_spec {st : State} {fl : Nat → List Nat} :
    ∀ (suf pre : List Blk) (a fuel : Nat), Heap st (pre ++ suf) fl →
      Geo a suf (st.mem_brk - 8) → suf.length < fuel →
      walk_blocks st.mem fuel a = some (suf.map Blk.addr)
  | [], pre, a, fuel, h, hg, hlen => by
    have ha : a = st.mem_brk - 8 := hg
    cases fuel with
    | zero => simp at hlen
    | succ f =>
      have hz : get_size st.mem a = 0 := by
        unfold get_size
        rw [ha, h.epi, pack_zero_true, extract_size_one]
      simp [walk_blocks, hz]
  | b :: suf, pre, a, fuel, h, hg, hlen => by
    obtain ⟨g1, g2, g3, g4⟩ := hg
    have hb : b ∈ pre ++ b :: suf := by simp
    have hbb := Heap_blk h hb
    cases fuel with
    | zero => simp at hlen
    | succ f =>
      have hsz := Heap_get_size h hb
      have hfn := Heap_find_next h hb
      rw [g1] at hsz hfn
      have hcond : a ≠ 0 ∧ get_size st.mem a ≠ 0 := by
        rw [hsz]; constructor <;> omega
      have h' : Heap st ((pre ++ [b]) ++ suf) fl := by simpa using h
      have ih := walk_blocks_spec suf (pre ++ [b]) (a + b.size) f h' g4
        (by simp only [List.length_cons] at hlen; omega)
      simp only [walk_blocks, if_pos hcond, hfn, ih, Option.map_some', List.map_cons, g1]

theorem heap_blocks_of_Heap {st : State} {bs : List Blk} {fl : Nat → List Nat}
    (h : Heap st bs fl) : heap_blocks st = some (bs.map Blk.addr) := by
  have hlen := Geo_le h.geo
  have hbg := h.brk_ge
  unfold heap_blocks
  rw [h.hs]
  exact walk_blocks_spec bs [] (st.mem_lo + 8) (walkFuel st) (by simpa using h) h.geo
    (by unfold walkFuel; omega)

theorem walk_list_spec (m : Mem) : ∀ (l : List Nat) (p c fuel : Nat), FList m p c l →
    l.length < fuel → walk_list m fuel c = some l
  | [], p, c, fuel, hf, hlen => by
    have hc : c = 0 := hf
    cases fuel with
    | zero => simp at hlen
    | succ f => simp [walk_list, hc]
  | x :: xs, p, c, fuel, hf, hlen => by
    obtain ⟨h1, h2, h3, h4⟩ := hf
    subst h1
    cases fuel with
    | zero => simp at hlen
    | succ f =>
      have ih := walk_list_spec m xs c (get_succ m c) f h4
        (by simp only [List.length_cons] at hlen; omega)
      simp only [walk_list, if_neg h2, ih, Option.map_some']

theorem list_nodes_of_Heap {st : State} {bs : List Blk} {fl : Nat → List Nat}
    (h : Heap st bs fl) {i : Nat} (hi : i < 15) : list_nodes st i = some (fl i) :=
  walk_list_spec st.mem (fl i) 0 (st.segregated_list i) (walkFuel st) (h.lists i hi)
    (Heap_list_fuel h hi)

/-- The links of a chained list are reciprocal. -/
theorem FList_links (m : Mem) : ∀ (l : List Nat) (p c : Nat), FList m p c l →
    (p ≠ 0 → get_succ m p = c) → ∀ x ∈ l,
      (get_succ m x ≠ 0 → get_pred m (get_succ m x) = x) ∧
      (get_pred m x ≠ 0 → get_succ m (get_pred m x) = x)
  | [], _, _, _, _ => fun x hx => by simp at hx
  | y :: ys, p, c, hf, hp => by
    obtain ⟨h1, h2, h3, h4⟩ := hf
    subst h1
    intro x hx
    rcases List.mem_cons.1 hx with rfl | hx
    · constructor
      · intro hne
        cases ys with
        | nil => exact absurd h4 hne
        | cons z zs => rw [h4.1]; exact h4.2.2.1
      · rw [h3]; exact hp
    · exact FList_links m ys c (get_succ m c) h4 (fun _ => rfl) x hx

/-- Block addresses of a tiling are congruent modulo 16. -/
theorem Geo_align {a e : Nat} {bs : List Blk} (h : Geo a bs e) {b : Blk} (hb : b ∈ bs) :
    b.addr % 16 = a % 16 := by
  induction bs generalizing a with
  | nil => simp at hb
  | cons x xs ih =>
    obtain ⟨h1, h2, h3, h4⟩ := h
    rcases List.mem_cons.1 hb with rfl | hb
    · rw [h1]
    · have := ih h4 hb
      omega

/-! ## What the operations never touch -/

theorem coalesce_frame (st : State) (x : Nat) :
    (coalesce_block st x).1.mem_lo = st.mem_lo ∧
    (coalesce_block st x).1.mem_brk = st.mem_brk ∧
    (coalesce_block st x).1.heap_start = st.heap_start ∧
    (coalesce_block st x).1.grants = st.grants ∧
    (coalesce_block st x).1.sbrk_calls = st.sbrk_calls := by
  cases hp : coalesce_prev_alloc st.mem x <;> cases hn : coalesce_next_alloc st.mem x
  · rw [coalesce_case4 st x hp hn]
    dsimp only
    obtain ⟨a1, a2, a3, a4, a5⟩ := remove_frame st (find_prev st.mem x)
    obtain ⟨b1, b2, b3, b4, b5⟩ := remove_frame (remove_from_free_list st (find_prev st.mem x))
      (find_next (remove_from_free_list st (find_prev st.mem x)).mem x)
    exact ⟨(setMem_lo _ _).trans (b1.trans a1), (setMem_brk _ _).trans (b2.trans a2),
      (setMem_hs _ _).trans (b3.trans a3), (setMem_grants _ _).trans (b4.trans a4),
      (setMem_calls _ _).trans (b5.trans a5)⟩
  · rw [coalesce_case3 st x hp hn]
    dsimp only
    obtain ⟨a1, a2, a3, a4, a5⟩ := remove_frame st (find_prev st.mem x)
    exact ⟨(setMem_lo _ _).trans a1, (setMem_brk _ _).trans a2, (setMem_hs _ _).trans a3,
      (setMem_grants _ _).trans a4, (setMem_calls _ _).trans a5⟩
  · rw [coalesce_case2 st x hp hn]
    dsimp only
    obtain ⟨a1, a2, a3, a4, a5⟩ := remove_frame st (find_next st.mem x)
    exact ⟨(setMem_lo _ _).trans a1, (setMem_brk _ _).trans a2, (setMem_hs _ _).trans a3,
      (setMem_grants _ _).trans a4, (setMem_calls _ _).trans a5⟩
  · rw [coalesce_case1 st x hp hn]
    exact ⟨rfl, rfl, rfl, rfl, rfl⟩

theorem split_frame (st : State) (block asize : Nat) :
    (split_block st block asize).mem_lo = st.mem_lo ∧
    (split_block st block asize).mem_brk = st.mem_brk ∧
    (split_block st block asize).heap_start = st.heap_start ∧
    (split_block st block asize).grants = st.grants ∧
    (split_block st block asize).sbrk_calls = st.sbrk_calls := by
  rw [split_block_eq]
  split_ifs with hc
  · obtain ⟨a1, a2, a3, a4, a5⟩ := insert_frame
      (st.setMem (write_block (write_block st.mem block asize true)
          (find_next (write_block st.mem block asize true) block)
          (sub64 (get_size st.mem block) asize) false))
      (find_next (write_block st.mem block asize true) block)
    exact ⟨a1.trans (setMem_lo _ _), a2.trans (setMem_brk _ _), a3.trans (setMem_hs _ _),
      a4.trans (setMem_grants _ _), a5.trans (setMem_calls _ _)⟩
  · exact ⟨rfl, rfl, rfl, rfl, rfl⟩

theorem place_frame (st : State) (block asize : Nat) :
    (place_block st block asize).mem_lo = st.mem_lo ∧
    (place_block st block asize).mem_brk = st.mem_brk ∧
    (place_block st block asize).heap_start = st.heap_start ∧
    (place_block st block asize).grants = st.grants ∧
    (place_block st block asize).sbrk_calls = st.sbrk_calls := by
  unfold place_block
  obtain ⟨a1, a2, a3, a4, a5⟩ := split_frame
    (remove_from_free_list (st.setMem (write_block st.mem block (get_size st.mem block) true))
      block) block asize
  obtain ⟨b1, b2, b3, b4, b5⟩ := remove_frame
    (st.setMem (write_block st.mem block (get_size st.mem block) true)) block
  exact ⟨a1.trans (b1.trans (setMem_lo _ _)), a2.trans (b2.trans (setMem_brk _ _)),
    a3.trans (b3.trans (setMem_hs _ _)), a4.trans (b4.trans (setMem_grants _ _)),
    a5.trans (b5.trans (setMem_calls _ _))⟩

theorem free_frame (st : State) (bp : Nat) :
    (free st bp).mem_lo = st.mem_lo ∧ (free st bp).mem_brk = st.mem_brk ∧
    (free st bp).heap_start = st.heap_start ∧ (free st bp).grants = st.grants ∧
    (free st bp).sbrk_calls = st.sbrk_calls := by
  by_cases hbp : bp = 0
  · subst hbp
    rw [free_zero]
    exact ⟨rfl, rfl, rfl, rfl, rfl⟩
  · rw [free_eq st bp hbp]
    obtain ⟨a1, a2, a3, a4, a5⟩ := insert_frame
      (coalesce_block (st.setMem (write_block st.mem (payload_to_header bp)
        (get_size st.mem (payload_to_header bp)) false)) (payload_to_header bp)).1
      (coalesce_block (st.setMem (write_block st.mem (payload_to_header bp)
        (get_size st.mem (payload_to_header bp)) false)) (payload_to_header bp)).2
    obtain ⟨b1, b2, b3, b4, b5⟩ := coalesce_frame
      (st.setMem (write_block st.mem (payload_to_header bp)
        (get_size st.mem (payload_to_header bp)) false)) (payload_to_header bp)
    exact ⟨a1.trans (b1.trans (setMem_lo _ _)), a2.trans (b2.trans (setMem_brk _ _)),
      a3.trans (b3.trans (setMem_hs _ _)), a4.trans (b4.trans (setMem_grants _ _)),
      a5.trans (b5.trans (setMem_calls _ _))⟩

end MM

namespace MM

/-! ## `malloc` on a well-formed heap, for every request size -/

theorem round_up_dsize (s : Nat) : round_up s dsize % 16 = 0 ∧ round_up s dsize < W64 := by
  have hW : W64 = 18446744073709551616 := rfl
  unfold round_up mul64 dsize wsize
  constructor
  · rw [Nat.mod_mod_of_dvd _ (by rw [hW]; decide : 16 ∣ W64)]
    exact Nat.mul_mod_right _ _
  · exact Nat.mod_lt _ (by rw [hW]; decide)

/-- Whatever the request size, `malloc` on a well-formed heap returns, and a
non-NULL result is the payload address of a block of the arena. -/
theorem malloc_body_any {st : State} {bs : List Blk} {fl : Nat → List Nat}
    (hw : WFL st bs fl) (size : Nat) :
    ∃ st' p, malloc_body st size = some (st', p) ∧ st'.mem_lo = st.mem_lo ∧
      st.mem_brk ≤ st'.mem_brk ∧ st'.mem_brk < W64 ∧
      (p ≠ 0 → p % 16 = (st.mem_lo + 16) % 16 ∧ st.mem_lo + 16 ≤ p ∧ p + 24 ≤ st'.mem_brk) := by
  have hW : W64 = 18446744073709551616 := rfl
  have hbl := hw.1.brk_lt
  by_cases h0 : size = 0
  · subst h0
    exact ⟨st, 0, malloc_body_zero st, rfl, le_refl _, hbl, fun h => absurd rfl h⟩
  · obtain ⟨ha16, haW⟩ := round_up_dsize (add64 size dsize)
    obtain ⟨r, hf, hr⟩ := find_fit_spec hw.1 hw.2.1 (round_up (add64 size dsize) dsize)
    rcases hr with ⟨rfl, _⟩ | ⟨hr0, j, _, hj2, hmem, _⟩
    · have hmx := max_spec (round_up (add64 size dsize) dsize)
      have h32 : 32 ≤ max (round_up (add64 size dsize) dsize) chunksize := by
        rw [hmx]; split_ifs <;> omega
      have h16 : max (round_up (add64 size dsize) dsize) chunksize % 16 = 0 := by
        rw [hmx]; split_ifs <;> omega
      have hlt : max (round_up (add64 size dsize) dsize) chunksize + 16 ≤ W64 := by
        rw [hmx]; split_ifs <;> omega
      rcases extend_heap_spec hw h32 h16 hlt with ⟨e1, _, _, e4, e5, _, _⟩ |
        ⟨pre', nb, fl', e1, e2, _, _, e5, e6⟩
      · exact ⟨_, 0, malloc_body_grow_fail st size h0 hf e1, e4, by rw [e5], by rw [e5]; exact hbl,
          fun h => absurd rfl h⟩
      · have hnb : nb ∈ pre' ++ [nb] := by simp
        have hbb := Heap_blk e2.1 hnb
        have hal := Geo_align e2.1.geo hnb
        have hbl' := e2.1.brk_lt
        have hne : (extend_heap st (max (round_up (add64 size dsize) dsize) chunksize)).2 ≠ 0 := by
          rw [e1]; omega
        obtain ⟨f1, f2, _, _, _⟩ := place_frame
          (extend_heap st (max (round_up (add64 size dsize) dsize) chunksize)).1
          (extend_heap st (max (round_up (add64 size dsize) dsize) chunksize)).2
          (round_up (add64 size dsize) dsize)
        refine ⟨_, _, malloc_body_grow_ok st size h0 hf hne, f1.trans e5, ?_, ?_, ?_⟩
        · rw [f2, e6]; omega
        · rw [f2]; exact hbl'
        · intro _
          rw [f2, e1, header_to_payload_eq (by omega)]
          rw [e5] at hbb hal
          omega
    · obtain ⟨b, hb, hbr, _⟩ := hw.1.cls j hj2 r hmem
      have hbb := Heap_blk hw.1 hb
      have hal := Geo_align hw.1.geo hb
      obtain ⟨f1, f2, _, _, _⟩ := place_frame st r (round_up (add64 size dsize) dsize)
      refine ⟨_, _, malloc_body_found st size r h0 hf hr0, f1, by rw [f2], by rw [f2]; exact hbl,
        ?_⟩
      intro _
      rw [f2, ← hbr, header_to_payload_eq (by omega)]
      omega

theorem malloc_any {st : State} {bs : List Blk} {fl : Nat → List Nat}
    (hw : WFL st bs fl) (size : Nat) :
    ∃ st' p, malloc st size = some (st', p) ∧ st'.mem_lo = st.mem_lo ∧
      st.mem_brk ≤ st'.mem_brk ∧ st'.mem_brk < W64 ∧
      (p ≠ 0 → p % 16 = (st.mem_lo + 16) % 16 ∧ st.mem_lo + 16 ≤ p ∧ p + 24 ≤ st'.mem_brk) := by
  rw [malloc_of_init hw.1 size]
  exact malloc_body_any hw size

/-! ## The example runs -/

theorem malloc_state_ptr (st : State) (size p : Nat)
    (h : (malloc st size).map Prod.snd = some p) :
    malloc st size = some (malloc_state st size, p) := by
  unfold malloc_state
  cases hm : malloc st size with
  | none => rw [hm] at h; simp at h
  | some r =>
    rw [hm] at h
    simp only [Option.map_some', Option.some.injEq] at h
    simp only [Option.getD_some, ← h]

theorem ex_fresh_WFL :
    WFL ex_fresh [⟨4104, 4096, false⟩] (enlist (fun _ => []) ⟨4104, 4096, false⟩) :=
  (@mm_init_spec ex_empty rfl (by decide)).1

theorem ex_fresh_WF : WF ex_fresh := ⟨_, _, ex_fresh_WFL⟩

theorem ex_fresh_reach : Reach ex_fresh [] := Reach.init ex_empty rfl (by decide)

theorem ex_one_eq : malloc ex_fresh 24 = some (ex_one, 4112) :=
  malloc_state_ptr ex_fresh 24 4112 (by decide)

theorem ex_one_reach : Reach ex_one [4112] :=
  Reach.malloc ex_fresh [] 24 ex_one 4112 ex_fresh_reach (by decide) ex_one_eq

theorem ex_written_reach : Reach ex_written [4112] :=
  Reach.write ex_one [4112] 4112 4112 7 ex_one_reach (List.mem_singleton.2 rfl) (le_refl _)
    (by decide)

theorem ex_freed_reach : Reach ex_freed [] :=
  Reach.free ex_written [4112] 4112 ex_written_reach (Or.inl (List.mem_singleton.2 rfl))

end MM

namespace MM

/-! ## Claims about the invariants -/

/-- C1: starting from a successful `mm_init` on an empty arena, after every
step of every trace of calls that respects the preconditions of the interface
(`Reach`), `mm_checkheap` returns true; and from every such state each further
call allowed by the preconditions returns, so the traces never get stuck. -/
theorem checkheap_after_every_step (st : State) (L : List Nat) (h : Reach st L) :
    mm_checkheap st = some true ∧
    (∀ size, size + 31 < W64 → ∃ st' p, malloc st size = some (st', p)) ∧
    (∀ ptr size, ptr ∈ L ∨ ptr = 0 → size + 31 < W64 →
      ∃ st' q, realloc st ptr size = some (st', q)) ∧
    (∀ n size, n = 0 ∨ mul64 n size / n ≠ size ∨ mul64 n size + 31 < W64 →
      ∃ st' p, calloc st n size = some (st', p)) := by
  obtain ⟨bs, fl, hw, hL⟩ := Reach_inv h
  refine ⟨mm_checkheap_of_WFL hw, ?_, ?_, ?_⟩
  · intro size hlt
    obtain ⟨st', p, hm, _⟩ := inv_malloc hw hL hlt
    exact ⟨st', p, hm⟩
  · intro ptr size hptr hlt
    obtain ⟨st', q, hm, _⟩ := inv_realloc hw hL hptr hlt
    exact ⟨st', q, hm⟩
  · intro n size hreq
    obtain ⟨st', p, hm, _⟩ := inv_calloc hw hL hreq
    exact ⟨st', p, hm⟩

/-- The checker accepts the heap after `a = malloc(24)`, a client write into
the payload of `a`, and `free(a)`. -/
theorem checkheap_after_every_step_witness :
    Reach ex_freed [] ∧ mm_checkheap ex_freed = some true :=
  ⟨ex_freed_reach, (checkheap_after_every_step ex_freed [] ex_freed_reach).1⟩

/-- C2: after `mm_init` and after every later call of a trace that respects
the preconditions of the interface, every block of the heap walk whose header
is marked free occurs exactly once in the list of its size class and in no
other of the 15 lists, every node reachable from a list head is a block of the
heap marked free, and the `pred` and `succ` links of every listed block are
reciprocal wherever they are not NULL. -/
theorem free_lists_sound_after_every_step (st : State) (L : List Nat) (h : Reach st L) :
    ∃ (hb : List Nat) (ln : Nat → List Nat), heap_blocks st = some hb ∧
      (∀ i, i < list_length → list_nodes st i = some (ln i)) ∧
      (∀ a ∈ hb, get_alloc st.mem a = false →
        (ln (find_index (get_size st.mem a))).count a = 1 ∧
        ∀ i, i < list_length → i ≠ find_index (get_size st.mem a) → a ∉ ln i) ∧
      (∀ i, i < list_length → ∀ x ∈ ln i, x ∈ hb ∧ get_alloc st.mem x = false ∧
        (get_succ st.mem x ≠ 0 → get_pred st.mem (get_succ st.mem x) = x) ∧
        (get_pred st.mem x ≠ 0 → get_succ st.mem (get_pred st.mem x) = x)) := by
  obtain ⟨bs, fl, ⟨hh, hl, _⟩, _⟩ := Reach_inv h
  refine ⟨bs.map Blk.addr, fl, heap_blocks_of_Heap hh, fun i hi => list_nodes_of_Heap hh hi,
    ?_, ?_⟩
  · intro a ha hfree
    obtain ⟨b, hb, rfl⟩ := List.mem_map.1 ha
    rw [Heap_get_alloc hh hb] at hfree
    rw [Heap_get_size hh hb]
    have hmem := hl.1 b hb hfree (by simp)
    refine ⟨List.count_eq_one_of_mem (hh.nodup _ (find_index_lt _)) hmem, ?_⟩
    intro i hi hne hx
    exact hne (Heap_node_class hh hi hx (find_index_lt _) hmem)
  · intro i hi x hx
    obtain ⟨c, hc, hcx, _⟩ := hh.cls i hi x hx
    have hcf := (hl.2 i hi x hx).2 c hc hcx
    refine ⟨List.mem_map.2 ⟨c, hc, hcx⟩, ?_,
      FList_links st.mem (fl i) 0 (st.segregated_list i) (hh.lists i hi)
        (fun hne => absurd rfl hne) x hx⟩
    rw [← hcx, Heap_get_alloc hh hc, hcf]

/-- The free lists are sound while `a = malloc(24)` is live and written to. -/
theorem free_lists_sound_after_every_step_witness :
    Reach ex_written [4112] ∧
    ∃ (hb : List Nat) (ln : Nat → List Nat), heap_blocks ex_written = some hb ∧
      (∀ i, i < list_length → list_nodes ex_written i = some (ln i)) ∧
      (∀ a ∈ hb, get_alloc ex_written.mem a = false →
        (ln (find_index (get_size ex_written.mem a))).count a = 1 ∧
        ∀ i, i < list_length → i ≠ find_index (get_size ex_written.mem a) → a ∉ ln i) ∧
      (∀ i, i < list_length → ∀ x ∈ ln i, x ∈ hb ∧ get_alloc ex_written.mem x = false ∧
        (get_succ ex_written.mem x ≠ 0 →
          get_pred ex_written.mem (get_succ ex_written.mem x) = x) ∧
        (get_pred ex_written.mem x ≠ 0 →
          get_succ ex_written.mem (get_pred ex_written.mem x) = x)) :=
  ⟨ex_written_reach, free_lists_sound_after_every_step ex_written [4112] ex_written_reach⟩

/-! ## Claims about `malloc` -/

/-- For a request whose adjusted size does not wrap around, `malloc` on a
well-formed heap returns NULL or the payload of an allocated block with at
least `size` payload bytes. -/
theorem malloc_payload_of_small {st : State} (hw : WF st) {size : Nat} (h0 : size ≠ 0)
    (hlt : size + 31 < W64) :
    ∃ st' p, malloc st size = some (st', p) ∧
      (p ≠ 0 → get_alloc st'.mem (payload_to_header p) = true ∧
        size ≤ get_payload_size st'.mem (payload_to_header p)) := by
  obtain ⟨bs, fl, hw⟩ := hw
  obtain ⟨_, _, ha3, _⟩ := asize_spec size h0 hlt
  obtain ⟨st', p, hm, _, hres⟩ := malloc_body_spec hw h0 hlt
  refine ⟨st', p, by rw [malloc_of_init hw.1 size]; exact hm, ?_⟩
  intro hp
  rcases hres with ⟨hp0, _⟩ | ⟨pre, c, rest, post, fl', hw', hpc, hca, hcs, _⟩
  · exact absurd hp0 hp
  · have hc : c ∈ pre ++ c :: (rest ++ post) := by simp
    have hbb := Heap_blk hw'.1 hc
    subst hpc
    rw [payload_to_header_eq (by omega)]
    unfold get_payload_size dsize wsize
    rw [Heap_get_alloc hw'.1 hc, Heap_get_size hw'.1 hc, sub64_eq (by omega) (by omega)]
    exact ⟨hca, by omega⟩

/-- C3 (the code departs from the claim): on the well-formed heap right after
`mm_init`, `malloc(2^64 - 1)` returns the non-NULL pointer 4112 to a block
marked allocated whose payload size is 0: the adjusted size
`round_up(size + 16, 16)` wraps around to 16. -/
theorem malloc_huge_request_wraps :
    WF ex_fresh ∧
    (malloc ex_fresh 18446744073709551615).map (fun r =>
      (r.2, get_alloc r.1.mem (payload_to_header r.2),
        get_payload_size r.1.mem (payload_to_header r.2))) = some (4112, true, 0) :=
  ⟨ex_fresh_WF, by decide⟩

theorem ptr_bounds {st st' : State} {p : Nat} (hlo : st.mem_lo % 16 = 0)
    (h1 : st'.mem_lo = st.mem_lo) (h3 : st'.mem_brk < W64)
    (h4 : p % 16 = (st.mem_lo + 16) % 16 ∧ st.mem_lo + 16 ≤ p ∧ p + 24 ≤ st'.mem_brk) :
    p % 16 = 0 ∧ mem_heap_lo st' ≤ p ∧ p ≤ mem_heap_hi st' := by
  unfold mem_heap_lo mem_heap_hi
  rw [sub64_eq (by omega) h3, h1]
  omega

/-- C4: when the low address of the arena is a multiple of 16, every non-NULL
pointer that `malloc`, `calloc` or `realloc` returns on a well-formed heap,
whatever the arguments, is a multiple of 16 and lies between `mem_heap_lo()`
and `mem_heap_hi()`; each of the three calls returns; and every header address
of the block walk is congruent to 8 modulo 16. -/
theorem returned_pointers_aligned_in_arena (st : State) (hw : WF st)
    (hlo : st.mem_lo % 16 = 0) :
    (∀ size, ∃ st' p, malloc st size = some (st', p) ∧
      (p ≠ 0 → p % 16 = 0 ∧ mem_heap_lo st' ≤ p ∧ p ≤ mem_heap_hi st')) ∧
    (∀ n size, ∃ st' p, calloc st n size = some (st', p) ∧
      (p ≠ 0 → p % 16 = 0 ∧ mem_heap_lo st' ≤ p ∧ p ≤ mem_heap_hi st')) ∧
    (∀ ptr size, ∃ st' q, realloc st ptr size = some (st', q) ∧
      (q ≠ 0 → q % 16 = 0 ∧ mem_heap_lo st' ≤ q ∧ q ≤ mem_heap_hi st')) ∧
    (∃ hb, heap_blocks st = some hb ∧ ∀ a ∈ hb, a % 16 = 8) := by
  obtain ⟨bs, fl, hw⟩ := hw
  refine ⟨?_, ?_, ?_, ?_⟩
  · intro size
    obtain ⟨st', p, hm, h1, _, h3, h4⟩ := malloc_any hw size
    exact ⟨st', p, hm, fun hp => ptr_bounds hlo h1 h3 (h4 hp)⟩
  · intro n size
    by_cases hn : n = 0 ∨ mul64 n size / n ≠ size
    · exact ⟨st, 0, calloc_none st n size hn, fun hp => absurd rfl hp⟩
    · simp only [not_or, not_not] at hn
      obtain ⟨st', p, hm, h1, _, h3, h4⟩ := malloc_any hw (mul64 n size)
      by_cases hp0 : p = 0
      · subst hp0
        exact ⟨st', 0, calloc_fail st n size st' hn.1 hn.2 hm, fun hp => absurd rfl hp⟩
      · refine ⟨_, p, calloc_ok st n size st' p hn.1 hn.2 hm hp0, fun hp => ?_⟩
        exact ptr_bounds hlo ((setMem_lo _ _).trans h1) (by rw [setMem_brk]; exact h3)
          (by rw [setMem_brk]; exact h4 hp)
  · intro ptr size
    by_cases h0 : size = 0
    · subst h0
      exact ⟨_, 0, realloc_zero_size st ptr, fun hp => absurd rfl hp⟩
    · obtain ⟨st', q, hm, h1, _, h3, h4⟩ := malloc_any hw size
      by_cases hp : ptr = 0
      · subst hp
        exact ⟨st', q, by rw [realloc_null st size h0]; exact hm,
          fun hq => ptr_bounds hlo h1 h3 (h4 hq)⟩
      · by_cases hq0 : q = 0
        · subst hq0
          exact ⟨st', 0, realloc_fail st ptr size st' h0 hp hm, fun hq => absurd rfl hq⟩
        · obtain ⟨f1, f2, _⟩ := free_frame (st'.setMem (memcpy st'.mem q ptr
            (if size < get_payload_size st'.mem (payload_to_header ptr) then size
              else get_payload_size st'.mem (payload_to_header ptr)))) ptr
          refine ⟨_, q, realloc_move st ptr size st' q h0 hp hm hq0, fun hq => ?_⟩
          exact ptr_bounds hlo (f1.trans ((setMem_lo _ _).trans h1))
            (by rw [f2, setMem_brk]; exact h3) (by rw [f2, setMem_brk]; exact h4 hq)
  · refine ⟨bs.map Blk.addr, heap_blocks_of_Heap hw.1, ?_⟩
    intro a ha
    obtain ⟨b, hb, rfl⟩ := List.mem_map.1 ha
    have := Geo_align hw.1.geo hb
    omega

/-- On the heap right after `mm_init` at address 4096, a non-NULL result of
`malloc(24)` is aligned and inside the arena. -/
theorem returned_pointers_aligned_in_arena_witness :
    WF ex_fresh ∧ ex_fresh.mem_lo % 16 = 0 ∧
    ∃ st' p, malloc ex_fresh 24 = some (st', p) ∧
      (p ≠ 0 → p % 16 = 0 ∧ mem_heap_lo st' ≤ p ∧ p ≤ mem_heap_hi st') :=
  ⟨ex_fresh_WF, by decide,
    (returned_pointers_aligned_in_arena ex_fresh ex_fresh_WF (by decide)).1 24⟩

end MM

namespace MM

set_option maxRecDepth 100000

/-! ## Claims about coalescing and reuse -/

theorem free_size_alloc (o : Option Blk) (h : ∀ q ∈ o, q.alloc = true) : free_size o = 0 := by
  cases o with
  | none => rfl
  | some q =>
    have := h q rfl
    simp [free_size, this]

theorem free_size_free (q : Blk) (h : q.alloc = false) : free_size (some q) = q.size := by
  simp [free_size, h]

/-- The tags, size and heap neighbours of a free block of a heap without two
adjacent free blocks. -/
theorem Heap_free_block {st : State} {pre post : List Blk} {fl : Nat → List Nat} {nb : Blk}
    (h : Heap st (pre ++ nb :: post) fl) (hna : NoAdj (pre ++ nb :: post))
    (hfree : nb.alloc = false) :
    get_alloc st.mem nb.addr = false ∧
    readWord st.mem (header_to_footer st.mem nb.addr) = readWord st.mem nb.addr ∧
    get_size st.mem nb.addr = nb.size ∧
    (find_prev st.mem nb.addr = 0 ∨ get_alloc st.mem (find_prev st.mem nb.addr) = true) ∧
    (find_next st.mem nb.addr = 0 ∨ get_alloc st.mem (find_next st.mem nb.addr) = true) := by
  have hb : nb ∈ pre ++ nb :: post := by simp
  have hbb := Heap_blk h hb
  have ht := h.tags nb hb
  have hsz := Heap_get_size h hb
  have hftr : header_to_footer st.mem nb.addr = nb.addr + nb.size - 8 := by
    unfold header_to_footer dsize wsize
    rw [hsz, add64_eq (a := nb.addr) (by omega), add64_eq (by omega),
      sub64_eq (by omega) (by omega)]
    omega
  obtain ⟨_, _, n1, n2⟩ := NoAdj_mid.1 hna
  refine ⟨by rw [Heap_get_alloc h hb, hfree], by rw [hftr, ht.1, ht.2], hsz, ?_, ?_⟩
  · rcases Heap_prev_alloc_cases h with ⟨hp, _⟩ | ⟨pre', p, rfl, hpf⟩
    · unfold coalesce_prev_alloc at hp
      by_cases hz : find_prev st.mem nb.addr = 0
      · exact Or.inl hz
      · rw [if_neg hz] at hp
        exact Or.inr hp
    · have := n1 p (getLast?_snoc pre' p)
      rw [hpf, hfree] at this
      simp at this
  · rcases Heap_next_alloc_cases h with ⟨hp, _⟩ | ⟨n, post', rfl, hnf⟩
    · unfold coalesce_next_alloc at hp
      by_cases hz : find_next st.mem nb.addr = 0
      · exact Or.inl hz
      · rw [if_neg hz] at hp
        exact Or.inr hp
    · have := n2 n (by simp)
      rw [hnf, hfree] at this
      simp at this

/-- A block strictly inside another block of the heap is in no list. -/
theorem Heap_inside_not_listed {st : State} {bs : List Blk} {fl : Nat → List Nat}
    (h : Heap st bs fl) {nb : Blk} (hnb : nb ∈ bs) {a : Nat} (h1 : nb.addr < a)
    (h2 : a < nb.addr + nb.size) {i : Nat} (hi : i < 15) : a ∉ fl i := by
  intro hx
  obtain ⟨c, hc, hca, _⟩ := h.cls i hi a hx
  have hcc := Heap_blk h hc
  rcases Heap_sep h hc hnb with h3 | h3 | h3
  · subst h3; omega
  · omega
  · omega

/-- C5: in a heap whose blocks all carry matching header and footer and
whose blocks other than `b` include no two adjacent free ones, with `b`
marked free and in no list, `coalesce_block(b)` returns the block before `b`
when that block is free and `b` otherwise; the returned block is marked free,
its footer equals its header, its size is the size of `b` plus the sizes of
the free immediate neighbours of `b`; each absorbed neighbour is in none of
the lists afterwards; and neither heap neighbour of the returned block is
free (the prologue and the epilogue count as allocated). Consequently, on
the fresh heap `a = malloc(24); b = malloc(24); c = malloc(24); free(a);
free(c); free(b)` returns 4112, 4160, 4208 and leaves a heap of exactly one
block, at 4104, free and of 4096 bytes, which covers the three allocations,
and that block is the only node of the lists. -/
theorem coalesce_block_merges_free_neighbours :
    (∀ (st : State) (pre post : List Blk) (fl : Nat → List Nat) (b : Blk),
      Heap st (pre ++ b :: post) fl → b.alloc = false →
      ListedU (pre ++ b :: post) fl [b.addr] → NoAdj pre → NoAdj post →
      ∃ st' r, coalesce_block st b.addr = (st', r) ∧
        (∀ p ∈ pre.getLast?, p.alloc = false → r = p.addr) ∧
        ((∀ p ∈ pre.getLast?, p.alloc = true) → r = b.addr) ∧
        get_alloc st'.mem r = false ∧
        readWord st'.mem (header_to_footer st'.mem r) = readWord st'.mem r ∧
        get_size st'.mem r = free_size pre.getLast? + b.size + free_size post.head? ∧
        (∀ q, q ∈ pre.getLast? ∨ q ∈ post.head? → q.alloc = false →
          ∀ i, i < list_length → ∃ l, list_nodes st' i = some l ∧ q.addr ∉ l) ∧
        (find_prev st'.mem r = 0 ∨ get_alloc st'.mem (find_prev st'.mem r) = true) ∧
        (find_next st'.mem r = 0 ∨ get_alloc st'.mem (find_next st'.mem r) = true)) ∧
    ((malloc ex_fresh 24).map Prod.snd = some 4112 ∧
      (malloc ex_one 24).map Prod.snd = some 4160 ∧
      (malloc (malloc_state ex_one 24) 24).map Prod.snd = some 4208 ∧
      heap_blocks ex_three_freed = some [4104] ∧
      get_alloc ex_three_freed.mem 4104 = false ∧
      get_size ex_three_freed.mem 4104 = 4096 ∧
      (∀ i, i < list_length →
        list_nodes ex_three_freed i = some (if i = 8 then [4104] else []))) := by
  refine ⟨?_, by decide, by decide, by decide, by decide, by decide, by decide, by decide⟩
  intro st pre post fl b h hfree hl hna1 hna2
  obtain ⟨st', pre', nb, post', fl', c1, c2, c3, c4, c5, _, _, _, _, c10⟩ :=
    coalesce_spec h hfree hl hna1 hna2
  have hnb : nb ∈ pre' ++ nb :: post' := by simp
  have hb : b ∈ pre ++ b :: post := by simp
  have hbb := Heap_blk h hb
  obtain ⟨g1, g2, _⟩ := Heap_geo_split h
  obtain ⟨k1, k2, k3, k4, k5⟩ := Heap_free_block c2 c4 c5
  have hself : ∀ i, i < 15 → nb.addr ∉ fl' i := fun i hi hx => (c3.2 i hi _ hx).1 (by simp)
  refine ⟨st', nb.addr, c1, ?_, ?_, k1, k2, ?_, ?_, k4, k5⟩
  · intro p hp hpf
    rcases c10 with ⟨_, _, _, _, h5, _⟩ | ⟨n, _, _, _, _, _, h5⟩ | ⟨p', h1, _, _, h4, _⟩ |
      ⟨p', n, h1, _, _, _, h4, _⟩
    · have := h5 p hp; rw [hpf] at this; simp at this
    · have := h5 p hp; rw [hpf] at this; simp at this
    · rw [h1, getLast?_snoc] at hp
      rw [← Option.some.inj hp, h4]
    · rw [h1, getLast?_snoc] at hp
      rw [← Option.some.inj hp, h4]
  · intro hall
    rcases c10 with ⟨_, _, h3, _⟩ | ⟨n, _, _, _, h4, _⟩ | ⟨p', h1, _, h3, _⟩ |
      ⟨p', n, h1, _, h3, _⟩
    · rw [h3]
    · rw [h4]
    · have := hall p' (by rw [h1]; exact getLast?_snoc _ _)
      rw [h3] at this; simp at this
    · have := hall p' (by rw [h1]; exact getLast?_snoc _ _)
      rw [h3] at this; simp at this
  · rw [k3]
    rcases c10 with ⟨_, _, h3, _, h5, h6⟩ | ⟨n, h1, _, h3, h4, _, h6⟩ |
      ⟨p', h1, _, h3, h4, _, h6⟩ | ⟨p', n, h1, h2, h3, h3', h4, _⟩
    · have e1 := free_size_alloc _ h5
      have e2 := free_size_alloc _ h6
      rw [h3]; omega
    · have e1 := free_size_alloc _ h6
      have e2 : free_size post.head? = n.size := by
        rw [h1, List.head?_cons, free_size_free n h3]
      have e3 : nb.size = b.size + n.size := by rw [h4]
      omega
    · have e1 : free_size pre.getLast? = p'.size := by
        rw [h1, getLast?_snoc, free_size_free p' h3]
      have e2 := free_size_alloc _ h6
      have e3 : nb.size = p'.size + b.size := by rw [h4]
      omega
    · have e1 : free_size pre.getLast? = p'.size := by
        rw [h1, getLast?_snoc, free_size_free p' h3]
      have e2 : free_size post.head? = n.size := by
        rw [h2, List.head?_cons, free_size_free n h3']
      have e3 : nb.size = p'.size + b.size + n.size := by rw [h4]
      omega
  · intro q hq hqf i hi
    refine ⟨fl' i, list_nodes_of_Heap c2 hi, ?_⟩
    rcases c10 with ⟨_, _, _, _, h5, h6⟩ | ⟨n, h1, _, h3, h4, _, h6⟩ |
      ⟨p', h1, _, h3, h4, _, h6⟩ | ⟨p', n, h1, h2, h3, h3', h4, _⟩
    · rcases hq with hq | hq
      · have := h5 q hq; rw [hqf] at this; simp at this
      · have := h6 q hq; rw [hqf] at this; simp at this
    · rcases hq with hq | hq
      · have := h6 q hq; rw [hqf] at this; simp at this
      · rw [h1, List.head?_cons] at hq
        have hqn : n = q := Option.some.inj hq
        subst hqn
        rw [h1] at g2
        have hn1 : n.addr = b.addr + b.size := g2.1
        have hn2 : 32 ≤ n.size := g2.2.1
        apply Heap_inside_not_listed c2 hnb _ _ hi
        · rw [h4]; show b.addr < n.addr; omega
        · rw [h4]; show n.addr < b.addr + (b.size + n.size); omega
    · rcases hq with hq | hq
      · rw [h1, getLast?_snoc] at hq
        have hqp : p' = q := Option.some.inj hq
        subst hqp
        have := hself i hi
        rw [h4] at this
        exact this
      · have := h6 q hq; rw [hqf] at this; simp at this
    · rcases hq with hq | hq
      · rw [h1, getLast?_snoc] at hq
        have hqp : p' = q := Option.some.inj hq
        subst hqp
        have := hself i hi
        rw [h4] at this
        exact this
      · rw [h2, List.head?_cons] at hq
        have hqn : n = q := Option.some.inj hq
        subst hqn
        rw [h2] at g2
        rw [h1] at g1
        have hp1 := Geo_last g1
        have hp2 := (Geo_split g1).2.2.1
        have hn1 : n.addr = b.addr + b.size := g2.1
        have hn2 : 32 ≤ n.size := g2.2.1
        apply Heap_inside_not_listed c2 hnb _ _ hi
        · rw [h4]; show p'.addr < n.addr; omega
        · rw [h4]; show n.addr < p'.addr + (p'.size + b.size + n.size); omega

end MM

namespace MM

set_option maxRecDepth 100000

/-- The heap inside `free(a)` after `a = malloc(24)` on the fresh heap, when
the block of `a` has been marked free: two free blocks side by side, the
second one listed. -/
theorem ex_marked_Heap :
    Heap ex_marked [⟨4104, 48, false⟩, ⟨4152, 4048, false⟩]
      (enlist (fun _ => []) ⟨4152, 4048, false⟩) :=
  ⟨by decide, by decide, by decide, by decide, by decide, by decide, by decide, by decide,
    by decide, by decide⟩

theorem ex_marked_ListedU :
    ListedU [⟨4104, 48, false⟩, ⟨4152, 4048, false⟩]
      (enlist (fun _ => []) ⟨4152, 4048, false⟩) [4104] :=
  ⟨by decide, by decide⟩

/-- Inside `free(a)` after `a = malloc(24)` on the fresh heap, `coalesce_block`
merges the block of `a` with the free block behind it into one block of 4096
bytes at 4104. -/
theorem coalesce_block_merges_free_neighbours_witness :
    Heap ex_marked ([] ++ (⟨4104, 48, false⟩ : Blk) :: [⟨4152, 4048, false⟩])
      (enlist (fun _ => []) ⟨4152, 4048, false⟩) ∧
    ∃ st' r, coalesce_block ex_marked 4104 = (st', r) ∧ r = 4104 ∧
      get_alloc st'.mem r = false ∧ get_size st'.mem r = 4096 ∧
      (∀ i, i < list_length → ∃ l, list_nodes st' i = some l ∧ 4152 ∉ l) :=
  ⟨ex_marked_Heap, by
    obtain ⟨st', r, h1, _, h3, h4, _, h6, h7, _⟩ :=
      coalesce_block_merges_free_neighbours.1 ex_marked [] [⟨4152, 4048, false⟩]
        (enlist (fun _ => []) ⟨4152, 4048, false⟩) ⟨4104, 48, false⟩ ex_marked_Heap rfl
        ex_marked_ListedU List.chain'_nil (List.chain'_singleton _)
    exact ⟨st', r, h1, h3 (by decide), h4, h6,
      h7 ⟨4152, 4048, false⟩ (Or.inr rfl) rfl⟩⟩

/-- C6: on a well-formed heap, for a request `size > 0` with `size + 31` not
overflowing, `malloc(size)` returns, and if its result `p` is not NULL then
after `free(p)` a second `malloc(size)` returns a non-NULL pointer and makes no
call of `mem_sbrk`. -/
theorem malloc_after_free_needs_no_growth (st : State) (size : Nat) (hw : WF st)
    (h0 : size ≠ 0) (hlt : size + 31 < W64) :
    ∃ st1 p, malloc st size = some (st1, p) ∧
      (p ≠ 0 → ∃ st3 q, malloc (free st1 p) size = some (st3, q) ∧ q ≠ 0 ∧
        st3.sbrk_calls = (free st1 p).sbrk_calls) := by
  obtain ⟨bs, fl, hw⟩ := hw
  obtain ⟨st1, p, hm, _, hres⟩ := malloc_body_spec hw h0 hlt
  refine ⟨st1, p, by rw [malloc_of_init hw.1 size]; exact hm, ?_⟩
  intro hp
  rcases hres with ⟨hp0, _⟩ | ⟨pre, c, rest, post, fl1, hw1, hpc, hca, hcs, _⟩
  · exact absurd hp0 hp
  · subst hpc
    obtain ⟨pre', nb, post', fl', hw2, hnbf, hshape, _⟩ := free_spec hw1 hca
    have hnb : nb ∈ pre' ++ nb :: post' := by simp
    have hsh := CoalesceShape_size hshape
    have hle : round_up (add64 size dsize) dsize ≤ nb.size := le_trans hcs hsh
    have hsz := Heap_get_size hw2.1 hnb
    have hlisted : nb.addr ∈ enlist fl' nb (find_index nb.size) := by
      unfold enlist
      rw [if_pos rfl]
      exact List.mem_cons_self _ _
    obtain ⟨st3, q, hm3, _, hres3⟩ := malloc_body_spec hw2 h0 hlt
    refine ⟨st3, q, by rw [malloc_of_init hw2.1 size]; exact hm3, ?_⟩
    obtain ⟨r, hf, hr⟩ := find_fit_spec hw2.1 hw2.2.1 (round_up (add64 size dsize) dsize)
    have hr0 : r ≠ 0 := by
      rcases hr with ⟨_, hnone⟩ | ⟨hr0, _⟩
      · have := hnone (find_index nb.size) (find_index_mono hle) (find_index_lt _) nb.addr
          hlisted
        omega
      · exact hr0
    rcases hres3 with ⟨_, hf0, _⟩ | ⟨_, c3, _, _, _, hw3, hq, _, _, _, _, _, _, hcalls⟩
    · rw [hf] at hf0
      exact absurd (Option.some.inj hf0) hr0
    · exact ⟨by omega, (hcalls r hf hr0).1⟩

/-- On the fresh heap, `malloc(24)`, `free`, `malloc(24)` needs no growth. -/
theorem malloc_after_free_needs_no_growth_witness :
    WF ex_fresh ∧
    ∃ st1 p, malloc ex_fresh 24 = some (st1, p) ∧
      (p ≠ 0 → ∃ st3 q, malloc (free st1 p) 24 = some (st3, q) ∧ q ≠ 0 ∧
        st3.sbrk_calls = (free st1 p).sbrk_calls) :=
  ⟨ex_fresh_WF,
    malloc_after_free_needs_no_growth ex_fresh 24 ex_fresh_WF (by decide) (by decide)⟩

end MM

namespace MM

set_option maxRecDepth 100000

/-! ## Claims about `realloc` -/

theorem ex_hole_reach : Reach ex_hole [4160] :=
  Reach.free (malloc_state (malloc_state ex_fresh 32) 16) [4160, 4112] 4112
    (Reach.malloc (malloc_state ex_fresh 32) [4112] 16
      (malloc_state (malloc_state ex_fresh 32) 16) 4160
      (Reach.malloc ex_fresh [] 32 (malloc_state ex_fresh 32) 4112 ex_fresh_reach (by decide)
        (malloc_state_ptr ex_fresh 32 4112 (by decide)))
      (by decide) (malloc_state_ptr (malloc_state ex_fresh 32) 16 4160 (by decide)))
    (Or.inl (by decide))

/-- The example of the interface description: after `p = malloc(16)` on the
fresh heap and the bytes `0 .. 15` written at `p`, `realloc(p, 64)` returns
4144 and the 16 bytes there are `0 .. 15`. -/
theorem realloc_example_keeps_bytes :
    (realloc ex_bytes 4112 64).map (fun r =>
      (r.2, (List.range 16).map (fun k => r.1.mem (r.2 + k)))) =
      some (4144, List.range 16) := by
  decide

/-- C7 (the code departs from the claim): in the state reached by
`a = malloc(32); p = malloc(16); free(a)` on the fresh heap, `p = 4160` is a
live pointer from `malloc(16)` whose 16 payload bytes are all zero, and
`realloc(p, 2^64 - 1)` returns the non-NULL pointer 4112, yet the byte at
offset 8 from it is 208: the adjusted size wraps around to 16, the copy of
16 bytes runs over the header of the next block, and `free(p)` then writes
that header again. -/
theorem realloc_huge_request_loses_bytes :
    Reach ex_hole [4160] ∧
    (malloc (malloc_state ex_fresh 32) 16).map Prod.snd = some 4160 ∧
    (∀ k, k < 16 → ex_hole.mem (4160 + k) = 0) ∧
    (realloc ex_hole 4160 18446744073709551615).map (fun r => (r.2, r.1.mem (r.2 + 8))) =
      some (4112, 208) :=
  ⟨ex_hole_reach, by decide, by decide, by decide⟩

/-- C8, counterexample: on the arena that was never initialised,
`realloc(NULL, 0)` returns NULL and leaves `heap_start` NULL and the arena
empty, while `malloc(0)` returns NULL after `mm_init` has set `heap_start` to
4104 and grown the arena to 8208. -/
theorem realloc_null_zero_skips_init :
    (realloc ex_empty 0 0).map (fun r => (r.2, r.1.heap_start, r.1.mem_brk)) =
      some (0, 0, 4096) ∧
    (malloc ex_empty 0).map (fun r => (r.2, r.1.heap_start, r.1.mem_brk)) =
      some (0, 4104, 8208) := by
  decide

/-- C8, amended: for every state and every size `s`, provided `s` is not 0 or
the heap is initialised, `realloc(NULL, s)` returns the value and leaves the
state of `malloc(s)`; and for every state and every pointer `ptr`,
`realloc(ptr, 0)` returns NULL and leaves the state of `free(ptr)`. -/
theorem realloc_null_is_malloc_and_zero_is_free (st : State) (ptr s : Nat)
    (h : s ≠ 0 ∨ st.heap_start ≠ 0) :
    realloc st 0 s = malloc st s ∧ realloc st ptr 0 = some (free st ptr, 0) := by
  refine ⟨?_, realloc_zero_size st ptr⟩
  by_cases h0 : s = 0
  · subst h0
    have hh : st.heap_start ≠ 0 := by
      rcases h with h | h
      · exact absurd rfl h
      · exact h
    rw [realloc_zero_size, free_zero]
    unfold malloc
    rw [if_neg hh, malloc_body_zero]
  · exact realloc_null st s h0

/-- On the arena that was never initialised `realloc(NULL, 24)` is
`malloc(24)`, and `realloc(4112, 0)` is `free(4112)`. -/
theorem realloc_null_is_malloc_and_zero_is_free_witness :
    (24 ≠ 0 ∨ ex_empty.heap_start ≠ 0) ∧
    realloc ex_empty 0 24 = malloc ex_empty 24 ∧
    realloc ex_empty 4112 0 = some (free ex_empty 4112, 0) :=
  ⟨Or.inl (by decide),
    realloc_null_is_malloc_and_zero_is_free ex_empty 4112 24 (Or.inl (by decide))⟩

/-! ## Claims about failed arena growth -/

theorem mem_sbrk_fail_same (st : State) (incr : Nat) (h : (mem_sbrk st incr).2 = none) :
    SameHeap st (mem_sbrk st incr).1 := by
  rcases mem_sbrk_cases st incr with ⟨_, s2, s3, s4, s5, s6⟩ | ⟨s1, _⟩
  · exact ⟨s2, s3, s4, s5, s6⟩
  · rw [h] at s1
    exact absurd s1 (by simp)

/-- C9: on an initialised well-formed heap, when `malloc(size)` finds no fit
and the arena growth it then asks for fails, `malloc` returns NULL and the
arena contents, the arena bounds, `heap_start` and the list heads are those
from before the call; the same holds for `realloc(ptr, size)`, after which in
particular the block of `ptr` has the allocation flag and every byte it had,
and for `calloc(n, sz)` with `n * sz = size`. -/
theorem failed_growth_leaves_heap (st : State) (size : Nat) (hw : WF st) (h0 : size ≠ 0)
    (hf : find_fit st (round_up (add64 size dsize) dsize) = some 0)
    (hs : (mem_sbrk st
      (round_up (max (round_up (add64 size dsize) dsize) chunksize) dsize)).2 = none) :
    (∃ st', malloc st size = some (st', 0) ∧ SameHeap st st') ∧
    (∀ ptr, ∃ st', realloc st ptr size = some (st', 0) ∧ SameHeap st st' ∧
      get_alloc st'.mem (payload_to_header ptr) = get_alloc st.mem (payload_to_header ptr) ∧
      ∀ a, st'.mem a = st.mem a) ∧
    (∀ n sz, mul64 n sz = size → ∃ st', calloc st n sz = some (st', 0) ∧ SameHeap st st') := by
  obtain ⟨bs, fl, hw⟩ := hw
  have hsame := mem_sbrk_fail_same st _ hs
  have he := extend_heap_fail st _ hs
  have hm : malloc st size = some ((mem_sbrk st
      (round_up (max (round_up (add64 size dsize) dsize) chunksize) dsize)).1, 0) := by
    rw [malloc_of_init hw.1 size, malloc_body_grow_fail st size h0 hf (by rw [he]), he]
  refine ⟨⟨_, hm, hsame⟩, ?_, ?_⟩
  · intro ptr
    by_cases hp : ptr = 0
    · subst hp
      exact ⟨_, by rw [realloc_null st size h0]; exact hm, hsame, by rw [hsame.1],
        fun a => by rw [hsame.1]⟩
    · exact ⟨_, realloc_fail st ptr size _ h0 hp hm, hsame, by rw [hsame.1],
        fun a => by rw [hsame.1]⟩
  · intro n sz hmul
    by_cases hn : n = 0 ∨ mul64 n sz / n ≠ sz
    · exact ⟨st, calloc_none st n sz hn, rfl, rfl, rfl, rfl, rfl⟩
    · simp only [not_or, not_not] at hn
      exact ⟨_, calloc_fail st n sz _ hn.1 hn.2 (by rw [hmul]; exact hm), hsame⟩

/-- On the fresh heap, whose environment grants no further growth,
`malloc(5000)` finds no fit, fails to grow the arena and returns NULL. -/
theorem failed_growth_leaves_heap_witness :
    WF ex_fresh ∧ find_fit ex_fresh (round_up (add64 5000 dsize) dsize) = some 0 ∧
    ∃ st', malloc ex_fresh 5000 = some (st', 0) ∧ SameHeap ex_fresh st' :=
  ⟨ex_fresh_WF, by decide,
    (failed_growth_leaves_heap ex_fresh 5000 ex_fresh_WF (by decide) (by decide)
      (by decide)).1⟩

/-- C10, counterexample: on the empty arena whose environment grants the
first growth and refuses the second, `mm_init` returns false, yet the arena
has grown from 4096 to 4112, its first word has changed from 0 to the
prologue tag 1, and `heap_start` has changed from NULL to 4104. -/
theorem mm_init_second_failure_changes_heap :
    (mm_init ex_refused).2 = false ∧
    ex_refused.mem_brk = 4096 ∧ (mm_init ex_refused).1.mem_brk = 4112 ∧
    readWord ex_refused.mem 4096 = 0 ∧ readWord (mm_init ex_refused).1.mem 4096 = 1 ∧
    ex_refused.heap_start = 0 ∧ (mm_init ex_refused).1.heap_start = 4104 := by
  decide

/-- C10, amended: when the initial 16-byte growth fails, `mm_init` returns
false and the arena bounds and contents, `heap_start` and the list heads are
those from before the call; when that growth succeeds and the extension by
`chunksize` fails, `mm_init` returns false and leaves the arena 16 bytes
longer, those 16 bytes holding the prologue and epilogue tags, `heap_start` at
the epilogue, the 15 list heads NULL, and every byte below the old break as
before. -/
theorem mm_init_growth_failure (st : State) :
    ((mem_sbrk st (2 * wsize)).2 = none →
      (mm_init st).2 = false ∧ SameHeap st (mm_init st).1) ∧
    (∀ start, (mem_sbrk st (2 * wsize)).2 = some start →
      (mem_sbrk (mm_init_sentinels (mem_sbrk st (2 * wsize)).1 start)
        (round_up chunksize dsize)).2 = none →
      (mm_init st).2 = false ∧ start = st.mem_brk ∧
      (mm_init st).1.mem_lo = st.mem_lo ∧ (mm_init st).1.mem_brk = st.mem_brk + 16 ∧
      (mm_init st).1.heap_start = st.mem_brk + 8 ∧
      (∀ i, i < list_length → (mm_init st).1.segregated_list i = 0) ∧
      readWord (mm_init st).1.mem st.mem_brk = pack 0 true ∧
      readWord (mm_init st).1.mem (st.mem_brk + 8) = pack 0 true ∧
      (∀ a, a < st.mem_brk → (mm_init st).1.mem a = st.mem a)) := by
  have hW : W64 = 18446744073709551616 := rfl
  constructor
  · intro h1
    rw [mm_init_fail st h1]
    exact ⟨rfl, mem_sbrk_fail_same st _ h1⟩
  · intro start h1 h2
    rcases mem_sbrk_cases st (2 * wsize) with ⟨s1, _⟩ | ⟨s1, s2, s3, s4, _, _, s7⟩
    · rw [h1] at s1
      exact absurd s1 (by simp)
    · rw [h1] at s1
      have hst : start = st.mem_brk := Option.some.inj s1
      subst hst
      have s7' : st.mem_brk + 16 < W64 := s7
      have s4' : (mem_sbrk st (2 * wsize)).1.mem_brk = st.mem_brk + 16 := s4
      have e8 : add64 st.mem_brk wsize = st.mem_brk + 8 := by
        unfold wsize; exact add64_eq (by omega)
      have hp : pack 0 true < W64 := by rw [pack_zero_true, hW]; omega
      have he := extend_heap_fail
        (mm_init_sentinels (mem_sbrk st (2 * wsize)).1 st.mem_brk) chunksize h2
      obtain ⟨t1, t2, t3, t4, t5⟩ := mem_sbrk_fail_same
        (mm_init_sentinels (mem_sbrk st (2 * wsize)).1 st.mem_brk) (round_up chunksize dsize) h2
      rw [mm_init_grown st _ h1, he]
      dsimp only
      rw [if_pos rfl]
      dsimp only
      refine ⟨rfl, rfl, t2.trans s3, t3.trans s4', t4.trans e8, ?_, ?_, ?_, ?_⟩
      · intro i hi
        rw [t5]
        show (if i < list_length then 0 else _) = 0
        rw [if_pos hi]
      · rw [t1]
        show readWord (writeWord (writeWord (mem_sbrk st (2 * wsize)).1.mem st.mem_brk
          (pack 0 true)) (add64 st.mem_brk wsize) (pack 0 true)) st.mem_brk = pack 0 true
        rw [e8, readWord_writeWord_disj _ _ _ _ (by omega), readWord_writeWord_same _ _ _ hp]
      · rw [t1]
        show readWord (writeWord (writeWord (mem_sbrk st (2 * wsize)).1.mem st.mem_brk
          (pack 0 true)) (add64 st.mem_brk wsize) (pack 0 true)) (st.mem_brk + 8) = pack 0 true
        rw [e8, readWord_writeWord_same _ _ _ hp]
      · intro a ha
        rw [t1]
        show writeWord (writeWord (mem_sbrk st (2 * wsize)).1.mem st.mem_brk
          (pack 0 true)) (add64 st.mem_brk wsize) (pack 0 true) a = st.mem a
        rw [e8, writeWord_outside _ _ _ _ (by omega), writeWord_outside _ _ _ _ (by omega), s2]

/-- On the empty arena whose environment grants the first growth and refuses
the second, `mm_init` returns false and leaves the arena 16 bytes longer. -/
theorem mm_init_growth_failure_witness :
    (mem_sbrk ex_refused (2 * wsize)).2 = some 4096 ∧
    (mm_init ex_refused).2 = false ∧
    (mm_init ex_refused).1.mem_brk = ex_refused.mem_brk + 16 :=
  ⟨by decide,
    ((mm_init_growth_failure ex_refused).2 4096 (by decide) (by decide)).1,
    ((mm_init_growth_failure ex_refused).2 4096 (by decide) (by decide)).2.2.2.1⟩

end MM

namespace MM

set_option maxRecDepth 100000

/-! ## Claims about `calloc`, zero sizes and `free(NULL)` -/

/-- C11: for `n > 0`, the test of `calloc`, `(n * size mod 2^64) / n ≠ size`,
holds exactly when the product `n * size` is at least `2^64`; and whenever it
holds `calloc` returns NULL together with the very state it was called in, so
without a call of `malloc` or of the arena. -/
theorem calloc_overflow_check (st : State) (n size : Nat) (hn : 0 < n) :
    (mul64 n size / n ≠ size ↔ W64 ≤ n * size) ∧
    (mul64 n size / n ≠ size → calloc st n size = some (st, 0)) := by
  have hW : 0 < W64 := by decide
  refine ⟨?_, fun h => calloc_none st n size (Or.inr h)⟩
  unfold mul64
  constructor
  · intro h
    by_contra hlt
    rw [Nat.mod_eq_of_lt (by omega), Nat.mul_div_cancel_left _ hn] at h
    exact h rfl
  · intro hge
    have h1 : n * size % W64 < size * n := by
      have := Nat.mod_lt (n * size) hW
      rw [Nat.mul_comm size n]
      omega
    have h2 := (Nat.div_lt_iff_lt_mul hn).2 h1
    omega

/-- The request `calloc(SIZE_MAX, 2)` on the fresh heap overflows and returns
NULL in the same state. -/
theorem calloc_overflow_check_witness :
    0 < 18446744073709551615 ∧
    (mul64 18446744073709551615 2 / 18446744073709551615 ≠ 2 ↔
      W64 ≤ 18446744073709551615 * 2) ∧
    calloc ex_fresh 18446744073709551615 2 = some (ex_fresh, 0) :=
  ⟨by decide, (calloc_overflow_check ex_fresh 18446744073709551615 2 (by decide)).1,
    (calloc_overflow_check ex_fresh 18446744073709551615 2 (by decide)).2 (by decide)⟩

/-- With the total memory of the model, `calloc(1, 2^64 - 1)` on the fresh
heap, whose arena ends at 8208, yields the pointer 4112: the request goes to
`malloc`, whose adjusted size wraps around to 16. The `2^64 - 1` bytes that
`memset` clears from 4112 on run far beyond the end of the arena, so on the
machine the call faults inside `memset` and does not return. -/
theorem calloc_huge_product_clears_beyond_arena :
    WF ex_fresh ∧ 1 * 18446744073709551615 < W64 ∧
    (calloc ex_fresh 1 18446744073709551615).map (fun r => (r.2, r.1.mem_brk)) =
      some (4112, 8208) ∧
    ¬ (4112 + 1 * 18446744073709551615 ≤ 8208) :=
  ⟨ex_fresh_WF, by decide, by decide, by decide⟩

theorem malloc_zero (st : State) : ∃ st', malloc st 0 = some (st', 0) := by
  unfold malloc
  by_cases hh : st.heap_start = 0
  · rw [if_pos hh]
    dsimp only
    by_cases hi : (mm_init st).2 = false
    · rw [if_pos hi]; exact ⟨_, rfl⟩
    · rw [if_neg hi]; exact ⟨_, malloc_body_zero _⟩
  · rw [if_neg hh]; exact ⟨_, malloc_body_zero _⟩

theorem malloc_zero_init (st : State) (hh : st.heap_start ≠ 0) : malloc st 0 = some (st, 0) := by
  unfold malloc
  rw [if_neg hh]
  exact malloc_body_zero st

/-- C13: `malloc(0)` returns NULL in every state; `calloc(n, size)` returns
NULL whenever `n = 0` or `size = 0`; and on an initialised heap each of these
calls returns the very state it was called in. -/
theorem zero_size_requests_return_null (st : State) (n size : Nat) :
    (∃ st', malloc st 0 = some (st', 0)) ∧
    (n = 0 ∨ size = 0 → ∃ st', calloc st n size = some (st', 0)) ∧
    (st.heap_start ≠ 0 → malloc st 0 = some (st, 0) ∧
      (n = 0 ∨ size = 0 → calloc st n size = some (st, 0))) := by
  have hcal : ∀ st', malloc st 0 = some (st', 0) → n ≠ 0 → size = 0 →
      calloc st n size = some (st', 0) := by
    intro st' hm hn hs
    subst hs
    have hmul : mul64 n 0 = 0 := by unfold mul64; simp
    exact calloc_fail st n 0 st' hn (by rw [hmul]; exact Nat.zero_div n) (by rw [hmul]; exact hm)
  refine ⟨malloc_zero st, ?_, ?_⟩
  · intro h
    by_cases hn : n = 0
    · exact ⟨st, calloc_none st n size (Or.inl hn)⟩
    · obtain ⟨st', hm⟩ := malloc_zero st
      rcases h with h | h
      · exact absurd h hn
      · exact ⟨st', hcal st' hm hn h⟩
  · intro hh
    refine ⟨malloc_zero_init st hh, ?_⟩
    intro h
    by_cases hn : n = 0
    · exact calloc_none st n size (Or.inl hn)
    · rcases h with h | h
      · exact absurd h hn
      · exact hcal st (malloc_zero_init st hh) hn h

/-- C14: `free(NULL)` returns the state it was called in, so the arena
contents and bounds, `heap_start` and the list heads are those from before
the call. -/
theorem free_null_is_noop (st : State) : free st 0 = st ∧ SameHeap st (free st 0) := by
  have h : free st 0 = st := by
    unfold free
    rw [if_pos rfl]
  rw [h]
  exact ⟨rfl, rfl, rfl, rfl, rfl, rfl⟩

/-! ## Claims about `mm_init` and the size classes -/

/-- C15: after a successful `mm_init` on an empty arena at `lo`, the arena
is `16 + 4096` bytes long; the word at `lo` and the word at `hi - 7` are
`pack(0, true)`; `heap_start` is `lo + 8` and is the only block of the heap
walk, free, of size 4096, with footer equal to header; that block is the only
node of list 8, and the other 14 list heads are NULL. -/
theorem mm_init_layout (st : State) (hempty : st.mem_brk = st.mem_lo)
    (hok : (mm_init st).2 = true) :
    (mm_init st).1.mem_lo = st.mem_lo ∧
    (mm_init st).1.mem_brk = st.mem_lo + (16 + 4096) ∧
    readWord (mm_init st).1.mem (mem_heap_lo (mm_init st).1) = pack 0 true ∧
    readWord (mm_init st).1.mem (sub64 (mem_heap_hi (mm_init st).1) 7) = pack 0 true ∧
    (mm_init st).1.heap_start = st.mem_lo + 8 ∧
    heap_blocks (mm_init st).1 = some [(mm_init st).1.heap_start] ∧
    get_alloc (mm_init st).1.mem (mm_init st).1.heap_start = false ∧
    get_size (mm_init st).1.mem (mm_init st).1.heap_start = 4096 ∧
    readWord (mm_init st).1.mem
        (header_to_footer (mm_init st).1.mem (mm_init st).1.heap_start) =
      readWord (mm_init st).1.mem (mm_init st).1.heap_start ∧
    list_nodes (mm_init st).1 8 = some [(mm_init st).1.heap_start] ∧
    (∀ i, i < list_length → i ≠ 8 → (mm_init st).1.segregated_list i = 0) := by
  obtain ⟨hw, hlo, hbrk⟩ := mm_init_spec hempty hok
  have hW : W64 = 18446744073709551616 := rfl
  have hbl := hw.1.brk_lt
  have hhs : (mm_init st).1.heap_start = st.mem_lo + 8 := by rw [hw.1.hs, hlo]
  have hb : (⟨st.mem_lo + 8, 4096, false⟩ : Blk) ∈ ([] : List Blk) ++
      ⟨st.mem_lo + 8, 4096, false⟩ :: [] := by simp
  have hw' : WFL (mm_init st).1 ([] ++ (⟨st.mem_lo + 8, 4096, false⟩ : Blk) :: [])
      (enlist (fun _ => []) ⟨st.mem_lo + 8, 4096, false⟩) := hw
  obtain ⟨k1, k2, k3, _, _⟩ := Heap_free_block hw'.1 hw'.2.2 rfl
  have h8 : find_index 4096 = 8 := by decide
  refine ⟨hlo, by rw [hbrk], ?_, ?_, hhs, ?_, ?_, ?_, ?_, ?_, ?_⟩
  · unfold mem_heap_lo; exact hw.1.pro
  · unfold mem_heap_hi
    rw [sub64_eq (by omega) hbl, sub64_eq (by omega) (by omega)]
    have : (mm_init st).1.mem_brk - 1 - 7 = (mm_init st).1.mem_brk - 8 := by omega
    rw [this]; exact hw.1.epi
  · rw [hhs]; exact heap_blocks_of_Heap hw.1
  · rw [hhs]; exact k1
  · rw [hhs]; exact k3
  · rw [hhs]; exact k2
  · rw [hhs, list_nodes_of_Heap hw.1 (by omega : 8 < 15)]
    show some (if 8 = find_index 4096 then _ else _) = _
    rw [h8, if_pos rfl]
  · intro i hi hne
    have hfl := hw.1.lists i hi
    have : enlist (fun _ => []) ⟨st.mem_lo + 8, 4096, false⟩ i = [] := by
      show (if i = find_index 4096 then _ else _) = _
      rw [h8, if_neg hne]
    rw [this] at hfl
    exact hfl

/-- The layout of the fresh heap at address 4096. -/
theorem mm_init_layout_witness :
    ex_empty.mem_brk = ex_empty.mem_lo ∧ (mm_init ex_empty).2 = true ∧
    (mm_init ex_empty).1.mem_brk = ex_empty.mem_lo + (16 + 4096) ∧
    list_nodes (mm_init ex_empty).1 8 = some [(mm_init ex_empty).1.heap_start] :=
  ⟨rfl, by decide, (mm_init_layout ex_empty rfl (by decide)).2.1,
    (mm_init_layout ex_empty rfl (by decide)).2.2.2.2.2.2.2.2.2.1⟩

/-- C19: `find_index(s)` is the size class of the specification and is the
only such class: 0 if `s ≤ 16`; the one `i` in `1..13` with
`2^(i+3) < s ≤ 2^(i+4)` if `16 < s ≤ 2^17`; 14 if `s > 2^17`. In particular
it is at most 14. -/
theorem find_index_closed_form (s : Nat) :
    class_spec s (find_index s) ∧ (∀ i, class_spec s i → i = find_index s) ∧
    find_index s ≤ 14 := by
  have hlt := find_index_lt s
  have h17 : (2 : Nat) ^ 17 = 131072 := by norm_num
  have key : class_spec s (find_index s) := by
    rcases (find_index_spec s).2 with ⟨h1, h2⟩ | ⟨h1, h2, h3⟩ | ⟨h1, h2⟩
    · exact Or.inl ⟨h1, h2⟩
    · by_cases h14 : find_index s = 14
      · right; right
        rw [h14] at h2
        exact ⟨by rw [h17]; norm_num at h2; omega, h14⟩
      · exact Or.inr (Or.inl ⟨h1, by omega, h2, h3⟩)
    · right; right
      have : (2 : Nat) ^ 18 = 262144 := by norm_num
      exact ⟨by omega, h1⟩
  refine ⟨key, ?_, by omega⟩
  intro i hi
  have h16 : (2 : Nat) ^ 4 = 16 := by norm_num
  have mono : ∀ a b : Nat, 2 ^ (a + 3) < s → s ≤ 2 ^ (b + 4) → a ≤ b := by
    intro a b ha hb
    by_contra hc
    have : (2 : Nat) ^ (b + 4) ≤ 2 ^ (a + 3) := Nat.pow_le_pow_right (by norm_num) (by omega)
    omega
  have big : ∀ a : Nat, 1 ≤ a → 16 ≤ 2 ^ (a + 3) := by
    intro a ha
    have h := Nat.pow_le_pow_right (show 0 < 2 by norm_num) (show 4 ≤ a + 3 by omega)
    rw [h16] at h
    exact h
  have small : ∀ a : Nat, a ≤ 13 → 2 ^ (a + 4) ≤ 2 ^ 17 := by
    intro a ha
    exact Nat.pow_le_pow_right (by norm_num) (by omega)
  rcases hi with ⟨a1, a2⟩ | ⟨a1, a2, a3, a4⟩ | ⟨a1, a2⟩ <;>
    rcases key with ⟨b1, b2⟩ | ⟨b1, b2, b3, b4⟩ | ⟨b1, b2⟩
  · omega
  · have := big _ b1; omega
  · omega
  · have := big _ a1; omega
  · have := mono _ _ a3 b4
    have := mono _ _ b3 a4
    omega
  · have := small _ a2; omega
  · omega
  · have := small _ b2; omega
  · omega

end MM

namespace MM

set_option maxRecDepth 100000

/-! ## Claim about `find_fit` -/

/-- The scan of one list, read along the walk of its nodes. -/
theorem find_fit_scan_walk (m : Mem) (asize : Nat) : ∀ (fuel c : Nat) (l : List Nat),
    walk_list m fuel c = some l → (∀ x ∈ l, get_alloc m x = false) →
    find_fit_scan m asize fuel c =
      some ((l.find? (fun x => decide (asize ≤ get_size m x))).getD 0) ∧ ∀ x ∈ l, x ≠ 0
  | 0, c, l, hwalk, _ => by simp [walk_list] at hwalk
  | fuel + 1, c, l, hwalk, hfree => by
    unfold walk_list at hwalk
    by_cases hc : c = 0
    · rw [if_pos hc] at hwalk
      have hl : l = [] := (Option.some.inj hwalk).symm
      subst hl
      subst hc
      simp [find_fit_scan]
    · rw [if_neg hc] at hwalk
      cases hrest : walk_list m fuel (get_succ m c) with
      | none => rw [hrest] at hwalk; simp at hwalk
      | some l' =>
        rw [hrest] at hwalk
        have hl : l = c :: l' := (Option.some.inj hwalk).symm
        subst hl
        have hfc := hfree c (List.mem_cons_self _ _)
        obtain ⟨ih, ihn⟩ := find_fit_scan_walk m asize fuel (get_succ m c) l' hrest
          (fun x hx => hfree x (List.mem_cons_of_mem _ hx))
        constructor
        · unfold find_fit_scan
          rw [if_neg hc]
          by_cases hs : asize ≤ get_size m c
          · rw [if_pos ⟨hs, by rw [hfc]; simp⟩]
            simp [List.find?, hs]
          · rw [if_neg (fun hh => hs hh.1), ih]
            simp [List.find?, hs]
        · intro x hx
          rcases List.mem_cons.1 hx with rfl | hx
          · exact hc
          · exact ihn x hx

/-- The outer loop of `find_fit` over the lists `i, .., i + n - 1`. -/
theorem find_fit_loop_walk (st : State) (asize : Nat) (ln : Nat → List Nat)
    (hl : ∀ i, i < list_length → list_nodes st i = some (ln i))
    (hfree : ∀ i, i < list_length → ∀ x ∈ ln i, get_alloc st.mem x = false) :
    ∀ (n i : Nat), i + n ≤ list_length →
    ∃ r, find_fit_loop st asize (walkFuel st) n i = some r ∧
      (r = 0 → ∀ j, i ≤ j → j < i + n → ∀ x ∈ ln j, get_size st.mem x < asize) ∧
      (r ≠ 0 → ∃ j, i ≤ j ∧ j < i + n ∧
        (ln j).find? (fun x => decide (asize ≤ get_size st.mem x)) = some r ∧
        ∀ k, i ≤ k → k < j → ∀ x ∈ ln k, get_size st.mem x < asize)
  | 0, i, _ => ⟨0, rfl, fun _ j h1 h2 => by omega, fun h => absurd rfl h⟩
  | n + 1, i, hin => by
    have hi : i < list_length := by omega
    obtain ⟨hscan, hn0⟩ := find_fit_scan_walk st.mem asize (walkFuel st) (st.segregated_list i)
      (ln i) (hl i hi) (hfree i hi)
    obtain ⟨r, hr, hr0, hr1⟩ := find_fit_loop_walk st asize ln hl hfree n (i + 1) (by omega)
    unfold find_fit_loop
    rw [hscan]
    cases hf : (ln i).find? (fun x => decide (asize ≤ get_size st.mem x)) with
    | none =>
      have hnone : ∀ x ∈ ln i, get_size st.mem x < asize := by
        intro x hx
        have := List.find?_eq_none.1 hf x hx
        simpa using this
      simp only [Option.getD_none]
      refine ⟨r, hr, ?_, ?_⟩
      · intro h0 j h1 h2
        by_cases hji : j = i
        · subst hji; exact hnone
        · exact hr0 h0 j (by omega) (by omega)
      · intro h0
        obtain ⟨j, j1, j2, j3, j4⟩ := hr1 h0
        refine ⟨j, by omega, by omega, j3, ?_⟩
        intro k k1 k2
        by_cases hki : k = i
        · subst hki; exact hnone
        · exact j4 k (by omega) k2
    | some b =>
      have hb := List.mem_of_find?_eq_some hf
      have hb0 : b ≠ 0 := hn0 b hb
      simp only [Option.getD_some]
      refine ⟨b, ?_, fun h => absurd h hb0, fun _ => ⟨i, le_refl _, by omega, hf,
        fun k k1 k2 => by omega⟩⟩
      cases b with
      | zero => exact absurd rfl hb0
      | succ b' => rfl

/-- C20: in a state whose 15 lists are NULL-terminated chains of nodes
`ln i`, all marked free, `find_fit(asize)` returns; its result is NULL
exactly when no list of index at least `find_index(asize)` holds a block of
size at least `asize`; otherwise it is the first such block, from head to
tail, of the first such list that holds one. The search is a function of the
state alone and leaves it as it is. -/
theorem find_fit_first_fit (st : State) (asize : Nat) (ln : Nat → List Nat)
    (hl : ∀ i, i < list_length → list_nodes st i = some (ln i))
    (hfree : ∀ i, i < list_length → ∀ x ∈ ln i, get_alloc st.mem x = false) :
    ∃ r, find_fit st asize = some r ∧
      (r = 0 ↔ ∀ j, find_index asize ≤ j → j < list_length →
        ∀ x ∈ ln j, get_size st.mem x < asize) ∧
      (r ≠ 0 → ∃ j, find_index asize ≤ j ∧ j < list_length ∧
        (ln j).find? (fun x => decide (asize ≤ get_size st.mem x)) = some r ∧
        ∀ k, find_index asize ≤ k → k < j → ∀ x ∈ ln k, get_size st.mem x < asize) := by
  have hfi : find_index asize < list_length := find_index_lt asize
  have hsum : find_index asize + (list_length - find_index asize) = list_length := by omega
  obtain ⟨r, hr, hr0, hr1⟩ := find_fit_loop_walk st asize ln hl hfree
    (list_length - find_index asize) (find_index asize) (by omega)
  rw [hsum] at hr0 hr1
  refine ⟨r, hr, ⟨hr0, ?_⟩, hr1⟩
  intro hall
  by_contra hne
  obtain ⟨j, j1, j2, j3, _⟩ := hr1 hne
  have hmem := List.mem_of_find?_eq_some j3
  have hsz := List.find?_some j3
  have := hall j j1 j2 r hmem
  simp only [decide_eq_true_eq] at hsz
  omega

/-- On the fresh heap, whose only listed block is the block of 4096 bytes at
4104 in list 8, `find_fit(48)` starts at list 2 and returns 4104. -/
theorem find_fit_first_fit_witness :
    (∀ i, i < list_length → list_nodes ex_fresh i = some (if i = 8 then [4104] else [])) ∧
    ∃ r, find_fit ex_fresh 48 = some r ∧ r ≠ 0 ∧
      (r ≠ 0 → ∃ j, find_index 48 ≤ j ∧ j < list_length ∧
        (if j = 8 then [4104] else []).find?
          (fun x => decide (48 ≤ get_size ex_fresh.mem x)) = some r ∧
        ∀ k, find_index 48 ≤ k → k < j → ∀ x ∈ (if k = 8 then [4104] else []),
          get_size ex_fresh.mem x < 48) :=
  ⟨by decide, by
    obtain ⟨r, h1, h2, h3⟩ := find_fit_first_fit ex_fresh 48
      (fun i => if i = 8 then [4104] else []) (by decide) (by decide)
    refine ⟨r, h1, ?_, h3⟩
    intro h0
    have := h2.1 h0 8 (by decide) (by decide) 4104 (by decide)
    revert this
    decide⟩

end MM

namespace MM

/-! ## Where `malloc` and `free` write, in terms of the blocks -/

/-- Every address of a tiled range lies in one of the blocks. -/
theorem Geo_cover {a e : Nat} {bs : List Blk} (h : Geo a bs e) {y : Nat} (h1 : a ≤ y)
    (h2 : y < e) : ∃ z ∈ bs, z.addr ≤ y ∧ y < z.addr + z.size := by
  induction bs generalizing a with
  | nil =>
    have : a = e := h
    omega
  | cons x xs ih =>
    obtain ⟨g1, g2, g3, g4⟩ := h
    by_cases hy : y < a + x.size
    · exact ⟨x, List.mem_cons_self _ _, by omega, by omega⟩
    · obtain ⟨z, hz, hz1, hz2⟩ := ih g4 (by omega)
      exact ⟨z, List.mem_cons_of_mem _ hz, hz1, hz2⟩

/-- Two different blocks whose byte ranges overlap are not both blocks of one
heap. -/
theorem Heap_not_mem {st : State} {bs : List Blk} {fl : Nat → List Nat} (h : Heap st bs fl)
    {c z : Blk} (hc : c ∈ bs) (hne : z ≠ c) (h1 : z.addr < c.addr + c.size)
    (h2 : c.addr < z.addr + z.size) : z ∉ bs := by
  intro hz
  rcases Heap_sep h hz hc with h3 | h3 | h3
  · exact hne h3
  · omega
  · omega

/-- The block returned by a coalescing step covers the block it started
from. -/
theorem CoalesceShape_cover {pre post pre' post' : List Blk} {b nb : Blk}
    {fl fl' : Nat → List Nat} (hs : CoalesceShape pre b post fl pre' nb post' fl')
    {lo hi : Nat} (g : Geo lo (pre ++ b :: post) hi) :
    nb.addr ≤ b.addr ∧ b.addr + b.size ≤ nb.addr + nb.size := by
  obtain ⟨g1, _, _, _⟩ := Geo_split g
  rcases hs with ⟨_, _, h, _⟩ | ⟨n, _, _, _, h, _⟩ | ⟨p, h1, _, _, h, _⟩ |
    ⟨p, n, h1, _, _, _, h, _⟩
  · rw [h]; omega
  · rw [h]
    show b.addr ≤ b.addr ∧ b.addr + b.size ≤ b.addr + (b.size + n.size)
    omega
  · rw [h1] at g1
    have := Geo_last g1
    rw [h]
    show p.addr ≤ b.addr ∧ b.addr + b.size ≤ p.addr + (p.size + b.size)
    omega
  · rw [h1] at g1
    have := Geo_last g1
    rw [h]
    show p.addr ≤ b.addr ∧ b.addr + b.size ≤ p.addr + (p.size + b.size + n.size)
    omega

theorem Touch_tags_old {bs bs' : List Blk} {brk brk' y : Nat} {z : Blk} (h1 : z ∈ bs)
    (h2 : z ∉ bs') (hy : in_tags z.addr z.size y) : Touch bs bs' brk brk' y :=
  Or.inr (Or.inr (Or.inl ⟨z, Or.inl ⟨h1, h2⟩, hy⟩))

theorem Touch_tags_new {bs bs' : List Blk} {brk brk' y : Nat} {z : Blk} (h1 : z ∈ bs')
    (h2 : z ∉ bs) (hy : in_tags z.addr z.size y) : Touch bs bs' brk brk' y :=
  Or.inr (Or.inr (Or.inl ⟨z, Or.inr ⟨h1, h2⟩, hy⟩))

theorem Touch_links_new {bs bs' : List Blk} {brk brk' y : Nat} {z : Blk} (h1 : z ∈ bs')
    (h2 : z ∉ bs) (hy : in_links z.addr y) : Touch bs bs' brk brk' y :=
  Or.inr (Or.inr (Or.inr ⟨z, Or.inr ⟨h1, h2⟩, hy⟩))

/-- A link field of a listed node is a link field of a free block. -/
theorem Touch_lists {st : State} {bs : List Blk} {fl : Nat → List Nat} (h : Heap st bs fl)
    (hl : Listed bs fl) (bs' : List Blk) (brk brk' : Nat) {y : Nat} (hy : in_lists fl y) :
    Touch bs bs' brk brk' y := by
  obtain ⟨i, hi, z, hz, hzy⟩ := hy
  obtain ⟨c, hc, hcz, _⟩ := h.cls i hi z hz
  have hcf := (hl.2 i hi z hz).2 c hc hcz
  exact Or.inr (Or.inr (Or.inr ⟨c, Or.inl ⟨hc, hcf⟩, by rw [hcz]; exact hzy⟩))

/-- `free` of the payload of an allocated block: the heap stays well formed,
the freed block is gone, the other allocated blocks stay, and the memory has
changed only where `Touch` allows. -/
theorem free_touch {st : State} {pre post : List Blk} {fl : Nat → List Nat} {b : Blk}
    (hw : WFL st (pre ++ b :: post) fl) (hal : b.alloc = true) :
    ∃ bs' fl', WFL (free st (b.addr + 8)) bs' fl' ∧ b ∉ bs' ∧
      (∀ d ∈ pre ++ b :: post, d.alloc = true → d ≠ b → d ∈ bs') ∧
      (free st (b.addr + 8)).mem_brk = st.mem_brk ∧
      Only (Touch (pre ++ b :: post) bs' st.mem_brk (free st (b.addr + 8)).mem_brk) st.mem
        (free st (b.addr + 8)).mem := by
  obtain ⟨pre', nb, post', fl', h1, h2, h3, _, _, _, h7, h8⟩ := free_spec_full hw hal
  have hb : b ∈ pre ++ b :: post := by simp
  have hnb : nb ∈ pre' ++ nb :: post' := by simp
  have hbb := Heap_blk hw.1 hb
  have hnn := Heap_blk h1.1 hnb
  have hcov := CoalesceShape_cover h3 (Geo_split hw.1.geo |> fun g =>
    (Geo_join g.1 g.2.1 g.2.2.1 g.2.2.2 : Geo (st.mem_lo + 8)
      (pre ++ (⟨b.addr, b.size, false⟩ : Blk) :: post) (st.mem_brk - 8)))
  have hcov' : nb.addr ≤ b.addr ∧ b.addr + b.size ≤ nb.addr + nb.size := hcov
  have hne : nb ≠ b := by
    intro he
    rw [he, hal] at h2
    exact absurd h2 (by simp)
  have hb' : b ∉ pre' ++ nb :: post' :=
    Heap_not_mem h1.1 hnb (Ne.symm hne) (by omega) (by omega)
  have hnb' : nb ∉ pre ++ b :: post := Heap_not_mem hw.1 hb hne (by omega) (by omega)
  refine ⟨_, _, h1, hb', ?_, h7, ?_⟩
  · intro d hd hda hdb
    have := (CoalesceShape_alloc h3 rfl d hda).2
    apply this
    rcases mem_mid_iff.1 hd with h9 | h9 | h9
    · exact absurd h9 hdb
    · exact List.mem_append_left _ h9
    · exact List.mem_append_right _ h9
  · refine Only_mono h8 ?_
    rintro y (hy | hy | hy | hy)
    · exact Touch_tags_old hb hb' hy
    · exact Touch_lists hw.1 hw.2.1 _ _ _ hy
    · exact Touch_tags_new hnb hnb' hy
    · exact Touch_links_new hnb hnb' hy

end MM

namespace MM

/-- A block at or behind the block returned by the coalescing step of
`extend_heap` is no block of the heap before the growth. -/
theorem extend_not_mem {st : State} {bs pre' : List Blk} {fl fl' : Nat → List Nat} {nb : Blk}
    {sz : Nat} (h : Heap st bs fl)
    (hs : CoalesceShape bs ⟨st.mem_brk - 8, sz, false⟩ [] fl pre' nb [] fl') (x : Blk)
    (h1 : nb.addr ≤ x.addr) (h2 : x.alloc = true ∨ nb.addr < x.addr) : x ∉ bs := by
  intro hx
  have hxx := Heap_blk h hx
  rcases hs with ⟨_, _, h3, _⟩ | ⟨n, hp, _⟩ | ⟨p, hp, _, hpf, hq, _⟩ | ⟨p, n, _, hp, _⟩
  · rw [h3] at h1
    have : st.mem_brk - 8 ≤ x.addr := h1
    omega
  · exact absurd hp (by simp)
  · have hpm : p ∈ bs := by rw [hp]; simp
    have hpp := Heap_blk h hpm
    have hg := h.geo
    rw [hp] at hg
    have hlast := Geo_last hg
    rw [hq] at h1 h2
    have h1' : p.addr ≤ x.addr := h1
    have h2' : x.alloc = true ∨ p.addr < x.addr := h2
    rcases Heap_sep h hx hpm with h4 | h4 | h4
    · rw [h4, hpf] at h2'
      rcases h2' with h5 | h5
      · exact absurd h5 (by simp)
      · omega
    · omega
    · omega
  · exact absurd hp (by simp)

/-- `malloc` on an initialised well-formed heap, for a request whose adjusted
size does not wrap around: it returns, the heap stays well formed, every
allocated block stays, the memory has changed only where `Touch` allows, and
a non-NULL result is the payload of an allocated block that is new. -/
theorem malloc_touch {st : State} {bs : List Blk} {fl : Nat → List Nat}
    (hw : WFL st bs fl) {size : Nat} (h0 : size ≠ 0) (hlt : size + 31 < W64) :
    ∃ st' p bs' fl', malloc_body st size = some (st', p) ∧ WFL st' bs' fl' ∧
      st'.mem_lo = st.mem_lo ∧ (∀ d ∈ bs, d.alloc = true → d ∈ bs') ∧
      Only (Touch bs bs' st.mem_brk st'.mem_brk) st.mem st'.mem ∧
      (p ≠ 0 → ∃ c ∈ bs', c.alloc = true ∧ c.addr + 8 = p ∧ c ∉ bs ∧ size + 16 ≤ c.size) := by
  obtain ⟨a32, a16, asz_ge, altW⟩ := asize_spec size h0 hlt
  have hW : W64 = 18446744073709551616 := rfl
  obtain ⟨h, hl, hna⟩ := hw
  obtain ⟨r, hr, hspec⟩ := find_fit_spec h hl (round_up (add64 size dsize) dsize)
  rcases hspec with ⟨hr0, _⟩ | ⟨hr1, j, _, hj, hrj, hsz, _, _⟩
  · -- no fit: grow the arena
    subst hr0
    have hmax := max_spec (round_up (add64 size dsize) dsize)
    have m32 : 32 ≤ max (round_up (add64 size dsize) dsize) chunksize := by
      rw [hmax]; split_ifs <;> omega
    have m16 : max (round_up (add64 size dsize) dsize) chunksize % 16 = 0 := by
      rw [hmax]; split_ifs <;> omega
    have mlt : max (round_up (add64 size dsize) dsize) chunksize + 16 ≤ W64 := by
      rw [hmax]; split_ifs <;> omega
    have mge : round_up (add64 size dsize) dsize ≤
        max (round_up (add64 size dsize) dsize) chunksize := by
      rw [hmax]; split_ifs <;> omega
    rcases extend_heap_spec_full ⟨h, hl, hna⟩ m32 m16 mlt with
      ⟨e1, e2, e3, e4, e5, e6, e7⟩ | ⟨pre', nb, fl', e1, e2, e3, e4, e5, e6, e7⟩
    · exact ⟨_, _, bs, fl, malloc_body_grow_fail st size h0 hr e1, e2, e4, fun d hd _ => hd,
        Only_of_eq e3, fun hp => absurd rfl hp⟩
    · have hnbm : nb ∈ pre' ++ [nb] := by simp
      have hnb := Heap_blk e2.1 hnbm
      have hne : (extend_heap st (max (round_up (add64 size dsize) dsize) chunksize)).2 ≠ 0 := by
        rw [e1, e5] at *; omega
      have hsz := CoalesceShape_size e4
      have hle : round_up (add64 size dsize) dsize ≤ nb.size := le_trans mge hsz
      have hpers : ∀ d ∈ bs, d.alloc = true → d ∈ pre' := by
        intro d hd hda
        have := (CoalesceShape_alloc e4 rfl d hda).2 (by simpa using hd)
        rcases List.mem_append.1 this with h2 | h2
        · exact h2
        · simp only [List.mem_singleton] at h2
          rw [h2, e3] at hda
          exact absurd hda (by simp)
      have hlists : ∀ y, in_lists (enlist fl' nb) y → in_links nb.addr y ∨ in_lists fl y := by
        intro y hy
        rcases in_lists_enlist hy with h2 | h2
        · exact Or.inl h2
        · exact Or.inr (CoalesceShape_lists e4 h2)
      obtain ⟨hcase, p6, p7, p8, p9⟩ := @place_block_full _ _ [] _ _ e2 e3 _ a32 a16 hle
      have hok := malloc_body_grow_ok st size h0 hr hne
      rw [e1] at hok
      have hbrk : (place_block (extend_heap st (max (round_up (add64 size dsize) dsize)
          chunksize)).1 nb.addr (round_up (add64 size dsize) dsize)).mem_brk =
          st.mem_brk + max (round_up (add64 size dsize) dsize) chunksize := p9.trans e6
      rcases hcase with ⟨_, hs, ho⟩ | ⟨hge, hs, ho⟩
      · -- the new block is allocated whole
        have hc1 : (⟨nb.addr, nb.size, true⟩ : Blk) ∈ pre' ++ ⟨nb.addr, nb.size, true⟩ :: [] := by
          simp
        have hc1n : (⟨nb.addr, nb.size, true⟩ : Blk) ∉ bs :=
          extend_not_mem h e4 _ (le_refl _) (Or.inl rfl)
        refine ⟨_, _, _, _, hok, hs, p8.trans e5,
          fun d hd hda => List.mem_append_left _ (hpers d hd hda),
          ?_, fun _ => ⟨_, hc1, rfl, by rw [header_to_payload_eq (by omega)], hc1n,
            by show size + 16 ≤ nb.size; omega⟩⟩
        rw [hbrk]
        refine Only_mono (Only_trans e7 ho) ?_
        have htag : ∀ y, in_tags nb.addr nb.size y → Touch bs
            (pre' ++ (⟨nb.addr, nb.size, true⟩ : Blk) :: []) st.mem_brk
            (st.mem_brk + max (round_up (add64 size dsize) dsize) chunksize) y :=
          fun y hy => Touch_tags_new hc1 hc1n hy
        have hlnk : ∀ y, in_links nb.addr y → Touch bs
            (pre' ++ (⟨nb.addr, nb.size, true⟩ : Blk) :: []) st.mem_brk
            (st.mem_brk + max (round_up (add64 size dsize) dsize) chunksize) y :=
          fun y hy => Touch_links_new hc1 hc1n hy
        rintro y ((hy | hy | hy | hy | hy) | hy | hy)
        · exact Or.inl hy
        · exact Or.inr (Or.inl hy)
        · exact Touch_lists h hl _ _ _ hy
        · exact htag y hy
        · exact hlnk y hy
        · exact htag y hy
        · rcases hlists y hy with h2 | h2
          · exact hlnk y h2
          · exact Touch_lists h hl _ _ _ h2
      · -- the new block is split
        have hc1 : (⟨nb.addr, round_up (add64 size dsize) dsize, true⟩ : Blk) ∈
            pre' ++ ⟨nb.addr, round_up (add64 size dsize) dsize, true⟩ ::
              ⟨nb.addr + round_up (add64 size dsize) dsize,
                nb.size - round_up (add64 size dsize) dsize, false⟩ :: [] := by simp
        have hr1 : (⟨nb.addr + round_up (add64 size dsize) dsize,
            nb.size - round_up (add64 size dsize) dsize, false⟩ : Blk) ∈
            pre' ++ ⟨nb.addr, round_up (add64 size dsize) dsize, true⟩ ::
              ⟨nb.addr + round_up (add64 size dsize) dsize,
                nb.size - round_up (add64 size dsize) dsize, false⟩ :: [] := by simp
        have hc1n : (⟨nb.addr, round_up (add64 size dsize) dsize, true⟩ : Blk) ∉ bs :=
          extend_not_mem h e4 _ (le_refl _) (Or.inl rfl)
        have hr1n : (⟨nb.addr + round_up (add64 size dsize) dsize,
            nb.size - round_up (add64 size dsize) dsize, false⟩ : Blk) ∉ bs :=
          extend_not_mem h e4 _ (Nat.le_add_right _ _)
            (Or.inr (by show nb.addr < nb.addr + round_up (add64 size dsize) dsize; omega))
        refine ⟨_, _, _, _, hok, hs, p8.trans e5,
          fun d hd hda => List.mem_append_left _ (hpers d hd hda),
          ?_, fun _ => ⟨_, hc1, rfl, by rw [header_to_payload_eq (by omega)], hc1n,
            by show size + 16 ≤ round_up (add64 size dsize) dsize; omega⟩⟩
        rw [hbrk]
        refine Only_mono (Only_trans e7 ho) ?_
        have htag : ∀ y, in_tags nb.addr nb.size y → Touch bs
            (pre' ++ (⟨nb.addr, round_up (add64 size dsize) dsize, true⟩ : Blk) ::
              ⟨nb.addr + round_up (add64 size dsize) dsize,
                nb.size - round_up (add64 size dsize) dsize, false⟩ :: []) st.mem_brk
            (st.mem_brk + max (round_up (add64 size dsize) dsize) chunksize) y := by
          intro y hy
          rcases hy with hy | hy
          · exact Touch_tags_new hc1 hc1n (Or.inl hy)
          · refine Touch_tags_new hr1 hr1n (Or.inr ?_)
            show nb.addr + round_up (add64 size dsize) dsize +
                (nb.size - round_up (add64 size dsize) dsize) - 8 ≤ y ∧
              y < nb.addr + round_up (add64 size dsize) dsize +
                (nb.size - round_up (add64 size dsize) dsize)
            omega
        have hlnk : ∀ y, in_links nb.addr y → Touch bs
            (pre' ++ (⟨nb.addr, round_up (add64 size dsize) dsize, true⟩ : Blk) ::
              ⟨nb.addr + round_up (add64 size dsize) dsize,
                nb.size - round_up (add64 size dsize) dsize, false⟩ :: []) st.mem_brk
            (st.mem_brk + max (round_up (add64 size dsize) dsize) chunksize) y :=
          fun y hy => Touch_links_new hc1 hc1n hy
        rintro y ((hy | hy | hy | hy | hy) | hy | hy | hy | hy | hy)
        · exact Or.inl hy
        · exact Or.inr (Or.inl hy)
        · exact Touch_lists h hl _ _ _ hy
        · exact htag y hy
        · exact hlnk y hy
        · exact htag y hy
        · rcases hlists y hy with h2 | h2
          · exact hlnk y h2
          · exact Touch_lists h hl _ _ _ h2
        · exact Touch_tags_new hc1 hc1n hy
        · exact Touch_tags_new hr1 hr1n hy
        · exact Touch_links_new hr1 hr1n hy
  · -- a fit was found
    obtain ⟨c, hc, hcr, _⟩ := h.cls j hj r hrj
    have hcf := (hl.2 j hj r hrj).2 c hc hcr
    have hcsz : round_up (add64 size dsize) dsize ≤ c.size := by
      rw [← Heap_get_size h hc, hcr]; exact hsz
    obtain ⟨pre, post, hbs⟩ := List.append_of_mem hc
    subst hbs
    have hcc := Heap_blk h hc
    obtain ⟨hcase, p6, p7, p8, p9⟩ := place_block_full ⟨h, hl, hna⟩ hcf a32 a16 hcsz
    have hok := malloc_body_found st size r h0 hr hr1
    rw [← hcr] at hok
    have hpers : ∀ (x : Blk) (l : List Blk), ∀ d ∈ pre ++ c :: post, d.alloc = true →
        d ∈ pre ++ x :: (l ++ post) := by
      intro x l d hd hda
      rcases mem_mid_iff.1 hd with h1 | h1 | h1
      · rw [h1, hcf] at hda; exact absurd hda (by simp)
      · exact List.mem_append_left _ h1
      · exact List.mem_append_right _ (List.mem_cons_of_mem _ (List.mem_append_right _ h1))
    rcases hcase with ⟨_, hs, ho⟩ | ⟨hge, hs, ho⟩
    · -- the block is allocated whole
      have hc1 : (⟨c.addr, c.size, true⟩ : Blk) ∈ pre ++ ⟨c.addr, c.size, true⟩ :: post := by simp
      have hne : (⟨c.addr, c.size, true⟩ : Blk) ≠ c := by
        intro he
        have := congrArg Blk.alloc he
        rw [hcf] at this
        exact absurd this (by simp)
      have hc1n : (⟨c.addr, c.size, true⟩ : Blk) ∉ pre ++ c :: post :=
        Heap_not_mem h hc hne (by show c.addr < c.addr + c.size; omega)
          (by show c.addr < c.addr + c.size; omega)
      have hcn : c ∉ pre ++ ⟨c.addr, c.size, true⟩ :: post :=
        Heap_not_mem hs.1 hc1 (Ne.symm hne) (by show c.addr < c.addr + c.size; omega)
          (by show c.addr < c.addr + c.size; omega)
      refine ⟨_, _, _, _, hok, hs, p8, fun d hd hda => by simpa using hpers _ [] d hd hda, ?_,
        fun _ => ⟨_, hc1, rfl, by rw [header_to_payload_eq (by omega)], hc1n,
          by show size + 16 ≤ c.size; omega⟩⟩
      refine Only_mono ho ?_
      rintro y (hy | hy)
      · exact Touch_tags_old hc hcn hy
      · exact Touch_lists h hl _ _ _ hy
    · -- the block is split
      have hc1 : (⟨c.addr, round_up (add64 size dsize) dsize, true⟩ : Blk) ∈
          pre ++ ⟨c.addr, round_up (add64 size dsize) dsize, true⟩ ::
            ⟨c.addr + round_up (add64 size dsize) dsize,
              c.size - round_up (add64 size dsize) dsize, false⟩ :: post := by simp
      have hr1' : (⟨c.addr + round_up (add64 size dsize) dsize,
          c.size - round_up (add64 size dsize) dsize, false⟩ : Blk) ∈
          pre ++ ⟨c.addr, round_up (add64 size dsize) dsize, true⟩ ::
            ⟨c.addr + round_up (add64 size dsize) dsize,
              c.size - round_up (add64 size dsize) dsize, false⟩ :: post := by simp
      have hne : (⟨c.addr, round_up (add64 size dsize) dsize, true⟩ : Blk) ≠ c := by
        intro he
        have := congrArg Blk.alloc he
        rw [hcf] at this
        exact absurd this (by simp)
      have hner : (⟨c.addr + round_up (add64 size dsize) dsize,
          c.size - round_up (add64 size dsize) dsize, false⟩ : Blk) ≠ c := by
        intro he
        have : c.addr + round_up (add64 size dsize) dsize = c.addr := congrArg Blk.addr he
        omega
      have hc1n : (⟨c.addr, round_up (add64 size dsize) dsize, true⟩ : Blk) ∉
          pre ++ c :: post :=
        Heap_not_mem h hc hne (by show c.addr < c.addr + c.size; omega)
          (by show c.addr < c.addr + round_up (add64 size dsize) dsize; omega)
      have hr1n : (⟨c.addr + round_up (add64 size dsize) dsize,
          c.size - round_up (add64 size dsize) dsize, false⟩ : Blk) ∉ pre ++ c :: post :=
        Heap_not_mem h hc hner
          (by show c.addr + round_up (add64 size dsize) dsize < c.addr + c.size; omega)
          (by show c.addr < c.addr + round_up (add64 size dsize) dsize +
            (c.size - round_up (add64 size dsize) dsize); omega)
      have hcn : c ∉ pre ++ ⟨c.addr, round_up (add64 size dsize) dsize, true⟩ ::
          ⟨c.addr + round_up (add64 size dsize) dsize,
            c.size - round_up (add64 size dsize) dsize, false⟩ :: post :=
        Heap_not_mem hs.1 hc1 (Ne.symm hne)
          (by show c.addr < c.addr + round_up (add64 size dsize) dsize; omega)
          (by show c.addr < c.addr + c.size; omega)
      refine ⟨_, _, _, _, hok, hs, p8,
        fun d hd hda => by simpa using hpers _ [_] d hd hda, ?_,
        fun _ => ⟨_, hc1, rfl, by rw [header_to_payload_eq (by omega)], hc1n,
          by show size + 16 ≤ round_up (add64 size dsize) dsize; omega⟩⟩
      refine Only_mono ho ?_
      rintro y (hy | hy | hy | hy | hy)
      · exact Touch_tags_old hc hcn hy
      · exact Touch_lists h hl _ _ _ hy
      · exact Touch_tags_new hc1 hc1n hy
      · exact Touch_tags_new hr1' hr1n hy
      · exact Touch_links_new hr1' hr1n hy

end MM

namespace MM

set_option maxRecDepth 100000

/-! ## Claims about placement -/

/-- When the heap has exactly one free block and it is large enough, `malloc`
places the request in it. -/
theorem malloc_single_free {st : State} {pre post : List Blk} {fl : Nat → List Nat} {c : Blk}
    (hw : WFL st (pre ++ c :: post) fl) (hcf : c.alloc = false)
    (honly : ∀ d ∈ pre ++ post, d.alloc = true) {size : Nat} (h0 : size ≠ 0)
    (hfit : round_up (add64 size dsize) dsize ≤ c.size) :
    malloc st size =
      some (place_block st c.addr (round_up (add64 size dsize) dsize), c.addr + 8) := by
  have hc : c ∈ pre ++ c :: post := by simp
  have hcc := Heap_blk hw.1 hc
  obtain ⟨r, hr, hspec⟩ := find_fit_spec hw.1 hw.2.1 (round_up (add64 size dsize) dsize)
  have hlisted := hw.2.1.1 c hc hcf (by simp)
  rcases hspec with ⟨_, hnone⟩ | ⟨hr1, j, _, hj, hrj, _⟩
  · have := hnone (find_index c.size) (find_index_mono hfit) (find_index_lt _) c.addr hlisted
    rw [Heap_get_size hw.1 hc] at this
    omega
  · obtain ⟨d, hd, hdr, _⟩ := hw.1.cls j hj r hrj
    have hdf := (hw.2.1.2 j hj r hrj).2 d hd hdr
    have hdc : d = c := by
      rcases mem_mid_iff.1 hd with h1 | h1 | h1
      · exact h1
      · have := honly d (List.mem_append_left _ h1)
        rw [hdf] at this; exact absurd this (by simp)
      · have := honly d (List.mem_append_right _ h1)
        rw [hdf] at this; exact absurd this (by simp)
    subst hdc
    rw [malloc_of_init hw.1 size, malloc_body_found st size r h0 hr hr1, ← hdr,
      header_to_payload_eq (by omega)]

/-- C16, counterexample: on the fresh heap at address 4096, `p = malloc(24)`
is 4112 and `q = malloc(24)` is 4160, so `q - p` is 48, not 32; the first
request is served by a block of size 48. -/
theorem second_malloc_is_48_bytes_further :
    (malloc ex_fresh 24).map Prod.snd = some 4112 ∧
    (malloc ex_one 24).map Prod.snd = some 4160 ∧ 4160 - 4112 ≠ 32 ∧
    get_size ex_one.mem (payload_to_header 4112) = 48 := by
  decide

/-- C16, amended: after a successful `mm_init` on an empty arena at `lo`,
`p = malloc(24)` returns `lo + 16` and the following `q = malloc(24)` returns
`p + 48`: the first request is served by a block of size
`round_up(24 + 16, 16) = 48`, and the second block starts right after it. -/
theorem fresh_heap_two_mallocs (st : State) (hempty : st.mem_brk = st.mem_lo)
    (hok : (mm_init st).2 = true) :
    ∃ st1 p st2 q, malloc (mm_init st).1 24 = some (st1, p) ∧
      malloc st1 24 = some (st2, q) ∧ p = st.mem_lo + 16 ∧ q = p + 48 ∧
      get_size st1.mem (payload_to_header p) = 48 ∧
      payload_to_header q = payload_to_header p + 48 := by
  obtain ⟨hw, hlo, hbrk⟩ := mm_init_spec hempty hok
  have hasz : round_up (add64 24 dsize) dsize = 48 := by decide
  have hW : W64 = 18446744073709551616 := rfl
  have hw0 : WFL (mm_init st).1 ([] ++ (⟨st.mem_lo + 8, 4096, false⟩ : Blk) :: [])
      (enlist (fun _ => []) ⟨st.mem_lo + 8, 4096, false⟩) := hw
  have hb0 := Heap_blk hw0.1 (show (⟨st.mem_lo + 8, 4096, false⟩ : Blk) ∈ _ by simp)
  have hm1 := @malloc_single_free _ _ _ _ _ hw0 rfl (by simp) 24 (by decide)
    (by rw [hasz]; show 48 ≤ 4096; omega)
  rw [hasz] at hm1
  obtain ⟨hcase, _⟩ := @place_block_full _ _ _ _ _ hw0 rfl 48 (by omega) (by omega)
    (by show 48 ≤ 4096; omega)
  rcases hcase with ⟨hlt, _⟩ | ⟨_, hs, _⟩
  · have : (4096 : Nat) - 48 < 32 := hlt
    omega
  · have hw1 : WFL (place_block (mm_init st).1 (st.mem_lo + 8) 48)
        ([⟨st.mem_lo + 8, 48, true⟩] ++
          (⟨st.mem_lo + 8 + 48, 4096 - 48, false⟩ : Blk) :: [])
        (enlist (unlist (enlist (fun _ => []) ⟨st.mem_lo + 8, 4096, false⟩)
          ⟨st.mem_lo + 8, 4096, false⟩) ⟨st.mem_lo + 8 + 48, 4096 - 48, false⟩) := hs
    have hm2 := @malloc_single_free _ _ _ _ _ hw1 rfl
      (by intro d hd; simp at hd; rw [hd]) 24 (by decide)
      (by rw [hasz]; show 48 ≤ 4096 - 48; omega)
    rw [hasz] at hm2
    have hc1 := Heap_get_size hw1.1
      (show (⟨st.mem_lo + 8, 48, true⟩ : Blk) ∈ _ by simp)
    refine ⟨_, _, _, _, hm1, hm2, ?_, ?_, ?_, ?_⟩
    · show st.mem_lo + 8 + 8 = st.mem_lo + 16
      omega
    · show st.mem_lo + 8 + 48 + 8 = st.mem_lo + 8 + 8 + 48
      omega
    · show get_size _ (payload_to_header (st.mem_lo + 8 + 8)) = 48
      rw [payload_to_header_eq (by omega)]
      exact hc1
    · show payload_to_header (st.mem_lo + 8 + 48 + 8) =
        payload_to_header (st.mem_lo + 8 + 8) + 48
      rw [payload_to_header_eq (by omega), payload_to_header_eq (by omega)]

/-- On the fresh heap at address 4096 the two pointers are 4112 and 4160. -/
theorem fresh_heap_two_mallocs_witness :
    ex_empty.mem_brk = ex_empty.mem_lo ∧ (mm_init ex_empty).2 = true ∧
    ∃ st1 p st2 q, malloc (mm_init ex_empty).1 24 = some (st1, p) ∧
      malloc st1 24 = some (st2, q) ∧ p = ex_empty.mem_lo + 16 ∧ q = p + 48 ∧
      get_size st1.mem (payload_to_header p) = 48 ∧
      payload_to_header q = payload_to_header p + 48 :=
  ⟨rfl, by decide, fresh_heap_two_mallocs ex_empty rfl (by decide)⟩

end MM

namespace MM

set_option maxRecDepth 100000

/-! ## Claims about disjointness and the frame of allocated blocks -/

/-- A block that both heaps hold as allocated keeps every byte when the
memory has changed only where `Touch` allows. -/
theorem frame_of_touch {st st' : State} {bs bs' : List Blk} {fl fl' : Nat → List Nat}
    (h : Heap st bs fl) (h' : Heap st' bs' fl')
    (ho : Only (Touch bs bs' st.mem_brk st'.mem_brk) st.mem st'.mem) {d : Blk} (hd : d ∈ bs)
    (hd' : d ∈ bs') (hda : d.alloc = true) (y : Nat) (h1 : d.addr ≤ y)
    (h2 : y < d.addr + d.size) : st'.mem y = st.mem y := by
  by_contra hne
  have hdd := Heap_blk h hd
  have hdd' := Heap_blk h' hd'
  rcases ho y hne with hy | hy | ⟨z, hz, hy⟩ | ⟨z, hz, hy⟩
  · omega
  · omega
  · unfold in_tags at hy
    rcases hz with ⟨hz1, hz2⟩ | ⟨hz1, hz2⟩
    · have hzz := Heap_blk h hz1
      rcases Heap_sep h hz1 hd with h3 | h3 | h3
      · rw [h3] at hz2; exact hz2 hd'
      · omega
      · omega
    · have hzz := Heap_blk h' hz1
      rcases Heap_sep h' hz1 hd' with h3 | h3 | h3
      · rw [h3] at hz2; exact hz2 hd
      · omega
      · omega
  · unfold in_links at hy
    rcases hz with ⟨hz1, hz2⟩ | ⟨hz1, hz2⟩
    · have hzz := Heap_blk h hz1
      rcases Heap_sep h hz1 hd with h3 | h3 | h3
      · rw [h3, hda] at hz2; exact absurd hz2 (by simp)
      · omega
      · omega
    · have hzz := Heap_blk h' hz1
      rcases Heap_sep h' hz1 hd' with h3 | h3 | h3
      · rw [h3] at hz2; exact hz2 hd
      · omega
      · omega

/-- C17: on a well-formed heap, for a request `size > 0` with `size + 31`
not overflowing, `malloc` returns, and a non-NULL result is the payload of a
block that is marked allocated and is in none of the lists afterwards; every
byte of that block was, before the call, in a free block or at or behind the
epilogue (newly added arena); and every block that was allocated before is
still a block and its byte range is disjoint from the new one. Moreover, in
every state of a valid trace two different live pointers denote payloads
that do not overlap. -/
theorem allocated_regions_disjoint :
    (∀ (st : State) (bs : List Blk) (fl : Nat → List Nat) (size : Nat), WFL st bs fl →
      size ≠ 0 → size + 31 < W64 →
      ∃ st' p bs' fl', malloc st size = some (st', p) ∧ WFL st' bs' fl' ∧
        (p ≠ 0 → ∃ c ∈ bs', c.addr + 8 = p ∧
          get_alloc st'.mem (payload_to_header p) = true ∧
          (∀ i, i < list_length → ∃ l, list_nodes st' i = some l ∧ payload_to_header p ∉ l) ∧
          (∀ y, c.addr ≤ y → y < c.addr + c.size →
            st.mem_brk - 8 ≤ y ∨ ∃ z ∈ bs, z.alloc = false ∧ z.addr ≤ y ∧ y < z.addr + z.size) ∧
          (∀ d ∈ bs, d.alloc = true →
            d ∈ bs' ∧ (d.addr + d.size ≤ c.addr ∨ c.addr + c.size ≤ d.addr)))) ∧
    (∀ (st : State) (L : List Nat), Reach st L → ∀ p ∈ L, ∀ q ∈ L, p ≠ q →
      p + get_payload_size st.mem (payload_to_header p) ≤ q ∨
      q + get_payload_size st.mem (payload_to_header q) ≤ p) := by
  constructor
  · intro st bs fl size hw h0 hlt
    obtain ⟨st', p, bs', fl', hm, hw', hlo, hpers, _, hp⟩ := malloc_touch hw h0 hlt
    refine ⟨st', p, bs', fl', by rw [malloc_of_init hw.1 size]; exact hm, hw', ?_⟩
    intro hp0
    obtain ⟨c, hc, hca, hcp, hcn, _⟩ := hp hp0
    have hcc := Heap_blk hw'.1 hc
    have hhdr : payload_to_header p = c.addr := by
      rw [← hcp]; exact payload_to_header_eq (by omega)
    refine ⟨c, hc, hcp, ?_, ?_, ?_, ?_⟩
    · rw [hhdr, Heap_get_alloc hw'.1 hc, hca]
    · intro i hi
      refine ⟨fl' i, list_nodes_of_Heap hw'.1 hi, ?_⟩
      rw [hhdr]
      exact Listed_unlisted_alloc hw'.1 hw'.2.1 hc hca i hi
    · intro y hy1 hy2
      by_cases hy : st.mem_brk - 8 ≤ y
      · exact Or.inl hy
      · right
        obtain ⟨z, hz, hz1, hz2⟩ := Geo_cover hw.1.geo (y := y) (by rw [← hlo]; omega) (by omega)
        refine ⟨z, hz, ?_, hz1, hz2⟩
        cases hza : z.alloc with
        | false => rfl
        | true =>
          exfalso
          have hz' := hpers z hz hza
          rcases Heap_sep hw'.1 hz' hc with h3 | h3 | h3
          · rw [h3] at hz; exact hcn hz
          · omega
          · omega
    · intro d hd hda
      have hd' := hpers d hd hda
      refine ⟨hd', ?_⟩
      rcases Heap_sep hw'.1 hd' hc with h3 | h3 | h3
      · rw [h3] at hd; exact absurd hd hcn
      · exact Or.inl h3
      · exact Or.inr h3
  · intro st L hR p hp q hq hne
    obtain ⟨bs, fl, hw, hL⟩ := Reach_inv hR
    obtain ⟨c1, hc1, _, hcp⟩ := hL.2 p hp
    obtain ⟨c2, hc2, _, hcq⟩ := hL.2 q hq
    have h1 := Heap_blk hw.1 hc1
    have h2 := Heap_blk hw.1 hc2
    have e1 : get_payload_size st.mem (payload_to_header p) = c1.size - 16 := by
      unfold get_payload_size dsize wsize
      rw [← hcp, payload_to_header_eq (by omega), Heap_get_size hw.1 hc1,
        sub64_eq (by omega) (by omega)]
    have e2 : get_payload_size st.mem (payload_to_header q) = c2.size - 16 := by
      unfold get_payload_size dsize wsize
      rw [← hcq, payload_to_header_eq (by omega), Heap_get_size hw.1 hc2,
        sub64_eq (by omega) (by omega)]
    rw [e1, e2]
    rcases Heap_sep hw.1 hc1 hc2 with h3 | h3 | h3
    · rw [h3] at hcp; omega
    · left; omega
    · right; omega

/-- The heap after `a = malloc(24)` on the fresh heap at address 4096: the
allocated block of `a` and a free block behind it. -/
theorem ex_one_WFL :
    WFL ex_one [⟨4104, 48, true⟩, ⟨4152, 4048, false⟩]
      (enlist (fun _ => []) ⟨4152, 4048, false⟩) :=
  ⟨⟨by decide, by decide, by decide, by decide, by decide, by decide, by decide, by decide,
    by decide, by decide⟩, ⟨by decide, by decide⟩,
    List.chain'_cons.2 ⟨Or.inl rfl, List.chain'_singleton _⟩⟩

/-- A second `malloc(24)` after `a = malloc(24)` on the fresh heap leaves the
block of `a` a block and returns a block disjoint from it. -/
theorem allocated_regions_disjoint_witness :
    WFL ex_one [⟨4104, 48, true⟩, ⟨4152, 4048, false⟩]
      (enlist (fun _ => []) ⟨4152, 4048, false⟩) ∧
    ∃ st' p bs' fl', malloc ex_one 24 = some (st', p) ∧ WFL st' bs' fl' ∧
      (p ≠ 0 → ∃ c ∈ bs', c.addr + 8 = p ∧ (⟨4104, 48, true⟩ : Blk) ∈ bs' ∧
        (4104 + 48 ≤ c.addr ∨ c.addr + c.size ≤ 4104)) :=
  ⟨ex_one_WFL, by
    obtain ⟨st', p, bs', fl', h1, h2, h3⟩ := allocated_regions_disjoint.1 ex_one _ _ 24
      ex_one_WFL (by decide) (by decide)
    refine ⟨st', p, bs', fl', h1, h2, fun hp => ?_⟩
    obtain ⟨c, hc, hcp, _, _, _, h4⟩ := h3 hp
    have := h4 ⟨4104, 48, true⟩ (by simp) rfl
    exact ⟨c, hc, hcp, this.1, this.2⟩⟩

/-- C18: on a well-formed heap with blocks `bs`, a call `malloc(size)` with
`size + 31` not overflowing returns, and a call `free(p)` of the payload of
an allocated block, lead to a well-formed heap with blocks `bs'` in which
every block that was allocated (but for the freed one) is still a block, and
every block that is allocated in both heaps has kept every byte of its
range: header, payload and footer. The memory has changed only where
`Touch` allows: in the epilogue word of either heap, in the header or footer
of a block that exists only before or only after the call, and in the first
16 payload bytes of a block that was free before the call or exists only
after it. -/
theorem allocated_blocks_frame (st : State) (bs : List Blk) (fl : Nat → List Nat)
    (hw : WFL st bs fl) :
    (∀ size, size + 31 < W64 → ∃ st' p bs' fl', malloc st size = some (st', p) ∧
      WFL st' bs' fl' ∧ (∀ d ∈ bs, d.alloc = true → d ∈ bs') ∧
      (∀ d ∈ bs, d.alloc = true → d ∈ bs' →
        ∀ y, d.addr ≤ y → y < d.addr + d.size → st'.mem y = st.mem y) ∧
      Only (Touch bs bs' st.mem_brk st'.mem_brk) st.mem st'.mem) ∧
    (∀ b ∈ bs, b.alloc = true → ∃ bs' fl', WFL (free st (b.addr + 8)) bs' fl' ∧ b ∉ bs' ∧
      (∀ d ∈ bs, d.alloc = true → d ≠ b → d ∈ bs') ∧
      (∀ d ∈ bs, d.alloc = true → d ∈ bs' →
        ∀ y, d.addr ≤ y → y < d.addr + d.size → (free st (b.addr + 8)).mem y = st.mem y) ∧
      Only (Touch bs bs' st.mem_brk (free st (b.addr + 8)).mem_brk) st.mem
        (free st (b.addr + 8)).mem) := by
  constructor
  · intro size hlt
    by_cases h0 : size = 0
    · subst h0
      exact ⟨st, 0, bs, fl, by rw [malloc_of_init hw.1 0]; exact malloc_body_zero st, hw,
        fun d hd _ => hd, fun d _ _ _ y _ _ => rfl, Only_refl _ _⟩
    · obtain ⟨st', p, bs', fl', hm, hw', _, hpers, ho, _⟩ := malloc_touch hw h0 hlt
      exact ⟨st', p, bs', fl', by rw [malloc_of_init hw.1 size]; exact hm, hw', hpers,
        fun d hd hda hd' y h1 h2 => frame_of_touch hw.1 hw'.1 ho hd hd' hda y h1 h2, ho⟩
  · intro b hb hba
    obtain ⟨pre, post, hbs⟩ := List.append_of_mem hb
    subst hbs
    obtain ⟨bs', fl', hw', hbn, hpers, hbrk, ho⟩ := free_touch hw hba
    exact ⟨bs', fl', hw', hbn, hpers,
      fun d hd hda hd' y h1 h2 => frame_of_touch hw.1 hw'.1 ho hd hd' hda y h1 h2, ho⟩

/-- A second `malloc(24)` after `a = malloc(24)` on the fresh heap leaves
every byte of the block of `a` as it was. -/
theorem allocated_blocks_frame_witness :
    WFL ex_one [⟨4104, 48, true⟩, ⟨4152, 4048, false⟩]
      (enlist (fun _ => []) ⟨4152, 4048, false⟩) ∧
    ∃ st' p bs' fl', malloc ex_one 24 = some (st', p) ∧ WFL st' bs' fl' ∧
      (⟨4104, 48, true⟩ : Blk) ∈ bs' ∧
      ∀ y, 4104 ≤ y → y < 4104 + 48 → st'.mem y = ex_one.mem y :=
  ⟨ex_one_WFL, by
    obtain ⟨st', p, bs', fl', h1, h2, h3, h4, _⟩ :=
      (allocated_blocks_frame ex_one _ _ ex_one_WFL).1 24 (by decide)
    have hm := h3 ⟨4104, 48, true⟩ (by simp) rfl
    exact ⟨st', p, bs', fl', h1, h2, hm, h4 ⟨4104, 48, true⟩ (by simp) rfl hm⟩⟩

end MM

namespace MM

set_option maxRecDepth 100000

/-! ## The search and the adjusted size -/

/-- The inner loop of `find_fit` along a NULL-terminated list, whatever the
allocation flags of its nodes. -/
theorem find_fit_scan_any (m : Mem) (asize : Nat) : ∀ (fuel c : Nat) (l : List Nat),
    walk_list m fuel c = some l →
    ∃ r, find_fit_scan m asize fuel c = some r ∧
      (r = 0 → ∀ x ∈ l, get_alloc m x = false → get_size m x < asize) ∧
      (r ≠ 0 → r ∈ l ∧ asize ≤ get_size m r ∧ get_alloc m r = false)
  | 0, c, l, h => by simp [walk_list] at h
  | fuel + 1, c, l, h => by
    unfold walk_list at h
    unfold find_fit_scan
    by_cases hc : c = 0
    · rw [if_pos hc] at h
      rw [if_pos hc]
      simp only [Option.some.injEq] at h
      subst h
      exact ⟨0, rfl, fun _ x hx => by simp at hx, fun h0 => absurd rfl h0⟩
    · rw [if_neg hc] at h
      rw [if_neg hc]
      cases hw : walk_list m fuel (get_succ m c) with
      | none => rw [hw] at h; simp at h
      | some l' =>
        rw [hw] at h
        simp only [Option.map_some', Option.some.injEq] at h
        subst h
        by_cases hfit : asize ≤ get_size m c ∧ ¬ get_alloc m c = true
        · rw [if_pos hfit]
          exact ⟨c, rfl, fun h0 => absurd h0 hc,
            fun _ => ⟨List.mem_cons_self _ _, hfit.1, by simpa using hfit.2⟩⟩
        · rw [if_neg hfit]
          obtain ⟨r, hr, hr0, hr1⟩ := find_fit_scan_any m asize fuel (get_succ m c) l' hw
          refine ⟨r, hr, ?_, ?_⟩
          · intro h0 x hx hxf
            rcases List.mem_cons.1 hx with rfl | hx
            · by_contra hge
              exact hfit ⟨by omega, by simp [hxf]⟩
            · exact hr0 h0 x hx hxf
          · intro h0
            obtain ⟨a1, a2, a3⟩ := hr1 h0
            exact ⟨List.mem_cons_of_mem _ a1, a2, a3⟩

/-- The outer loop of `find_fit` over the lists `i, .., i + n - 1`, whatever
the allocation flags of their nodes. -/
theorem find_fit_loop_any (st : State) (asize : Nat) (ln : Nat → List Nat)
    (hl : ∀ i, i < list_length → list_nodes st i = some (ln i)) :
    ∀ (n i : Nat), i + n ≤ list_length →
    ∃ r, find_fit_loop st asize (walkFuel st) n i = some r ∧
      (r = 0 → ∀ j, i ≤ j → j < i + n → ∀ x ∈ ln j,
        get_alloc st.mem x = false → get_size st.mem x < asize) ∧
      (r ≠ 0 → ∃ j, i ≤ j ∧ j < i + n ∧ r ∈ ln j ∧ asize ≤ get_size st.mem r ∧
        get_alloc st.mem r = false)
  | 0, i, _ => ⟨0, rfl, fun _ j h1 h2 => by omega, fun h => absurd rfl h⟩
  | n + 1, i, hin => by
    have hi : i < list_length := by omega
    obtain ⟨r, hr, hr0, hr1⟩ := find_fit_scan_any st.mem asize (walkFuel st)
      (st.segregated_list i) (ln i) (hl i hi)
    obtain ⟨r', hr', hr0', hr1'⟩ := find_fit_loop_any st asize ln hl n (i + 1) (by omega)
    unfold find_fit_loop
    rw [hr]
    cases r with
    | zero =>
      refine ⟨r', hr', ?_, ?_⟩
      · intro h0 j h1 h2
        by_cases hji : j = i
        · subst hji; exact hr0 rfl
        · exact hr0' h0 j (by omega) (by omega)
      · intro h0
        obtain ⟨j, j1, j2, j3⟩ := hr1' h0
        exact ⟨j, by omega, by omega, j3⟩
    | succ b =>
      refine ⟨b + 1, rfl, fun h => by omega, fun _ => ?_⟩
      obtain ⟨a1, a2, a3⟩ := hr1 (by omega)
      exact ⟨i, le_refl _, by omega, a1, a2, a3⟩

/-- A listed block marked allocated is passed over by `find_fit` whatever its
size: in the state `ex_claimed` the block of 4096 bytes at 4104 is the only
node, in list 8 = `find_index(4096)`, and its header is marked allocated;
`find_fit(48)` returns NULL. -/
theorem find_fit_skips_marked_block :
    (∀ i, i < list_length → list_nodes ex_claimed i = some (if i = 8 then [4104] else [])) ∧
    (∀ i, i < list_length → ∀ x ∈ (if i = 8 then [4104] else [] : List Nat),
      find_index (get_size ex_claimed.mem x) = i) ∧
    find_fit ex_claimed 48 = some 0 ∧
    48 ≤ get_size ex_claimed.mem 4104 ∧ get_alloc ex_claimed.mem 4104 = true := by
  decide

/-- C21: `find_fit` never misses an available block. `find_index` is monotone
non-decreasing, and in every state whose 15 lists are NULL-terminated chains
of nodes `ln i`, each node sitting in the list of the class of its size,
`find_fit(asize)` returns, and it returns NULL exactly when no available
block, that is no block marked free in any of the 15 lists, those of index
below `find_index(asize)` included, has size at least `asize`; when all listed
blocks are marked free, as the free lists have them, that is exactly when no
block in any of the 15 lists has size at least `asize`. -/
theorem find_fit_never_misses_available_block (st : State) (asize : Nat)
    (ln : Nat → List Nat) (hl : ∀ i, i < list_length → list_nodes st i = some (ln i))
    (hcls : ∀ i, i < list_length → ∀ x ∈ ln i, find_index (get_size st.mem x) = i) :
    (∀ a b : Nat, a ≤ b → find_index a ≤ find_index b) ∧
    ∃ r, find_fit st asize = some r ∧
      (r = 0 ↔ ∀ i, i < list_length → ∀ x ∈ ln i,
        get_alloc st.mem x = false → get_size st.mem x < asize) ∧
      ((∀ i, i < list_length → ∀ x ∈ ln i, get_alloc st.mem x = false) →
        (r = 0 ↔ ∀ i, i < list_length → ∀ x ∈ ln i, get_size st.mem x < asize)) := by
  refine ⟨fun a b h => find_index_mono h, ?_⟩
  have hfi : find_index asize < list_length := find_index_lt asize
  have hsum : find_index asize + (list_length - find_index asize) = list_length := by omega
  obtain ⟨r, hr, hr0, hr1⟩ := find_fit_loop_any st asize ln hl
    (list_length - find_index asize) (find_index asize) (by omega)
  rw [hsum] at hr0 hr1
  have hiff : r = 0 ↔ ∀ i, i < list_length → ∀ x ∈ ln i,
      get_alloc st.mem x = false → get_size st.mem x < asize := by
    constructor
    · intro h0 i hi x hx hxf
      by_cases hge : find_index asize ≤ i
      · exact hr0 h0 i hge hi x hx hxf
      · by_contra hsz
        have hm : find_index asize ≤ find_index (get_size st.mem x) :=
          find_index_mono (by omega)
        rw [hcls i hi x hx] at hm
        exact hge hm
    · intro hall
      by_contra hne
      obtain ⟨j, _, j2, j3, j4, j5⟩ := hr1 hne
      have := hall j j2 r j3 j5
      omega
  refine ⟨r, hr, hiff, fun hfree => hiff.trans ⟨fun h i hi x hx => h i hi x hx (hfree i hi x hx),
    fun h i hi x hx _ => h i hi x hx⟩⟩

/-- On the fresh heap, whose only listed block is the free block of 4096
bytes at 4104 in list 8, `find_fit(8192)` returns NULL and no listed block has
8192 bytes; `find_fit(16)`, which starts at list 0, returns that block. -/
theorem find_fit_never_misses_available_block_witness :
    (∀ i, i < list_length → list_nodes ex_fresh i = some (if i = 8 then [4104] else [])) ∧
    (∀ i, i < list_length → ∀ x ∈ (if i = 8 then [4104] else [] : List Nat),
      find_index (get_size ex_fresh.mem x) = i) ∧
    find_fit ex_fresh 8192 = some 0 ∧ find_fit ex_fresh 16 = some 4104 ∧
    ((∀ a b : Nat, a ≤ b → find_index a ≤ find_index b) ∧
    ∃ r, find_fit ex_fresh 8192 = some r ∧
      (r = 0 ↔ ∀ i, i < list_length → ∀ x ∈ (if i = 8 then [4104] else [] : List Nat),
        get_alloc ex_fresh.mem x = false → get_size ex_fresh.mem x < 8192) ∧
      ((∀ i, i < list_length → ∀ x ∈ (if i = 8 then [4104] else [] : List Nat),
          get_alloc ex_fresh.mem x = false) →
        (r = 0 ↔ ∀ i, i < list_length → ∀ x ∈ (if i = 8 then [4104] else [] : List Nat),
          get_size ex_fresh.mem x < 8192))) :=
  ⟨by decide, by decide, by decide, by decide,
    find_fit_never_misses_available_block ex_fresh 8192
      (fun i => if i = 8 then [4104] else []) (by decide) (by decide)⟩

/-- C24 (the code departs from the claim): the adjusted size
`round_up(size + 16, 16)` of `malloc` is a multiple of 16 for every request;
it is at least `size + 16` and at least 32 for every request of at most
`2^64 - 32` bytes; for every larger request the 64-bit arithmetic wraps around
and the adjusted size is 0 or 16, below both bounds: `size = 2^64 - 1` gives
16. -/
theorem malloc_asize_wraps_above_limit :
    round_up (add64 18446744073709551615 dsize) dsize = 16 ∧
    (∀ size : Nat, round_up (add64 size dsize) dsize % 16 = 0) ∧
    (∀ size : Nat, 0 < size ∧ size + 31 < W64 →
      size + 16 ≤ round_up (add64 size dsize) dsize ∧
      min_block_size ≤ round_up (add64 size dsize) dsize) ∧
    (∀ size : Nat, W64 ≤ size + 31 ∧ size < W64 →
      round_up (add64 size dsize) dsize < min_block_size ∧
      round_up (add64 size dsize) dsize < size + 16) := by
  refine ⟨by decide, fun size => (round_up_dsize _).1, ?_, ?_⟩
  · rintro size ⟨h0, hlt⟩
    have := asize_spec size (by omega) hlt
    exact ⟨this.2.2.1, this.1⟩
  · rintro size ⟨h1, h2⟩
    unfold min_block_size round_up mul64 add64 sub64 dsize wsize W64 at *
    omega

end MM

namespace MM

set_option maxRecDepth 100000

/-! ## The list operations -/

/-- The footer of a block of the heap, found from its header, holds the word
of the header. -/
theorem Heap_footer {st : State} {bs : List Blk} {fl : Nat → List Nat} (h : Heap st bs fl)
    {b : Blk} (hb : b ∈ bs) :
    header_to_footer st.mem b.addr = b.addr + b.size - 8 ∧
    readWord st.mem (header_to_footer st.mem b.addr) = readWord st.mem b.addr := by
  have hbb := Heap_blk h hb
  have hsz := Heap_get_size h hb
  have ht := h.tags b hb
  have hftr : header_to_footer st.mem b.addr = b.addr + b.size - 8 := by
    unfold header_to_footer dsize wsize
    rw [hsz, @add64_eq b.addr _ (by omega), add64_eq (by omega),
      sub64_eq (by omega) (by omega)]
    omega
  exact ⟨hftr, by rw [hftr, ht.1, ht.2]⟩

/-- Two states that hold the same blocks have the same words in every header
and footer. -/
theorem Heap_same_tags {st st' : State} {bs : List Blk} {fl fl' : Nat → List Nat}
    (h : Heap st bs fl) (h' : Heap st' bs fl') :
    ∀ c ∈ bs, readWord st'.mem c.addr = readWord st.mem c.addr ∧
      readWord st'.mem (c.addr + c.size - 8) = readWord st.mem (c.addr + c.size - 8) := by
  intro c hc
  have t := h.tags c hc
  have t' := h'.tags c hc
  exact ⟨t'.1.trans t.1.symm, t'.2.trans t.2.symm⟩

/-- C25: in a heap whose lists chain blocks of their class, for every block
`b` of the heap that is in no list, `insert_to_free_list(b)` pushes `b` at the
head of list `i = find_index(size(b))`: afterwards `segregated_list[i]` is
`b`, `b.pred` is NULL, `b.succ` is the old head, the pred of the old head, if
there is one, is `b`, list `i` is `b` followed by its former nodes in their
order, the other 14 lists have the heads and nodes they had, every header and
footer holds the word it held, and the structure of the heap is kept. -/
theorem insert_to_free_list_pushes_at_head {st : State} {bs : List Blk}
    {fl : Nat → List Nat} (h : Heap st bs fl) {b : Blk} (hb : b ∈ bs)
    (hun : ∀ j, j < 15 → b.addr ∉ fl j) :
    find_index (get_size st.mem b.addr) = find_index b.size ∧
    (insert_to_free_list st b.addr).segregated_list (find_index b.size) = b.addr ∧
    get_pred (insert_to_free_list st b.addr).mem b.addr = 0 ∧
    get_succ (insert_to_free_list st b.addr).mem b.addr =
      st.segregated_list (find_index b.size) ∧
    (st.segregated_list (find_index b.size) ≠ 0 →
      get_pred (insert_to_free_list st b.addr).mem (st.segregated_list (find_index b.size)) =
        b.addr) ∧
    list_nodes st (find_index b.size) = some (fl (find_index b.size)) ∧
    list_nodes (insert_to_free_list st b.addr) (find_index b.size) =
      some (b.addr :: fl (find_index b.size)) ∧
    (∀ j, j < 15 → j ≠ find_index b.size →
      (insert_to_free_list st b.addr).segregated_list j = st.segregated_list j ∧
      list_nodes (insert_to_free_list st b.addr) j = list_nodes st j) ∧
    (∀ c ∈ bs, readWord (insert_to_free_list st b.addr).mem c.addr = readWord st.mem c.addr ∧
      readWord (insert_to_free_list st b.addr).mem (c.addr + c.size - 8) =
        readWord st.mem (c.addr + c.size - 8)) ∧
    Heap (insert_to_free_list st b.addr) bs (enlist fl b) := by
  have hi := find_index_lt b.size
  have hsz := Heap_get_size h hb
  have h' : Heap (insert_to_free_list st b.addr) bs (enlist fl b) := Heap_insert h hb hun
  have hL := h'.lists _ hi
  have e1 : enlist fl b (find_index b.size) = b.addr :: fl (find_index b.size) := by
    unfold enlist
    rw [if_pos rfl]
  rw [e1] at hL
  obtain ⟨l1, l2, l3, l4⟩ := hL
  have hold := FList_head (h.lists _ hi)
  have hnew := FList_head l4
  refine ⟨by rw [hsz], l1, l3, hnew.trans hold.symm, ?_, list_nodes_of_Heap h hi, ?_, ?_,
    Heap_same_tags h h', h'⟩
  · intro hne
    cases hfl : fl (find_index b.size) with
    | nil =>
      rw [hfl] at hold
      exact absurd hold hne
    | cons hd t =>
      rw [hfl] at hold l4
      have hh : st.segregated_list (find_index b.size) = hd := hold
      rw [hh]
      exact l4.2.2.1
  · have := list_nodes_of_Heap h' hi
    rw [e1] at this
    exact this
  · intro j hj hne
    refine ⟨?_, ?_⟩
    · rw [insert_seg_eq, hsz, if_neg hne]
    · have := list_nodes_of_Heap h' hj
      have e2 : enlist fl b j = fl j := by
        unfold enlist
        rw [if_neg hne]
      rw [e2] at this
      rw [this, list_nodes_of_Heap h hj]

/-- In `ex_pending` the free block of 48 bytes at 4200 is in no list and list
2 holds the block at 4104; `insert_to_free_list` makes list 2 the blocks 4200,
4104. -/
theorem insert_to_free_list_pushes_at_head_witness :
    Heap ex_pending
      [⟨4104, 48, false⟩, ⟨4152, 48, true⟩, ⟨4200, 48, false⟩, ⟨4248, 3952, false⟩]
      (fun j => if j = 2 then [4104] else if j = 8 then [4248] else []) ∧
    ex_pending.segregated_list 2 = 4104 ∧
    (insert_to_free_list ex_pending 4200).segregated_list 2 = 4200 ∧
    get_succ (insert_to_free_list ex_pending 4200).mem 4200 = 4104 ∧
    get_pred (insert_to_free_list ex_pending 4200).mem 4104 = 4200 ∧
    list_nodes (insert_to_free_list ex_pending 4200) 2 = some [4200, 4104] := by
  have h : Heap ex_pending
      [⟨4104, 48, false⟩, ⟨4152, 48, true⟩, ⟨4200, 48, false⟩, ⟨4248, 3952, false⟩]
      (fun j => if j = 2 then [4104] else if j = 8 then [4248] else []) :=
    ⟨by decide, by decide, by decide, by decide, by decide, by decide, by decide, by decide,
      by decide, by decide⟩
  obtain ⟨_, a2, _, a4, a5, _, a7, _⟩ :=
    @insert_to_free_list_pushes_at_head ex_pending _ _ h ⟨4200, 48, false⟩ (by simp)
      (by decide)
  exact ⟨h, by decide, a2, a4, a5 (by decide), a7⟩

/-- C26: in a heap whose 15 lists are doubly linked chains of blocks, each in
the list of the class of its size, for every block `x` of list `i`,
`remove_from_free_list(x)` works on list `i = find_index(size(x))` and leaves
it equal to its former sequence with `x` deleted and the other nodes in the
same order, with reciprocal links and a head whose pred is NULL (a NULL head
when no node is left); the other 14 lists have the heads and nodes they had,
every header and footer holds the word it held, and the structure of the heap
is kept. -/
theorem remove_from_free_list_deletes_node {st : State} {bs : List Blk}
    {fl : Nat → List Nat} (h : Heap st bs fl) {i x : Nat} (hi : i < 15) (hx : x ∈ fl i) :
    find_index (get_size st.mem x) = i ∧
    list_nodes st i = some (fl i) ∧
    list_nodes (remove_from_free_list st x) i = some ((fl i).erase x) ∧
    (fl i).erase x = (fl i).filter (fun y => decide (y ≠ x)) ∧
    (∀ y ∈ (fl i).erase x,
      (get_succ (remove_from_free_list st x).mem y ≠ 0 →
        get_pred (remove_from_free_list st x).mem
          (get_succ (remove_from_free_list st x).mem y) = y) ∧
      (get_pred (remove_from_free_list st x).mem y ≠ 0 →
        get_succ (remove_from_free_list st x).mem
          (get_pred (remove_from_free_list st x).mem y) = y)) ∧
    (remove_from_free_list st x).segregated_list i = ((fl i).erase x).headD 0 ∧
    (∀ hd ∈ ((fl i).erase x).head?, get_pred (remove_from_free_list st x).mem hd = 0) ∧
    (∀ j, j < 15 → j ≠ i →
      (remove_from_free_list st x).segregated_list j = st.segregated_list j ∧
      list_nodes (remove_from_free_list st x) j = list_nodes st j) ∧
    (∀ c ∈ bs, readWord (remove_from_free_list st x).mem c.addr = readWord st.mem c.addr ∧
      readWord (remove_from_free_list st x).mem (c.addr + c.size - 8) =
        readWord st.mem (c.addr + c.size - 8)) ∧
    Heap (remove_from_free_list st x) bs (fun j => if j = i then (fl i).erase x else fl j) := by
  obtain ⟨c, hc, hcx, hci⟩ := h.cls i hi x hx
  have hidx : find_index (get_size st.mem x) = i := by
    rw [← hcx, Heap_get_size h hc]; exact hci
  have h' := Heap_remove h hi hx
  have hL : FList (remove_from_free_list st x).mem 0
      ((remove_from_free_list st x).segregated_list i) ((fl i).erase x) := by
    have := h'.lists i hi
    simpa only [if_true] using this
  have hN : list_nodes (remove_from_free_list st x) i = some ((fl i).erase x) := by
    have := list_nodes_of_Heap h' hi
    simpa only [if_true] using this
  have hT := Heap_same_tags h h'
  have hH := FList_head hL
  have hN0 := list_nodes_of_Heap h hi
  refine ⟨hidx, hN0, hN, ?_, ?_, hH, ?_, ?_, hT, h'⟩
  · rw [List.Nodup.erase_eq_filter (h.nodup i hi)]
    refine List.filter_congr ?_
    intro y _
    by_cases hy : y = x <;> simp [hy]
  · exact FList_links _ _ _ _ hL (fun h0 => absurd rfl h0)
  · intro hd hhd
    cases hfl : (fl i).erase x with
    | nil => rw [hfl] at hhd; simp at hhd
    | cons a t =>
      rw [hfl] at hhd hL
      simp only [List.head?_cons, Option.mem_def, Option.some.injEq] at hhd
      subst hhd
      exact hL.2.2.1
  · intro j hj hne
    refine ⟨?_, ?_⟩
    · rw [remove_seg_eq, hidx, if_neg (fun hh => hne hh.1)]
    · have := list_nodes_of_Heap h' hj
      simp only [if_neg hne] at this
      rw [this, list_nodes_of_Heap h hj]

/-- In `ex_pushed` list 2 holds the blocks 4200, 4104; removing the block at
4104 leaves the block at 4200 alone in list 2, with both links NULL. -/
theorem remove_from_free_list_deletes_node_witness :
    Heap ex_pushed
      [⟨4104, 48, false⟩, ⟨4152, 48, true⟩, ⟨4200, 48, false⟩, ⟨4248, 3952, false⟩]
      (fun j => if j = 2 then [4200, 4104] else if j = 8 then [4248] else []) ∧
    list_nodes (remove_from_free_list ex_pushed 4104) 2 = some [4200] ∧
    (remove_from_free_list ex_pushed 4104).segregated_list 2 = 4200 ∧
    get_pred (remove_from_free_list ex_pushed 4104).mem 4200 = 0 ∧
    get_succ (remove_from_free_list ex_pushed 4104).mem 4200 = 0 := by
  have h : Heap ex_pushed
      [⟨4104, 48, false⟩, ⟨4152, 48, true⟩, ⟨4200, 48, false⟩, ⟨4248, 3952, false⟩]
      (fun j => if j = 2 then [4200, 4104] else if j = 8 then [4248] else []) :=
    ⟨by decide, by decide, by decide, by decide, by decide, by decide, by decide, by decide,
      by decide, by decide⟩
  obtain ⟨_, _, a3, _, _, a6, a7, _⟩ :=
    @remove_from_free_list_deletes_node ex_pushed _ _ h 2 4104 (by decide) (by decide)
  exact ⟨h, a3, a6, a7 4200 (by decide), by decide⟩

end MM

namespace MM

set_option maxRecDepth 100000

/-! ## Splitting -/

/-- C22: in a heap whose free blocks are the listed blocks, for every block
`c` marked allocated, of size `bs`, and every `asize ≤ bs` that is a multiple
of 16 and at least 32: if `bs - asize ≥ 32`, `split_block` leaves an allocated
block of size `asize` at the address of `c`, followed immediately by a free
block of size `bs - asize`, each with a footer equal to its header, the second
being the head of list `find_index(bs - asize)`; the two sizes sum to `bs`,
the remainder ends where `c` ended, and the structure of the heap is kept. If
`bs - asize < 32`, `split_block` leaves the state as it is. -/
theorem split_block_splits_or_keeps {st : State} {pre post : List Blk}
    {fl : Nat → List Nat} {c : Blk} (h : Heap st (pre ++ c :: post) fl)
    (hl : Listed (pre ++ c :: post) fl) (hal : c.alloc = true) {asz : Nat} (h32 : 32 ≤ asz)
    (h16 : asz % 16 = 0) (hle : asz ≤ c.size) :
    get_size st.mem c.addr = c.size ∧ get_alloc st.mem c.addr = true ∧ c.size % 16 = 0 ∧
    (c.size - asz < 32 → split_block st c.addr asz = st) ∧
    (32 ≤ c.size - asz →
      get_size (split_block st c.addr asz).mem c.addr = asz ∧
      get_alloc (split_block st c.addr asz).mem c.addr = true ∧
      readWord (split_block st c.addr asz).mem
        (header_to_footer (split_block st c.addr asz).mem c.addr) =
          readWord (split_block st c.addr asz).mem c.addr ∧
      find_next (split_block st c.addr asz).mem c.addr = c.addr + asz ∧
      get_size (split_block st c.addr asz).mem (c.addr + asz) = c.size - asz ∧
      get_alloc (split_block st c.addr asz).mem (c.addr + asz) = false ∧
      readWord (split_block st c.addr asz).mem
        (header_to_footer (split_block st c.addr asz).mem (c.addr + asz)) =
          readWord (split_block st c.addr asz).mem (c.addr + asz) ∧
      (split_block st c.addr asz).segregated_list (find_index (c.size - asz)) = c.addr + asz ∧
      asz + (c.size - asz) = c.size ∧
      find_next (split_block st c.addr asz).mem (c.addr + asz) = find_next st.mem c.addr ∧
      Heap (split_block st c.addr asz)
        (pre ++ ⟨c.addr, asz, true⟩ :: ⟨c.addr + asz, c.size - asz, false⟩ :: post)
        (enlist fl ⟨c.addr + asz, c.size - asz, false⟩)) := by
  have hc : c ∈ pre ++ c :: post := by simp
  have hcc := Heap_blk h hc
  have hsz := Heap_get_size h hc
  have hsplit : split_block st c.addr asz =
      if 32 ≤ c.size - asz then
        insert_to_free_list (st.setMem (write_block (write_block st.mem c.addr asz true)
          (find_next (write_block st.mem c.addr asz true) c.addr) (c.size - asz) false))
          (find_next (write_block st.mem c.addr asz true) c.addr)
      else st := by
    rw [split_block_eq, hsz, sub64_eq hle (by omega)]
  refine ⟨hsz, (Heap_get_alloc h hc).trans hal, hcc.2.2.2.1, ?_, ?_⟩
  · intro hrem
    rw [hsplit, if_neg (by omega)]
  · intro hrem
    have hrem' : asz + 32 ≤ c.size := by omega
    have hfn : find_next (write_block st.mem c.addr asz true) c.addr = c.addr + asz := by
      unfold find_next get_size
      rw [readWord_write_block_header _ _ _ _ h16 (by omega) (by omega),
        extract_size_pack _ h16 (by omega), add64_eq (by omega)]
    rw [hsplit, if_pos hrem, hfn]
    have h1 := Heap_split h (Listed_unlisted_alloc h hl hc hal) h32 h16 hrem'
    have hl1 := Listed_split h hl hal h32 hrem'
    have hm1 : (⟨c.addr, asz, true⟩ : Blk) ∈
        pre ++ ⟨c.addr, asz, true⟩ :: ⟨c.addr + asz, c.size - asz, false⟩ :: post := by simp
    have hm2 : (⟨c.addr + asz, c.size - asz, false⟩ : Blk) ∈
        pre ++ ⟨c.addr, asz, true⟩ :: ⟨c.addr + asz, c.size - asz, false⟩ :: post := by simp
    have h2 : Heap (insert_to_free_list (st.setMem (write_block
        (write_block st.mem c.addr asz true) (c.addr + asz) (c.size - asz) false))
        (c.addr + asz))
        (pre ++ ⟨c.addr, asz, true⟩ :: ⟨c.addr + asz, c.size - asz, false⟩ :: post)
        (enlist fl ⟨c.addr + asz, c.size - asz, false⟩) :=
      (@Heap_insert_blk _ _ _ h1 ⟨c.addr + asz, c.size - asz, false⟩ hl1 hm2 rfl).1
    have hhead := FList_head (h2.lists _ (find_index_lt (c.size - asz)))
    have e1 : enlist fl ⟨c.addr + asz, c.size - asz, false⟩ (find_index (c.size - asz)) =
        (c.addr + asz) :: fl (find_index (c.size - asz)) := by
      unfold enlist
      exact if_pos rfl
    rw [e1] at hhead
    have g1 := Heap_get_size h2 hm1
    have g2 := Heap_get_alloc h2 hm1
    have g3 := (Heap_footer h2 hm1).2
    have g4 := Heap_find_next h2 hm1
    have g5 := Heap_get_size h2 hm2
    have g6 := Heap_get_alloc h2 hm2
    have g7 := (Heap_footer h2 hm2).2
    have g8 := Heap_find_next h2 hm2
    have g9 := Heap_find_next h hc
    refine ⟨g1, g2, g3, g4, g5, g6, g7, hhead, by omega, ?_, h2⟩
    rw [g9]
    have g8' : find_next (insert_to_free_list (st.setMem (write_block
        (write_block st.mem c.addr asz true) (c.addr + asz) (c.size - asz) false))
        (c.addr + asz)).mem (c.addr + asz) = c.addr + asz + (c.size - asz) := g8
    rw [g8']
    omega

/-- In the state `malloc(40)` reaches on the fresh heap before it splits, the
allocated block of 4096 bytes at 4104 is split by `split_block(4104, 48)` into
an allocated block of 48 bytes and a free block of 4048 bytes at 4152, the
head of list 8. -/
theorem split_block_splits_or_keeps_witness :
    Heap ex_taken ([] ++ (⟨4104, 4096, true⟩ : Blk) :: []) (fun _ => []) ∧
    Listed ([] ++ (⟨4104, 4096, true⟩ : Blk) :: []) (fun _ => []) ∧
    get_size (split_block ex_taken 4104 48).mem 4104 = 48 ∧
    get_alloc (split_block ex_taken 4104 48).mem 4104 = true ∧
    get_size (split_block ex_taken 4104 48).mem 4152 = 4048 ∧
    get_alloc (split_block ex_taken 4104 48).mem 4152 = false ∧
    (split_block ex_taken 4104 48).segregated_list (find_index 4048) = 4152 := by
  have h : Heap ex_taken ([] ++ (⟨4104, 4096, true⟩ : Blk) :: []) (fun _ => []) :=
    ⟨by decide, by decide, by decide, by decide, by decide, by decide, by decide, by decide,
      by decide, by decide⟩
  have hl : Listed ([] ++ (⟨4104, 4096, true⟩ : Blk) :: []) (fun _ => []) :=
    ⟨by decide, by decide⟩
  obtain ⟨_, _, _, _, a⟩ := @split_block_splits_or_keeps ex_taken [] [] (fun _ => [])
    ⟨4104, 4096, true⟩ h hl rfl 48 (by decide) (by decide) (by decide)
  obtain ⟨a1, a2, _, _, a5, a6, _, a8, _⟩ := a (by decide)
  exact ⟨h, hl, a1, a2, a5, a6, a8⟩

end MM

namespace MM

set_option maxRecDepth 100000

/-! ## Growing the heap -/

/-- Growing a well-formed heap when the arena grants the growth: the heap ends
in a new listed free block, and the word that held the old epilogue holds the
header of the block of `sz` bytes written there. -/
theorem extend_heap_grown {st : State} {bs : List Blk} {fl : Nat → List Nat}
    (hw : WFL st bs fl) {sz : Nat} (h32 : 32 ≤ sz) (h16 : sz % 16 = 0) (hlt : sz + 16 ≤ W64)
    (hs : (mem_sbrk st sz).2 ≠ none) :
    ∃ pre' nb fl', (extend_heap st sz).2 = nb.addr ∧
      WFL (extend_heap st sz).1 (pre' ++ [nb]) (enlist fl' nb) ∧ nb.alloc = false ∧
      CoalesceShape bs ⟨st.mem_brk - 8, sz, false⟩ [] fl pre' nb [] fl' ∧
      (extend_heap st sz).1.mem_lo = st.mem_lo ∧
      (extend_heap st sz).1.mem_brk = st.mem_brk + sz ∧
      readWord (extend_heap st sz).1.mem (st.mem_brk - 8) = pack sz false := by
  obtain ⟨h, hl, hna⟩ := hw
  have hru := round_up_aligned sz h16 hlt
  have hbg := h.brk_ge
  have hbl := h.brk_lt
  rcases mem_sbrk_cases st sz with ⟨s1, s2, s3, s4, s5, s6⟩ | ⟨s1, s2, s3, s4, s5, s6, s7⟩
  · exact absurd s1 hs
  · rw [extend_heap_ok st sz st.mem_brk (by rw [hru]; exact s1), hru]
    have hph : payload_to_header st.mem_brk = st.mem_brk - 8 := by
      unfold payload_to_header wsize
      exact sub64_eq (by omega) hbl
    have hfn : find_next (write_block (mem_sbrk st sz).1.mem (st.mem_brk - 8) sz false)
        (st.mem_brk - 8) = st.mem_brk - 8 + sz := by
      unfold find_next get_size
      rw [readWord_write_block_header _ _ _ _ h16 (by omega) (by omega),
        extract_size_pack _ h16 (by omega), add64_eq (by omega)]
    rw [hph, hfn, s2]
    have h1 : Heap ((mem_sbrk st sz).1.setMem (write_epilogue
        (write_block st.mem (st.mem_brk - 8) sz false) (st.mem_brk - 8 + sz)))
        (bs ++ [⟨st.mem_brk - 8, sz, false⟩]) fl :=
      Heap_extend h h32 h16 s7 (setMem_mem _ _) ((setMem_lo _ _).trans s3)
        ((setMem_brk _ _).trans s4) ((setMem_hs _ _).trans s5) ((setMem_seg _ _).trans s6)
    have hl1 := Listed_extend h hl ⟨st.mem_brk - 8, sz, false⟩ rfl rfl
    obtain ⟨st', pre', nb, post', fl', c1, c2, c3, c4, c5, c6, c7, c8, c9, c10, c11⟩ :=
      @coalesce_spec_full _ _ _ _ ⟨st.mem_brk - 8, sz, false⟩ h1 rfl hl1 hna NoAdj_nil
    have c1' : coalesce_block ((mem_sbrk st sz).1.setMem (write_epilogue
        (write_block st.mem (st.mem_brk - 8) sz false) (st.mem_brk - 8 + sz)))
        (st.mem_brk - 8) = (st', nb.addr) := c1
    have hpost : post' = [] := by
      rcases c10 with ⟨_, hp, _⟩ | ⟨n, hp, _⟩ | ⟨p, _, hp, _⟩ | ⟨p, n, _, hp, _⟩
      · exact hp
      · exact absurd hp (by simp)
      · exact hp
      · exact absurd hp (by simp)
    subst hpost
    have hnb : nb ∈ pre' ++ [nb] := List.mem_append_right _ (List.mem_cons_self _ _)
    obtain ⟨i1, i2⟩ := Heap_insert_blk c2 c3 hnb c5
    obtain ⟨f1, f2, f3, f4, f5⟩ := insert_frame st' nb.addr
    have o3 := c11
    rw [setMem_mem] at o3
    have o4 := insert_only c2 hnb
    have hnbsz : nb = ⟨st.mem_brk - 8, sz, false⟩ ∨
        (nb.addr + 32 ≤ st.mem_brk - 8 ∧ nb.addr + nb.size = st.mem_brk - 8 + sz) := by
      have hg := (Heap_geo_split (show Heap _ (bs ++ (⟨st.mem_brk - 8, sz, false⟩ : Blk) :: [])
        fl from h1)).1
      rcases c10 with ⟨_, _, hp, _⟩ | ⟨n, hp, _⟩ | ⟨p, hp, _, _, hq, _⟩ | ⟨p, n, _, hp, _⟩
      · exact Or.inl hp
      · exact absurd hp (by simp)
      · right
        have hpm : p ∈ bs := by rw [hp]; simp
        have hp32 := (Heap_blk h hpm).2.2.1
        rw [hp] at hg
        have e1 := Geo_last hg
        rw [hq]
        show p.addr + 32 ≤ st.mem_brk - 8 ∧ p.addr + (p.size + sz) = st.mem_brk - 8 + sz
        have e1' : p.addr + p.size = st.mem_brk - 8 := e1
        omega
      · exact absurd hp (by simp)
    rw [c1']
    dsimp only
    refine ⟨pre', nb, fl', rfl, ⟨i1, i2, c4⟩, c5, c10,
      f1.trans (c8.trans ((setMem_lo _ _).trans s3)),
      f2.trans (c9.trans ((setMem_brk _ _).trans s4)), ?_⟩
    have hmid : readWord (write_epilogue (write_block st.mem (st.mem_brk - 8) sz false)
        (st.mem_brk - 8 + sz)) (st.mem_brk - 8) = pack sz false := by
      unfold write_epilogue
      rw [readWord_writeWord_disj _ _ _ _ (Or.inl (by omega)),
        readWord_write_block_header _ _ _ _ h16 (by omega) (by omega)]
    have hlists : ∀ y, in_lists fl y → st.mem_brk - 8 ≤ y → False := by
      rintro y ⟨i, hi, z, hz, hy⟩ hge
      obtain ⟨d, hd, hdz, _⟩ := h.cls i hi z hz
      have hdd := Heap_blk h hd
      unfold in_links at hy
      omega
    rw [← hmid]
    refine readWord_congr ?_
    intro k hk
    by_contra hne
    rcases Only_trans o3 o4 _ hne with (hy | ⟨hy1, hy2⟩) | hy | hy
    · exact hlists _ hy (by omega)
    · rcases hnbsz with e | e
      · exact hy1 e
      · unfold in_tags at hy2
        omega
    · unfold in_links at hy
      rcases hnbsz with e | e
      · have e2 : nb.addr = st.mem_brk - 8 := by rw [e]
        omega
      · omega
    · exact hlists _ (CoalesceShape_lists c10 hy) (by omega)

/-- The true round-up of a size that does not overflow. -/
theorem round_up_value (size : Nat) (hov : size + 15 < W64) :
    round_up size dsize = 16 * ((size + 15) / 16) ∧ round_up size dsize % 16 = 0 ∧
      size ≤ round_up size dsize ∧ round_up size dsize + 16 ≤ W64 ∧
      round_up (round_up size dsize) dsize = round_up size dsize := by
  have hW : W64 = 18446744073709551616 := rfl
  have h1 : round_up size dsize = 16 * ((size + 15) / 16) := by
    unfold round_up mul64 add64 sub64 dsize wsize W64 at *
    omega
  have h2 : round_up size dsize % 16 = 0 := by omega
  have h3 : round_up size dsize + 16 ≤ W64 := by omega
  exact ⟨h1, h2, by omega, h3, round_up_aligned _ h2 h3⟩

theorem extend_heap_round (st : State) (size : Nat)
    (h : round_up (round_up size dsize) dsize = round_up size dsize) :
    extend_heap st (round_up size dsize) = extend_heap st size := by
  unfold extend_heap
  rw [h]

/-- C23, amended: for every well-formed heap and every size above 16, with
`size + 15` not overflowing, for which the arena grants the growth,
`extend_heap(size)` grows the arena by exactly `r = round_up(size, 16)` bytes,
puts the header `pack(r, false)` of the new block on the word that held the
old epilogue, leaves `pack(0, true)` at the new `hi - 7`, and returns a free
block that ends immediately before that epilogue and is the head of list
`find_index(its size)`; the block starts at the old epilogue and has size `r`
if the previously last block was allocated or absent, and starts at that block
and has size `r` plus the size of that block if it was free. The heap is
well formed again. -/
theorem extend_heap_grows_by_round_up {st : State} {bs : List Blk} {fl : Nat → List Nat}
    (hw : WFL st bs fl) {size : Nat} (h16 : 16 < size) (hov : size + 15 < W64)
    (hs : (mem_sbrk st (round_up size dsize)).2 ≠ none) :
    round_up size dsize = 16 * ((size + 15) / 16) ∧
    (extend_heap st size).1.mem_lo = st.mem_lo ∧
    (extend_heap st size).1.mem_brk = st.mem_brk + round_up size dsize ∧
    readWord st.mem (st.mem_brk - 8) = pack 0 true ∧
    readWord (extend_heap st size).1.mem (st.mem_brk - 8) = pack (round_up size dsize) false ∧
    sub64 (mem_heap_hi (extend_heap st size).1) 7 = st.mem_brk + round_up size dsize - 8 ∧
    readWord (extend_heap st size).1.mem (sub64 (mem_heap_hi (extend_heap st size).1) 7) =
      pack 0 true ∧
    (extend_heap st size).2 ≠ 0 ∧
    get_alloc (extend_heap st size).1.mem (extend_heap st size).2 = false ∧
    find_next (extend_heap st size).1.mem (extend_heap st size).2 =
      sub64 (mem_heap_hi (extend_heap st size).1) 7 ∧
    (extend_heap st size).1.segregated_list
      (find_index (get_size (extend_heap st size).1.mem (extend_heap st size).2)) =
        (extend_heap st size).2 ∧
    ((∀ q ∈ bs.getLast?, q.alloc = true) →
      (extend_heap st size).2 = st.mem_brk - 8 ∧
      get_size (extend_heap st size).1.mem (extend_heap st size).2 = round_up size dsize) ∧
    (∀ p ∈ bs.getLast?, p.alloc = false →
      (extend_heap st size).2 = p.addr ∧
      get_size (extend_heap st size).1.mem (extend_heap st size).2 =
        round_up size dsize + p.size) ∧
    WF (extend_heap st size).1 := by
  obtain ⟨r1, r2, r3, r4, r5⟩ := round_up_value size hov
  have r32 : 32 ≤ round_up size dsize := by omega
  have hs' : (mem_sbrk st (round_up size dsize)).2 ≠ none := hs
  obtain ⟨pre', nb, fl', e1, e2, e3, e4, e5, e6, e7⟩ := extend_heap_grown hw r32 r2 r4 hs'
  rw [extend_heap_round st size r5] at e1 e2 e5 e6 e7
  have hnb : nb ∈ pre' ++ [nb] := List.mem_append_right _ (List.mem_cons_self _ _)
  have hbb := Heap_blk e2.1 hnb
  have hbl := e2.1.brk_lt
  have hbg := hw.1.brk_ge
  have hend : nb.addr + nb.size = (extend_heap st size).1.mem_brk - 8 := Geo_last e2.1.geo
  have hhi : sub64 (mem_heap_hi (extend_heap st size).1) 7 =
      st.mem_brk + round_up size dsize - 8 := by
    unfold mem_heap_hi
    rw [sub64_eq (by omega) hbl, sub64_eq (by omega) (by omega), e6]
    omega
  have hepi := e2.1.epi
  rw [e6] at hepi hend
  have hhead := FList_head (e2.1.lists _ (find_index_lt nb.size))
  have en : enlist fl' nb (find_index nb.size) = nb.addr :: fl' (find_index nb.size) := by
    unfold enlist
    exact if_pos rfl
  rw [en] at hhead
  have gs := Heap_get_size e2.1 hnb
  have ga := Heap_get_alloc e2.1 hnb
  have gn := Heap_find_next e2.1 hnb
  rw [e1]
  refine ⟨r1, e5, e6, hw.1.epi, e7, hhi, by rw [hhi]; exact hepi, by omega,
    ga.trans e3, by rw [gn, hhi, hend], by rw [gs]; exact hhead, ?_, ?_, ⟨_, _, e2⟩⟩
  · intro hall
    rcases e4 with ⟨_, _, hp, _⟩ | ⟨n, hp, _⟩ | ⟨p, hp, _, hpf, _⟩ | ⟨p, n, _, hp, _⟩
    · rw [gs, hp]
      exact ⟨rfl, rfl⟩
    · exact absurd hp (by simp)
    · have := hall p (by rw [hp]; simp)
      rw [hpf] at this
      exact absurd this (by simp)
    · exact absurd hp (by simp)
  · intro p hp hpf
    rcases e4 with ⟨_, _, _, _, hq, _⟩ | ⟨n, hq, _⟩ | ⟨p', hq, _, _, hnbe, _⟩ | ⟨p', n, _, hq, _⟩
    · have := hq p hp
      rw [hpf] at this
      exact absurd this (by simp)
    · exact absurd hq (by simp)
    · rw [hq, Option.mem_def, getLast?_snoc, Option.some.injEq] at hp
      subst hp
      rw [gs, hnbe]
      exact ⟨rfl, Nat.add_comm _ _⟩
    · exact absurd hq (by simp)

/-- On the fresh heap `ex_roomy`, whose last block is the free block of 4096
bytes at 4104, `extend_heap(100)` grows the arena by 112 bytes and returns the
block at 4104, now of 4208 bytes. -/
theorem extend_heap_grows_by_round_up_witness :
    WFL ex_roomy [⟨4104, 4096, false⟩] (fun j => if j = 8 then [4104] else []) ∧
    round_up 100 dsize = 112 ∧
    (extend_heap ex_roomy 100).1.mem_brk = ex_roomy.mem_brk + round_up 100 dsize ∧
    (extend_heap ex_roomy 100).2 = 4104 ∧
    get_size (extend_heap ex_roomy 100).1.mem (extend_heap ex_roomy 100).2 = 112 + 4096 := by
  have hw : WFL ex_roomy [⟨4104, 4096, false⟩] (fun j => if j = 8 then [4104] else []) :=
    ⟨⟨by decide, by decide, by decide, by decide, by decide, by decide, by decide, by decide,
      by decide, by decide⟩, ⟨by decide, by decide⟩, List.chain'_singleton _⟩
  obtain ⟨_, _, a3, _, _, _, _, _, _, _, _, _, a13, _⟩ :=
    @extend_heap_grows_by_round_up ex_roomy _ _ hw 100 (by decide) (by decide) (by decide)
  obtain ⟨b1, b2⟩ := a13 ⟨4104, 4096, false⟩ (by simp) rfl
  exact ⟨hw, by decide, a3, b1, b2⟩

/-- C23, counterexample: the claim fails for the sizes 1 to 16. On the
well-formed heap `ex_full`, whose arena ends at 8208 and whose last block is
allocated, the arena grants `extend_heap(16)` its 16 bytes, and the call
returns the block at 8200 with a header of size 16; `insert_to_free_list` then
stores the two link fields of that block on its footer and on the new
epilogue, so the word at the new `hi - 7 = 8216` is 0 and not
`pack(0, true) = 1`, and `mm_checkheap` fails. -/
theorem extend_heap_small_size_overwrites_epilogue :
    WF ex_full ∧ ex_full.mem_brk = 8208 ∧
    (mem_sbrk ex_full (round_up 16 dsize)).2 = some 8208 ∧
    round_up 16 dsize = 16 ∧
    (extend_heap ex_full 16).2 = 8200 ∧
    get_size (extend_heap ex_full 16).1.mem 8200 = 16 ∧
    (extend_heap ex_full 16).1.mem_brk = 8224 ∧
    sub64 (mem_heap_hi (extend_heap ex_full 16).1) 7 = 8216 ∧
    readWord (extend_heap ex_full 16).1.mem 8216 = 0 ∧ pack 0 true = 1 ∧
    mm_checkheap (extend_heap ex_full 16).1 = some false :=
  ⟨⟨[⟨4104, 4096, true⟩], fun _ => [],
    ⟨by decide, by decide, by decide, by decide, by decide, by decide, by decide, by decide,
      by decide, by decide⟩, ⟨by decide, by decide⟩, List.chain'_singleton _⟩,
    by decide, by decide, by decide, by decide, by decide, by decide, by decide, by decide,
    by decide, by decide⟩

end MM

namespace MM

set_option maxRecDepth 100000

/-! ## The heap checker, check by check -/

theorem check_prologue_epilogue_iff (st : State) (w : Nat) :
    check_prologue_epilogue st w = true ↔ audit_sentinel st w := by
  unfold check_prologue_epilogue audit_sentinel
  constructor
  · intro h
    split_ifs at h with a1 a2 a3
    exact ⟨by simpa using a2, by simpa using a1, by omega, by omega⟩
  · rintro ⟨b1, b2, b3, b4⟩
    rw [if_neg (by simp [b2]), if_neg (by simp [b1]), if_neg (by omega)]

theorem check_free_block_iff (st : State) (x i : Nat) :
    check_free_block st x i = true ↔ audit_node st i x := by
  unfold check_free_block audit_node
  dsimp only
  constructor
  · intro h
    split_ifs at h with a1 a2 a3 a4 a5
    exact ⟨by simpa using a1, by omega, by omega,
      fun h6 => by_contra fun h7 => a3 ⟨h6, h7⟩,
      fun h6 => by_contra fun h7 => a4 ⟨h6, h7⟩, by_contra a5⟩
  · rintro ⟨b1, b2, b3, b4, b5, b6⟩
    rw [if_neg (by simp [b1]), if_neg (by omega), if_neg (fun hh => hh.2 (b4 hh.1)),
      if_neg (fun hh => hh.2 (b5 hh.1)), if_neg (by simp [b6])]

/-- What `check_block` tests: the size is a multiple of 16, the footer is the
header, and a free block has no free block, found through the boundary tags,
before or after it. -/
theorem check_block_iff (m : Mem) (b : Nat) :
    check_block m b = true ↔
      get_size m b % 16 = 0 ∧ readWord m (header_to_footer m b) = readWord m b ∧
      (get_alloc m b = false →
        (find_prev m b ≠ 0 → get_alloc m (find_prev m b) = true) ∧
        (find_next m b ≠ 0 → get_alloc m (find_next m b) = true)) := by
  unfold check_block
  dsimp only
  constructor
  · intro h
    split_ifs at h with a1 a2 a3 a4 a5 a6
    refine ⟨by simpa using a1, (not_not.1 a2).symm, ?_⟩
    intro hf
    refine ⟨fun hp => ?_, fun hn => ?_⟩
    · by_contra hc
      exact a5 ⟨by simp [hf], hp, hc⟩
    · by_contra hc
      exact a6 ⟨by simp [hf], hn, hc⟩
  · rintro ⟨b1, b2, b3⟩
    have e1 : extract_size (readWord m b) = get_size m b := rfl
    have e2 : extract_alloc (readWord m b) = get_alloc m b := rfl
    rw [if_neg (by simpa using b1), if_neg (by simp [b2]),
      if_neg (by rw [b2, e1]; simp), if_neg (by rw [b2, e2]; simp),
      if_neg (fun hh => hh.2.2 ((b3 (by simpa using hh.1)).1 hh.2.1)),
      if_neg (fun hh => hh.2.2 ((b3 (by simpa using hh.1)).2 hh.2.1))]

/-- The walk of the checker along a NULL-terminated list passes exactly when
every node passes `check_free_block`. -/
theorem check_list_iff (st : State) (i : Nat) : ∀ (fuel c : Nat) (l : List Nat),
    walk_list st.mem fuel c = some l →
    ∃ r, check_list st i fuel c = some r ∧
      (r = true ↔ ∀ x ∈ l, check_free_block st x i = true)
  | 0, c, l, h => by simp [walk_list] at h
  | fuel + 1, c, l, h => by
    unfold walk_list at h
    unfold check_list
    by_cases hc : c = 0
    · rw [if_pos hc] at h
      rw [if_pos hc]
      simp only [Option.some.injEq] at h
      subst h
      exact ⟨true, rfl, ⟨fun _ x hx => by simp at hx, fun _ => rfl⟩⟩
    · rw [if_neg hc] at h
      rw [if_neg hc]
      cases hw : walk_list st.mem fuel (get_succ st.mem c) with
      | none => rw [hw] at h; simp at h
      | some l' =>
        rw [hw] at h
        simp only [Option.map_some', Option.some.injEq] at h
        subst h
        by_cases hk : check_free_block st c i = true
        · rw [if_neg (by simp [hk])]
          obtain ⟨r, hr, hiff⟩ := check_list_iff st i fuel (get_succ st.mem c) l' hw
          refine ⟨r, hr, hiff.trans ⟨fun hall x hx => ?_, fun hall x hx =>
            hall x (List.mem_cons_of_mem _ hx)⟩⟩
          rcases List.mem_cons.1 hx with rfl | hx
          · exact hk
          · exact hall x hx
        · rw [if_pos hk]
          refine ⟨false, rfl, ⟨fun hh => absurd hh (by simp), fun hall => ?_⟩⟩
          exact absurd (hall c (List.mem_cons_self _ _)) hk

/-- The loop of the checker over the lists `i, .., i + n - 1`. -/
theorem check_lists_iff (st : State) (ln : Nat → List Nat)
    (hl : ∀ i, i < list_length → list_nodes st i = some (ln i)) :
    ∀ (n i : Nat), i + n ≤ list_length →
    ∃ r, check_lists st (walkFuel st) n i = some r ∧
      (r = true ↔ ∀ j, i ≤ j → j < i + n → ∀ x ∈ ln j, check_free_block st x j = true)
  | 0, i, _ => ⟨true, rfl, ⟨fun _ j h1 h2 => by omega, fun _ => rfl⟩⟩
  | n + 1, i, hin => by
    have hi : i < list_length := by omega
    obtain ⟨r, hr, hiff⟩ := check_list_iff st i (walkFuel st) (st.segregated_list i) (ln i)
      (hl i hi)
    obtain ⟨r', hr', hiff'⟩ := check_lists_iff st ln hl n (i + 1) (by omega)
    unfold check_lists
    rw [hr]
    cases r with
    | false =>
      refine ⟨false, rfl, ⟨fun hh => absurd hh (by simp), fun hall => ?_⟩⟩
      have := hiff.2 (hall i (le_refl _) (by omega))
      exact absurd this (by simp)
    | true =>
      refine ⟨r', hr', hiff'.trans ⟨fun hall j h1 h2 => ?_, fun hall j h1 h2 =>
        hall j (by omega) (by omega)⟩⟩
      by_cases hji : j = i
      · subst hji; exact hiff.1 rfl
      · exact hall j (by omega) (by omega)

/-- The block walk of the checker passes exactly when every block of the
chain passes `check_block`. -/
theorem check_blocks_iff (m : Mem) : ∀ (fuel a : Nat) (l : List Nat),
    walk_blocks m fuel a = some l →
    ∃ r, check_blocks m fuel a = some r ∧ (r = true ↔ ∀ b ∈ l, check_block m b = true)
  | 0, a, l, h => by simp [walk_blocks] at h
  | fuel + 1, a, l, h => by
    unfold walk_blocks at h
    unfold check_blocks
    by_cases hc : a ≠ 0 ∧ get_size m a ≠ 0
    · rw [if_pos hc] at h
      rw [if_pos hc]
      cases hw : walk_blocks m fuel (find_next m a) with
      | none => rw [hw] at h; simp at h
      | some l' =>
        rw [hw] at h
        simp only [Option.map_some', Option.some.injEq] at h
        subst h
        by_cases hk : check_block m a = true
        · rw [if_neg (by simp [hk])]
          obtain ⟨r, hr, hiff⟩ := check_blocks_iff m fuel (find_next m a) l' hw
          refine ⟨r, hr, hiff.trans ⟨fun hall x hx => ?_, fun hall x hx =>
            hall x (List.mem_cons_of_mem _ hx)⟩⟩
          rcases List.mem_cons.1 hx with rfl | hx
          · exact hk
          · exact hall x hx
        · rw [if_pos hk]
          refine ⟨false, rfl, ⟨fun hh => absurd hh (by simp), fun hall => ?_⟩⟩
          exact absurd (hall a (List.mem_cons_self _ _)) hk
    · rw [if_neg hc] at h
      rw [if_neg hc]
      simp only [Option.some.injEq] at h
      subst h
      exact ⟨true, rfl, ⟨fun _ x hx => by simp at hx, fun _ => rfl⟩⟩

end MM

namespace MM

set_option maxRecDepth 100000

/-! ## The heap checker as an exact audit -/

/-- From the block after a block whose footer is its header, `find_prev`
leads back to that block. -/
theorem find_prev_of_next (m : Mem) (x : Nat) (hx : x < W64)
    (hs : get_size m x ≠ 0) (hf : readWord m (header_to_footer m x) = readWord m x) :
    find_prev m (find_next m x) = x := by
  have e1 : extract_size (readWord m x) = get_size m x := rfl
  have hlt := get_size_lt m x
  have hfp : find_prev_footer (find_next m x) = header_to_footer m x := by
    unfold find_prev_footer find_next header_to_footer
    generalize get_size m x = s at *
    unfold add64 sub64 dsize wsize W64 at *
    omega
  unfold find_prev
  dsimp only
  rw [hfp, hf, e1, if_neg hs]
  unfold footer_to_header
  rw [hf, e1]
  unfold header_to_footer
  generalize get_size m x = s at *
  unfold add64 sub64 dsize wsize W64 at *
  omega

/-- Along the chain, the tests of `check_block`, which reach the previous
block through its footer, are the property (b) stated with the previous block
of the chain. -/
theorem audit_chain_iff (m : Mem) : ∀ (fuel a : Nat) (l : List Nat) (prev : Option Nat),
    walk_blocks m fuel a = some l → a < W64 →
    ((prev = none ∧ find_prev m a = 0) ∨ (∃ p, prev = some p ∧ p ≠ 0 ∧ find_prev m a = p)) →
    ((∀ b ∈ l, check_block m b = true) ↔ audit_chain m prev l)
  | 0, a, l, prev, h, _, _ => by simp [walk_blocks] at h
  | fuel + 1, a, l, prev, h, ha, hp => by
    unfold walk_blocks at h
    by_cases hc : a ≠ 0 ∧ get_size m a ≠ 0
    · rw [if_pos hc] at h
      cases hw : walk_blocks m fuel (find_next m a) with
      | none => rw [hw] at h; simp at h
      | some l' =>
        rw [hw] at h
        simp only [Option.map_some', Option.some.injEq] at h
        subst h
        have hnext_lt : find_next m a < W64 := by
          unfold find_next add64
          exact Nat.mod_lt _ (by decide)
        have key : readWord m (header_to_footer m a) = readWord m a →
            ((∀ b ∈ l', check_block m b = true) ↔ audit_chain m (some a) l') := fun hf =>
          audit_chain_iff m fuel (find_next m a) l' (some a) hw hnext_lt
            (Or.inr ⟨a, rfl, hc.1, find_prev_of_next m a ha hc.2 hf⟩)
        have head : check_block m a = true ↔
            (get_size m a % 16 = 0 ∧ readWord m (header_to_footer m a) = readWord m a ∧
            (get_alloc m a = false →
              (∀ p ∈ prev, get_alloc m p = true) ∧
              (find_next m a ≠ 0 → get_alloc m (find_next m a) = true))) := by
          refine (check_block_iff m a).trans ?_
          rcases hp with ⟨hp1, hp2⟩ | ⟨p, hp1, hp2, hp3⟩
          · subst hp1
            rw [hp2]
            constructor
            · rintro ⟨b1, b2, b3⟩
              exact ⟨b1, b2, fun hf => ⟨fun q hq => by simp at hq, (b3 hf).2⟩⟩
            · rintro ⟨b1, b2, b3⟩
              exact ⟨b1, b2, fun hf => ⟨fun h0 => absurd rfl h0, (b3 hf).2⟩⟩
          · subst hp1
            rw [hp3]
            constructor
            · rintro ⟨b1, b2, b3⟩
              refine ⟨b1, b2, fun hf => ⟨fun q hq => ?_, (b3 hf).2⟩⟩
              simp only [Option.mem_def, Option.some.injEq] at hq
              subst hq
              exact (b3 hf).1 hp2
            · rintro ⟨b1, b2, b3⟩
              exact ⟨b1, b2, fun hf => ⟨fun _ => (b3 hf).1 p rfl, (b3 hf).2⟩⟩
        constructor
        · intro hall
          have hh := head.1 (hall a (List.mem_cons_self _ _))
          exact ⟨hh.1, hh.2.1, hh.2.2,
            (key hh.2.1).1 (fun b hb => hall b (List.mem_cons_of_mem _ hb))⟩
        · rintro ⟨c1, c2, c3, c4⟩ b hb
          rcases List.mem_cons.1 hb with rfl | hb
          · exact head.2 ⟨c1, c2, c3⟩
          · exact (key c2).2 c4 b hb
    · rw [if_neg hc] at h
      simp only [Option.some.injEq] at h
      subst h
      exact ⟨fun _ => trivial, fun _ b hb => by simp at hb⟩

/-- C27: `mm_checkheap` is a function of the state that yields only a verdict,
so it changes no state; on every state whose block chain from `heap_start`
(a 64-bit address) reaches a header of size zero, giving the blocks `bl`, and
whose 15 lists are NULL-terminated, with nodes `ln i`, it returns, and it
returns true if and only if (a) the word before `heap_start` and the word at
`hi - 7` both have size 0, are marked allocated and lie inside `[lo, hi]`;
(b) every block of the chain has a size that is a multiple of 16 and a footer
equal to its header, and, when it is free, neither the block of the chain
before it nor the header right after it is marked free; and (c) every node of
list `i` is free, lies inside `[lo, hi]`, has reciprocal `pred` and `succ`
links and a size of class `i`. -/
theorem mm_checkheap_exact_audit (st : State) (bl : List Nat) (ln : Nat → List Nat)
    (hhs : st.heap_start < W64) (hb : heap_blocks st = some bl)
    (hl : ∀ i, i < list_length → list_nodes st i = some (ln i)) :
    ∃ r, mm_checkheap st = some r ∧ (r = true ↔ audit_spec st bl ln) := by
  unfold heap_blocks at hb
  obtain ⟨rb, hrb, hbiff⟩ := check_blocks_iff st.mem (walkFuel st) st.heap_start bl hb
  obtain ⟨rl, hrl, hliff⟩ := check_lists_iff st ln hl list_length 0 (by omega)
  have hP := check_prologue_epilogue_iff st (sub64 st.heap_start wsize)
  have hE := check_prologue_epilogue_iff st (sub64 (mem_heap_hi st) 7)
  have hlists : (∀ j, 0 ≤ j → j < 0 + list_length → ∀ x ∈ ln j,
      check_free_block st x j = true) ↔
      ∀ i, i < list_length → ∀ x ∈ ln i, audit_node st i x := by
    constructor
    · intro hall i hi x hx
      exact (check_free_block_iff st x i).1 (hall i (Nat.zero_le _) (by omega) x hx)
    · intro hall j _ hj x hx
      exact (check_free_block_iff st x j).2 (hall j (by omega) x hx)
  have hchain : audit_sentinel st (sub64 st.heap_start wsize) →
      ((∀ b ∈ bl, check_block st.mem b = true) ↔ audit_chain st.mem none bl) := by
    intro hs
    refine audit_chain_iff st.mem (walkFuel st) st.heap_start bl none hb hhs (Or.inl ⟨rfl, ?_⟩)
    have h0 : extract_size (readWord st.mem (sub64 st.heap_start wsize)) = 0 := hs.1
    unfold find_prev find_prev_footer
    dsimp only
    rw [if_pos h0]
  unfold mm_checkheap audit_spec
  dsimp only
  by_cases hp : check_prologue_epilogue st (sub64 st.heap_start wsize) = true
  · rw [if_neg (not_not.2 hp)]
    by_cases he : check_prologue_epilogue st (sub64 (mem_heap_hi st) 7) = true
    · rw [if_neg (not_not.2 he), hrb]
      have hs := hP.1 hp
      cases rb with
      | false =>
        refine ⟨false, rfl, ⟨fun hh => absurd hh (by simp), fun hall => ?_⟩⟩
        have := hbiff.2 ((hchain hs).2 hall.2.1)
        exact absurd this (by simp)
      | true =>
        refine ⟨rl, hrl, ⟨fun hh => ⟨⟨hs, hE.1 he⟩, (hchain hs).1 (hbiff.1 rfl),
          hlists.1 (hliff.1 hh)⟩, fun hall => hliff.2 (hlists.2 hall.2.2)⟩⟩
    · rw [if_pos he]
      exact ⟨false, rfl, ⟨fun hh => absurd hh (by simp),
        fun hall => absurd (hE.2 hall.1.2) he⟩⟩
  · rw [if_pos hp]
    exact ⟨false, rfl, ⟨fun hh => absurd hh (by simp),
      fun hall => absurd (hP.2 hall.1.1) hp⟩⟩

/-- On the fresh heap, whose chain is the block at 4104, the checker returns
true and the properties (a), (b), (c) hold; on `ex_marked`, whose chain is
the two free blocks at 4104 and 4152, the checker returns false and the
properties do not all hold. -/
theorem mm_checkheap_exact_audit_witness :
    (ex_fresh.heap_start < W64 ∧ heap_blocks ex_fresh = some [4104] ∧
      (∀ i, i < list_length → list_nodes ex_fresh i = some (if i = 8 then [4104] else [])) ∧
      mm_checkheap ex_fresh = some true ∧
      audit_spec ex_fresh [4104] (fun i => if i = 8 then [4104] else [])) ∧
    (ex_marked.heap_start < W64 ∧ heap_blocks ex_marked = some [4104, 4152] ∧
      (∀ i, i < list_length → list_nodes ex_marked i = some (if i = 8 then [4152] else [])) ∧
      mm_checkheap ex_marked = some false ∧
      ¬ audit_spec ex_marked [4104, 4152] (fun i => if i = 8 then [4152] else [])) := by
  have a1 : ex_fresh.heap_start < W64 := by decide
  have a2 : heap_blocks ex_fresh = some [4104] := by decide
  have a3 : ∀ i, i < list_length →
      list_nodes ex_fresh i = some (if i = 8 then [4104] else []) := by decide
  have a4 : mm_checkheap ex_fresh = some true := by decide
  have b1 : ex_marked.heap_start < W64 := by decide
  have b2 : heap_blocks ex_marked = some [4104, 4152] := by decide
  have b3 : ∀ i, i < list_length →
      list_nodes ex_marked i = some (if i = 8 then [4152] else []) := by decide
  have b4 : mm_checkheap ex_marked = some false := by decide
  obtain ⟨r, hr, hiff⟩ := mm_checkheap_exact_audit ex_fresh [4104]
    (fun i => if i = 8 then [4104] else []) a1 a2 a3
  obtain ⟨r', hr', hiff'⟩ := mm_checkheap_exact_audit ex_marked [4104, 4152]
    (fun i => if i = 8 then [4152] else []) b1 b2 b3
  rw [a4, Option.some.injEq] at hr
  rw [b4, Option.some.injEq] at hr'
  refine ⟨⟨a1, a2, a3, a4, hiff.1 hr.symm⟩, ⟨b1, b2, b3, b4, fun hall => ?_⟩⟩
  have := hiff'.2 hall
  rw [← hr'] at this
  exact absurd this (by simp)

end MM
